import Mathlib

/-!
Lookback-option Monte Carlo pricer: embedding and verified properties.

Shallow embedding of `Option.h`/`Option.cpp`, `Payoff.cpp`, `Aggregator.h`, `Asian.h` and the
export boundary of `Exports.cpp`.

Conventions of the embedding.

* A C++ `double` is a value of `Dbl α`: either an exact element of an ordered field `α`
  (rationals for evaluation, reals for analysis) or one of `+∞`, `-∞`, `NaN`.  Arithmetic on
  finite values is exact (no rounding, no overflow); the non-finite cases follow IEEE-754,
  with a single unsigned zero.
* `std::exp`, `std::sqrt`, `std::log` act on finite values through a record `Libm α`.
* A thrown `std::invalid_argument` is `Except.error (Err.invalid_argument msg)`.
* The seeded generator together with the distribution objects is a record `Gen ρ α` of pure
  state transitions.
* A C++ `int` is an `Int`; the only place where 32-bit overflow can occur (`paths + 1`)
  is wrapped explicitly with `wrap32`.
* The geometric aggregator and the two digital payoffs, which no property below uses, are
  not embedded.
* The same code is embedded a second time over rounded arithmetic, in the namespace `Fp`:
  every operation on doubles goes through an `Fpu α`, which rounds the exact result (possibly
  to `±∞`) and gives the library functions values that may be infinite or `NaN`; `binary64`
  is the IEEE-754 rounding to nearest, ties to even, on rationals.  Properties stated in exact
  arithmetic are about the first embedding; the properties of the doubles themselves, and the
  evaluations in binary64 arithmetic, are about the second.
-/

set_option linter.dupNamespace false
set_option linter.unusedSectionVars false

namespace opt

/-- A C++ `double`: an exact finite value, or an IEEE-754 non-finite value. -/
inductive Dbl (α : Type) where
  | fin (x : α)
  | pinf
  | ninf
  | nan
  deriving DecidableEq, Repr

namespace Dbl

variable {α : Type} [LinearOrderedField α]

/-- Unary minus on doubles. -/
def neg : Dbl α → Dbl α
  | fin x => fin (-x)
  | pinf => ninf
  | ninf => pinf
  | nan => nan

/-- Addition on doubles (`∞ + -∞` is `NaN`). -/
def add : Dbl α → Dbl α → Dbl α
  | fin a, fin b => fin (a + b)
  | fin _, pinf => pinf
  | fin _, ninf => ninf
  | pinf, fin _ => pinf
  | pinf, pinf => pinf
  | pinf, ninf => nan
  | ninf, fin _ => ninf
  | ninf, pinf => nan
  | ninf, ninf => ninf
  | nan, _ => nan
  | _, nan => nan

/-- The product of a finite value with `+∞`. -/
def mulInf (a : α) : Dbl α :=
  if 0 < a then pinf else if a < 0 then ninf else nan

/-- Multiplication on doubles (`0 * ∞` is `NaN`). -/
def mul : Dbl α → Dbl α → Dbl α
  | fin a, fin b => fin (a * b)
  | fin a, pinf => mulInf a
  | fin a, ninf => mulInf (-a)
  | pinf, fin b => mulInf b
  | ninf, fin b => mulInf (-b)
  | pinf, pinf => pinf
  | pinf, ninf => ninf
  | ninf, pinf => ninf
  | ninf, ninf => pinf
  | nan, _ => nan
  | _, nan => nan

/-- Division on doubles (`x / 0` is `±∞` for `x ≠ 0`, `0 / 0` and `∞ / ∞` are `NaN`). -/
def div : Dbl α → Dbl α → Dbl α
  | fin a, fin b => if b = 0 then mulInf a else fin (a / b)
  | fin _, pinf => fin 0
  | fin _, ninf => fin 0
  | pinf, fin b => if 0 ≤ b then pinf else ninf
  | ninf, fin b => if 0 ≤ b then ninf else pinf
  | pinf, pinf => nan
  | pinf, ninf => nan
  | ninf, pinf => nan
  | ninf, ninf => nan
  | nan, _ => nan
  | _, nan => nan

instance : Neg (Dbl α) := ⟨neg⟩
instance : Add (Dbl α) := ⟨add⟩
instance : Sub (Dbl α) := ⟨fun a b => add a (neg b)⟩
instance : Mul (Dbl α) := ⟨mul⟩
instance : Div (Dbl α) := ⟨div⟩

/-- The comparison `a < b` of C++ (false as soon as an operand is `NaN`). -/
def lt : Dbl α → Dbl α → Bool
  | fin a, fin b => decide (a < b)
  | fin _, pinf => true
  | ninf, fin _ => true
  | ninf, pinf => true
  | _, _ => false

/-- The comparison `a <= b` of C++ (false as soon as an operand is `NaN`). -/
def le : Dbl α → Dbl α → Bool
  | fin a, fin b => decide (a ≤ b)
  | fin _, pinf => true
  | ninf, fin _ => true
  | ninf, pinf => true
  | pinf, pinf => true
  | ninf, ninf => true
  | _, _ => false

/-- The comparison `a > b` of C++. -/
def gt (a b : Dbl α) : Bool := lt b a

/-- The comparison `a >= b` of C++. -/
def ge (a b : Dbl α) : Bool := le b a

/-- `std::isfinite`. -/
def isfinite : Dbl α → Bool
  | fin _ => true
  | _ => false

/-- `std::isnan`. -/
def isnan : Dbl α → Bool
  | nan => true
  | _ => false

/-- `std::max<double>(a, b)`, that is `(a < b) ? b : a`. -/
def max (a b : Dbl α) : Dbl α := if lt a b then b else a

/-- `std::min<double>(a, b)`, that is `(b < a) ? b : a`. -/
def min (a b : Dbl α) : Dbl α := if lt b a then b else a

/-- The conversion `static_cast<double>(n)` of an `int`. -/
def ofInt (n : Int) : Dbl α := fin (n : α)

end Dbl

/-- The functions of `<cmath>` on finite values. -/
structure Libm (α : Type) where
  exp : α → α
  sqrt : α → α
  log : α → α

namespace Dbl

variable {α : Type} [LinearOrderedField α]

/-- `std::exp` on doubles. -/
def exp (L : Libm α) : Dbl α → Dbl α
  | fin x => fin (L.exp x)
  | pinf => pinf
  | ninf => fin 0
  | nan => nan

/-- `std::sqrt` on doubles (`NaN` on negative arguments). -/
def sqrt (L : Libm α) : Dbl α → Dbl α
  | fin x => if x < 0 then nan else fin (L.sqrt x)
  | pinf => pinf
  | ninf => nan
  | nan => nan

/-- `std::log` on doubles (`NaN` on negative arguments, `-∞` at zero). -/
def log (L : Libm α) : Dbl α → Dbl α
  | fin x => if x < 0 then nan else if x = 0 then ninf else fin (L.log x)
  | pinf => pinf
  | ninf => nan
  | nan => nan

end Dbl

/-- The exceptions thrown by the library: `std::invalid_argument` with its message. -/
inductive Err where
  | invalid_argument (msg : String)
  deriving DecidableEq, Repr

/-- The result bundle `MCStats` of a Monte Carlo estimation. -/
structure MCStats (α : Type) where
  estimate : Dbl α
  stdError : Dbl α
  ciLow : Dbl α
  ciHigh : Dbl α
  deriving DecidableEq, Repr

/-- The base class `Option`: the five market parameters. -/
structure Option (α : Type) where
  S0_ : Dbl α
  R_ : Dbl α
  sigma_ : Dbl α
  T0_ : Dbl α
  T_ : Dbl α
  deriving DecidableEq, Repr

namespace Option

variable {α : Type} [LinearOrderedField α]

/-- The accessor `Option::S0`. -/
def S0 (o : Option α) : Dbl α := o.S0_

/-- The accessor `Option::R`. -/
def R (o : Option α) : Dbl α := o.R_

/-- The accessor `Option::sigma`. -/
def sigma (o : Option α) : Dbl α := o.sigma_

/-- The accessor `Option::T0`. -/
def T0 (o : Option α) : Dbl α := o.T0_

/-- The accessor `Option::T`. -/
def T (o : Option α) : Dbl α := o.T_

/-- The check `Option::validate`. -/
def validate (o : Option α) : Except Err Unit :=
  if !(Dbl.gt o.S0_ (Dbl.fin 0)) then
    throw (Err.invalid_argument "S0 doit être strictement positif.")
  else if !(Dbl.ge o.sigma_ (Dbl.fin 0)) then
    throw (Err.invalid_argument "sigma doit être >= 0.")
  else if !(Dbl.gt o.T_ o.T0_) then
    throw (Err.invalid_argument "Il faut T > T0 (maturité strictement après T0).")
  else if !(o.S0_.isfinite && o.R_.isfinite && o.sigma_.isfinite && o.T0_.isfinite
      && o.T_.isfinite) then
    throw (Err.invalid_argument "Paramètres non finis (NaN/Inf) interdits.")
  else
    pure ()

/-- The constructor `Option::Option`: stores the parameters, then validates them. -/
def Option (S0 R sigma T0 T : Dbl α) : Except Err (Option α) :=
  let o : opt.Option α := ⟨S0, R, sigma, T0, T⟩
  match validate o with
  | .error e => .error e
  | .ok _ => .ok o

/-- The helper `Option::makeCI95`. -/
def makeCI95 (mean stdError : Dbl α) : MCStats α :=
  let z : Dbl α := Dbl.fin 1.96
  { estimate := mean
    stdError := stdError
    ciLow := mean - z * stdError
    ciHigh := mean + z * stdError }

end Option

variable {α : Type} [LinearOrderedField α]

/-- The payoff `PayoffCall::operator()`. -/
def PayoffCall (S K : Dbl α) : Except Err (Dbl α) :=
  if Dbl.lt K (Dbl.fin 0) then
    throw (Err.invalid_argument "Strike doit être non-négatif")
  else
    pure (Dbl.max (S - K) (Dbl.fin 0))

/-- The payoff `PayoffPut::operator()`. -/
def PayoffPut (S K : Dbl α) : Except Err (Dbl α) :=
  if Dbl.lt K (Dbl.fin 0) then
    throw (Err.invalid_argument "Strike doit être non-négatif")
  else
    pure (Dbl.max (K - S) (Dbl.fin 0))

/-- The aggregator `Arithmetic::operator()`. -/
def Arithmetic (agg price step : Dbl α) : Dbl α :=
  (agg * step + price) / (step + Dbl.fin 1)

/-- The aggregator `LookMax::operator()`. -/
def LookMax (agg price _step : Dbl α) : Dbl α :=
  Dbl.max agg price

/-- The aggregator `LookMin::operator()`. -/
def LookMin (agg price _step : Dbl α) : Dbl α :=
  Dbl.min agg price

/-- The seeded `std::mt19937_64` with the distribution objects drawing from it: the state
after seeding, and one draw of `std::normal_distribution` / `std::uniform_real_distribution`
as a state transition.  Draws are finite values. -/
structure Gen (ρ α : Type) where
  seed : Nat → ρ
  normal : ρ → α × ρ
  uniform : ρ → α × ρ

/-- The class template `Asian<TPayoff, TAggregator>`: an `Option` with its two strategies. -/
structure Asian (α : Type) extends Option α where
  payoff_ : Dbl α → Dbl α → Except Err (Dbl α)
  aggregator_ : Dbl α → Dbl α → Dbl α → Dbl α

/-- The local state `m`, `mean`, `M2` of `runMC`. -/
structure RunningStats (α : Type) where
  m : Int
  mean : Dbl α
  M2 : Dbl α

/-- The value of a 32-bit signed `int` computation, wrapped around. -/
def wrap32 (x : Int) : Int := (x + 2 ^ 31) % 2 ^ 32 - 2 ^ 31

namespace Asian

/-- The constructor `Asian::Asian`: the base constructor validates the parameters. -/
def Asian (S0 R sigma T0 T : Dbl α) (payoff : Dbl α → Dbl α → Except Err (Dbl α))
    (aggregator : Dbl α → Dbl α → Dbl α → Dbl α) : Except Err (opt.Asian α) :=
  match Option.Option S0 R sigma T0 T with
  | .error e => .error e
  | .ok o => .ok { toOption := o, payoff_ := payoff, aggregator_ := aggregator }

/-- One iteration of the path loop of `discountedPayoffFromZ`, on the pair `(St, agg)`. -/
def pathStep (L : Libm α) (self : opt.Asian α) (R sigma dt : Dbl α) (Zs : List (Dbl α))
    (flip : Bool) (p : Dbl α × Dbl α) (j : Nat) : Dbl α × Dbl α :=
  let Z := if flip then -(Zs.getD j Dbl.nan) else Zs.getD j Dbl.nan
  let St := p.1 * Dbl.exp L ((R - Dbl.fin 0.5 * sigma * sigma) * dt + sigma * Dbl.sqrt L dt * Z)
  let agg := self.aggregator_ p.2 St (Dbl.ofInt ((j : Int) + 1))
  (St, agg)

/-- The member `Asian::discountedPayoffFromZ`.  A read of `Zs` past its end (undefined in the
source) yields `NaN`. -/
def discountedPayoffFromZ (L : Libm α) (self : opt.Asian α) (S0 R sigma T0 T : Dbl α) (steps : Int)
    (Zs : List (Dbl α)) (flip : Bool) : Except Err (Dbl α) :=
  let Tau := T - T0
  let dt := Tau / Dbl.ofInt steps
  let disc := Dbl.exp L ((-R) * Tau)
  let p := (List.range steps.toNat).foldl (pathStep L self R sigma dt Zs flip) (S0, S0)
  match self.payoff_ p.1 p.2 with
  | .error e => .error e
  | .ok v => .ok (disc * v)

/-- The closure `pushSample` of `runMC`. -/
def pushSample (st : RunningStats α) (x : Dbl α) : RunningStats α :=
  let m := st.m + 1
  let d := x - st.mean
  let mean := st.mean + d / Dbl.ofInt m
  let d2 := x - mean
  let M2 := st.M2 + d * d2
  { m := m, mean := mean, M2 := M2 }

/-- The inner loop `for (j < steps) Zs[j] = nd(rng)`: `n` successive normal draws. -/
def drawZs {ρ : Type} (G : Gen ρ α) : Nat → ρ → List (Dbl α) × ρ
  | 0, rng => ([], rng)
  | n + 1, rng =>
    let z := G.normal rng
    let rest := drawZs G n z.2
    (Dbl.fin z.1 :: rest.1, rest.2)

/-- The loop of the antithetic branch of `runMC`, run for `n` iterations. -/
def antitheticLoop {ρ : Type} (G : Gen ρ α) (steps : Int)
    (sampleFn : List (Dbl α) → Bool → Except Err (Dbl α)) :
    Nat → ρ → RunningStats α → Except Err (RunningStats α)
  | 0, _, st => .ok st
  | n + 1, rng, st =>
    let Zs := drawZs G steps.toNat rng
    match sampleFn Zs.1 false with
    | .error e => .error e
    | .ok s1 =>
      match sampleFn Zs.1 true with
      | .error e => .error e
      | .ok s2 =>
        let sample := Dbl.fin 0.5 * (s1 + s2)
        antitheticLoop G steps sampleFn n Zs.2 (pushSample st sample)

/-- The loop of the plain branch of `runMC`, run for `n` iterations. -/
def plainLoop {ρ : Type} (G : Gen ρ α) (steps : Int)
    (sampleFn : List (Dbl α) → Bool → Except Err (Dbl α)) :
    Nat → ρ → RunningStats α → Except Err (RunningStats α)
  | 0, _, st => .ok st
  | n + 1, rng, st =>
    let Zs := drawZs G steps.toNat rng
    match sampleFn Zs.1 false with
    | .error e => .error e
    | .ok sample => plainLoop G steps sampleFn n Zs.2 (pushSample st sample)

/-- The member template `Asian::runMC`. -/
def runMC {ρ : Type} (L : Libm α) (G : Gen ρ α) (paths steps : Int) (seed : Nat)
    (antithetic : Bool) (sampleFn : List (Dbl α) → Bool → Except Err (Dbl α)) :
    Except Err (MCStats α) :=
  if paths ≤ 0 then .error (Err.invalid_argument "paths doit être > 0.")
  else if steps ≤ 0 then .error (Err.invalid_argument "steps doit être > 0.")
  else
    let rng := G.seed seed
    let st0 : RunningStats α := { m := 0, mean := Dbl.fin 0, M2 := Dbl.fin 0 }
    let looped :=
      if antithetic then
        let pairs := Int.tdiv (wrap32 (paths + 1)) 2
        antitheticLoop G steps sampleFn pairs.toNat rng st0
      else
        plainLoop G steps sampleFn paths.toNat rng st0
    match looped with
    | .error e => .error e
    | .ok st =>
      let var := if st.m > 1 then st.M2 / Dbl.ofInt (st.m - 1) else Dbl.fin 0
      let se := if st.m > 0 then Dbl.sqrt L (var / Dbl.ofInt st.m) else Dbl.nan
      .ok (Option.makeCI95 st.mean se)

/-- The member `Asian::priceMC`. -/
def priceMC {ρ : Type} (L : Libm α) (G : Gen ρ α) (self : opt.Asian α) (paths steps : Int)
    (seed : Nat) (antithetic : Bool) : Except Err (MCStats α) :=
  runMC L G paths steps seed antithetic (fun Zs flip =>
    discountedPayoffFromZ L self self.S0_ self.R_ self.sigma_ self.T0_ self.T_ steps Zs flip)

/-- The member `Asian::deltaMC`. -/
def deltaMC {ρ : Type} (L : Libm α) (G : Gen ρ α) (self : opt.Asian α) (paths steps : Int)
    (seed : Nat) (antithetic : Bool) (relEps : Dbl α) : Except Err (MCStats α) :=
  let eps := relEps * self.S0_
  runMC L G paths steps seed antithetic (fun Zs flip =>
    match discountedPayoffFromZ L self (self.S0_ + eps) self.R_ self.sigma_ self.T0_ self.T_
        steps Zs flip with
    | .error e => .error e
    | .ok Pu =>
      match discountedPayoffFromZ L self (self.S0_ - eps) self.R_ self.sigma_ self.T0_ self.T_
          steps Zs flip with
      | .error e => .error e
      | .ok Pd => .ok ((Pu - Pd) / (Dbl.fin 2 * eps)))

/-- The member `Asian::gammaMC`. -/
def gammaMC {ρ : Type} (L : Libm α) (G : Gen ρ α) (self : opt.Asian α) (paths steps : Int)
    (seed : Nat) (antithetic : Bool) (relEps : Dbl α) : Except Err (MCStats α) :=
  let eps := relEps * self.S0_
  runMC L G paths steps seed antithetic (fun Zs flip =>
    match discountedPayoffFromZ L self (self.S0_ + eps) self.R_ self.sigma_ self.T0_ self.T_
        steps Zs flip with
    | .error e => .error e
    | .ok Pu =>
      match discountedPayoffFromZ L self self.S0_ self.R_ self.sigma_ self.T0_ self.T_
          steps Zs flip with
      | .error e => .error e
      | .ok Pm =>
        match discountedPayoffFromZ L self (self.S0_ - eps) self.R_ self.sigma_ self.T0_
            self.T_ steps Zs flip with
        | .error e => .error e
        | .ok Pd => .ok ((Pu - Dbl.fin 2 * Pm + Pd) / (eps * eps)))

/-- The member `Asian::thetaMC`. -/
def thetaMC {ρ : Type} (L : Libm α) (G : Gen ρ α) (self : opt.Asian α) (paths steps : Int)
    (seed : Nat) (antithetic : Bool) (eps : Dbl α) : Except Err (MCStats α) :=
  if !(Dbl.lt (self.T0_ + eps) self.T_ && Dbl.lt (self.T0_ - eps) self.T_) then
    .error (Err.invalid_argument "Theta: eps trop grand par rapport à T0/T.")
  else
    runMC L G paths steps seed antithetic (fun Zs flip =>
      match discountedPayoffFromZ L self self.S0_ self.R_ self.sigma_ (self.T0_ + eps) self.T_
          steps Zs flip with
      | .error e => .error e
      | .ok Pu =>
        match discountedPayoffFromZ L self self.S0_ self.R_ self.sigma_ (self.T0_ - eps)
            self.T_ steps Zs flip with
        | .error e => .error e
        | .ok Pd => .ok ((Pu - Pd) / (Dbl.fin 2 * eps)))

/-- The member `Asian::rhoMC`. -/
def rhoMC {ρ : Type} (L : Libm α) (G : Gen ρ α) (self : opt.Asian α) (paths steps : Int)
    (seed : Nat) (antithetic : Bool) (eps : Dbl α) : Except Err (MCStats α) :=
  runMC L G paths steps seed antithetic (fun Zs flip =>
    match discountedPayoffFromZ L self self.S0_ (self.R_ + eps) self.sigma_ self.T0_ self.T_
        steps Zs flip with
    | .error e => .error e
    | .ok Pu =>
      match discountedPayoffFromZ L self self.S0_ (self.R_ - eps) self.sigma_ self.T0_ self.T_
          steps Zs flip with
      | .error e => .error e
      | .ok Pd => .ok ((Pu - Pd) / (Dbl.fin 2 * eps)))

/-- The member `Asian::vegaMC`. -/
def vegaMC {ρ : Type} (L : Libm α) (G : Gen ρ α) (self : opt.Asian α) (paths steps : Int)
    (seed : Nat) (antithetic : Bool) (eps : Dbl α) : Except Err (MCStats α) :=
  runMC L G paths steps seed antithetic (fun Zs flip =>
    match discountedPayoffFromZ L self self.S0_ self.R_ (self.sigma_ + eps) self.T0_ self.T_
        steps Zs flip with
    | .error e => .error e
    | .ok Pu =>
      match discountedPayoffFromZ L self self.S0_ self.R_ (self.sigma_ - eps) self.T0_ self.T_
          steps Zs flip with
      | .error e => .error e
      | .ok Pd => .ok ((Pu - Pd) / (Dbl.fin 2 * eps)))

/-- The closure `samplePrice` of `priceMC`. -/
def samplePrice (L : Libm α) (self : opt.Asian α) (steps : Int) (Zs : List (Dbl α))
    (flip : Bool) : Except Err (Dbl α) :=
  discountedPayoffFromZ L self self.S0_ self.R_ self.sigma_ self.T0_ self.T_ steps Zs flip

/-- The closure `sampleDelta` of `deltaMC`, for the bump `eps = relEps * S0_`. -/
def sampleDelta (L : Libm α) (self : opt.Asian α) (eps : Dbl α) (steps : Int)
    (Zs : List (Dbl α)) (flip : Bool) : Except Err (Dbl α) :=
  match discountedPayoffFromZ L self (self.S0_ + eps) self.R_ self.sigma_ self.T0_ self.T_
      steps Zs flip with
  | .error e => .error e
  | .ok Pu =>
    match discountedPayoffFromZ L self (self.S0_ - eps) self.R_ self.sigma_ self.T0_ self.T_
        steps Zs flip with
    | .error e => .error e
    | .ok Pd => .ok ((Pu - Pd) / (Dbl.fin 2 * eps))

/-- The closure `sampleGamma` of `gammaMC`, for the bump `eps = relEps * S0_`. -/
def sampleGamma (L : Libm α) (self : opt.Asian α) (eps : Dbl α) (steps : Int)
    (Zs : List (Dbl α)) (flip : Bool) : Except Err (Dbl α) :=
  match discountedPayoffFromZ L self (self.S0_ + eps) self.R_ self.sigma_ self.T0_ self.T_
      steps Zs flip with
  | .error e => .error e
  | .ok Pu =>
    match discountedPayoffFromZ L self self.S0_ self.R_ self.sigma_ self.T0_ self.T_
        steps Zs flip with
    | .error e => .error e
    | .ok Pm =>
      match discountedPayoffFromZ L self (self.S0_ - eps) self.R_ self.sigma_ self.T0_
          self.T_ steps Zs flip with
      | .error e => .error e
      | .ok Pd => .ok ((Pu - Dbl.fin 2 * Pm + Pd) / (eps * eps))

/-- The closure `sampleTheta` of `thetaMC`. -/
def sampleTheta (L : Libm α) (self : opt.Asian α) (eps : Dbl α) (steps : Int)
    (Zs : List (Dbl α)) (flip : Bool) : Except Err (Dbl α) :=
  match discountedPayoffFromZ L self self.S0_ self.R_ self.sigma_ (self.T0_ + eps) self.T_
      steps Zs flip with
  | .error e => .error e
  | .ok Pu =>
    match discountedPayoffFromZ L self self.S0_ self.R_ self.sigma_ (self.T0_ - eps)
        self.T_ steps Zs flip with
    | .error e => .error e
    | .ok Pd => .ok ((Pu - Pd) / (Dbl.fin 2 * eps))

/-- The closure `sampleRho` of `rhoMC`. -/
def sampleRho (L : Libm α) (self : opt.Asian α) (eps : Dbl α) (steps : Int)
    (Zs : List (Dbl α)) (flip : Bool) : Except Err (Dbl α) :=
  match discountedPayoffFromZ L self self.S0_ (self.R_ + eps) self.sigma_ self.T0_ self.T_
      steps Zs flip with
  | .error e => .error e
  | .ok Pu =>
    match discountedPayoffFromZ L self self.S0_ (self.R_ - eps) self.sigma_ self.T0_ self.T_
        steps Zs flip with
    | .error e => .error e
    | .ok Pd => .ok ((Pu - Pd) / (Dbl.fin 2 * eps))

/-- The closure `sampleVega` of `vegaMC`. -/
def sampleVega (L : Libm α) (self : opt.Asian α) (eps : Dbl α) (steps : Int)
    (Zs : List (Dbl α)) (flip : Bool) : Except Err (Dbl α) :=
  match discountedPayoffFromZ L self self.S0_ self.R_ (self.sigma_ + eps) self.T0_ self.T_
      steps Zs flip with
  | .error e => .error e
  | .ok Pu =>
    match discountedPayoffFromZ L self self.S0_ self.R_ (self.sigma_ - eps) self.T0_ self.T_
        steps Zs flip with
    | .error e => .error e
    | .ok Pd => .ok ((Pu - Pd) / (Dbl.fin 2 * eps))

/-- The default `relEps = 1e-4` of `deltaMC`. -/
def deltaRelEps : Dbl α := Dbl.fin 1e-4

/-- The default `relEps = 1e-3` of `gammaMC`. -/
def gammaRelEps : Dbl α := Dbl.fin 1e-3

/-- The default `eps = 1.0 / 365.0` of `thetaMC`. -/
def thetaEps : Dbl α := Dbl.fin 1 / Dbl.fin 365

/-- The default `eps = 1e-4` of `rhoMC`. -/
def rhoEps : Dbl α := Dbl.fin 1e-4

/-- The default `eps = 1e-4` of `vegaMC`. -/
def vegaEps : Dbl α := Dbl.fin 1e-4

/-- The closure `bridgeMaxLog` of `priceMC_BrownianBridge_Asymptotic`. -/
def bridgeMaxLog (L : Libm α) (a b s2dt V : Dbl α) : Dbl α :=
  let V := Dbl.min (Dbl.max V (Dbl.fin 1e-16)) (Dbl.fin 1 - Dbl.fin 1e-16)
  let K := (-(Dbl.fin 0.5)) * s2dt * Dbl.log L V
  let D := (a - b) * (a - b) + Dbl.fin 4 * K
  Dbl.fin 0.5 * (a + b + Dbl.sqrt L D)

/-- The closure `bridgeMinLog` of `priceMC_BrownianBridge_Asymptotic`. -/
def bridgeMinLog (L : Libm α) (a b s2dt V : Dbl α) : Dbl α :=
  -(bridgeMaxLog L (-a) (-b) s2dt V)

/-- One iteration of the loop of the closure `payoffBB`, on the triple
`(St, agg, logS_prev)`. -/
def payoffBBStep (L : Libm α) (self : opt.Asian α) (dt s2dt : Dbl α)
    (Zs Umax Umin : List (Dbl α)) (flip : Bool) (p : Dbl α × Dbl α × Dbl α) (j : Nat) :
    Dbl α × Dbl α × Dbl α :=
  let Z := if flip then -(Zs.getD j Dbl.nan) else Zs.getD j Dbl.nan
  let logS_next := p.2.2 + (self.R_ - Dbl.fin 0.5 * self.sigma_ * self.sigma_) * dt
    + self.sigma_ * Dbl.sqrt L dt * Z
  let S_next := Dbl.exp L logS_next
  let logM := bridgeMaxLog L p.2.2 logS_next s2dt (Umax.getD j Dbl.nan)
  let logm := bridgeMinLog L p.2.2 logS_next s2dt (Umin.getD j Dbl.nan)
  let S_max_cont := Dbl.exp L logM
  let S_min_cont := Dbl.exp L logm
  let agg := self.aggregator_ p.2.1 S_max_cont (Dbl.ofInt (j : Int) + Dbl.fin 0.5)
  let agg := self.aggregator_ agg S_min_cont (Dbl.ofInt (j : Int) + Dbl.fin 0.5)
  let agg := self.aggregator_ agg S_next (Dbl.ofInt (j : Int) + Dbl.fin 1)
  (S_next, agg, logS_next)

/-- The closure `payoffBB` of `priceMC_BrownianBridge_Asymptotic`.  A read of a vector past
its end (undefined in the source) yields `NaN`. -/
def payoffBB (L : Libm α) (self : opt.Asian α) (steps : Int) (dt : Dbl α)
    (Zs Umax Umin : List (Dbl α)) (flip : Bool) : Except Err (Dbl α) :=
  let s2dt := self.sigma_ * self.sigma_ * dt
  let p := (List.range steps.toNat).foldl (payoffBBStep L self dt s2dt Zs Umax Umin flip)
    (self.S0_, self.S0_, Dbl.log L self.S0_)
  self.payoff_ p.1 p.2.1

/-- The inner loop that fills `Umax` and `Umin`: `n` times two successive uniform draws, each
bounded to `[1e-16, 1 - 1e-16]`. -/
def drawUs {ρ : Type} (G : Gen ρ α) : Nat → ρ → (List (Dbl α) × List (Dbl α)) × ρ
  | 0, rng => (([], []), rng)
  | n + 1, rng =>
    let u1 := G.uniform rng
    let u2 := G.uniform u1.2
    let rest := drawUs G n u2.2
    ((Dbl.min (Dbl.max (Dbl.fin u1.1) (Dbl.fin 1e-16)) (Dbl.fin 1 - Dbl.fin 1e-16) :: rest.1.1,
      Dbl.min (Dbl.max (Dbl.fin u2.1) (Dbl.fin 1e-16)) (Dbl.fin 1 - Dbl.fin 1e-16) :: rest.1.2),
      rest.2)

/-- The loop of the antithetic branch of `priceMC_BrownianBridge_Asymptotic`, run for `n`
iterations on the running sum `sumPayoff`. -/
def bbAntitheticLoop {ρ : Type} (L : Libm α) (G : Gen ρ α) (self : opt.Asian α) (steps : Int)
    (dt : Dbl α) : Nat → ρ → Dbl α → Except Err (Dbl α)
  | 0, _, sumPayoff => .ok sumPayoff
  | n + 1, rng, sumPayoff =>
    let Zs := drawZs G steps.toNat rng
    let Us := drawUs G steps.toNat Zs.2
    match payoffBB L self steps dt Zs.1 Us.1.1 Us.1.2 false with
    | .error e => .error e
    | .ok p1 =>
      match payoffBB L self steps dt Zs.1 Us.1.1 Us.1.2 true with
      | .error e => .error e
      | .ok p2 =>
        bbAntitheticLoop L G self steps dt n Us.2 (sumPayoff + Dbl.fin 0.5 * (p1 + p2))

/-- The loop of the plain branch of `priceMC_BrownianBridge_Asymptotic`, run for `n`
iterations on the running sum `sumPayoff`. -/
def bbPlainLoop {ρ : Type} (L : Libm α) (G : Gen ρ α) (self : opt.Asian α) (steps : Int)
    (dt : Dbl α) : Nat → ρ → Dbl α → Except Err (Dbl α)
  | 0, _, sumPayoff => .ok sumPayoff
  | n + 1, rng, sumPayoff =>
    let Zs := drawZs G steps.toNat rng
    let Us := drawUs G steps.toNat Zs.2
    match payoffBB L self steps dt Zs.1 Us.1.1 Us.1.2 false with
    | .error e => .error e
    | .ok p => bbPlainLoop L G self steps dt n Us.2 (sumPayoff + p)

/-- The member `Asian::priceMC_BrownianBridge_Asymptotic`, with its fixed configuration
(1000 paths, 1000 steps, antithetic, seed 42). -/
def priceMC_BrownianBridge_Asymptotic {ρ : Type} (L : Libm α) (G : Gen ρ α)
    (self : opt.Asian α) : Except Err (Dbl α) :=
  let paths : Int := 1000
  let steps : Int := 1000
  let antithetic : Bool := true
  let seed : Nat := 42
  let Tau := self.T_ - self.T0_
  let dt := Tau / Dbl.ofInt steps
  let disc := Dbl.exp L ((-self.R_) * Tau)
  let rng := G.seed seed
  if antithetic then
    let pairs := Int.tdiv paths 2
    match bbAntitheticLoop L G self steps dt pairs.toNat rng (Dbl.fin 0) with
    | .error e => .error e
    | .ok sumPayoff =>
      let meanPayoff := sumPayoff / Dbl.ofInt pairs
      .ok (disc * meanPayoff)
  else
    match bbPlainLoop L G self steps dt paths.toNat rng (Dbl.fin 0) with
    | .error e => .error e
    | .ok sumPayoff =>
      let meanPayoff := sumPayoff / Dbl.ofInt paths
      .ok (disc * meanPayoff)

end Asian

/-- The helper `makeLookbackCall` of `Exports.cpp`. -/
def makeLookbackCall (S0 R sigma T0 T : Dbl α) : Except Err (Asian α) :=
  Asian.Asian S0 R sigma T0 T PayoffCall LookMin

/-- The helper `makeLookbackPut` of `Exports.cpp`. -/
def makeLookbackPut (S0 R sigma T0 T : Dbl α) : Except Err (Asian α) :=
  Asian.Asian S0 R sigma T0 T PayoffPut LookMax

/-- The state of the host process that the export boundary touches: the latch
`g_errorDisplayed` and the error dialogs shown so far (message, title), oldest first. -/
structure Host where
  g_errorDisplayed : Bool
  dialogs : List (String × String)
  deriving DecidableEq, Repr

/-- The export `ResetErrorFlag`. -/
def ResetErrorFlag (h : Host) : Host :=
  { h with g_errorDisplayed := false }

/-- The helper `reportError`: shows the dialog unless the latch is set, sets the latch, and
returns `NaN`. -/
def reportError (msg title : String) (h : Host) : Dbl α × Host :=
  if !h.g_errorDisplayed then
    (Dbl.nan, { g_errorDisplayed := true, dialogs := h.dialogs ++ [(msg, title)] })
  else
    (Dbl.nan, h)

/-- The wrapper `SAFE_DOUBLE(name, args, body)`: the value of the body, or `reportError` on
the message of the exception it threw. -/
def SAFE_DOUBLE (name : String) (body : Except Err (Dbl α)) (h : Host) : Dbl α × Host :=
  match body with
  | .ok v => (v, h)
  | .error (Err.invalid_argument msg) => reportError msg name h

/-- The export `opt_lb_call_price_mc`. -/
def opt_lb_call_price_mc {ρ : Type} (L : Libm α) (G : Gen ρ α) (S0 R sigma T0 T : Dbl α)
    (paths steps : Int) (seed : Nat) (h : Host) : Dbl α × Host :=
  SAFE_DOUBLE "opt_lb_call_price_mc"
    (match makeLookbackCall S0 R sigma T0 T with
      | .error e => .error e
      | .ok o =>
        match Asian.priceMC L G o paths steps seed false with
        | .error e => .error e
        | .ok stats => .ok stats.estimate) h

/-- The export `opt_lb_call_price_mc_vr_se`. -/
def opt_lb_call_price_mc_vr_se {ρ : Type} (L : Libm α) (G : Gen ρ α)
    (S0 R sigma T0 T : Dbl α) (paths steps : Int) (seed : Nat) (h : Host) : Dbl α × Host :=
  SAFE_DOUBLE "opt_lb_call_price_mc_vr_se"
    (match makeLookbackCall S0 R sigma T0 T with
      | .error e => .error e
      | .ok o =>
        match Asian.priceMC L G o paths steps seed true with
        | .error e => .error e
        | .ok stats => .ok stats.stdError) h

/-- The export `opt_lb_call_theta_mc` (`thetaMC` is called with its default bump). -/
def opt_lb_call_theta_mc {ρ : Type} (L : Libm α) (G : Gen ρ α) (S0 R sigma T0 T : Dbl α)
    (paths steps : Int) (seed : Nat) (h : Host) : Dbl α × Host :=
  SAFE_DOUBLE "opt_lb_call_theta_mc"
    (match makeLookbackCall S0 R sigma T0 T with
      | .error e => .error e
      | .ok o =>
        match Asian.thetaMC L G o paths steps seed false Asian.thetaEps with
        | .error e => .error e
        | .ok stats => .ok stats.estimate) h

/-- The export `opt_lb_put_price_bb_asymptotic`. -/
def opt_lb_put_price_bb_asymptotic {ρ : Type} (L : Libm α) (G : Gen ρ α)
    (S0 R sigma T0 T : Dbl α) (h : Host) : Dbl α × Host :=
  SAFE_DOUBLE "opt_lb_put_price_bb_asymptotic"
    (match makeLookbackPut S0 R sigma T0 T with
      | .error e => .error e
      | .ok o => Asian.priceMC_BrownianBridge_Asymptotic L G o) h

/-! ## Reference definitions used to state the properties -/

/-- The arithmetic mean of a list of samples. -/
def meanOf (xs : List α) : α := xs.sum / (xs.length : α)

/-- The sum of squared deviations of a list of samples from their arithmetic mean. -/
def sumSqDev (xs : List α) : α := (xs.map (fun x => (x - meanOf xs) ^ 2)).sum

/-- A vector of `steps` finite draws, as the loops of `runMC` fill it. -/
def IsDraw (steps : Nat) (Zs : List (Dbl α)) : Prop :=
  Zs.length = steps ∧ ∀ z ∈ Zs, Dbl.isfinite z = true

instance (steps : Nat) (Zs : List (Dbl α)) : Decidable (IsDraw steps Zs) := by
  unfold IsDraw
  infer_instance

/-- The first `n` draw vectors of length `steps` taken from the generator state `rng`, in the
order in which the outer loop of `runMC` fills them. -/
def drawBlocks {ρ : Type} (G : Gen ρ α) (steps : Nat) : Nat → ρ → List (List (Dbl α))
  | 0, _ => []
  | n + 1, rng =>
    (Asian.drawZs G steps rng).1 :: drawBlocks G steps n (Asian.drawZs G steps rng).2

/-- The draw `z_j` of the path recursion: `-Zs[j]` if `flip`, else `Zs[j]`. -/
def pathZ (Zs : List (Dbl α)) (flip : Bool) (j : Nat) : Dbl α :=
  if flip then -(Zs.getD j Dbl.nan) else Zs.getD j Dbl.nan

/-- The price recursion of the specification: `S_0 = S0` and
`S_{j+1} = S_j * exp((R - sigma^2/2) * dt + sigma * sqrt(dt) * z_j)`. -/
def pathS (L : Libm α) (S0 R sigma dt : Dbl α) (Zs : List (Dbl α)) (flip : Bool) :
    Nat → Dbl α
  | 0 => S0
  | j + 1 =>
    pathS L S0 R sigma dt Zs flip j *
      Dbl.exp L ((R - sigma * sigma / Dbl.fin 2) * dt + sigma * Dbl.sqrt L dt * pathZ Zs flip j)

/-- The aggregate recursion of the specification: `A_0 = S0` and
`A_{j+1} = aggregator(A_j, S_{j+1}, j+1)`. -/
def pathA (L : Libm α) (aggregator : Dbl α → Dbl α → Dbl α → Dbl α) (S0 R sigma dt : Dbl α)
    (Zs : List (Dbl α)) (flip : Bool) : Nat → Dbl α
  | 0 => S0
  | j + 1 =>
    aggregator (pathA L aggregator S0 R sigma dt Zs flip j)
      (pathS L S0 R sigma dt Zs flip (j + 1)) (Dbl.fin ((j : α) + 1))

/-- The number of iterations of the sampling loop of `runMC`: the `pairs` of the antithetic
branch, `paths` otherwise. -/
def loopCount (paths : Int) (antithetic : Bool) : Nat :=
  if antithetic then (Int.tdiv (wrap32 (paths + 1)) 2).toNat else paths.toNat

/-- The value pushed for one draw vector by the loop of `runMC`, for a sample function with
finite values `f`: the half-sum of the pair in the antithetic branch, `f Zs false` otherwise. -/
def pushed (antithetic : Bool) (f : List (Dbl α) → Bool → α) (Zs : List (Dbl α)) : α :=
  if antithetic then 0.5 * (f Zs false + f Zs true) else f Zs false

/-- A payoff and an aggregator that keep finite positive values finite (and the aggregate
positive), as the two lookback pairs do. -/
def FinStrategies (self : Asian α) : Prop :=
  (∀ S K : α, 0 < K → ∃ v, self.payoff_ (Dbl.fin S) (Dbl.fin K) = .ok (Dbl.fin v)) ∧
  (∀ a p k : α, 0 < a → 0 < p →
    ∃ c, 0 < c ∧ self.aggregator_ (Dbl.fin a) (Dbl.fin p) (Dbl.fin k) = Dbl.fin c)

/-- The price estimate `P(S0, R, sigma, T0, T)` of the kernel: `runMC` on the discounted payoff
computed with the given five parameters (which need not be those stored in `self`, nor
validated), on the payoff and aggregator of `self`. -/
def kernelPrice {ρ : Type} (L : Libm α) (G : Gen ρ α) (self : Asian α)
    (S0 R sigma T0 T : Dbl α) (paths steps : Int) (seed : Nat) (antithetic : Bool) :
    Except Err (MCStats α) :=
  Asian.runMC L G paths steps seed antithetic (fun Zs flip =>
    Asian.discountedPayoffFromZ L self S0 R sigma T0 T steps Zs flip)

/-- The aggregate along the riskless path `S_j = S0 * exp(R * j * dt)`: `A_0 = S0` and
`A_{j+1} = aggregator(A_j, S_{j+1}, j+1)`. -/
def risklessA (L : Libm α) (aggregator : Dbl α → Dbl α → Dbl α → Dbl α) (s0 r dt : α) :
    Nat → Dbl α
  | 0 => Dbl.fin s0
  | j + 1 =>
    aggregator (risklessA L aggregator s0 r dt j)
      (Dbl.fin (s0 * L.exp (r * ((j : α) + 1) * dt))) (Dbl.fin ((j : α) + 1))

/-- A double that is finite or `NaN` (not an infinity). -/
def Dbl.finOrNan (x : Dbl α) : Prop := x = Dbl.nan ∨ ∃ v : α, x = Dbl.fin v

/-- The finite value of a double; `0` when it is not finite. -/
def Dbl.val : Dbl α → α
  | Dbl.fin x => x
  | _ => 0

/-- The price recursion on finite values: `S_0 = s0` and
`S_{j+1} = S_j * exp((r - sg^2/2) * dt + sg * sqrt(dt) * z_j)`. -/
def finS (L : Libm α) (s0 r sg dt : α) (Zs : List (Dbl α)) (flip : Bool) : Nat → α
  | 0 => s0
  | j + 1 =>
    finS L s0 r sg dt Zs flip j *
      L.exp ((r - sg * sg / 2) * dt + sg * L.sqrt dt * (pathZ Zs flip j).val)

/-- The running minimum `min(S_0, ..., S_j)` of the price recursion on finite values. -/
def finMin (L : Libm α) (s0 r sg dt : α) (Zs : List (Dbl α)) (flip : Bool) : Nat → α
  | 0 => s0
  | j + 1 => min (finMin L s0 r sg dt Zs flip j) (finS L s0 r sg dt Zs flip (j + 1))

/-- The running maximum `max(S_0, ..., S_j)` of the price recursion on finite values. -/
def finMax (L : Libm α) (s0 r sg dt : α) (Zs : List (Dbl α)) (flip : Bool) : Nat → α
  | 0 => s0
  | j + 1 => max (finMax L s0 r sg dt Zs flip j) (finS L s0 r sg dt Zs flip (j + 1))

/-- The state `(St, agg, logS_prev)` of the loop of `payoffBB` before its iteration `j`. -/
def bbState (L : Libm α) (self : Asian α) (dt : Dbl α) (Zs Umax Umin : List (Dbl α))
    (flip : Bool) (j : Nat) : Dbl α × Dbl α × Dbl α :=
  (List.range j).foldl
    (Asian.payoffBBStep L self dt (self.sigma_ * self.sigma_ * dt) Zs Umax Umin flip)
    (self.S0_, self.S0_, Dbl.log L self.S0_)

/-- The value `logS_next` of iteration `j` of the loop of `payoffBB`, from the state `p`. -/
def bbLogNext (L : Libm α) (self : Asian α) (dt : Dbl α) (Zs : List (Dbl α)) (flip : Bool)
    (p : Dbl α × Dbl α × Dbl α) (j : Nat) : Dbl α :=
  p.2.2 + (self.R_ - Dbl.fin 0.5 * self.sigma_ * self.sigma_) * dt
    + self.sigma_ * Dbl.sqrt L dt * pathZ Zs flip j

/-- The value `S_max_cont` of iteration `j` of the loop of `payoffBB`, from the state `p`. -/
def bbMaxCont (L : Libm α) (self : Asian α) (dt : Dbl α) (Zs Umax : List (Dbl α))
    (flip : Bool) (p : Dbl α × Dbl α × Dbl α) (j : Nat) : Dbl α :=
  Dbl.exp L (Asian.bridgeMaxLog L p.2.2 (bbLogNext L self dt Zs flip p j)
    (self.sigma_ * self.sigma_ * dt) (Umax.getD j Dbl.nan))

/-- The value `S_min_cont` of iteration `j` of the loop of `payoffBB`, from the state `p`. -/
def bbMinCont (L : Libm α) (self : Asian α) (dt : Dbl α) (Zs Umin : List (Dbl α))
    (flip : Bool) (p : Dbl α × Dbl α × Dbl α) (j : Nat) : Dbl α :=
  Dbl.exp L (Asian.bridgeMinLog L p.2.2 (bbLogNext L self dt Zs flip p j)
    (self.sigma_ * self.sigma_ * dt) (Umin.getD j Dbl.nan))

/-- The aggregation of the kernel on a given list of prices: starting from the aggregate `a`
reached after `k` steps, each price `S_j` is fed as `aggregator(agg, S_j, j)` with its 1-based
step number `j = k + 1, k + 2, ...`. -/
def aggFrom (aggregator : Dbl α → Dbl α → Dbl α → Dbl α) :
    Nat → Dbl α → List (Dbl α) → Dbl α
  | _, a, [] => a
  | k, a, p :: ps => aggFrom aggregator (k + 1) (aggregator a p (Dbl.ofInt ((k : Int) + 1))) ps

/-- The sum `z_0 + ... + z_{n-1}` of the (sign-flipped if `flip`) draws of a path. -/
def drawSum (Zs : List (Dbl α)) (flip : Bool) (n : Nat) : α :=
  ((List.range n).map (fun j => (pathZ Zs flip j).val)).sum

/-- The finite value of a sample; `0` when the sample raised or is not finite. -/
def sampleVal (r : Except Err (Dbl α)) : α :=
  match r with
  | .ok (Dbl.fin x) => x
  | _ => 0

/-- A generator whose every normal draw is `z` and every uniform draw is `u`. -/
def Gen.const (z u : α) : Gen Nat α :=
  { seed := fun s => s, normal := fun r => (z, r + 1), uniform := fun r => (u, r + 1) }

/-- A generator whose successive normal draws are `seed`, `seed + 1`, `seed + 2`, ... and every
uniform draw is `1/2`. -/
def Gen.counter : Gen Nat α :=
  { seed := fun s => s, normal := fun r => ((r : α), r + 1), uniform := fun r => (1 / 2, r + 1) }

/-- A double that is not below zero: non-negative, or `NaN`. -/
def Dbl.notNeg (x : Dbl α) : Prop := Dbl.lt x (Dbl.fin 0) = false

/-- The Scenario 1 lookback call with zero volatility: `S0 = 100`, `R = 0.05`, `sigma = 0`,
`T0 = 0`, `T = 1`, as `makeLookbackCall` builds it. -/
def risklessCall : Asian α :=
  { S0_ := Dbl.fin 100, R_ := Dbl.fin 0.05, sigma_ := Dbl.fin 0, T0_ := Dbl.fin 0,
    T_ := Dbl.fin 1, payoff_ := PayoffCall, aggregator_ := LookMin }

/-- The lookback call of Scenario 1 of the specification: `S0 = 100`, `R = 0.05`,
`sigma = 0.2`, `T0 = 0`, `T = 1`, as `makeLookbackCall` builds it. -/
def scenarioCall : Asian α :=
  { S0_ := Dbl.fin 100, R_ := Dbl.fin 0.05, sigma_ := Dbl.fin 0.2, T0_ := Dbl.fin 0,
    T_ := Dbl.fin 1, payoff_ := PayoffCall, aggregator_ := LookMin }

/-! ## The same code over rounded double-precision arithmetic -/

/-- The double-precision arithmetic of the machine: `rnd` rounds the exact result of an
operation on finite values to a double (possibly `±∞` on overflow), and `exp`, `sqrt`, `log`
are the library functions on finite arguments in their domain (their results are doubles,
possibly not finite). -/
structure Fpu (α : Type) where
  rnd : α → Dbl α
  exp : α → Dbl α
  sqrt : α → Dbl α
  log : α → Dbl α

namespace Fp

/-- The rounding of the exact result of an operation: finite results are rounded, the
non-finite results of IEEE-754 are kept. -/
def round (M : Fpu α) : Dbl α → Dbl α
  | Dbl.fin x => M.rnd x
  | d => d

/-- A decimal literal of the source, rounded to a double. -/
def lit (M : Fpu α) (x : α) : Dbl α := M.rnd x

/-- The rounded sum `a + b`. -/
def add (M : Fpu α) (a b : Dbl α) : Dbl α := round M (a + b)

/-- The rounded difference `a - b`. -/
def sub (M : Fpu α) (a b : Dbl α) : Dbl α := round M (a - b)

/-- The rounded product `a * b`. -/
def mul (M : Fpu α) (a b : Dbl α) : Dbl α := round M (a * b)

/-- The rounded quotient `a / b`. -/
def div (M : Fpu α) (a b : Dbl α) : Dbl α := round M (a / b)

/-- The library call `std::exp` on a double. -/
def exp (M : Fpu α) : Dbl α → Dbl α
  | Dbl.fin x => M.exp x
  | Dbl.pinf => Dbl.pinf
  | Dbl.ninf => Dbl.fin 0
  | Dbl.nan => Dbl.nan

/-- The library call `std::sqrt` on a double (`NaN` on negative arguments). -/
def sqrt (M : Fpu α) : Dbl α → Dbl α
  | Dbl.fin x => if x < 0 then Dbl.nan else M.sqrt x
  | Dbl.pinf => Dbl.pinf
  | Dbl.ninf => Dbl.nan
  | Dbl.nan => Dbl.nan

/-- The library call `std::log` on a double (`NaN` on negative arguments, `-∞` at zero). -/
def log (M : Fpu α) : Dbl α → Dbl α
  | Dbl.fin x => if x < 0 then Dbl.nan else if x = 0 then Dbl.ninf else M.log x
  | Dbl.pinf => Dbl.pinf
  | Dbl.ninf => Dbl.nan
  | Dbl.nan => Dbl.nan

/-- The payoff `PayoffCall::operator()`, the difference `S - K` being rounded. -/
def PayoffCall (M : Fpu α) (S K : Dbl α) : Except Err (Dbl α) :=
  if Dbl.lt K (Dbl.fin 0) then
    throw (Err.invalid_argument "Strike doit être non-négatif")
  else
    pure (Dbl.max (sub M S K) (Dbl.fin 0))

/-- The payoff `PayoffPut::operator()`, the difference `K - S` being rounded. -/
def PayoffPut (M : Fpu α) (S K : Dbl α) : Except Err (Dbl α) :=
  if Dbl.lt K (Dbl.fin 0) then
    throw (Err.invalid_argument "Strike doit être non-négatif")
  else
    pure (Dbl.max (sub M K S) (Dbl.fin 0))

/-- The aggregator `Arithmetic::operator()`, each operation being rounded. -/
def Arithmetic (M : Fpu α) (agg price step : Dbl α) : Dbl α :=
  div M (add M (mul M agg step) price) (add M step (Dbl.fin 1))

/-- One iteration of the path loop of `discountedPayoffFromZ`, on the pair `(St, agg)`. -/
def pathStep (M : Fpu α) (self : opt.Asian α) (R sigma dt : Dbl α) (Zs : List (Dbl α))
    (flip : Bool) (p : Dbl α × Dbl α) (j : Nat) : Dbl α × Dbl α :=
  let Z := if flip then -(Zs.getD j Dbl.nan) else Zs.getD j Dbl.nan
  let St := mul M p.1 (exp M (add M
    (mul M (sub M R (mul M (mul M (lit M 0.5) sigma) sigma)) dt)
    (mul M (mul M sigma (sqrt M dt)) Z)))
  let agg := self.aggregator_ p.2 St (Dbl.ofInt ((j : Int) + 1))
  (St, agg)

/-- The member `Asian::discountedPayoffFromZ`.  A read of `Zs` past its end (undefined in the
source) yields `NaN`. -/
def discountedPayoffFromZ (M : Fpu α) (self : opt.Asian α) (S0 R sigma T0 T : Dbl α)
    (steps : Int) (Zs : List (Dbl α)) (flip : Bool) : Except Err (Dbl α) :=
  let Tau := sub M T T0
  let dt := div M Tau (Dbl.ofInt steps)
  let disc := exp M (mul M (-R) Tau)
  let p := (List.range steps.toNat).foldl (pathStep M self R sigma dt Zs flip) (S0, S0)
  match self.payoff_ p.1 p.2 with
  | .error e => .error e
  | .ok v => .ok (mul M disc v)

/-- The closure `pushSample` of `runMC`. -/
def pushSample (M : Fpu α) (st : RunningStats α) (x : Dbl α) : RunningStats α :=
  let m := st.m + 1
  let d := sub M x st.mean
  let mean := add M st.mean (div M d (Dbl.ofInt m))
  let d2 := sub M x mean
  let M2 := add M st.M2 (mul M d d2)
  { m := m, mean := mean, M2 := M2 }

/-- The loop of the antithetic branch of `runMC`, run for `n` iterations. -/
def antitheticLoop {ρ : Type} (M : Fpu α) (G : Gen ρ α) (steps : Int)
    (sampleFn : List (Dbl α) → Bool → Except Err (Dbl α)) :
    Nat → ρ → RunningStats α → Except Err (RunningStats α)
  | 0, _, st => .ok st
  | n + 1, rng, st =>
    let Zs := Asian.drawZs G steps.toNat rng
    match sampleFn Zs.1 false with
    | .error e => .error e
    | .ok s1 =>
      match sampleFn Zs.1 true with
      | .error e => .error e
      | .ok s2 =>
        let sample := mul M (lit M 0.5) (add M s1 s2)
        antitheticLoop M G steps sampleFn n Zs.2 (pushSample M st sample)

/-- The loop of the plain branch of `runMC`, run for `n` iterations. -/
def plainLoop {ρ : Type} (M : Fpu α) (G : Gen ρ α) (steps : Int)
    (sampleFn : List (Dbl α) → Bool → Except Err (Dbl α)) :
    Nat → ρ → RunningStats α → Except Err (RunningStats α)
  | 0, _, st => .ok st
  | n + 1, rng, st =>
    let Zs := Asian.drawZs G steps.toNat rng
    match sampleFn Zs.1 false with
    | .error e => .error e
    | .ok sample => plainLoop M G steps sampleFn n Zs.2 (pushSample M st sample)

/-- The helper `Option::makeCI95`. -/
def makeCI95 (M : Fpu α) (mean stdError : Dbl α) : MCStats α :=
  let z : Dbl α := lit M 1.96
  { estimate := mean
    stdError := stdError
    ciLow := sub M mean (mul M z stdError)
    ciHigh := add M mean (mul M z stdError) }

/-- The member template `Asian::runMC`. -/
def runMC {ρ : Type} (M : Fpu α) (G : Gen ρ α) (paths steps : Int) (seed : Nat)
    (antithetic : Bool) (sampleFn : List (Dbl α) → Bool → Except Err (Dbl α)) :
    Except Err (MCStats α) :=
  if paths ≤ 0 then .error (Err.invalid_argument "paths doit être > 0.")
  else if steps ≤ 0 then .error (Err.invalid_argument "steps doit être > 0.")
  else
    let rng := G.seed seed
    let st0 : RunningStats α := { m := 0, mean := Dbl.fin 0, M2 := Dbl.fin 0 }
    let looped :=
      if antithetic then
        let pairs := Int.tdiv (wrap32 (paths + 1)) 2
        antitheticLoop M G steps sampleFn pairs.toNat rng st0
      else
        plainLoop M G steps sampleFn paths.toNat rng st0
    match looped with
    | .error e => .error e
    | .ok st =>
      let var := if st.m > 1 then div M st.M2 (Dbl.ofInt (st.m - 1)) else Dbl.fin 0
      let se := if st.m > 0 then sqrt M (div M var (Dbl.ofInt st.m)) else Dbl.nan
      .ok (makeCI95 M st.mean se)

/-- The member `Asian::priceMC`. -/
def priceMC {ρ : Type} (M : Fpu α) (G : Gen ρ α) (self : opt.Asian α) (paths steps : Int)
    (seed : Nat) (antithetic : Bool) : Except Err (MCStats α) :=
  runMC M G paths steps seed antithetic (fun Zs flip =>
    discountedPayoffFromZ M self self.S0_ self.R_ self.sigma_ self.T0_ self.T_ steps Zs flip)

/-- The member `Asian::deltaMC`. -/
def deltaMC {ρ : Type} (M : Fpu α) (G : Gen ρ α) (self : opt.Asian α) (paths steps : Int)
    (seed : Nat) (antithetic : Bool) (relEps : Dbl α) : Except Err (MCStats α) :=
  let eps := mul M relEps self.S0_
  runMC M G paths steps seed antithetic (fun Zs flip =>
    match discountedPayoffFromZ M self (add M self.S0_ eps) self.R_ self.sigma_ self.T0_
        self.T_ steps Zs flip with
    | .error e => .error e
    | .ok Pu =>
      match discountedPayoffFromZ M self (sub M self.S0_ eps) self.R_ self.sigma_ self.T0_
          self.T_ steps Zs flip with
      | .error e => .error e
      | .ok Pd => .ok (div M (sub M Pu Pd) (mul M (Dbl.fin 2) eps)))

/-- The member `Asian::gammaMC`. -/
def gammaMC {ρ : Type} (M : Fpu α) (G : Gen ρ α) (self : opt.Asian α) (paths steps : Int)
    (seed : Nat) (antithetic : Bool) (relEps : Dbl α) : Except Err (MCStats α) :=
  let eps := mul M relEps self.S0_
  runMC M G paths steps seed antithetic (fun Zs flip =>
    match discountedPayoffFromZ M self (add M self.S0_ eps) self.R_ self.sigma_ self.T0_
        self.T_ steps Zs flip with
    | .error e => .error e
    | .ok Pu =>
      match discountedPayoffFromZ M self self.S0_ self.R_ self.sigma_ self.T0_ self.T_
          steps Zs flip with
      | .error e => .error e
      | .ok Pm =>
        match discountedPayoffFromZ M self (sub M self.S0_ eps) self.R_ self.sigma_ self.T0_
            self.T_ steps Zs flip with
        | .error e => .error e
        | .ok Pd =>
          .ok (div M (add M (sub M Pu (mul M (Dbl.fin 2) Pm)) Pd) (mul M eps eps)))

/-- The member `Asian::thetaMC`. -/
def thetaMC {ρ : Type} (M : Fpu α) (G : Gen ρ α) (self : opt.Asian α) (paths steps : Int)
    (seed : Nat) (antithetic : Bool) (eps : Dbl α) : Except Err (MCStats α) :=
  if !(Dbl.lt (add M self.T0_ eps) self.T_ && Dbl.lt (sub M self.T0_ eps) self.T_) then
    .error (Err.invalid_argument "Theta: eps trop grand par rapport à T0/T.")
  else
    runMC M G paths steps seed antithetic (fun Zs flip =>
      match discountedPayoffFromZ M self self.S0_ self.R_ self.sigma_ (add M self.T0_ eps)
          self.T_ steps Zs flip with
      | .error e => .error e
      | .ok Pu =>
        match discountedPayoffFromZ M self self.S0_ self.R_ self.sigma_ (sub M self.T0_ eps)
            self.T_ steps Zs flip with
        | .error e => .error e
        | .ok Pd => .ok (div M (sub M Pu Pd) (mul M (Dbl.fin 2) eps)))

/-- The member `Asian::rhoMC`. -/
def rhoMC {ρ : Type} (M : Fpu α) (G : Gen ρ α) (self : opt.Asian α) (paths steps : Int)
    (seed : Nat) (antithetic : Bool) (eps : Dbl α) : Except Err (MCStats α) :=
  runMC M G paths steps seed antithetic (fun Zs flip =>
    match discountedPayoffFromZ M self self.S0_ (add M self.R_ eps) self.sigma_ self.T0_
        self.T_ steps Zs flip with
    | .error e => .error e
    | .ok Pu =>
      match discountedPayoffFromZ M self self.S0_ (sub M self.R_ eps) self.sigma_ self.T0_
          self.T_ steps Zs flip with
      | .error e => .error e
      | .ok Pd => .ok (div M (sub M Pu Pd) (mul M (Dbl.fin 2) eps)))

/-- The member `Asian::vegaMC`. -/
def vegaMC {ρ : Type} (M : Fpu α) (G : Gen ρ α) (self : opt.Asian α) (paths steps : Int)
    (seed : Nat) (antithetic : Bool) (eps : Dbl α) : Except Err (MCStats α) :=
  runMC M G paths steps seed antithetic (fun Zs flip =>
    match discountedPayoffFromZ M self self.S0_ self.R_ (add M self.sigma_ eps) self.T0_
        self.T_ steps Zs flip with
    | .error e => .error e
    | .ok Pu =>
      match discountedPayoffFromZ M self self.S0_ self.R_ (sub M self.sigma_ eps) self.T0_
          self.T_ steps Zs flip with
      | .error e => .error e
      | .ok Pd => .ok (div M (sub M Pu Pd) (mul M (Dbl.fin 2) eps)))

/-- The closure `bridgeMaxLog` of `priceMC_BrownianBridge_Asymptotic`. -/
def bridgeMaxLog (M : Fpu α) (a b s2dt V : Dbl α) : Dbl α :=
  let V := Dbl.min (Dbl.max V (lit M 1e-16)) (sub M (Dbl.fin 1) (lit M 1e-16))
  let K := mul M (mul M (-(lit M 0.5)) s2dt) (log M V)
  let D := add M (mul M (sub M a b) (sub M a b)) (mul M (Dbl.fin 4) K)
  mul M (lit M 0.5) (add M (add M a b) (sqrt M D))

/-- The closure `bridgeMinLog` of `priceMC_BrownianBridge_Asymptotic`. -/
def bridgeMinLog (M : Fpu α) (a b s2dt V : Dbl α) : Dbl α :=
  -(bridgeMaxLog M (-a) (-b) s2dt V)

/-- One iteration of the loop of the closure `payoffBB`, on the triple
`(St, agg, logS_prev)`. -/
def payoffBBStep (M : Fpu α) (self : opt.Asian α) (dt s2dt : Dbl α)
    (Zs Umax Umin : List (Dbl α)) (flip : Bool) (p : Dbl α × Dbl α × Dbl α) (j : Nat) :
    Dbl α × Dbl α × Dbl α :=
  let Z := if flip then -(Zs.getD j Dbl.nan) else Zs.getD j Dbl.nan
  let logS_next := add M
    (add M p.2.2 (mul M (sub M self.R_ (mul M (mul M (lit M 0.5) self.sigma_) self.sigma_)) dt))
    (mul M (mul M self.sigma_ (sqrt M dt)) Z)
  let S_next := exp M logS_next
  let logM := bridgeMaxLog M p.2.2 logS_next s2dt (Umax.getD j Dbl.nan)
  let logm := bridgeMinLog M p.2.2 logS_next s2dt (Umin.getD j Dbl.nan)
  let S_max_cont := exp M logM
  let S_min_cont := exp M logm
  let agg := self.aggregator_ p.2.1 S_max_cont (add M (Dbl.ofInt (j : Int)) (lit M 0.5))
  let agg := self.aggregator_ agg S_min_cont (add M (Dbl.ofInt (j : Int)) (lit M 0.5))
  let agg := self.aggregator_ agg S_next (add M (Dbl.ofInt (j : Int)) (Dbl.fin 1))
  (S_next, agg, logS_next)

/-- The closure `payoffBB` of `priceMC_BrownianBridge_Asymptotic`.  A read of a vector past
its end (undefined in the source) yields `NaN`. -/
def payoffBB (M : Fpu α) (self : opt.Asian α) (steps : Int) (dt : Dbl α)
    (Zs Umax Umin : List (Dbl α)) (flip : Bool) : Except Err (Dbl α) :=
  let s2dt := mul M (mul M self.sigma_ self.sigma_) dt
  let p := (List.range steps.toNat).foldl (payoffBBStep M self dt s2dt Zs Umax Umin flip)
    (self.S0_, self.S0_, log M self.S0_)
  self.payoff_ p.1 p.2.1

/-- The inner loop that fills `Umax` and `Umin`: `n` times two successive uniform draws, each
bounded to `[1e-16, 1 - 1e-16]`. -/
def drawUs {ρ : Type} (M : Fpu α) (G : Gen ρ α) : Nat → ρ → (List (Dbl α) × List (Dbl α)) × ρ
  | 0, rng => (([], []), rng)
  | n + 1, rng =>
    let u1 := G.uniform rng
    let u2 := G.uniform u1.2
    let rest := drawUs M G n u2.2
    ((Dbl.min (Dbl.max (Dbl.fin u1.1) (lit M 1e-16)) (sub M (Dbl.fin 1) (lit M 1e-16))
        :: rest.1.1,
      Dbl.min (Dbl.max (Dbl.fin u2.1) (lit M 1e-16)) (sub M (Dbl.fin 1) (lit M 1e-16))
        :: rest.1.2),
      rest.2)

/-- The loop of the antithetic branch of `priceMC_BrownianBridge_Asymptotic`, run for `n`
iterations on the running sum `sumPayoff`. -/
def bbAntitheticLoop {ρ : Type} (M : Fpu α) (G : Gen ρ α) (self : opt.Asian α) (steps : Int)
    (dt : Dbl α) : Nat → ρ → Dbl α → Except Err (Dbl α)
  | 0, _, sumPayoff => .ok sumPayoff
  | n + 1, rng, sumPayoff =>
    let Zs := Asian.drawZs G steps.toNat rng
    let Us := drawUs M G steps.toNat Zs.2
    match payoffBB M self steps dt Zs.1 Us.1.1 Us.1.2 false with
    | .error e => .error e
    | .ok p1 =>
      match payoffBB M self steps dt Zs.1 Us.1.1 Us.1.2 true with
      | .error e => .error e
      | .ok p2 =>
        bbAntitheticLoop M G self steps dt n Us.2
          (add M sumPayoff (mul M (lit M 0.5) (add M p1 p2)))

/-- The loop of the plain branch of `priceMC_BrownianBridge_Asymptotic`, run for `n`
iterations on the running sum `sumPayoff`. -/
def bbPlainLoop {ρ : Type} (M : Fpu α) (G : Gen ρ α) (self : opt.Asian α) (steps : Int)
    (dt : Dbl α) : Nat → ρ → Dbl α → Except Err (Dbl α)
  | 0, _, sumPayoff => .ok sumPayoff
  | n + 1, rng, sumPayoff =>
    let Zs := Asian.drawZs G steps.toNat rng
    let Us := drawUs M G steps.toNat Zs.2
    match payoffBB M self steps dt Zs.1 Us.1.1 Us.1.2 false with
    | .error e => .error e
    | .ok p => bbPlainLoop M G self steps dt n Us.2 (add M sumPayoff p)

/-- The member `Asian::priceMC_BrownianBridge_Asymptotic`, with its fixed configuration
(1000 paths, 1000 steps, antithetic, seed 42). -/
def priceMC_BrownianBridge_Asymptotic {ρ : Type} (M : Fpu α) (G : Gen ρ α)
    (self : opt.Asian α) : Except Err (Dbl α) :=
  let paths : Int := 1000
  let steps : Int := 1000
  let antithetic : Bool := true
  let seed : Nat := 42
  let Tau := sub M self.T_ self.T0_
  let dt := div M Tau (Dbl.ofInt steps)
  let disc := exp M (mul M (-self.R_) Tau)
  let rng := G.seed seed
  if antithetic then
    let pairs := Int.tdiv paths 2
    match bbAntitheticLoop M G self steps dt pairs.toNat rng (Dbl.fin 0) with
    | .error e => .error e
    | .ok sumPayoff =>
      let meanPayoff := div M sumPayoff (Dbl.ofInt pairs)
      .ok (mul M disc meanPayoff)
  else
    match bbPlainLoop M G self steps dt paths.toNat rng (Dbl.fin 0) with
    | .error e => .error e
    | .ok sumPayoff =>
      let meanPayoff := div M sumPayoff (Dbl.ofInt paths)
      .ok (mul M disc meanPayoff)

end Fp

/-- The helper `makeLookbackCall` of `Exports.cpp`, over rounded arithmetic. -/
def Fp.makeLookbackCall (M : Fpu α) (S0 R sigma T0 T : Dbl α) : Except Err (Asian α) :=
  Asian.Asian S0 R sigma T0 T (Fp.PayoffCall M) LookMin

/-- The helper `makeLookbackPut` of `Exports.cpp`, over rounded arithmetic. -/
def Fp.makeLookbackPut (M : Fpu α) (S0 R sigma T0 T : Dbl α) : Except Err (Asian α) :=
  Asian.Asian S0 R sigma T0 T (Fp.PayoffPut M) LookMax

/-- The default `relEps = 1e-4` of `deltaMC`, as a double. -/
def Fp.deltaRelEps (M : Fpu α) : Dbl α := Fp.lit M 1e-4

/-- The default `relEps = 1e-3` of `gammaMC`, as a double. -/
def Fp.gammaRelEps (M : Fpu α) : Dbl α := Fp.lit M 1e-3

/-- The default `eps = 1.0 / 365.0` of `thetaMC`, as a double. -/
def Fp.thetaEps (M : Fpu α) : Dbl α := Fp.div M (Dbl.fin 1) (Dbl.fin 365)

/-- The default `eps = 1e-4` of `rhoMC`, as a double. -/
def Fp.rhoEps (M : Fpu α) : Dbl α := Fp.lit M 1e-4

/-- The default `eps = 1e-4` of `vegaMC`, as a double. -/
def Fp.vegaEps (M : Fpu α) : Dbl α := Fp.lit M 1e-4

/-- The export `opt_lb_call_price_mc`, over rounded arithmetic. -/
def Fp.opt_lb_call_price_mc {ρ : Type} (M : Fpu α) (G : Gen ρ α) (S0 R sigma T0 T : Dbl α)
    (paths steps : Int) (seed : Nat) (h : Host) : Dbl α × Host :=
  SAFE_DOUBLE "opt_lb_call_price_mc"
    (match Fp.makeLookbackCall M S0 R sigma T0 T with
      | .error e => .error e
      | .ok o =>
        match Fp.priceMC M G o paths steps seed false with
        | .error e => .error e
        | .ok stats => .ok stats.estimate) h

/-- The export `opt_lb_call_delta_mc`, over rounded arithmetic (`deltaMC` is called with its
default bump). -/
def Fp.opt_lb_call_delta_mc {ρ : Type} (M : Fpu α) (G : Gen ρ α) (S0 R sigma T0 T : Dbl α)
    (paths steps : Int) (seed : Nat) (h : Host) : Dbl α × Host :=
  SAFE_DOUBLE "opt_lb_call_delta_mc"
    (match Fp.makeLookbackCall M S0 R sigma T0 T with
      | .error e => .error e
      | .ok o =>
        match Fp.deltaMC M G o paths steps seed false (Fp.deltaRelEps M) with
        | .error e => .error e
        | .ok stats => .ok stats.estimate) h

/-- The export `opt_lb_call_gamma_mc`, over rounded arithmetic (`gammaMC` is called with its
default bump). -/
def Fp.opt_lb_call_gamma_mc {ρ : Type} (M : Fpu α) (G : Gen ρ α) (S0 R sigma T0 T : Dbl α)
    (paths steps : Int) (seed : Nat) (h : Host) : Dbl α × Host :=
  SAFE_DOUBLE "opt_lb_call_gamma_mc"
    (match Fp.makeLookbackCall M S0 R sigma T0 T with
      | .error e => .error e
      | .ok o =>
        match Fp.gammaMC M G o paths steps seed false (Fp.gammaRelEps M) with
        | .error e => .error e
        | .ok stats => .ok stats.estimate) h

/-- The export `opt_lb_call_theta_mc`, over rounded arithmetic (`thetaMC` is called with its
default bump). -/
def Fp.opt_lb_call_theta_mc {ρ : Type} (M : Fpu α) (G : Gen ρ α) (S0 R sigma T0 T : Dbl α)
    (paths steps : Int) (seed : Nat) (h : Host) : Dbl α × Host :=
  SAFE_DOUBLE "opt_lb_call_theta_mc"
    (match Fp.makeLookbackCall M S0 R sigma T0 T with
      | .error e => .error e
      | .ok o =>
        match Fp.thetaMC M G o paths steps seed false (Fp.thetaEps M) with
        | .error e => .error e
        | .ok stats => .ok stats.estimate) h

/-- The export `opt_lb_call_rho_mc`, over rounded arithmetic (`rhoMC` is called with its
default bump). -/
def Fp.opt_lb_call_rho_mc {ρ : Type} (M : Fpu α) (G : Gen ρ α) (S0 R sigma T0 T : Dbl α)
    (paths steps : Int) (seed : Nat) (h : Host) : Dbl α × Host :=
  SAFE_DOUBLE "opt_lb_call_rho_mc"
    (match Fp.makeLookbackCall M S0 R sigma T0 T with
      | .error e => .error e
      | .ok o =>
        match Fp.rhoMC M G o paths steps seed false (Fp.rhoEps M) with
        | .error e => .error e
        | .ok stats => .ok stats.estimate) h

/-- The export `opt_lb_call_vega_mc`, over rounded arithmetic (`vegaMC` is called with its
default bump). -/
def Fp.opt_lb_call_vega_mc {ρ : Type} (M : Fpu α) (G : Gen ρ α) (S0 R sigma T0 T : Dbl α)
    (paths steps : Int) (seed : Nat) (h : Host) : Dbl α × Host :=
  SAFE_DOUBLE "opt_lb_call_vega_mc"
    (match Fp.makeLookbackCall M S0 R sigma T0 T with
      | .error e => .error e
      | .ok o =>
        match Fp.vegaMC M G o paths steps seed false (Fp.vegaEps M) with
        | .error e => .error e
        | .ok stats => .ok stats.estimate) h

/-- The rounding of the quotient `num / den` of two naturals (`den > 0`) to the nearest
natural, ties to even. -/
def roundHalfEven (num den : Nat) : Nat :=
  let q := num / den
  let r := num % den
  if 2 * r < den then q else if den < 2 * r then q + 1 else if q % 2 = 0 then q else q + 1

/-- The number of binary digits of `n`, computed with `fuel` halvings at most. -/
def bitLength : Nat → Nat → Nat
  | 0, _ => 0
  | fuel + 1, n => if n = 0 then 0 else bitLength fuel (n / 2) + 1

/-- The binary exponent of the positive rational `n / d`: the integer `e` with
`2^e <= n / d < 2^(e+1)`. -/
def binExponent (n d : Nat) : Int :=
  let e0 : Int := (bitLength n n : Int) - (bitLength d d : Int)
  if 0 ≤ e0 then (if d * 2 ^ e0.toNat ≤ n then e0 else e0 - 1)
  else (if d ≤ n * 2 ^ (-e0).toNat then e0 else e0 - 1)

/-- The power `2^s` of an integer exponent, as a rational. -/
def pow2 (s : Int) : ℚ :=
  if 0 ≤ s then ((2 ^ s.toNat : Nat) : ℚ) else 1 / ((2 ^ (-s).toNat : Nat) : ℚ)

/-- The IEEE-754 binary64 rounding (to nearest, ties to even) of a rational: 53 significant
bits, exponents from `-1022` (subnormals below, in multiples of `2^-1074`) to `1023`, and
`±∞` when the rounded magnitude reaches `2^1024`. -/
def binary64 (q : ℚ) : Dbl ℚ :=
  if q = 0 then Dbl.fin 0
  else
    let n := q.num.natAbs
    let d := q.den
    let e := binExponent n d
    let s : Int := if e < -1022 then -1074 else e - 52
    let m := if 0 ≤ s then roundHalfEven n (d * 2 ^ s.toNat)
      else roundHalfEven (n * 2 ^ (-s).toNat) d
    if 971 < s ∨ (s = 971 ∧ 2 ^ 53 ≤ m) then (if q < 0 then Dbl.ninf else Dbl.pinf)
    else if q < 0 then Dbl.fin (-((m : ℚ) * pow2 s)) else Dbl.fin ((m : ℚ) * pow2 s)

/-- The value of a library function given by a table of its values at the arguments that a
computation reaches (`NaN` elsewhere). -/
def tabulated (t : List (ℚ × Dbl ℚ)) (x : ℚ) : Dbl ℚ :=
  match t.find? (fun p => decide (p.1 = x)) with
  | some p => p.2
  | none => Dbl.nan

/-- The IEEE-754 binary64 arithmetic, with the library functions `std::exp`, `std::sqrt`,
`std::log` given by tables of their values. -/
def Fpu.ieee (expT sqrtT logT : List (ℚ × Dbl ℚ)) : Fpu ℚ :=
  { rnd := binary64, exp := tabulated expT, sqrt := tabulated sqrtT, log := tabulated logT }

/-- The properties of a double-precision arithmetic on which the results that hold for every
rounding rest: zero is rounded to zero, rounding changes no sign, `std::exp` returns no negative
value, and `std::sqrt` returns `0` at `0` and no negative value. -/
def Fpu.Sound (M : Fpu α) : Prop :=
  M.rnd 0 = Dbl.fin 0 ∧
  (∀ x, 0 ≤ x → Dbl.lt (M.rnd x) (Dbl.fin 0) = false) ∧
  (∀ x, x ≤ 0 → Dbl.lt (Dbl.fin 0) (M.rnd x) = false) ∧
  (∀ x, Dbl.lt (M.exp x) (Dbl.fin 0) = false) ∧
  M.sqrt 0 = Dbl.fin 0 ∧
  (∀ x, 0 ≤ x → Dbl.lt (M.sqrt x) (Dbl.fin 0) = false)

/-- The values of `std::exp` (correctly rounded, with overflow to `+∞` and underflow to `0`) at
the arguments that the evaluations below reach. -/
def expValues : List (ℚ × Dbl ℚ) :=
  [((-1000), Dbl.fin (0)),
    ((-1128984564121645) / 18014398509481984, Dbl.fin (2115007969909391 / 2251799813685248)),
    ((-4510805386774289) / 72057594037927936, Dbl.fin (4230317266754779 / 4503599627370496)),
    ((-1) / 16, Dbl.fin (2115370159816873 / 2251799813685248)),
    ((-4496393867966703) / 72057594037927936, Dbl.fin (1057790853705029 / 1125899906842624)),
    ((-8982521996508825) / 144115188075855872, Dbl.fin (8462929646993939 / 9007199254740992)),
    (0, Dbl.fin (1)),
    (7494951579368397 / 72057594037927936, Dbl.fin (4997262896550495 / 4503599627370496)),
    (2529131865552493 / 9007199254740992, Dbl.fin (745444566866603 / 562949953421312)),
    (5058833706237973 / 18014398509481984, Dbl.fin (5963745224702357 / 4503599627370496)),
    (1266187035235215 / 4503599627370496, Dbl.fin (2982851772786681 / 2251799813685248)),
    (1266299602707901 / 4503599627370496, Dbl.fin (1491463165049259 / 1125899906842624)),
    (9 / 32, Dbl.fin (5966300145757431 / 4503599627370496)),
    (2533950285304013 / 9007199254740992, Dbl.fin (186460862662977 / 140737488355328)),
    (1267087755160689 / 4503599627370496, Dbl.fin (2983448402802251 / 2251799813685248)),
    (2537128502104993 / 9007199254740992, Dbl.fin (746106670147605 / 562949953421312)),
    (149316559182721 / 281474976710656, Dbl.fin (3827488316102157 / 2251799813685248)),
    (597937287396947 / 1125899906842624, Dbl.fin (7659540455562635 / 4503599627370496)),
    (2392086942077839 / 4503599627370496, Dbl.fin (7660114980940373 / 4503599627370496)),
    (17 / 32, Dbl.fin (7660881030740319 / 4503599627370496)),
    (2392987662003313 / 4503599627370496, Dbl.fin (7661647157149075 / 4503599627370496)),
    (4786650818914735 / 9007199254740992, Dbl.fin (7662221763923673 / 4503599627370496)),
    (4792010863179575 / 9007199254740992, Dbl.fin (3833391394976933 / 2251799813685248)),
    (4664755002480667 / 1125899906842624, Dbl.fin (8866461766385663 / 140737488355328)),
    (1000, Dbl.pinf)]

/-- The values of `std::sqrt` (correctly rounded) at the arguments that the evaluations below
reach. -/
def sqrtValues : List (ℚ × Dbl ℚ) :=
  [(0, Dbl.fin (0)),
    (1 / 2, Dbl.fin (6369051672525773 / 9007199254740992)),
    (8982521996508825 / 9007199254740992, Dbl.fin (8994852162912343 / 9007199254740992)),
    (1, Dbl.fin (1)),
    (1128984564121645 / 1125899906842624, Dbl.fin (1127441180537291 / 1125899906842624))]

/-- The values of `std::log` (correctly rounded) at the arguments that the evaluations below
reach. -/
def logValues : List (ℚ × Dbl ℚ) :=
  [(1 / 2, Dbl.fin ((-6243314768165359) / 9007199254740992)),
    (63, Dbl.fin (4664755002480667 / 1125899906842624))]

/-- The IEEE-754 binary64 arithmetic with the library values `expValues`, `sqrtValues`,
`logValues`. -/
def ieeeDouble : Fpu ℚ := Fpu.ieee expValues sqrtValues logValues

/-! ## Properties -/

section Properties

variable {α : Type} [LinearOrderedField α]

/-! ### Arithmetic of finite doubles -/

@[simp] theorem Dbl.fin_add_fin (a b : α) : (Dbl.fin a + Dbl.fin b : Dbl α) = Dbl.fin (a + b) :=
  rfl

@[simp] theorem Dbl.fin_sub_fin (a b : α) : (Dbl.fin a - Dbl.fin b : Dbl α) = Dbl.fin (a - b) := by
  show Dbl.add (Dbl.fin a) (Dbl.neg (Dbl.fin b)) = _
  simp [Dbl.add, Dbl.neg, sub_eq_add_neg]

@[simp] theorem Dbl.fin_mul_fin (a b : α) : (Dbl.fin a * Dbl.fin b : Dbl α) = Dbl.fin (a * b) :=
  rfl

@[simp] theorem Dbl.neg_fin (a : α) : (-(Dbl.fin a) : Dbl α) = Dbl.fin (-a) :=
  rfl

theorem Dbl.fin_div_fin (a b : α) (hb : b ≠ 0) :
    (Dbl.fin a / Dbl.fin b : Dbl α) = Dbl.fin (a / b) := by
  show Dbl.div (Dbl.fin a) (Dbl.fin b) = _
  simp [Dbl.div, hb]

theorem Dbl.isfinite_iff (x : Dbl α) : x.isfinite = true ↔ ∃ a, x = Dbl.fin a := by
  cases x <;> simp [Dbl.isfinite]

/-! ### Construction (C1) -/

/-- The constructor runs the four checks of `validate` in order and otherwise stores the
arguments. -/
theorem Option.Option_eq (S0 R sigma T0 T : Dbl α) :
    Option.Option S0 R sigma T0 T =
      if Dbl.gt S0 (Dbl.fin 0) = false then
        .error (Err.invalid_argument "S0 doit être strictement positif.")
      else if Dbl.ge sigma (Dbl.fin 0) = false then
        .error (Err.invalid_argument "sigma doit être >= 0.")
      else if Dbl.gt T T0 = false then
        .error (Err.invalid_argument "Il faut T > T0 (maturité strictement après T0).")
      else if (S0.isfinite && R.isfinite && sigma.isfinite && T0.isfinite && T.isfinite)
          = false then
        .error (Err.invalid_argument "Paramètres non finis (NaN/Inf) interdits.")
      else .ok ⟨S0, R, sigma, T0, T⟩ := by
  simp only [Option.Option, Option.validate]
  by_cases h1 : Dbl.gt S0 (Dbl.fin 0) = false
  · simp [h1]
  by_cases h2 : Dbl.ge sigma (Dbl.fin 0) = false
  · simp [h1, h2]
  by_cases h3 : Dbl.gt T T0 = false
  · simp [h1, h2, h3]
  by_cases h4 : (S0.isfinite && R.isfinite && sigma.isfinite && T0.isfinite && T.isfinite) = false
  · simp only [Bool.not_eq_false] at h1 h2 h3
    simp [h1, h2, h3, h4]
  · simp only [Bool.not_eq_false] at h1 h2 h3 h4
    simp [h1, h2, h3, h4]; rfl

/-- The four rejection conditions, read on the values, are the failure of one of the four
checks of `validate`. -/
theorem Option.invalid_iff (S0 R sigma T0 T : Dbl α) :
    (Dbl.le S0 (Dbl.fin 0) = true ∨ Dbl.lt sigma (Dbl.fin 0) = true ∨ Dbl.le T T0 = true ∨
        ¬ (S0.isfinite = true ∧ R.isfinite = true ∧ sigma.isfinite = true ∧
            T0.isfinite = true ∧ T.isfinite = true)) ↔
      (Dbl.gt S0 (Dbl.fin 0) = false ∨ Dbl.ge sigma (Dbl.fin 0) = false ∨
        Dbl.gt T T0 = false ∨
        (S0.isfinite && R.isfinite && sigma.isfinite && T0.isfinite && T.isfinite) = false) := by
  by_cases hf : S0.isfinite = true ∧ R.isfinite = true ∧ sigma.isfinite = true ∧
            T0.isfinite = true ∧ T.isfinite = true
  · obtain ⟨h1, h2, h3, h4, h5⟩ := hf
    obtain ⟨a, rfl⟩ := (Dbl.isfinite_iff _).1 h1
    obtain ⟨b, rfl⟩ := (Dbl.isfinite_iff _).1 h2
    obtain ⟨c, rfl⟩ := (Dbl.isfinite_iff _).1 h3
    obtain ⟨d, rfl⟩ := (Dbl.isfinite_iff _).1 h4
    obtain ⟨e, rfl⟩ := (Dbl.isfinite_iff _).1 h5
    simp [Dbl.le, Dbl.lt, Dbl.gt, Dbl.ge, Dbl.isfinite]
  · have h : (S0.isfinite && R.isfinite && sigma.isfinite && T0.isfinite && T.isfinite)
        = false := by
      by_contra hc
      simp only [Bool.not_eq_false, Bool.and_eq_true] at hc
      exact hf ⟨hc.1.1.1.1, hc.1.1.1.2, hc.1.1.2, hc.1.2, hc.2⟩
    constructor
    · intro _; exact Or.inr (Or.inr (Or.inr h))
    · intro _; exact Or.inr (Or.inr (Or.inr hf))

/-- Claim C1: constructing an option (the `Option` constructor, and the `Asian` constructor
through it) raises an invalid-argument error if and only if the spot is at most zero, or the
volatility is negative, or the maturity is at most the valuation time, or one of the five
parameters is not finite; for every other tuple the construction succeeds and the five
accessors return the arguments unchanged. -/
theorem Option.Option_raises_iff (S0 R sigma T0 T : Dbl α)
    (payoff : Dbl α → Dbl α → Except Err (Dbl α))
    (aggregator : Dbl α → Dbl α → Dbl α → Dbl α) :
    ((∃ msg, Option.Option S0 R sigma T0 T = .error (Err.invalid_argument msg)) ↔
      (Dbl.le S0 (Dbl.fin 0) = true ∨ Dbl.lt sigma (Dbl.fin 0) = true ∨ Dbl.le T T0 = true ∨
        ¬ (S0.isfinite = true ∧ R.isfinite = true ∧ sigma.isfinite = true ∧
            T0.isfinite = true ∧ T.isfinite = true)))
    ∧ ((∃ msg, Asian.Asian S0 R sigma T0 T payoff aggregator =
          .error (Err.invalid_argument msg)) ↔
      (Dbl.le S0 (Dbl.fin 0) = true ∨ Dbl.lt sigma (Dbl.fin 0) = true ∨ Dbl.le T T0 = true ∨
        ¬ (S0.isfinite = true ∧ R.isfinite = true ∧ sigma.isfinite = true ∧
            T0.isfinite = true ∧ T.isfinite = true)))
    ∧ (¬ (Dbl.le S0 (Dbl.fin 0) = true ∨ Dbl.lt sigma (Dbl.fin 0) = true ∨
          Dbl.le T T0 = true ∨
          ¬ (S0.isfinite = true ∧ R.isfinite = true ∧ sigma.isfinite = true ∧
            T0.isfinite = true ∧ T.isfinite = true)) →
        (∃ o, Option.Option S0 R sigma T0 T = .ok o ∧
          o.S0 = S0 ∧ o.R = R ∧ o.sigma = sigma ∧ o.T0 = T0 ∧ o.T = T) ∧
        (∃ a, Asian.Asian S0 R sigma T0 T payoff aggregator = .ok a ∧
          a.S0 = S0 ∧ a.R = R ∧ a.sigma = sigma ∧ a.T0 = T0 ∧ a.T = T)) := by
  rw [Option.invalid_iff]
  unfold Asian.Asian
  rw [Option.Option_eq]
  by_cases h1 : Dbl.gt S0 (Dbl.fin 0) = false
  · simp [h1]
  by_cases h2 : Dbl.ge sigma (Dbl.fin 0) = false
  · simp [h1, h2]
  by_cases h3 : Dbl.gt T T0 = false
  · simp [h1, h2, h3]
  by_cases h4 : (S0.isfinite && R.isfinite && sigma.isfinite && T0.isfinite && T.isfinite) = false
  · simp [h1, h2, h3, h4]
  · simp [h1, h2, h3, h4, Option.S0, Option.R, Option.sigma, Option.T0, Option.T]

/-! ### Argument checks of the estimators (C2, C3) -/

/-- The message of the argument check of `runMC` that fails first. -/
theorem Asian.runMC_guard {ρ : Type} (L : Libm α) (G : Gen ρ α) (paths steps : Int) (seed : Nat)
    (antithetic : Bool) (sampleFn : List (Dbl α) → Bool → Except Err (Dbl α))
    (h : paths ≤ 0 ∨ steps ≤ 0) :
    Asian.runMC L G paths steps seed antithetic sampleFn =
      .error (Err.invalid_argument
        (if paths ≤ 0 then "paths doit être > 0." else "steps doit être > 0.")) := by
  unfold Asian.runMC
  by_cases hp : paths ≤ 0
  · simp [hp]
  · have hs : steps ≤ 0 := h.resolve_left hp
    simp [hp, hs]

/-- Claim C2: when `paths <= 0` or `steps <= 0`, `priceMC`, `deltaMC`, `gammaMC`, `rhoMC`,
`vegaMC`, and `thetaMC` with an admissible bump, raise the invalid-argument error of the first
failing check of `runMC`, whatever the generator, the payoff, the aggregator and the sample
function are: the kernel fails before a draw is made or a sample is evaluated. -/
theorem Asian.estimators_reject_bad_counts {ρ : Type} (L : Libm α) (G : Gen ρ α)
    (self : opt.Asian α) (paths steps : Int) (seed : Nat) (antithetic : Bool)
    (relEps eps : Dbl α) (h : paths ≤ 0 ∨ steps ≤ 0) :
    (∀ sampleFn, Asian.runMC L G paths steps seed antithetic sampleFn =
        .error (Err.invalid_argument
          (if paths ≤ 0 then "paths doit être > 0." else "steps doit être > 0."))) ∧
    Asian.priceMC L G self paths steps seed antithetic =
        .error (Err.invalid_argument
          (if paths ≤ 0 then "paths doit être > 0." else "steps doit être > 0.")) ∧
    Asian.deltaMC L G self paths steps seed antithetic relEps =
        .error (Err.invalid_argument
          (if paths ≤ 0 then "paths doit être > 0." else "steps doit être > 0.")) ∧
    Asian.gammaMC L G self paths steps seed antithetic relEps =
        .error (Err.invalid_argument
          (if paths ≤ 0 then "paths doit être > 0." else "steps doit être > 0.")) ∧
    Asian.rhoMC L G self paths steps seed antithetic eps =
        .error (Err.invalid_argument
          (if paths ≤ 0 then "paths doit être > 0." else "steps doit être > 0.")) ∧
    Asian.vegaMC L G self paths steps seed antithetic eps =
        .error (Err.invalid_argument
          (if paths ≤ 0 then "paths doit être > 0." else "steps doit être > 0.")) ∧
    (Dbl.lt (self.T0_ + eps) self.T_ = true → Dbl.lt (self.T0_ - eps) self.T_ = true →
      Asian.thetaMC L G self paths steps seed antithetic eps =
        .error (Err.invalid_argument
          (if paths ≤ 0 then "paths doit être > 0." else "steps doit être > 0."))) := by
  refine ⟨fun sampleFn => Asian.runMC_guard L G _ _ _ _ sampleFn h, ?_, ?_, ?_, ?_, ?_, ?_⟩
  · exact Asian.runMC_guard L G _ _ _ _ _ h
  · exact Asian.runMC_guard L G _ _ _ _ _ h
  · exact Asian.runMC_guard L G _ _ _ _ _ h
  · exact Asian.runMC_guard L G _ _ _ _ _ h
  · exact Asian.runMC_guard L G _ _ _ _ _ h
  · intro h1 h2
    unfold Asian.thetaMC
    simp only [h1, h2, Bool.and_self, Bool.not_true, Bool.false_eq_true, if_false]
    exact Asian.runMC_guard L G _ _ _ _ _ h



/-! ### The lookback samples never raise -/

theorem Dbl.notNeg_fin {a : α} : (Dbl.fin a).notNeg ↔ 0 ≤ a := by
  simp [Dbl.notNeg, Dbl.lt]

theorem Dbl.notNeg_exp (L : Libm α) (hexp : ∀ x, 0 ≤ L.exp x) (x : Dbl α) :
    (Dbl.exp L x).notNeg := by
  cases x <;> simp [Dbl.exp, Dbl.notNeg, Dbl.lt, hexp]

theorem Dbl.notNeg_mulInf {a : α} (ha : 0 ≤ a) : (Dbl.mulInf a).notNeg := by
  unfold Dbl.mulInf
  split_ifs with h1 h2
  · simp [Dbl.notNeg, Dbl.lt]
  · exact absurd ha (not_le.2 h2)
  · simp [Dbl.notNeg, Dbl.lt]

theorem Dbl.notNeg_mul {a b : Dbl α} (ha : a.notNeg) (hb : b.notNeg) : (a * b).notNeg := by
  show (Dbl.mul a b).notNeg
  cases a <;> cases b <;>
    first
    | (simp only [Dbl.mul]; exact Dbl.notNeg_mulInf (Dbl.notNeg_fin.1 (by assumption)))
    | (simp only [Dbl.notNeg_fin, Dbl.mul] at *; positivity)
    | simp_all [Dbl.mul, Dbl.notNeg, Dbl.lt]

theorem Dbl.notNeg_min {a b : Dbl α} (ha : a.notNeg) (hb : b.notNeg) : (Dbl.min a b).notNeg := by
  unfold Dbl.min; split_ifs <;> assumption

theorem Dbl.notNeg_max {a b : Dbl α} (ha : a.notNeg) (hb : b.notNeg) : (Dbl.max a b).notNeg := by
  unfold Dbl.max; split_ifs <;> assumption

/-- Along the path loop, the price and the aggregate stay not below zero when the aggregator
keeps them so. -/
theorem Asian.pathLoop_notNeg (L : Libm α) (hexp : ∀ x, 0 ≤ L.exp x) (self : opt.Asian α)
    (hagg : ∀ a p s : Dbl α, a.notNeg → p.notNeg → (self.aggregator_ a p s).notNeg)
    (R sigma dt : Dbl α) (Zs : List (Dbl α)) (flip : Bool) (js : List Nat)
    (p : Dbl α × Dbl α) (hp : p.1.notNeg ∧ p.2.notNeg) :
    ((js.foldl (Asian.pathStep L self R sigma dt Zs flip) p).1.notNeg ∧
      (js.foldl (Asian.pathStep L self R sigma dt Zs flip) p).2.notNeg) := by
  induction js generalizing p with
  | nil => simpa using hp
  | cons j js ih =>
    rw [List.foldl_cons]
    apply ih
    have h1 : (Asian.pathStep L self R sigma dt Zs flip p j).1.notNeg :=
      Dbl.notNeg_mul hp.1 (Dbl.notNeg_exp L hexp _)
    exact ⟨h1, hagg _ _ _ hp.2 h1⟩


/-- A sample of an option with the call payoff never raises when the spot is not below zero
and the aggregator keeps values not below zero. -/
theorem Asian.discountedPayoffFromZ_ok (L : Libm α) (hexp : ∀ x, 0 ≤ L.exp x)
    (self : opt.Asian α)
    (hpay : ∀ S K : Dbl α, K.notNeg → ∃ v, self.payoff_ S K = .ok v)
    (hagg : ∀ a p s : Dbl α, a.notNeg → p.notNeg → (self.aggregator_ a p s).notNeg)
    (S0 R sigma T0 T : Dbl α) (hS0 : S0.notNeg) (steps : Int) (Zs : List (Dbl α))
    (flip : Bool) :
    ∃ v, Asian.discountedPayoffFromZ L self S0 R sigma T0 T steps Zs flip = .ok v := by
  have h := Asian.pathLoop_notNeg L hexp self hagg R sigma ((T - T0) / Dbl.ofInt steps) Zs flip
    (List.range steps.toNat) (S0, S0) ⟨hS0, hS0⟩
  obtain ⟨v, hv⟩ := hpay (List.foldl (Asian.pathStep L self R sigma
    ((T - T0) / Dbl.ofInt steps) Zs flip) (S0, S0) (List.range steps.toNat)).1 _ h.2
  simp only [Asian.discountedPayoffFromZ, hv]
  exact ⟨_, rfl⟩

theorem PayoffCall_ok (S K : Dbl α) (hK : K.notNeg) :
    ∃ v, PayoffCall S K = .ok v := by
  unfold Dbl.notNeg at hK
  exact ⟨_, by simp [PayoffCall, hK]; rfl⟩

theorem PayoffPut_ok (S K : Dbl α) (hK : K.notNeg) :
    ∃ v, PayoffPut S K = .ok v := by
  unfold Dbl.notNeg at hK
  exact ⟨_, by simp [PayoffPut, hK]; rfl⟩

/-- The plain loop returns when the sample function does. -/
theorem Asian.plainLoop_ok {ρ : Type} (G : Gen ρ α) (steps : Int)
    (sampleFn : List (Dbl α) → Bool → Except Err (Dbl α))
    (hf : ∀ Zs b, ∃ v, sampleFn Zs b = .ok v) (n : Nat) (rng : ρ) (st : RunningStats α) :
    ∃ st', Asian.plainLoop G steps sampleFn n rng st = .ok st' ∧ st'.m = st.m + n := by
  induction n generalizing rng st with
  | zero => exact ⟨st, rfl, by simp⟩
  | succ n ih =>
    obtain ⟨v, hv⟩ := hf (Asian.drawZs G steps.toNat rng).1 false
    obtain ⟨st', h1, h2⟩ := ih (Asian.drawZs G steps.toNat rng).2 (Asian.pushSample st v)
    refine ⟨st', ?_, ?_⟩
    · simp only [Asian.plainLoop, hv]; exact h1
    · rw [h2]; simp [Asian.pushSample]; ring

/-- The antithetic loop returns when the sample function does. -/
theorem Asian.antitheticLoop_ok {ρ : Type} (G : Gen ρ α) (steps : Int)
    (sampleFn : List (Dbl α) → Bool → Except Err (Dbl α))
    (hf : ∀ Zs b, ∃ v, sampleFn Zs b = .ok v) (n : Nat) (rng : ρ) (st : RunningStats α) :
    ∃ st', Asian.antitheticLoop G steps sampleFn n rng st = .ok st' ∧ st'.m = st.m + n := by
  induction n generalizing rng st with
  | zero => exact ⟨st, rfl, by simp⟩
  | succ n ih =>
    obtain ⟨v1, hv1⟩ := hf (Asian.drawZs G steps.toNat rng).1 false
    obtain ⟨v2, hv2⟩ := hf (Asian.drawZs G steps.toNat rng).1 true
    obtain ⟨st', h1, h2⟩ := ih (Asian.drawZs G steps.toNat rng).2
      (Asian.pushSample st (Dbl.fin 0.5 * (v1 + v2)))
    refine ⟨st', ?_, ?_⟩
    · simp only [Asian.antitheticLoop, hv1, hv2]; exact h1
    · rw [h2]; simp [Asian.pushSample]; ring

/-- With valid counts, `runMC` returns when the sample function does. -/
theorem Asian.runMC_ok {ρ : Type} (L : Libm α) (G : Gen ρ α) (paths steps : Int) (seed : Nat)
    (antithetic : Bool) (sampleFn : List (Dbl α) → Bool → Except Err (Dbl α))
    (hf : ∀ Zs b, ∃ v, sampleFn Zs b = .ok v) (hp : 0 < paths) (hs : 0 < steps) :
    ∃ stats, Asian.runMC L G paths steps seed antithetic sampleFn = .ok stats := by
  unfold Asian.runMC
  simp only [not_le.2 hp, not_le.2 hs, if_false]
  cases antithetic with
  | true =>
    obtain ⟨st', h1, _⟩ := Asian.antitheticLoop_ok G steps sampleFn hf
      (Int.tdiv (wrap32 (paths + 1)) 2).toNat (G.seed seed) ⟨0, Dbl.fin 0, Dbl.fin 0⟩
    simp only [if_true, h1]
    exact ⟨_, rfl⟩
  | false =>
    obtain ⟨st', h1, _⟩ := Asian.plainLoop_ok G steps sampleFn hf
      paths.toNat (G.seed seed) ⟨0, Dbl.fin 0, Dbl.fin 0⟩
    simp only [Bool.false_eq_true, if_false, h1]
    exact ⟨_, rfl⟩

/-- What a successful construction says about the arguments. -/
theorem Option.Option_ok {S0 R sigma T0 T : Dbl α} {o : opt.Option α}
    (h : Option.Option S0 R sigma T0 T = .ok o) :
    o = ⟨S0, R, sigma, T0, T⟩ ∧
      ∃ s0 r sg t0 t : α, S0 = Dbl.fin s0 ∧ R = Dbl.fin r ∧ sigma = Dbl.fin sg ∧
        T0 = Dbl.fin t0 ∧ T = Dbl.fin t ∧ 0 < s0 ∧ 0 ≤ sg ∧ t0 < t := by
  rw [Option.Option_eq] at h
  split_ifs at h with h1 h2 h3 h4
  simp only [Bool.not_eq_false, Bool.and_eq_true] at h1 h2 h3 h4
  obtain ⟨⟨⟨⟨f1, f2⟩, f3⟩, f4⟩, f5⟩ := h4
  obtain ⟨s0, rfl⟩ := (Dbl.isfinite_iff _).1 f1
  obtain ⟨r, rfl⟩ := (Dbl.isfinite_iff _).1 f2
  obtain ⟨sg, rfl⟩ := (Dbl.isfinite_iff _).1 f3
  obtain ⟨t0, rfl⟩ := (Dbl.isfinite_iff _).1 f4
  obtain ⟨t, rfl⟩ := (Dbl.isfinite_iff _).1 f5
  refine ⟨(Except.ok.inj h).symm, s0, r, sg, t0, t, rfl, rfl, rfl, rfl, rfl, ?_, ?_, ?_⟩
  · simpa [Dbl.gt, Dbl.lt] using h1
  · simpa [Dbl.ge, Dbl.le] using h2
  · simpa [Dbl.gt, Dbl.lt] using h3

/-- What a successful `Asian` construction says about the arguments. -/
theorem Asian.Asian_ok {S0 R sigma T0 T : Dbl α} {pay : Dbl α → Dbl α → Except Err (Dbl α)}
    {agg : Dbl α → Dbl α → Dbl α → Dbl α} {self : opt.Asian α}
    (h : Asian.Asian S0 R sigma T0 T pay agg = .ok self) :
    self = ⟨⟨S0, R, sigma, T0, T⟩, pay, agg⟩ ∧
      ∃ s0 r sg t0 t : α, S0 = Dbl.fin s0 ∧ R = Dbl.fin r ∧ sigma = Dbl.fin sg ∧
        T0 = Dbl.fin t0 ∧ T = Dbl.fin t ∧ 0 < s0 ∧ 0 ≤ sg ∧ t0 < t := by
  unfold Asian.Asian at h
  cases ho : Option.Option S0 R sigma T0 T with
  | error e => rw [ho] at h; cases h
  | ok o =>
    rw [ho] at h
    obtain ⟨h1, h2⟩ := Option.Option_ok ho
    refine ⟨?_, h2⟩
    rw [← Except.ok.inj h, h1]

/-- The Scenario 1 call is what `makeLookbackCall` returns on the Scenario 1 parameters. -/
theorem makeLookbackCall_scenario :
    makeLookbackCall (Dbl.fin 100) (Dbl.fin 0.05) (Dbl.fin 0.2) (Dbl.fin 0) (Dbl.fin 1)
      = .ok (scenarioCall : Asian α) := by
  unfold makeLookbackCall Asian.Asian
  rw [Option.Option_eq]
  norm_num [Dbl.gt, Dbl.ge, Dbl.lt, Dbl.le, Dbl.isfinite, scenarioCall]

/-- Witness of claim C2 on the Scenario 1 call with `paths = 0`. -/
theorem Asian.estimators_reject_bad_counts_witness :
    ((0 : Int) ≤ 0 ∨ (50 : Int) ≤ 0) ∧
    Asian.priceMC (⟨Real.exp, Real.sqrt, Real.log⟩ : Libm ℝ) (Gen.const 0 (1 / 2))
        scenarioCall 0 50 42 false =
      .error (Err.invalid_argument "paths doit être > 0.") ∧
    Asian.deltaMC (⟨Real.exp, Real.sqrt, Real.log⟩ : Libm ℝ) (Gen.const 0 (1 / 2))
        scenarioCall 0 50 42 false (Dbl.fin 1e-4) =
      .error (Err.invalid_argument "paths doit être > 0.") :=
  ⟨Or.inl le_rfl,
    by simpa using (Asian.estimators_reject_bad_counts (⟨Real.exp, Real.sqrt, Real.log⟩ : Libm ℝ)
      (Gen.const 0 (1 / 2)) scenarioCall 0 50 42 false (Dbl.fin 1e-4) (Dbl.fin 1e-4)
      (Or.inl le_rfl)).2.1,
    by simpa using (Asian.estimators_reject_bad_counts (⟨Real.exp, Real.sqrt, Real.log⟩ : Libm ℝ)
      (Gen.const 0 (1 / 2)) scenarioCall 0 50 42 false (Dbl.fin 1e-4) (Dbl.fin 1e-4)
      (Or.inl le_rfl)).2.2.1⟩

theorem meanOf_mul_length (xs : List α) : meanOf xs * (xs.length : α) = xs.sum := by
  unfold meanOf
  cases xs with
  | nil => simp
  | cons x xs =>
    have h : ((x :: xs).length : α) ≠ 0 := by
      simp only [List.length_cons, Nat.cast_add, Nat.cast_one]
      positivity
    field_simp

theorem sum_map_sq_sub (xs : List α) (c : α) :
    (xs.map (fun x => (x - c) ^ 2)).sum =
      (xs.map (fun x => x ^ 2)).sum - 2 * c * xs.sum + (xs.length : α) * c ^ 2 := by
  induction xs with
  | nil => simp
  | cons x xs ih =>
    simp only [List.map_cons, List.sum_cons, List.length_cons, Nat.cast_add, Nat.cast_one, ih]
    ring

theorem sumSqDev_eq (xs : List α) :
    sumSqDev xs = (xs.map (fun x => x ^ 2)).sum - (xs.length : α) * meanOf xs ^ 2 := by
  unfold sumSqDev
  rw [sum_map_sq_sub, ← meanOf_mul_length xs]
  ring

theorem sumSqDev_nonneg (xs : List α) : 0 ≤ sumSqDev xs := by
  unfold sumSqDev
  apply List.sum_nonneg
  intro y hy
  obtain ⟨x, _, rfl⟩ := List.mem_map.1 hy
  positivity

theorem meanOf_append_singleton (xs : List α) (x : α) :
    meanOf (xs ++ [x]) = meanOf xs + (x - meanOf xs) / ((xs.length : α) + 1) := by
  have h1 : ((xs.length : α) + 1) ≠ 0 := by positivity
  have h2 := meanOf_mul_length xs
  have h3 : meanOf (xs ++ [x]) = (xs.sum + x) / ((xs.length : α) + 1) := by
    simp [meanOf]
  rw [h3, ← h2]
  field_simp
  ring

theorem sumSqDev_append_singleton (xs : List α) (x : α) :
    sumSqDev (xs ++ [x]) =
      sumSqDev xs + (x - meanOf xs) * (x - meanOf (xs ++ [x])) := by
  have h1 : ((xs.length : α) + 1) ≠ 0 := by positivity
  rw [sumSqDev_eq, sumSqDev_eq, meanOf_append_singleton]
  simp only [List.map_append, List.sum_append, List.map_cons, List.map_nil, List.sum_cons,
    List.sum_nil, List.length_append, List.length_singleton, Nat.cast_add, Nat.cast_one]
  field_simp
  ring

/-- One push of a finite sample onto a finite state with a non-negative count. -/
theorem Asian.pushSample_fin (n : Nat) (mean M2 x : α) :
    Asian.pushSample ⟨(n : Int), Dbl.fin mean, Dbl.fin M2⟩ (Dbl.fin x) =
      ⟨((n + 1 : Nat) : Int), Dbl.fin (mean + (x - mean) / ((n : α) + 1)),
        Dbl.fin (M2 + (x - mean) * (x - (mean + (x - mean) / ((n : α) + 1))))⟩ := by
  have h1 : ((n : α) + 1) ≠ 0 := by positivity
  have h2 : (Dbl.ofInt ((n : Int) + 1) : Dbl α) = Dbl.fin ((n : α) + 1) := by
    simp [Dbl.ofInt]
  simp only [Asian.pushSample, h2, Dbl.fin_sub_fin, Dbl.fin_div_fin _ _ h1, Dbl.fin_add_fin,
    Dbl.fin_mul_fin, Nat.cast_add, Nat.cast_one]

/-- Pushing finite samples one by one yields their count, their arithmetic mean and their sum
of squared deviations. -/
theorem Asian.pushSample_foldl (xs : List α) :
    (xs.map Dbl.fin).foldl Asian.pushSample ⟨0, Dbl.fin 0, Dbl.fin 0⟩ =
      ⟨(xs.length : Int), Dbl.fin (meanOf xs), Dbl.fin (sumSqDev xs)⟩ := by
  induction xs using List.reverseRecOn with
  | nil => simp [meanOf, sumSqDev]
  | append_singleton xs x ih =>
    rw [List.map_append, List.foldl_append, ih]
    simp only [List.map_cons, List.map_nil, List.foldl_cons, List.foldl_nil]
    rw [Asian.pushSample_fin, ← meanOf_append_singleton, ← sumSqDev_append_singleton]
    simp

/-! ### The sampling loops as folds over the draw vectors -/

theorem Asian.drawZs_length {ρ : Type} (G : Gen ρ α) (n : Nat) (rng : ρ) :
    (Asian.drawZs G n rng).1.length = n := by
  induction n generalizing rng with
  | zero => rfl
  | succ n ih => simp [Asian.drawZs, ih]

theorem drawBlocks_length {ρ : Type} (G : Gen ρ α) (steps n : Nat) (rng : ρ) :
    (drawBlocks G steps n rng).length = n := by
  induction n generalizing rng with
  | zero => rfl
  | succ n ih => simp [drawBlocks, ih]

theorem Asian.drawZs_isDraw {ρ : Type} (G : Gen ρ α) (n : Nat) (rng : ρ) :
    IsDraw n (Asian.drawZs G n rng).1 := by
  refine ⟨Asian.drawZs_length G n rng, ?_⟩
  induction n generalizing rng with
  | zero => simp [Asian.drawZs]
  | succ n ih =>
    intro z hz
    simp only [Asian.drawZs, List.mem_cons] at hz
    rcases hz with rfl | h
    · rfl
    · exact ih _ z h

theorem drawBlocks_isDraw {ρ : Type} (G : Gen ρ α) (steps n : Nat) (rng : ρ) :
    ∀ Zs ∈ drawBlocks G steps n rng, IsDraw steps Zs := by
  induction n generalizing rng with
  | zero => simp [drawBlocks]
  | succ n ih =>
    intro Zs hZs
    simp only [drawBlocks, List.mem_cons] at hZs
    rcases hZs with rfl | h
    · exact Asian.drawZs_isDraw G steps rng
    · exact ih _ _ h

theorem IsDraw.getD_fin {n : Nat} {Zs : List (Dbl α)} (h : IsDraw n Zs) {j : Nat} (hj : j < n) :
    ∃ z : α, Zs.getD j Dbl.nan = Dbl.fin z := by
  have hj' : j < Zs.length := by rw [h.1]; exact hj
  have hmem : Zs.getD j Dbl.nan ∈ Zs := by
    rw [List.getD_eq_getElem _ _ hj']
    exact List.getElem_mem hj'
  exact (Dbl.isfinite_iff _).1 (h.2 _ hmem)

/-- The plain loop pushes, in order, the sample of each successive draw vector. -/
theorem Asian.plainLoop_eq_foldl {ρ : Type} (G : Gen ρ α) (steps : Int)
    (sampleFn : List (Dbl α) → Bool → Except Err (Dbl α)) (s : List (Dbl α) → Dbl α)
    (hf : ∀ Zs, IsDraw steps.toNat Zs → sampleFn Zs false = .ok (s Zs)) (n : Nat) (rng : ρ)
    (st : RunningStats α) :
    Asian.plainLoop G steps sampleFn n rng st =
      .ok (((drawBlocks G steps.toNat n rng).map s).foldl Asian.pushSample st) := by
  induction n generalizing rng st with
  | zero => rfl
  | succ n ih =>
    simp only [Asian.plainLoop, hf _ (Asian.drawZs_isDraw G _ _), drawBlocks, List.map_cons,
      List.foldl_cons]
    exact ih _ _

/-- The antithetic loop pushes, in order, the half-sum of the two samples of each successive
draw vector. -/
theorem Asian.antitheticLoop_eq_foldl {ρ : Type} (G : Gen ρ α) (steps : Int)
    (sampleFn : List (Dbl α) → Bool → Except Err (Dbl α)) (s1 s2 : List (Dbl α) → Dbl α)
    (hf1 : ∀ Zs, IsDraw steps.toNat Zs → sampleFn Zs false = .ok (s1 Zs))
    (hf2 : ∀ Zs, IsDraw steps.toNat Zs → sampleFn Zs true = .ok (s2 Zs))
    (n : Nat) (rng : ρ) (st : RunningStats α) :
    Asian.antitheticLoop G steps sampleFn n rng st =
      .ok (((drawBlocks G steps.toNat n rng).map
        (fun Zs => Dbl.fin 0.5 * (s1 Zs + s2 Zs))).foldl Asian.pushSample st) := by
  induction n generalizing rng st with
  | zero => rfl
  | succ n ih =>
    simp only [Asian.antitheticLoop, hf1 _ (Asian.drawZs_isDraw G _ _),
      hf2 _ (Asian.drawZs_isDraw G _ _), drawBlocks, List.map_cons, List.foldl_cons]
    exact ih _ _

/-- The number of pairs of the antithetic branch when `paths + 1` does not overflow. -/
theorem Asian.pairs_of_lt {paths : Int} (hp : 0 < paths) (hlt : paths < 2 ^ 31 - 1) :
    (Int.tdiv (wrap32 (paths + 1)) 2).toNat = (paths.toNat + 1) / 2 := by
  have h1 : wrap32 (paths + 1) = paths + 1 := by
    unfold wrap32
    omega
  rw [h1]
  obtain ⟨n, rfl⟩ := Int.eq_ofNat_of_zero_le hp.le
  have h2 : Int.tdiv ((n : Int) + 1) 2 = (((n + 1) / 2 : Nat) : Int) := by
    have : ((n : Int) + 1) = ((n + 1 : Nat) : Int) := by push_cast; ring
    rw [this]
    exact (Int.ofNat_tdiv (n + 1) 2).symm
  rw [h2, Int.toNat_natCast, Int.toNat_natCast]

/-- The number of pairs of the antithetic branch at `paths = 2^31 - 1`: the 32-bit sum
`paths + 1` wraps to `-2^31`, and the loop bound is negative. -/
theorem Asian.pairs_of_int_max : (Int.tdiv (wrap32 (2147483647 + 1)) 2).toNat = 0 := by
  decide

/-! ### The result of `runMC` from the state left by the loop -/

/-- With valid counts, `runMC` is the loop of the chosen branch followed by the computation
of the standard error and of the interval. -/
theorem Asian.runMC_eq_of_loop {ρ : Type} (L : Libm α) (G : Gen ρ α) (paths steps : Int)
    (seed : Nat) (antithetic : Bool) (sampleFn : List (Dbl α) → Bool → Except Err (Dbl α))
    (hp : 0 < paths) (hs : 0 < steps) (st : RunningStats α)
    (hloop : (if antithetic = true then
        Asian.antitheticLoop G steps sampleFn (Int.tdiv (wrap32 (paths + 1)) 2).toNat
          (G.seed seed) ⟨0, Dbl.fin 0, Dbl.fin 0⟩
      else
        Asian.plainLoop G steps sampleFn paths.toNat (G.seed seed)
          ⟨0, Dbl.fin 0, Dbl.fin 0⟩) = .ok st) :
    Asian.runMC L G paths steps seed antithetic sampleFn =
      .ok (Option.makeCI95 st.mean
        (if st.m > 0 then
          Dbl.sqrt L ((if st.m > 1 then st.M2 / Dbl.ofInt (st.m - 1) else Dbl.fin 0)
            / Dbl.ofInt st.m)
        else Dbl.nan)) := by
  unfold Asian.runMC
  simp only [not_le.2 hp, not_le.2 hs, if_false]
  rw [hloop]

/-- The standard error computed from the state left by `n >= 1` finite samples. -/
theorem Asian.stdError_fin (L : Libm α) (xs : List α) (hne : xs ≠ []) :
    (if ((xs.length : Int)) > 0 then
        Dbl.sqrt L ((if ((xs.length : Int)) > 1 then
            Dbl.fin (sumSqDev xs) / Dbl.ofInt ((xs.length : Int) - 1) else Dbl.fin 0)
          / Dbl.ofInt (xs.length : Int))
      else Dbl.nan) =
    Dbl.fin (L.sqrt ((if 1 < xs.length then sumSqDev xs / ((xs.length : α) - 1) else 0)
      / (xs.length : α))) := by
  have hpos : 0 < xs.length := List.length_pos.2 hne
  have h0 : ((xs.length : Int)) > 0 := by exact_mod_cast hpos
  have hn0 : (xs.length : α) ≠ 0 := by exact_mod_cast hpos.ne'
  rw [if_pos h0]
  by_cases h1 : 1 < xs.length
  · have h1' : ((xs.length : Int)) > 1 := by exact_mod_cast h1
    have hn1 : (xs.length : α) - 1 ≠ 0 := by
      have : (1 : α) < (xs.length : α) := by exact_mod_cast h1
      exact sub_ne_zero.2 this.ne'
    have hcast : (Dbl.ofInt ((xs.length : Int) - 1) : Dbl α) = Dbl.fin ((xs.length : α) - 1) := by
      simp [Dbl.ofInt]
    have hcast' : (Dbl.ofInt (xs.length : Int) : Dbl α) = Dbl.fin (xs.length : α) := by
      simp [Dbl.ofInt]
    rw [if_pos h1', if_pos h1, hcast, hcast', Dbl.fin_div_fin _ _ hn1, Dbl.fin_div_fin _ _ hn0]
    have hnn : ¬ (sumSqDev xs / ((xs.length : α) - 1) / (xs.length : α) < 0) := by
      have : (0 : α) < (xs.length : α) - 1 := by
        have : (1 : α) < (xs.length : α) := by exact_mod_cast h1
        linarith
      have := sumSqDev_nonneg xs
      exact not_lt.2 (by positivity)
    simp only [Dbl.sqrt, hnn, if_false]
  · have h1' : ¬ ((xs.length : Int)) > 1 := by exact_mod_cast h1
    have hcast' : (Dbl.ofInt (xs.length : Int) : Dbl α) = Dbl.fin (xs.length : α) := by
      simp [Dbl.ofInt]
    rw [if_neg h1', if_neg h1, hcast', Dbl.fin_div_fin _ _ hn0]
    simp [Dbl.sqrt]

/-- Claim C4: for `paths > 0`, `steps > 0`, every generator and every sample function with
finite values, `runMC` without antithetic variates fills `paths` draw vectors of length
`steps`, pushes the sample `sampleFn(Zs, false)` of each of them once and in order, and
returns as estimate the arithmetic mean `(1/paths) * sum` of these samples; pushing the same
samples in any other order gives the same mean. -/
theorem Asian.runMC_plain_estimate {ρ : Type} (L : Libm α) (G : Gen ρ α) (paths steps : Int)
    (seed : Nat) (sampleFn : List (Dbl α) → Bool → Except Err (Dbl α))
    (f : List (Dbl α) → α)
    (hf : ∀ Zs, IsDraw steps.toNat Zs → sampleFn Zs false = .ok (Dbl.fin (f Zs)))
    (hp : 0 < paths) (hs : 0 < steps) :
    (drawBlocks G steps.toNat paths.toNat (G.seed seed)).length = paths.toNat ∧
    (∀ Zs ∈ drawBlocks G steps.toNat paths.toNat (G.seed seed), IsDraw steps.toNat Zs) ∧
    Asian.plainLoop G steps sampleFn paths.toNat (G.seed seed) ⟨0, Dbl.fin 0, Dbl.fin 0⟩ =
      .ok (((drawBlocks G steps.toNat paths.toNat (G.seed seed)).map
        (fun Zs => Dbl.fin (f Zs))).foldl Asian.pushSample ⟨0, Dbl.fin 0, Dbl.fin 0⟩) ∧
    (∃ stats, Asian.runMC L G paths steps seed false sampleFn = .ok stats ∧
      stats.estimate =
        Dbl.fin (((drawBlocks G steps.toNat paths.toNat (G.seed seed)).map f).sum
          / (paths : α))) ∧
    (∀ ys : List α, ys.Perm ((drawBlocks G steps.toNat paths.toNat (G.seed seed)).map f) →
      ((ys.map Dbl.fin).foldl Asian.pushSample ⟨0, Dbl.fin 0, Dbl.fin 0⟩).mean =
        Dbl.fin (((drawBlocks G steps.toNat paths.toNat (G.seed seed)).map f).sum
          / (paths : α))) := by
  have hlen := drawBlocks_length G steps.toNat paths.toNat (G.seed seed)
  have hcast : ((paths.toNat : Nat) : α) = (paths : α) := by
    have : ((paths.toNat : Nat) : Int) = paths := Int.toNat_of_nonneg hp.le
    exact_mod_cast congrArg (fun z : Int => (z : α)) this
  have hloop := Asian.plainLoop_eq_foldl G steps sampleFn (fun Zs => Dbl.fin (f Zs))
    hf paths.toNat (G.seed seed) ⟨0, Dbl.fin 0, Dbl.fin 0⟩
  have hmean : ∀ ys : List α,
      ys.Perm ((drawBlocks G steps.toNat paths.toNat (G.seed seed)).map f) →
      ((ys.map Dbl.fin).foldl Asian.pushSample ⟨0, Dbl.fin 0, Dbl.fin 0⟩).mean =
        Dbl.fin (((drawBlocks G steps.toNat paths.toNat (G.seed seed)).map f).sum
          / (paths : α)) := by
    intro ys hys
    rw [Asian.pushSample_foldl]
    simp only [meanOf, hys.sum_eq, hys.length_eq, List.length_map, hlen, hcast]
  refine ⟨hlen, drawBlocks_isDraw G _ _ _, hloop, ?_, hmean⟩
  have hrun := Asian.runMC_eq_of_loop L G paths steps seed false sampleFn hp hs _
    (by simpa using hloop)
  refine ⟨_, hrun, ?_⟩
  have := hmean _ (List.Perm.refl _)
  rw [List.map_map] at this
  simpa [Option.makeCI95] using this

/-- Witness of claim C4: three paths of two steps on the draws `42, 43, ..., 47`, the sample
of a path being its first draw; the samples are `42, 44, 46` and the estimate is `44`. -/
theorem Asian.runMC_plain_estimate_witness :
    ((0 : Int) < 3 ∧ (0 : Int) < 2) ∧
    ∃ stats, Asian.runMC (⟨Real.exp, Real.sqrt, Real.log⟩ : Libm ℝ) Gen.counter 3 2 42 false
        (fun Zs _ => .ok (Zs.getD 0 Dbl.nan)) = .ok stats ∧
      stats.estimate = Dbl.fin 44 := by
  have hf : ∀ (Zs : List (Dbl ℝ)), IsDraw (2 : Int).toNat Zs →
      (fun (Zs : List (Dbl ℝ)) (_ : Bool) => (Except.ok (Zs.getD 0 Dbl.nan) : Except Err (Dbl ℝ)))
        Zs false = .ok (Dbl.fin ((fun Zs => sampleVal (.ok (Zs.getD 0 Dbl.nan))) Zs)) := by
    intro Zs hZ
    obtain ⟨z, hz⟩ := hZ.getD_fin (show 0 < (2 : Int).toNat by decide)
    simp only [hz, sampleVal]
  obtain ⟨stats, h1, h2⟩ := (Asian.runMC_plain_estimate
    (⟨Real.exp, Real.sqrt, Real.log⟩ : Libm ℝ) Gen.counter 3 2 42
    (fun Zs _ => .ok (Zs.getD 0 Dbl.nan)) (fun Zs => sampleVal (.ok (Zs.getD 0 Dbl.nan)))
    hf (by decide) (by decide)).2.2.2.1
  refine ⟨⟨by decide, by decide⟩, stats, h1, ?_⟩
  rw [h2]
  simp [drawBlocks, Asian.drawZs, Gen.counter, sampleVal]
  norm_num

/-- With valid counts, when the loop has pushed the non-empty list `xs` of finite samples,
`runMC` returns their mean with the standard error `sqrt(var / n)`, where `var` is the unbiased
sample variance for `n > 1` and `0` for `n = 1`. -/
theorem Asian.runMC_eq_of_fin_samples {ρ : Type} (L : Libm α) (G : Gen ρ α)
    (paths steps : Int) (seed : Nat) (antithetic : Bool)
    (sampleFn : List (Dbl α) → Bool → Except Err (Dbl α))
    (hp : 0 < paths) (hs : 0 < steps) (xs : List α) (hne : xs ≠ [])
    (hloop : (if antithetic = true then
        Asian.antitheticLoop G steps sampleFn (Int.tdiv (wrap32 (paths + 1)) 2).toNat
          (G.seed seed) ⟨0, Dbl.fin 0, Dbl.fin 0⟩
      else
        Asian.plainLoop G steps sampleFn paths.toNat (G.seed seed)
          ⟨0, Dbl.fin 0, Dbl.fin 0⟩) =
      .ok ((xs.map Dbl.fin).foldl Asian.pushSample ⟨0, Dbl.fin 0, Dbl.fin 0⟩)) :
    Asian.runMC L G paths steps seed antithetic sampleFn =
      .ok (Option.makeCI95 (Dbl.fin (meanOf xs))
        (Dbl.fin (L.sqrt ((if 1 < xs.length then sumSqDev xs / ((xs.length : α) - 1) else 0)
          / (xs.length : α))))) := by
  rw [Asian.runMC_eq_of_loop L G paths steps seed antithetic sampleFn hp hs _ hloop,
    Asian.pushSample_foldl]
  simp only []
  rw [Asian.stdError_fin L xs hne]

/-- The loop of the antithetic branch of `runMC`, for `paths` below `2^31 - 1`, on a sample
function with finite values: it pushes the half-sums of the `(paths + 1) / 2` pairs. -/
theorem Asian.antithetic_branch_eq {ρ : Type} (G : Gen ρ α) (paths steps : Int) (seed : Nat)
    (sampleFn : List (Dbl α) → Bool → Except Err (Dbl α)) (f : List (Dbl α) → Bool → α)
    (hf : ∀ Zs b, IsDraw steps.toNat Zs → sampleFn Zs b = .ok (Dbl.fin (f Zs b)))
    (hp : 0 < paths) (hlt : paths < 2 ^ 31 - 1) :
    Asian.antitheticLoop G steps sampleFn (Int.tdiv (wrap32 (paths + 1)) 2).toNat
        (G.seed seed) ⟨0, Dbl.fin 0, Dbl.fin 0⟩ =
      .ok ((((drawBlocks G steps.toNat ((paths.toNat + 1) / 2) (G.seed seed)).map
        (fun Zs => 0.5 * (f Zs false + f Zs true))).map Dbl.fin).foldl Asian.pushSample
          ⟨0, Dbl.fin 0, Dbl.fin 0⟩) := by
  rw [Asian.pairs_of_lt hp hlt,
    Asian.antitheticLoop_eq_foldl G steps sampleFn (fun Zs => Dbl.fin (f Zs false))
      (fun Zs => Dbl.fin (f Zs true)) (fun Zs h => hf Zs false h) (fun Zs h => hf Zs true h),
    List.map_map]
  rfl

/-- The loop of the plain branch of `runMC` on a sample function with finite values. -/
theorem Asian.plain_branch_eq {ρ : Type} (G : Gen ρ α) (paths steps : Int) (seed : Nat)
    (sampleFn : List (Dbl α) → Bool → Except Err (Dbl α)) (f : List (Dbl α) → Bool → α)
    (hf : ∀ Zs b, IsDraw steps.toNat Zs → sampleFn Zs b = .ok (Dbl.fin (f Zs b))) :
    Asian.plainLoop G steps sampleFn paths.toNat (G.seed seed) ⟨0, Dbl.fin 0, Dbl.fin 0⟩ =
      .ok ((((drawBlocks G steps.toNat paths.toNat (G.seed seed)).map
        (fun Zs => f Zs false)).map Dbl.fin).foldl Asian.pushSample
          ⟨0, Dbl.fin 0, Dbl.fin 0⟩) := by
  rw [Asian.plainLoop_eq_foldl G steps sampleFn (fun Zs => Dbl.fin (f Zs false))
      (fun Zs h => hf Zs false h), List.map_map]
  rfl

/-! ### The antithetic branch at `paths = 2^31 - 1` (C5, C7) -/

/-- At `paths = 2^31 - 1` the antithetic loop runs zero times and `runMC` returns the
estimate `0` with a not-a-number standard error and interval. -/
theorem Asian.runMC_int_max_eq {ρ : Type} (L : Libm α) (G : Gen ρ α) (steps : Int)
    (seed : Nat) (sampleFn : List (Dbl α) → Bool → Except Err (Dbl α)) (hs : 0 < steps) :
    Asian.antitheticLoop G steps sampleFn (Int.tdiv (wrap32 (2147483647 + 1)) 2).toNat
        (G.seed seed) ⟨0, Dbl.fin 0, Dbl.fin 0⟩ = .ok ⟨0, Dbl.fin 0, Dbl.fin 0⟩ ∧
    Asian.runMC L G 2147483647 steps seed true sampleFn =
      .ok ⟨Dbl.fin 0, Dbl.nan, Dbl.nan, Dbl.nan⟩ := by
  have hloop : Asian.antitheticLoop G steps sampleFn
      (Int.tdiv (wrap32 (2147483647 + 1)) 2).toNat (G.seed seed)
        ⟨0, Dbl.fin 0, Dbl.fin 0⟩ = .ok ⟨0, Dbl.fin 0, Dbl.fin 0⟩ := by
    rw [Asian.pairs_of_int_max]
    rfl
  refine ⟨hloop, ?_⟩
  rw [Asian.runMC_eq_of_loop L G 2147483647 steps seed true sampleFn (by decide) hs _
    (by simpa using hloop)]
  simp [Option.makeCI95, HSub.hSub, Sub.sub, HAdd.hAdd, Add.add, HMul.hMul, Mul.mul,
    Dbl.add, Dbl.neg, Dbl.mul]

/-- Claim C5, evaluated at the failing input: for `paths = 2^31 - 1` and `steps > 0`, the
32-bit sum `paths + 1` wraps, the antithetic loop runs zero times instead of `2^30` times, no
sample is pushed, and `runMC` returns the estimate `0` with a not-a-number standard error and
interval, whatever the sample function is. -/
theorem Asian.runMC_antithetic_int_max {ρ : Type} (L : Libm α) (G : Gen ρ α) (steps : Int)
    (seed : Nat) (sampleFn : List (Dbl α) → Bool → Except Err (Dbl α)) (hs : 0 < steps) :
    Asian.antitheticLoop G steps sampleFn (Int.tdiv (wrap32 (2147483647 + 1)) 2).toNat
        (G.seed seed) ⟨0, Dbl.fin 0, Dbl.fin 0⟩ = .ok ⟨0, Dbl.fin 0, Dbl.fin 0⟩ ∧
    Asian.runMC L G 2147483647 steps seed true sampleFn =
      .ok ⟨Dbl.fin 0, Dbl.nan, Dbl.nan, Dbl.nan⟩ :=
  Asian.runMC_int_max_eq L G steps seed sampleFn hs

/-- Witness of the evaluation for claim C5, at `steps = 50` and `seed = 42`. -/
theorem Asian.runMC_antithetic_int_max_witness :
    (0 : Int) < 50 ∧
    Asian.runMC (⟨Real.exp, Real.sqrt, Real.log⟩ : Libm ℝ) (Gen.const 0 (1 / 2))
        2147483647 50 42 true (fun Zs _ => .ok (Dbl.fin (Zs.length : ℝ))) =
      .ok ⟨Dbl.fin 0, Dbl.nan, Dbl.nan, Dbl.nan⟩ :=
  ⟨by decide, (Asian.runMC_antithetic_int_max (⟨Real.exp, Real.sqrt, Real.log⟩ : Libm ℝ)
    (Gen.const 0 (1 / 2)) 50 42 (fun Zs _ => .ok (Dbl.fin (Zs.length : ℝ))) (by decide)).2⟩

theorem drawBlocks_ne_nil {ρ : Type} (G : Gen ρ α) (steps n : Nat) (rng : ρ) (hn : 0 < n)
    (g : List (Dbl α) → α) : (drawBlocks G steps n rng).map g ≠ [] := by
  intro h
  have := congrArg List.length h
  rw [List.length_map, drawBlocks_length] at this
  simp at this
  omega

/-- Below `2^31 - 1`, the antithetic branch pushes `(paths + 1) / 2 >= 1` samples and the
standard error it returns is a finite value. -/
theorem Asian.runMC_antithetic_below_int_max {ρ : Type} (L : Libm α) (G : Gen ρ α)
    (paths steps : Int) (seed : Nat) (sampleFn : List (Dbl α) → Bool → Except Err (Dbl α))
    (f : List (Dbl α) → Bool → α)
    (hf : ∀ Zs b, IsDraw steps.toNat Zs → sampleFn Zs b = .ok (Dbl.fin (f Zs b)))
    (hp : 0 < paths) (hlt : paths < 2 ^ 31 - 1) (hs : 0 < steps) :
    1 ≤ (paths.toNat + 1) / 2 ∧
    (∃ st, Asian.antitheticLoop G steps sampleFn (Int.tdiv (wrap32 (paths + 1)) 2).toNat
        (G.seed seed) ⟨0, Dbl.fin 0, Dbl.fin 0⟩ = .ok st ∧
        st.m = (((paths.toNat + 1) / 2 : Nat) : Int)) ∧
    ∃ stats, Asian.runMC L G paths steps seed true sampleFn = .ok stats ∧
      stats.stdError.isfinite = true := by
  have h1 : 1 ≤ (paths.toNat + 1) / 2 := by omega
  have hloop := Asian.antithetic_branch_eq G paths steps seed sampleFn f hf hp hlt
  refine ⟨h1, ⟨_, hloop, ?_⟩, ?_⟩
  · rw [Asian.pushSample_foldl]
    simp [drawBlocks_length]
  · refine ⟨_, Asian.runMC_eq_of_fin_samples L G paths steps seed true sampleFn hp hs _
      (drawBlocks_ne_nil G _ _ _ h1 _) (by simpa using hloop), ?_⟩
    simp [Option.makeCI95, Dbl.isfinite]

/-- Claim C6: when `runMC` pushes `n >= 2` finite samples (`paths >= 2` without antithetic
variates, `3 <= paths < 2^31 - 1` with them), the accumulated `M2` is the sum of the squared
deviations of the samples from their mean, hence non-negative, and the returned standard error
is `sqrt((M2 / (n - 1)) / n)`. -/
theorem Asian.runMC_M2_stdError {ρ : Type} (L : Libm α) (G : Gen ρ α)
    (paths steps : Int) (seed : Nat) (sampleFn : List (Dbl α) → Bool → Except Err (Dbl α))
    (f : List (Dbl α) → Bool → α)
    (hf : ∀ Zs b, IsDraw steps.toNat Zs → sampleFn Zs b = .ok (Dbl.fin (f Zs b)))
    (hs : 0 < steps) :
    (2 ≤ paths →
      ∀ xs : List α,
        xs = (drawBlocks G steps.toNat paths.toNat (G.seed seed)).map (fun Zs => f Zs false) →
        (xs.length : Int) = paths ∧
        (∃ st, Asian.plainLoop G steps sampleFn paths.toNat (G.seed seed)
            ⟨0, Dbl.fin 0, Dbl.fin 0⟩ = .ok st ∧ st.m = paths ∧
          st.M2 = Dbl.fin ((xs.map (fun x => (x - xs.sum / (xs.length : α)) ^ 2)).sum)) ∧
        0 ≤ (xs.map (fun x => (x - xs.sum / (xs.length : α)) ^ 2)).sum ∧
        ∃ stats, Asian.runMC L G paths steps seed false sampleFn = .ok stats ∧
          stats.stdError = Dbl.sqrt L (Dbl.fin
            ((xs.map (fun x => (x - xs.sum / (xs.length : α)) ^ 2)).sum
              / ((xs.length : α) - 1) / (xs.length : α)))) ∧
    (3 ≤ paths → paths < 2 ^ 31 - 1 →
      ∀ xs : List α,
        xs = (drawBlocks G steps.toNat ((paths.toNat + 1) / 2) (G.seed seed)).map
          (fun Zs => 0.5 * (f Zs false + f Zs true)) →
        xs.length = (paths.toNat + 1) / 2 ∧ 2 ≤ xs.length ∧
        (∃ st, Asian.antitheticLoop G steps sampleFn
            (Int.tdiv (wrap32 (paths + 1)) 2).toNat (G.seed seed)
            ⟨0, Dbl.fin 0, Dbl.fin 0⟩ = .ok st ∧ st.m = (xs.length : Int) ∧
          st.M2 = Dbl.fin ((xs.map (fun x => (x - xs.sum / (xs.length : α)) ^ 2)).sum)) ∧
        0 ≤ (xs.map (fun x => (x - xs.sum / (xs.length : α)) ^ 2)).sum ∧
        ∃ stats, Asian.runMC L G paths steps seed true sampleFn = .ok stats ∧
          stats.stdError = Dbl.sqrt L (Dbl.fin
            ((xs.map (fun x => (x - xs.sum / (xs.length : α)) ^ 2)).sum
              / ((xs.length : α) - 1) / (xs.length : α)))) := by
  have hsqrt : ∀ xs : List α, 1 < xs.length →
      Dbl.sqrt L (Dbl.fin (sumSqDev xs / ((xs.length : α) - 1) / (xs.length : α))) =
        Dbl.fin (L.sqrt ((if 1 < xs.length then sumSqDev xs / ((xs.length : α) - 1) else 0)
          / (xs.length : α))) := by
    intro xs h1
    have hnn : ¬ (sumSqDev xs / ((xs.length : α) - 1) / (xs.length : α) < 0) := by
      have h2 : (1 : α) < (xs.length : α) := by exact_mod_cast h1
      have h3 : (0 : α) < (xs.length : α) - 1 := by linarith
      have h4 : (0 : α) < (xs.length : α) := by linarith
      have := sumSqDev_nonneg xs
      exact not_lt.2 (by positivity)
    simp only [Dbl.sqrt, hnn, if_false, if_pos h1]
  constructor
  · intro h2 xs hxs
    have hp : 0 < paths := by omega
    have hlen : xs.length = paths.toNat := by rw [hxs, List.length_map, drawBlocks_length]
    have hlenI : (xs.length : Int) = paths := by rw [hlen]; exact Int.toNat_of_nonneg hp.le
    have h1 : 1 < xs.length := by omega
    have hne : xs ≠ [] := by intro h; rw [h] at h1; simp at h1
    have hloop := Asian.plain_branch_eq G paths steps seed sampleFn f hf
    rw [← hxs] at hloop
    refine ⟨hlenI, ⟨_, hloop, ?_, ?_⟩, sumSqDev_nonneg xs, ?_⟩
    · rw [Asian.pushSample_foldl]; exact hlenI
    · rw [Asian.pushSample_foldl]; rfl
    · refine ⟨_, Asian.runMC_eq_of_fin_samples L G paths steps seed false sampleFn hp hs xs hne
        (by simpa using hloop), ?_⟩
      exact (hsqrt xs h1).symm
  · intro h3 hlt xs hxs
    have hp : 0 < paths := by omega
    have hlen : xs.length = (paths.toNat + 1) / 2 := by
      rw [hxs, List.length_map, drawBlocks_length]
    have h1 : 1 < xs.length := by omega
    have hne : xs ≠ [] := by intro h; rw [h] at h1; simp at h1
    have hloop := Asian.antithetic_branch_eq G paths steps seed sampleFn f hf hp hlt
    rw [← hxs] at hloop
    refine ⟨hlen, h1, ⟨_, hloop, ?_, ?_⟩, sumSqDev_nonneg xs, ?_⟩
    · rw [Asian.pushSample_foldl]
    · rw [Asian.pushSample_foldl]; rfl
    · refine ⟨_, Asian.runMC_eq_of_fin_samples L G paths steps seed true sampleFn hp hs xs hne
        (by simpa using hloop), ?_⟩
      exact (hsqrt xs h1).symm

/-! ### Finite samples -/

/-- One step of the path loop keeps the price and the aggregate finite and positive. -/
theorem Asian.pathStep_fin (L : Libm α) (hexp : ∀ x, 0 < L.exp x) (self : opt.Asian α)
    (hagg : ∀ a p k : α, 0 < a → 0 < p →
      ∃ c, 0 < c ∧ self.aggregator_ (Dbl.fin a) (Dbl.fin p) (Dbl.fin k) = Dbl.fin c)
    (r sg dt : α) (hdt : 0 ≤ dt) (n : Nat) (Zs : List (Dbl α)) (hZ : IsDraw n Zs) (flip : Bool)
    (s a : α) (hs : 0 < s) (ha : 0 < a) (j : Nat) (hj : j < n) :
    ∃ s' a' : α, 0 < s' ∧ 0 < a' ∧
      Asian.pathStep L self (Dbl.fin r) (Dbl.fin sg) (Dbl.fin dt) Zs flip
        (Dbl.fin s, Dbl.fin a) j = (Dbl.fin s', Dbl.fin a') := by
  obtain ⟨z, hz⟩ := hZ.getD_fin hj
  have hZ' : (if flip = true then -(Zs.getD j Dbl.nan) else Zs.getD j Dbl.nan) =
      Dbl.fin (if flip = true then -z else z) := by
    cases flip
    · simp only [Bool.false_eq_true, if_false, hz]
    · simp only [if_true, hz, Dbl.neg_fin]
  have hsqrt : Dbl.sqrt L (Dbl.fin dt) = Dbl.fin (L.sqrt dt) := by
    simp [Dbl.sqrt, not_lt.2 hdt]
  have hcast : (Dbl.ofInt ((j : Int) + 1) : Dbl α) = Dbl.fin ((j : α) + 1) := by
    simp [Dbl.ofInt]
  obtain ⟨c, hc, hagg'⟩ := hagg a
    (s * L.exp ((r - 0.5 * sg * sg) * dt + sg * L.sqrt dt * (if flip = true then -z else z)))
    ((j : α) + 1) ha (mul_pos hs (hexp _))
  refine ⟨s * L.exp ((r - 0.5 * sg * sg) * dt + sg * L.sqrt dt *
    (if flip = true then -z else z)), c, mul_pos hs (hexp _), hc, ?_⟩
  simp only [Asian.pathStep, hZ', hsqrt, hcast, Dbl.fin_sub_fin, Dbl.fin_mul_fin,
    Dbl.fin_add_fin, Dbl.exp, hagg']

/-- The path loop over step indices below the length of the draw vector ends on a finite
positive price and a finite positive aggregate. -/
theorem Asian.pathLoop_fin (L : Libm α) (hexp : ∀ x, 0 < L.exp x) (self : opt.Asian α)
    (hagg : ∀ a p k : α, 0 < a → 0 < p →
      ∃ c, 0 < c ∧ self.aggregator_ (Dbl.fin a) (Dbl.fin p) (Dbl.fin k) = Dbl.fin c)
    (r sg dt : α) (hdt : 0 ≤ dt) (n : Nat) (Zs : List (Dbl α)) (hZ : IsDraw n Zs) (flip : Bool)
    (js : List Nat) (hjs : ∀ j ∈ js, j < n) (s a : α) (hs : 0 < s) (ha : 0 < a) :
    ∃ s' a' : α, 0 < s' ∧ 0 < a' ∧
      js.foldl (Asian.pathStep L self (Dbl.fin r) (Dbl.fin sg) (Dbl.fin dt) Zs flip)
        (Dbl.fin s, Dbl.fin a) = (Dbl.fin s', Dbl.fin a') := by
  induction js generalizing s a with
  | nil => exact ⟨s, a, hs, ha, rfl⟩
  | cons j js ih =>
    obtain ⟨s1, a1, hs1, ha1, h1⟩ := Asian.pathStep_fin L hexp self hagg r sg dt hdt n Zs hZ
      flip s a hs ha j (hjs j (List.mem_cons_self _ _))
    rw [List.foldl_cons, h1]
    exact ih (fun j hj => hjs j (List.mem_cons_of_mem _ hj)) s1 a1 hs1 ha1

/-- On finite parameters with a positive spot and `T0 <= T`, and on a vector of `steps > 0`
finite draws, the discounted payoff is a finite value, for every payoff and aggregator that
keep finite positive values finite. -/
theorem Asian.discountedPayoffFromZ_fin (L : Libm α) (hexp : ∀ x, 0 < L.exp x)
    (self : opt.Asian α)
    (hpay : ∀ S K : α, 0 < K → ∃ v, self.payoff_ (Dbl.fin S) (Dbl.fin K) = .ok (Dbl.fin v))
    (hagg : ∀ a p k : α, 0 < a → 0 < p →
      ∃ c, 0 < c ∧ self.aggregator_ (Dbl.fin a) (Dbl.fin p) (Dbl.fin k) = Dbl.fin c)
    (s0 r sg t0 t : α) (hs0 : 0 < s0) (ht : t0 ≤ t) (steps : Int) (hs : 0 < steps)
    (Zs : List (Dbl α)) (hZ : IsDraw steps.toNat Zs) (flip : Bool) :
    ∃ v, Asian.discountedPayoffFromZ L self (Dbl.fin s0) (Dbl.fin r) (Dbl.fin sg) (Dbl.fin t0)
      (Dbl.fin t) steps Zs flip = .ok (Dbl.fin v) := by
  have hsteps : (steps : α) ≠ 0 := by
    have : (0 : α) < (steps : α) := by exact_mod_cast hs
    exact this.ne'
  have hdt : (Dbl.fin (t - t0) : Dbl α) / Dbl.ofInt steps =
      Dbl.fin ((t - t0) / (steps : α)) := by
    rw [Dbl.ofInt, Dbl.fin_div_fin _ _ hsteps]
  have hdt0 : 0 ≤ (t - t0) / (steps : α) := by
    have : (0 : α) < (steps : α) := by exact_mod_cast hs
    have : 0 ≤ t - t0 := sub_nonneg.2 ht
    positivity
  obtain ⟨s', a', hs', ha', hloop⟩ := Asian.pathLoop_fin L hexp self hagg r sg
    ((t - t0) / (steps : α)) hdt0 steps.toNat Zs hZ flip (List.range steps.toNat)
    (fun j hj => List.mem_range.1 hj) s0 s0 hs0 hs0
  obtain ⟨v, hv⟩ := hpay s' a' ha'
  refine ⟨L.exp (-r * (t - t0)) * v, ?_⟩
  simp only [Asian.discountedPayoffFromZ, Dbl.fin_sub_fin, hdt, hloop, hv, Dbl.neg_fin,
    Dbl.fin_mul_fin, Dbl.exp]

theorem PayoffCall_fin (S K : α) (hK : 0 < K) :
    ∃ v, PayoffCall (Dbl.fin S) (Dbl.fin K) = .ok (Dbl.fin v) := by
  refine ⟨if S - K < 0 then 0 else S - K, ?_⟩
  have : ¬ K < 0 := not_lt.2 hK.le
  simp only [PayoffCall, Dbl.lt, this, decide_False, Bool.false_eq_true, if_false,
    Dbl.fin_sub_fin, Dbl.max]
  split_ifs <;> simp_all <;> rfl

theorem PayoffPut_fin (S K : α) (hK : 0 < K) :
    ∃ v, PayoffPut (Dbl.fin S) (Dbl.fin K) = .ok (Dbl.fin v) := by
  refine ⟨if K - S < 0 then 0 else K - S, ?_⟩
  have : ¬ K < 0 := not_lt.2 hK.le
  simp only [PayoffPut, Dbl.lt, this, decide_False, Bool.false_eq_true, if_false,
    Dbl.fin_sub_fin, Dbl.max]
  split_ifs <;> simp_all <;> rfl

theorem LookMin_fin (a p k : α) (ha : 0 < a) (hp : 0 < p) :
    ∃ c, 0 < c ∧ LookMin (Dbl.fin a) (Dbl.fin p) (Dbl.fin k) = Dbl.fin c := by
  unfold LookMin Dbl.min
  split_ifs
  · exact ⟨p, hp, rfl⟩
  · exact ⟨a, ha, rfl⟩

theorem LookMax_fin (a p k : α) (ha : 0 < a) (hp : 0 < p) :
    ∃ c, 0 < c ∧ LookMax (Dbl.fin a) (Dbl.fin p) (Dbl.fin k) = Dbl.fin c := by
  unfold LookMax Dbl.max
  split_ifs
  · exact ⟨p, hp, rfl⟩
  · exact ⟨a, ha, rfl⟩

theorem sampleVal_eq {r : Except Err (Dbl α)} (h : ∃ v, r = .ok (Dbl.fin v)) :
    r = .ok (Dbl.fin (sampleVal r)) := by
  obtain ⟨v, rfl⟩ := h
  rfl

/-! ### The confidence interval (C7) -/

/-- What `runMC` returns on finite samples when at least one is pushed: a finite estimate, a
finite non-negative standard error, and the symmetric interval around the estimate. -/
theorem Asian.runMC_ci_of_fin_samples {ρ : Type} (L : Libm α) (hsqrt : ∀ x, 0 ≤ L.sqrt x)
    (G : Gen ρ α) (paths steps : Int) (seed : Nat) (antithetic : Bool)
    (sampleFn : List (Dbl α) → Bool → Except Err (Dbl α)) (f : List (Dbl α) → Bool → α)
    (hf : ∀ Zs b, IsDraw steps.toNat Zs → sampleFn Zs b = .ok (Dbl.fin (f Zs b)))
    (hp : 0 < paths) (hs : 0 < steps) (hlt : antithetic = true → paths < 2 ^ 31 - 1) :
    ∃ e se : α, Asian.runMC L G paths steps seed antithetic sampleFn =
        .ok ⟨Dbl.fin e, Dbl.fin se, Dbl.fin (e - 1.96 * se), Dbl.fin (e + 1.96 * se)⟩ ∧
      0 ≤ se ∧ e - 1.96 * se ≤ e ∧ e ≤ e + 1.96 * se ∧
      (e + 1.96 * se) - e = e - (e - 1.96 * se) := by
  have hfin : ∀ xs : List α, xs ≠ [] →
      Asian.runMC L G paths steps seed antithetic sampleFn =
        .ok (Option.makeCI95 (Dbl.fin (meanOf xs))
          (Dbl.fin (L.sqrt ((if 1 < xs.length then sumSqDev xs / ((xs.length : α) - 1)
            else 0) / (xs.length : α))))) →
      ∃ e se : α, Asian.runMC L G paths steps seed antithetic sampleFn =
        .ok ⟨Dbl.fin e, Dbl.fin se, Dbl.fin (e - 1.96 * se), Dbl.fin (e + 1.96 * se)⟩ ∧
      0 ≤ se ∧ e - 1.96 * se ≤ e ∧ e ≤ e + 1.96 * se ∧
      (e + 1.96 * se) - e = e - (e - 1.96 * se) := by
    intro xs _ h
    refine ⟨meanOf xs, L.sqrt ((if 1 < xs.length then sumSqDev xs / ((xs.length : α) - 1)
      else 0) / (xs.length : α)), ?_, hsqrt _, ?_, ?_, by ring⟩
    · rw [h]
      simp only [Option.makeCI95, Dbl.fin_mul_fin, Dbl.fin_sub_fin, Dbl.fin_add_fin]
    · have := hsqrt ((if 1 < xs.length then sumSqDev xs / ((xs.length : α) - 1)
        else 0) / (xs.length : α))
      linarith [mul_nonneg (show (0 : α) ≤ 1.96 by norm_num) this]
    · have := hsqrt ((if 1 < xs.length then sumSqDev xs / ((xs.length : α) - 1)
        else 0) / (xs.length : α))
      linarith [mul_nonneg (show (0 : α) ≤ 1.96 by norm_num) this]
  cases antithetic with
  | false =>
    have hloop := Asian.plain_branch_eq G paths steps seed sampleFn f hf
    have hne := drawBlocks_ne_nil G steps.toNat paths.toNat (G.seed seed)
      (by omega) (fun Zs => f Zs false)
    exact hfin _ hne (Asian.runMC_eq_of_fin_samples L G paths steps seed false sampleFn hp hs _
      hne (by simpa using hloop))
  | true =>
    have hlt' := hlt rfl
    have hloop := Asian.antithetic_branch_eq G paths steps seed sampleFn f hf hp hlt'
    have hne := drawBlocks_ne_nil G steps.toNat ((paths.toNat + 1) / 2) (G.seed seed)
      (by omega) (fun Zs => 0.5 * (f Zs false + f Zs true))
    exact hfin _ hne (Asian.runMC_eq_of_fin_samples L G paths steps seed true sampleFn hp hs _
      hne (by simpa using hloop))

/-- Claim C7, evaluated at the failing input: `priceMC` with antithetic variates on the
Scenario 1 lookback call with `paths = 2^31 - 1`, `steps = 50`, `seed = 42` returns the estimate
`0` with a not-a-number standard error and interval, so that neither `stdError >= 0` nor
`ciLow <= estimate <= ciHigh` holds of the returned `MCStats`. -/
theorem Asian.priceMC_int_max_ci :
    ∃ stats, Asian.priceMC (⟨Real.exp, Real.sqrt, Real.log⟩ : Libm ℝ) (Gen.const 0 (1 / 2))
        scenarioCall 2147483647 50 42 true = .ok stats ∧
      stats = ⟨Dbl.fin 0, Dbl.nan, Dbl.nan, Dbl.nan⟩ ∧
      Dbl.ge stats.stdError (Dbl.fin 0) = false ∧
      Dbl.le stats.ciLow stats.estimate = false ∧
      Dbl.le stats.estimate stats.ciHigh = false :=
  ⟨_, (Asian.runMC_int_max_eq _ _ 50 42 _ (by decide)).2, rfl, rfl, rfl, rfl⟩

/-! ### A single sample (C8, C9) -/

theorem Dbl.add_def (a b : Dbl α) : a + b = Dbl.add a b := rfl

theorem Dbl.sub_def (a b : Dbl α) : a - b = Dbl.add a (Dbl.neg b) := rfl

theorem Dbl.mul_def (a b : Dbl α) : a * b = Dbl.mul a b := rfl

theorem Dbl.div_def (a b : Dbl α) : a / b = Dbl.div a b := rfl

theorem Dbl.neg_def (a : Dbl α) : -a = Dbl.neg a := rfl

theorem Dbl.first_mean (x : Dbl α) :
    Dbl.fin 0 + (x - Dbl.fin 0) / Dbl.ofInt ((0 : Int) + 1) = x := by
  cases x <;>
    simp [Dbl.ofInt, Dbl.add_def, Dbl.sub_def, Dbl.div_def, Dbl.add, Dbl.neg, Dbl.div]

theorem Dbl.sub_mul_zero (x : Dbl α) (c : α) : x - Dbl.fin c * Dbl.fin 0 = x := by
  cases x <;> simp [Dbl.sub_def, Dbl.mul_def, Dbl.add, Dbl.neg, Dbl.mul]

theorem Dbl.add_mul_zero (x : Dbl α) (c : α) : x + Dbl.fin c * Dbl.fin 0 = x := by
  cases x <;> simp [Dbl.add_def, Dbl.mul_def, Dbl.add, Dbl.mul]

/-- With valid counts, when the loop has pushed the single sample `x`, whatever its value,
`runMC` returns `x` as estimate and as both interval bounds, with standard error `0`. -/
theorem Asian.runMC_of_one_push {ρ : Type} (L : Libm α) (hsqrt : L.sqrt 0 = 0) (G : Gen ρ α)
    (paths steps : Int) (seed : Nat) (antithetic : Bool)
    (sampleFn : List (Dbl α) → Bool → Except Err (Dbl α))
    (hp : 0 < paths) (hs : 0 < steps) (x : Dbl α)
    (hloop : (if antithetic = true then
        Asian.antitheticLoop G steps sampleFn (Int.tdiv (wrap32 (paths + 1)) 2).toNat
          (G.seed seed) ⟨0, Dbl.fin 0, Dbl.fin 0⟩
      else
        Asian.plainLoop G steps sampleFn paths.toNat (G.seed seed)
          ⟨0, Dbl.fin 0, Dbl.fin 0⟩) =
      .ok (Asian.pushSample ⟨0, Dbl.fin 0, Dbl.fin 0⟩ x)) :
    Asian.runMC L G paths steps seed antithetic sampleFn = .ok ⟨x, Dbl.fin 0, x, x⟩ := by
  rw [Asian.runMC_eq_of_loop L G paths steps seed antithetic sampleFn hp hs _ hloop]
  have hse : Dbl.sqrt L ((Dbl.fin 0 : Dbl α) / Dbl.ofInt ((0 : Int) + 1)) = Dbl.fin 0 := by
    simp [Dbl.sqrt, Dbl.ofInt, Dbl.div_def, Dbl.div, hsqrt]
  simp only [Asian.pushSample, Dbl.first_mean, Option.makeCI95]
  simp only [show ((0 : Int) + 1 > 0) from by decide, show ¬ ((0 : Int) + 1 > 1) from by decide,
    if_true, if_false, hse, Dbl.sub_mul_zero, Dbl.add_mul_zero]

/-- The plain loop with `paths = 1` pushes the sample of the first draw vector. -/
theorem Asian.plainLoop_one {ρ : Type} (G : Gen ρ α) (steps : Int) (seed : Nat)
    (sampleFn : List (Dbl α) → Bool → Except Err (Dbl α)) (x : Dbl α)
    (hx : sampleFn (Asian.drawZs G steps.toNat (G.seed seed)).1 false = .ok x) :
    Asian.plainLoop G steps sampleFn (1 : Int).toNat (G.seed seed) ⟨0, Dbl.fin 0, Dbl.fin 0⟩ =
      .ok (Asian.pushSample ⟨0, Dbl.fin 0, Dbl.fin 0⟩ x) := by
  show Asian.plainLoop G steps sampleFn 1 (G.seed seed) ⟨0, Dbl.fin 0, Dbl.fin 0⟩ = _
  simp only [Asian.plainLoop, hx]

/-- The antithetic loop with one pair pushes the half-sum of the two samples of the first draw
vector. -/
theorem Asian.antitheticLoop_one {ρ : Type} (G : Gen ρ α) (steps : Int) (seed : Nat)
    (sampleFn : List (Dbl α) → Bool → Except Err (Dbl α)) (s1 s2 : Dbl α)
    (h1 : sampleFn (Asian.drawZs G steps.toNat (G.seed seed)).1 false = .ok s1)
    (h2 : sampleFn (Asian.drawZs G steps.toNat (G.seed seed)).1 true = .ok s2) :
    Asian.antitheticLoop G steps sampleFn 1 (G.seed seed) ⟨0, Dbl.fin 0, Dbl.fin 0⟩ =
      .ok (Asian.pushSample ⟨0, Dbl.fin 0, Dbl.fin 0⟩ (Dbl.fin 0.5 * (s1 + s2))) := by
  simp only [Asian.antitheticLoop, h1, h2]

/-- Claim C8: when `runMC` pushes exactly one sample (`paths = 1` without antithetic variates,
`paths = 1` or `paths = 2` with them), the variance is taken as `0`: the standard error is `0`
and the estimate and both interval bounds are that sample (the half-sum of the pair in the
antithetic case). -/
theorem Asian.runMC_single_sample {ρ : Type} (L : Libm α) (hsqrt : L.sqrt 0 = 0) (G : Gen ρ α)
    (steps : Int) (seed : Nat) (sampleFn : List (Dbl α) → Bool → Except Err (Dbl α))
    (hs : 0 < steps) :
    (∀ x, sampleFn (Asian.drawZs G steps.toNat (G.seed seed)).1 false = .ok x →
      Asian.runMC L G 1 steps seed false sampleFn = .ok ⟨x, Dbl.fin 0, x, x⟩) ∧
    (∀ s1 s2, sampleFn (Asian.drawZs G steps.toNat (G.seed seed)).1 false = .ok s1 →
      sampleFn (Asian.drawZs G steps.toNat (G.seed seed)).1 true = .ok s2 →
      Asian.runMC L G 1 steps seed true sampleFn =
        .ok ⟨Dbl.fin 0.5 * (s1 + s2), Dbl.fin 0, Dbl.fin 0.5 * (s1 + s2),
          Dbl.fin 0.5 * (s1 + s2)⟩ ∧
      Asian.runMC L G 2 steps seed true sampleFn =
        .ok ⟨Dbl.fin 0.5 * (s1 + s2), Dbl.fin 0, Dbl.fin 0.5 * (s1 + s2),
          Dbl.fin 0.5 * (s1 + s2)⟩) := by
  refine ⟨fun x hx => ?_, fun s1 s2 h1 h2 => ⟨?_, ?_⟩⟩
  · exact Asian.runMC_of_one_push L hsqrt G 1 steps seed false sampleFn (by decide) hs x
      (by simpa using Asian.plainLoop_one G steps seed sampleFn x hx)
  · have hpairs : (Int.tdiv (wrap32 (1 + 1)) 2).toNat = 1 := by decide
    exact Asian.runMC_of_one_push L hsqrt G 1 steps seed true sampleFn (by decide) hs _
      (by simpa [hpairs] using Asian.antitheticLoop_one G steps seed sampleFn s1 s2 h1 h2)
  · have hpairs : (Int.tdiv (wrap32 (2 + 1)) 2).toNat = 1 := by decide
    exact Asian.runMC_of_one_push L hsqrt G 2 steps seed true sampleFn (by decide) hs _
      (by simpa [hpairs] using Asian.antitheticLoop_one G steps seed sampleFn s1 s2 h1 h2)

/-- Witness of claim C8 on the price sample of the Scenario 1 lookback call. -/
theorem Asian.runMC_single_sample_witness :
    Real.sqrt 0 = 0 ∧ (0 : Int) < 50 ∧
    Asian.runMC (⟨Real.exp, Real.sqrt, Real.log⟩ : Libm ℝ) (Gen.const 0 (1 / 2)) 1 50 42 false
        (fun Zs _ => .ok (Dbl.fin (Zs.length : ℝ))) =
      .ok ⟨Dbl.fin (((Asian.drawZs (Gen.const (0 : ℝ) (1 / 2)) (50 : Int).toNat
          ((Gen.const (0 : ℝ) (1 / 2)).seed 42)).1.length : ℝ)), Dbl.fin 0,
        Dbl.fin (((Asian.drawZs (Gen.const (0 : ℝ) (1 / 2)) (50 : Int).toNat
          ((Gen.const (0 : ℝ) (1 / 2)).seed 42)).1.length : ℝ)),
        Dbl.fin (((Asian.drawZs (Gen.const (0 : ℝ) (1 / 2)) (50 : Int).toNat
          ((Gen.const (0 : ℝ) (1 / 2)).seed 42)).1.length : ℝ))⟩ :=
  ⟨Real.sqrt_zero, by decide,
    (Asian.runMC_single_sample (⟨Real.exp, Real.sqrt, Real.log⟩ : Libm ℝ) Real.sqrt_zero
      (Gen.const 0 (1 / 2)) 50 42 (fun Zs _ => .ok (Dbl.fin (Zs.length : ℝ))) (by decide)).1
      _ rfl⟩

/-- Witness of claim C6: three paths of two steps on the draws `42, 43, ..., 47`, the sample
of a path being its first draw; the samples are `42, 44, 46`, their sum of squared deviations
is `8`, and the standard error is `sqrt((8 / 2) / 3)`. -/
theorem Asian.runMC_M2_stdError_witness :
    (0 : Int) < 2 ∧ (2 : Int) ≤ 3 ∧
    ∃ stats, Asian.runMC (⟨Real.exp, Real.sqrt, Real.log⟩ : Libm ℝ) Gen.counter 3 2 42 false
        (fun Zs _ => .ok (Zs.getD 0 Dbl.nan)) = .ok stats ∧
      stats.stdError = Dbl.sqrt (⟨Real.exp, Real.sqrt, Real.log⟩ : Libm ℝ)
        (Dbl.fin (8 / (3 - 1) / 3)) := by
  have hf : ∀ (Zs : List (Dbl ℝ)) (b : Bool), IsDraw (2 : Int).toNat Zs →
      (fun (Zs : List (Dbl ℝ)) (_ : Bool) => (Except.ok (Zs.getD 0 Dbl.nan) : Except Err (Dbl ℝ)))
        Zs b = .ok (Dbl.fin ((fun Zs _ => sampleVal (.ok (Zs.getD 0 Dbl.nan))) Zs b)) := by
    intro Zs b hZ
    obtain ⟨z, hz⟩ := hZ.getD_fin (show 0 < (2 : Int).toNat by decide)
    simp only [hz, sampleVal]
  have h := (Asian.runMC_M2_stdError (⟨Real.exp, Real.sqrt, Real.log⟩ : Libm ℝ) Gen.counter
    3 2 42 (fun Zs _ => .ok (Zs.getD 0 Dbl.nan))
    (fun Zs _ => sampleVal (.ok (Zs.getD 0 Dbl.nan))) hf (by decide)).1 (by decide)
    [42, 44, 46] (by
      simp [drawBlocks, Asian.drawZs, Gen.counter, sampleVal])
  obtain ⟨_, _, _, stats, h1, h2⟩ := h
  refine ⟨by decide, by decide, stats, h1, ?_⟩
  rw [h2]
  norm_num

/-! ### The path recursion (C10) -/

/-- The drift term `0.5 * sigma * sigma` of the source is the `sigma^2 / 2` of the
specification, also on non-finite values. -/
theorem Dbl.half_mul_self (s : Dbl α) : Dbl.fin 0.5 * s * s = s * s / Dbl.fin 2 := by
  cases s with
  | fin a =>
    rw [Dbl.fin_mul_fin, Dbl.fin_mul_fin, Dbl.fin_mul_fin, Dbl.fin_div_fin _ _ two_ne_zero]
    congr 1
    norm_num
    ring
  | pinf =>
    have h : (0 : α) < 0.5 := by norm_num
    simp [Dbl.mul_def, Dbl.div_def, Dbl.mul, Dbl.div, Dbl.mulInf, h]
  | ninf =>
    have h : (0 : α) < 0.5 := by norm_num
    simp [Dbl.mul_def, Dbl.div_def, Dbl.mul, Dbl.div, Dbl.mulInf, h, h.le]
  | nan => simp [Dbl.mul_def, Dbl.div_def, Dbl.mul, Dbl.div]

/-- After `n` iterations the loop of `discountedPayoffFromZ` holds `(S_n, A_n)`. -/
theorem Asian.pathLoop_eq (L : Libm α) (self : opt.Asian α) (S0 R sigma dt : Dbl α)
    (Zs : List (Dbl α)) (flip : Bool) (n : Nat) :
    (List.range n).foldl (Asian.pathStep L self R sigma dt Zs flip) (S0, S0) =
      (pathS L S0 R sigma dt Zs flip n, pathA L self.aggregator_ S0 R sigma dt Zs flip n) := by
  induction n with
  | zero => rfl
  | succ n ih =>
    rw [List.range_succ, List.foldl_append, ih]
    simp only [List.foldl_cons, List.foldl_nil, Asian.pathStep, pathS, pathA, pathZ,
      Dbl.half_mul_self, Dbl.ofInt]
    push_cast
    rfl

/-- Claim C10: `discountedPayoffFromZ(S0, R, sigma, T0, T, steps, Zs, flip)` is
`exp(-R*(T-T0)) * payoff(S_steps, A_steps)` (an error of the payoff being passed on), where
`S_0 = A_0 = S0`, `dt = (T-T0)/steps`, `z_j = -Zs[j]` if `flip` else `Zs[j]`,
`S_{j+1} = S_j * exp((R - sigma^2/2)*dt + sigma*sqrt(dt)*z_j)` and
`A_{j+1} = aggregator(A_j, S_{j+1}, j+1)`; and `priceMC` runs `runMC` on this function of the
option's own five parameters. -/
theorem Asian.discountedPayoffFromZ_eq_recursion {ρ : Type} (L : Libm α) (G : Gen ρ α)
    (self : opt.Asian α) (S0 R sigma T0 T : Dbl α) (paths steps : Int) (seed : Nat)
    (antithetic : Bool) (Zs : List (Dbl α)) (flip : Bool) :
    Asian.discountedPayoffFromZ L self S0 R sigma T0 T steps Zs flip =
      Except.map (fun v => Dbl.exp L ((-R) * (T - T0)) * v)
        (self.payoff_
          (pathS L S0 R sigma ((T - T0) / Dbl.ofInt steps) Zs flip steps.toNat)
          (pathA L self.aggregator_ S0 R sigma ((T - T0) / Dbl.ofInt steps) Zs flip
            steps.toNat)) ∧
    Asian.priceMC L G self paths steps seed antithetic =
      Asian.runMC L G paths steps seed antithetic (fun Zs flip =>
        Asian.discountedPayoffFromZ L self self.S0 self.R self.sigma self.T0 self.T steps Zs
          flip) := by
  refine ⟨?_, rfl⟩
  simp only [Asian.discountedPayoffFromZ, Asian.pathLoop_eq]
  cases self.payoff_ (pathS L S0 R sigma ((T - T0) / Dbl.ofInt steps) Zs flip steps.toNat)
    (pathA L self.aggregator_ S0 R sigma ((T - T0) / Dbl.ofInt steps) Zs flip steps.toNat) <;>
    rfl

/-! ### The estimate as the mean of the pushed values, and its linearity -/

/-- With valid counts and a sample function with finite values on draw vectors, `runMC`
returns, and its estimate is the arithmetic mean of the pushed values (`0` when the loop
pushes nothing). -/
theorem Asian.runMC_estimate_fin {ρ : Type} (L : Libm α) (G : Gen ρ α) (paths steps : Int)
    (seed : Nat) (antithetic : Bool) (sampleFn : List (Dbl α) → Bool → Except Err (Dbl α))
    (f : List (Dbl α) → Bool → α)
    (hf : ∀ Zs b, IsDraw steps.toNat Zs → sampleFn Zs b = .ok (Dbl.fin (f Zs b)))
    (hp : 0 < paths) (hs : 0 < steps) :
    ∃ stats, Asian.runMC L G paths steps seed antithetic sampleFn = .ok stats ∧
      stats.estimate = Dbl.fin (meanOf ((drawBlocks G steps.toNat
        (loopCount paths antithetic) (G.seed seed)).map (pushed antithetic f))) := by
  cases antithetic with
  | false =>
    have hloop := Asian.plainLoop_eq_foldl G steps sampleFn (fun Zs => Dbl.fin (f Zs false))
      (fun Zs h => hf Zs false h) paths.toNat (G.seed seed) ⟨0, Dbl.fin 0, Dbl.fin 0⟩
    refine ⟨_, Asian.runMC_eq_of_loop L G paths steps seed false sampleFn hp hs _
      (by simpa using hloop), ?_⟩
    have h := Asian.pushSample_foldl ((drawBlocks G steps.toNat paths.toNat (G.seed seed)).map
      (fun Zs => f Zs false))
    rw [List.map_map] at h
    simp only [Option.makeCI95, loopCount, pushed, Bool.false_eq_true, if_false]
    exact congrArg RunningStats.mean h
  | true =>
    have hloop := Asian.antitheticLoop_eq_foldl G steps sampleFn
      (fun Zs => Dbl.fin (f Zs false)) (fun Zs => Dbl.fin (f Zs true))
      (fun Zs h => hf Zs false h) (fun Zs h => hf Zs true h)
      (Int.tdiv (wrap32 (paths + 1)) 2).toNat (G.seed seed) ⟨0, Dbl.fin 0, Dbl.fin 0⟩
    refine ⟨_, Asian.runMC_eq_of_loop L G paths steps seed true sampleFn hp hs _
      (by simpa using hloop), ?_⟩
    have h := Asian.pushSample_foldl ((drawBlocks G steps.toNat
      (Int.tdiv (wrap32 (paths + 1)) 2).toNat (G.seed seed)).map
      (fun Zs => 0.5 * (f Zs false + f Zs true)))
    rw [List.map_map] at h
    simp only [Option.makeCI95, loopCount, pushed, if_true]
    exact congrArg RunningStats.mean h

theorem sum_map_lin3 {β : Type} (bs : List β) (g m h : β → α) (a b c : α) :
    (bs.map (fun z => a * g z + b * m z + c * h z)).sum =
      a * (bs.map g).sum + b * (bs.map m).sum + c * (bs.map h).sum := by
  induction bs with
  | nil => simp
  | cons x xs ih => simp only [List.map_cons, List.sum_cons, ih]; ring

/-- The mean is linear in the samples. -/
theorem meanOf_map_lin3 {β : Type} (bs : List β) (g m h : β → α) (a b c : α) :
    meanOf (bs.map (fun z => a * g z + b * m z + c * h z)) =
      a * meanOf (bs.map g) + b * meanOf (bs.map m) + c * meanOf (bs.map h) := by
  simp only [meanOf, sum_map_lin3, List.length_map]
  ring

/-- The pushed value is linear in the sample function. -/
theorem pushed_lin3 (antithetic : Bool) (g m h : List (Dbl α) → Bool → α) (a b c : α)
    (Zs : List (Dbl α)) :
    pushed antithetic (fun Zs fl => a * g Zs fl + b * m Zs fl + c * h Zs fl) Zs =
      a * pushed antithetic g Zs + b * pushed antithetic m Zs + c * pushed antithetic h Zs := by
  cases antithetic
  · simp [pushed]
  · simp only [pushed, if_true]; ring

/-- Common random numbers: when the sample of an estimator is, on every draw vector, the
linear combination `a * f1 + b * f2 + c * f3` of three finite samples, `runMC` returns for all
four sample functions on the same counts, seed and antithetic flag, and its estimate is the
same combination of the three estimates. -/
theorem Asian.runMC_estimate_lin3 {ρ : Type} (L : Libm α) (G : Gen ρ α) (paths steps : Int)
    (seed : Nat) (antithetic : Bool)
    (sampleG sample1 sample2 sample3 : List (Dbl α) → Bool → Except Err (Dbl α))
    (f1 f2 f3 : List (Dbl α) → Bool → α) (a b c : α)
    (h1 : ∀ Zs fl, IsDraw steps.toNat Zs → sample1 Zs fl = .ok (Dbl.fin (f1 Zs fl)))
    (h2 : ∀ Zs fl, IsDraw steps.toNat Zs → sample2 Zs fl = .ok (Dbl.fin (f2 Zs fl)))
    (h3 : ∀ Zs fl, IsDraw steps.toNat Zs → sample3 Zs fl = .ok (Dbl.fin (f3 Zs fl)))
    (hG : ∀ Zs fl, IsDraw steps.toNat Zs →
      sampleG Zs fl = .ok (Dbl.fin (a * f1 Zs fl + b * f2 Zs fl + c * f3 Zs fl)))
    (hp : 0 < paths) (hs : 0 < steps) :
    ∃ (sG s1 s2 s3 : MCStats α) (e1 e2 e3 : α),
      Asian.runMC L G paths steps seed antithetic sampleG = .ok sG ∧
      Asian.runMC L G paths steps seed antithetic sample1 = .ok s1 ∧
      Asian.runMC L G paths steps seed antithetic sample2 = .ok s2 ∧
      Asian.runMC L G paths steps seed antithetic sample3 = .ok s3 ∧
      s1.estimate = Dbl.fin e1 ∧ s2.estimate = Dbl.fin e2 ∧ s3.estimate = Dbl.fin e3 ∧
      sG.estimate = Dbl.fin (a * e1 + b * e2 + c * e3) := by
  obtain ⟨sG, hsG, heG⟩ := Asian.runMC_estimate_fin L G paths steps seed antithetic sampleG
    (fun Zs fl => a * f1 Zs fl + b * f2 Zs fl + c * f3 Zs fl) hG hp hs
  obtain ⟨s1, hs1, he1⟩ := Asian.runMC_estimate_fin L G paths steps seed antithetic sample1
    f1 h1 hp hs
  obtain ⟨s2, hs2, he2⟩ := Asian.runMC_estimate_fin L G paths steps seed antithetic sample2
    f2 h2 hp hs
  obtain ⟨s3, hs3, he3⟩ := Asian.runMC_estimate_fin L G paths steps seed antithetic sample3
    f3 h3 hp hs
  refine ⟨sG, s1, s2, s3, _, _, _, hsG, hs1, hs2, hs3, he1, he2, he3, ?_⟩
  rw [heG, ← meanOf_map_lin3]
  have hfun : pushed antithetic (fun Zs fl => a * f1 Zs fl + b * f2 Zs fl + c * f3 Zs fl) =
      fun z => a * pushed antithetic f1 z + b * pushed antithetic f2 z +
        c * pushed antithetic f3 z := by
    funext Zs
    exact pushed_lin3 antithetic f1 f2 f3 a b c Zs
  rw [hfun]

/-- The sample function does not depend on the stored parameters of the option, only on its
payoff and aggregator. -/
theorem Asian.discountedPayoffFromZ_congr (L : Libm α) (self other : opt.Asian α)
    (hpay : self.payoff_ = other.payoff_) (hagg : self.aggregator_ = other.aggregator_)
    (S0 R sigma T0 T : Dbl α) (steps : Int) (Zs : List (Dbl α)) (flip : Bool) :
    Asian.discountedPayoffFromZ L self S0 R sigma T0 T steps Zs flip =
      Asian.discountedPayoffFromZ L other S0 R sigma T0 T steps Zs flip := by
  have hstep : Asian.pathStep L self R sigma ((T - T0) / Dbl.ofInt steps) Zs flip =
      Asian.pathStep L other R sigma ((T - T0) / Dbl.ofInt steps) Zs flip := by
    funext p j
    simp only [Asian.pathStep, hagg]
  simp only [Asian.discountedPayoffFromZ, hstep, hpay]

/-- The construction succeeds on finite parameters in the admissible domain. -/
theorem Asian.Asian_fin (s0 r sg t0 t : α) (hs0 : 0 < s0) (hsg : 0 ≤ sg) (ht : t0 < t)
    (pay : Dbl α → Dbl α → Except Err (Dbl α)) (agg : Dbl α → Dbl α → Dbl α → Dbl α) :
    Asian.Asian (Dbl.fin s0) (Dbl.fin r) (Dbl.fin sg) (Dbl.fin t0) (Dbl.fin t) pay agg =
      .ok ⟨⟨Dbl.fin s0, Dbl.fin r, Dbl.fin sg, Dbl.fin t0, Dbl.fin t⟩, pay, agg⟩ := by
  unfold Asian.Asian
  rw [Option.Option_eq]
  simp [Dbl.gt, Dbl.ge, Dbl.lt, Dbl.le, Dbl.isfinite, hs0, hsg, ht]

theorem FinStrategies_call (o : opt.Option α) : FinStrategies ⟨o, PayoffCall, LookMin⟩ :=
  ⟨PayoffCall_fin, LookMin_fin⟩

theorem FinStrategies_put (o : opt.Option α) : FinStrategies ⟨o, PayoffPut, LookMax⟩ :=
  ⟨PayoffPut_fin, LookMax_fin⟩

/-- A sample on finite parameters of an option whose strategies keep finite values finite. -/
theorem Asian.sample_fin (L : Libm α) (hexp : ∀ x, 0 < L.exp x) (self : opt.Asian α)
    (hfs : FinStrategies self) (s0 r sg t0 t : α) (hs0 : 0 < s0) (ht : t0 ≤ t)
    (steps : Int) (hs : 0 < steps) (Zs : List (Dbl α)) (hZ : IsDraw steps.toNat Zs)
    (flip : Bool) :
    Asian.discountedPayoffFromZ L self (Dbl.fin s0) (Dbl.fin r) (Dbl.fin sg) (Dbl.fin t0)
        (Dbl.fin t) steps Zs flip =
      .ok (Dbl.fin (sampleVal (Asian.discountedPayoffFromZ L self (Dbl.fin s0) (Dbl.fin r)
        (Dbl.fin sg) (Dbl.fin t0) (Dbl.fin t) steps Zs flip))) :=
  sampleVal_eq (Asian.discountedPayoffFromZ_fin L hexp self hfs.1 hfs.2 s0 r sg t0 t hs0 ht
    steps hs Zs hZ flip)

/-! ### The Greeks as finite differences of prices (C11 to C15) -/

theorem Asian.priceMC_eq_runMC {ρ : Type} (L : Libm α) (G : Gen ρ α) (self : opt.Asian α)
    (paths steps : Int) (seed : Nat) (antithetic : Bool) :
    Asian.priceMC L G self paths steps seed antithetic =
      Asian.runMC L G paths steps seed antithetic (Asian.samplePrice L self steps) := rfl

theorem Asian.deltaMC_eq_runMC {ρ : Type} (L : Libm α) (G : Gen ρ α) (self : opt.Asian α)
    (paths steps : Int) (seed : Nat) (antithetic : Bool) (relEps : Dbl α) :
    Asian.deltaMC L G self paths steps seed antithetic relEps =
      Asian.runMC L G paths steps seed antithetic
        (Asian.sampleDelta L self (relEps * self.S0_) steps) := rfl

theorem Asian.gammaMC_eq_runMC {ρ : Type} (L : Libm α) (G : Gen ρ α) (self : opt.Asian α)
    (paths steps : Int) (seed : Nat) (antithetic : Bool) (relEps : Dbl α) :
    Asian.gammaMC L G self paths steps seed antithetic relEps =
      Asian.runMC L G paths steps seed antithetic
        (Asian.sampleGamma L self (relEps * self.S0_) steps) := rfl

theorem Asian.thetaMC_eq_runMC {ρ : Type} (L : Libm α) (G : Gen ρ α) (self : opt.Asian α)
    (paths steps : Int) (seed : Nat) (antithetic : Bool) (eps : Dbl α)
    (h : (Dbl.lt (self.T0_ + eps) self.T_ && Dbl.lt (self.T0_ - eps) self.T_) = true) :
    Asian.thetaMC L G self paths steps seed antithetic eps =
      Asian.runMC L G paths steps seed antithetic (Asian.sampleTheta L self eps steps) := by
  unfold Asian.thetaMC
  rw [if_neg (by simp [h])]
  rfl

theorem Asian.rhoMC_eq_runMC {ρ : Type} (L : Libm α) (G : Gen ρ α) (self : opt.Asian α)
    (paths steps : Int) (seed : Nat) (antithetic : Bool) (eps : Dbl α) :
    Asian.rhoMC L G self paths steps seed antithetic eps =
      Asian.runMC L G paths steps seed antithetic (Asian.sampleRho L self eps steps) := rfl

theorem Asian.vegaMC_eq_runMC {ρ : Type} (L : Libm α) (G : Gen ρ α) (self : opt.Asian α)
    (paths steps : Int) (seed : Nat) (antithetic : Bool) (eps : Dbl α) :
    Asian.vegaMC L G self paths steps seed antithetic eps =
      Asian.runMC L G paths steps seed antithetic (Asian.sampleVega L self eps steps) := rfl

theorem sampleVal_ok (x : α) : sampleVal (Except.ok (Dbl.fin x) : Except Err (Dbl α)) = x :=
  rfl

/-- The price estimate of `priceMC` is the price estimate of the kernel at the parameters
stored in the option. -/
theorem Asian.priceMC_eq_kernelPrice {ρ : Type} (L : Libm α) (G : Gen ρ α)
    (self : opt.Asian α) (paths steps : Int) (seed : Nat) (antithetic : Bool) :
    Asian.priceMC L G self paths steps seed antithetic =
      kernelPrice L G self self.S0_ self.R_ self.sigma_ self.T0_ self.T_ paths steps seed
        antithetic := rfl

theorem kernelPrice_congr {ρ : Type} (L : Libm α) (G : Gen ρ α) (self other : Asian α)
    (hpay : self.payoff_ = other.payoff_) (hagg : self.aggregator_ = other.aggregator_)
    (S0 R sigma T0 T : Dbl α) (paths steps : Int) (seed : Nat) (antithetic : Bool) :
    kernelPrice L G self S0 R sigma T0 T paths steps seed antithetic =
      kernelPrice L G other S0 R sigma T0 T paths steps seed antithetic := by
  unfold kernelPrice
  congr 1
  funext Zs flip
  exact Asian.discountedPayoffFromZ_congr L self other hpay hagg S0 R sigma T0 T steps Zs flip

/-- A centred first difference: an estimator whose sample is `(Pu - Pd) / (2 * e)`, where
`Pu` and `Pd` are the discounted payoffs at two finite parameter sets computed on the same
draws, returns the centred difference of the two kernel price estimates. -/
theorem Asian.central_difference {ρ : Type} (L : Libm α) (hexp : ∀ x, 0 < L.exp x)
    (G : Gen ρ α) (self : opt.Asian α) (hfs : FinStrategies self)
    (su ru sgu tu sd rd sgd td t e : α) (hsu : 0 < su) (htu : tu ≤ t) (hsd : 0 < sd)
    (htd : td ≤ t) (he : e ≠ 0) (paths steps : Int) (hp : 0 < paths) (hs : 0 < steps)
    (seed : Nat) (antithetic : Bool) (sampleG : List (Dbl α) → Bool → Except Err (Dbl α))
    (hG : ∀ Zs fl, sampleG Zs fl =
      match Asian.discountedPayoffFromZ L self (Dbl.fin su) (Dbl.fin ru) (Dbl.fin sgu)
          (Dbl.fin tu) (Dbl.fin t) steps Zs fl with
      | .error err => .error err
      | .ok Pu =>
        match Asian.discountedPayoffFromZ L self (Dbl.fin sd) (Dbl.fin rd) (Dbl.fin sgd)
            (Dbl.fin td) (Dbl.fin t) steps Zs fl with
        | .error err => .error err
        | .ok Pd => .ok ((Pu - Pd) / (Dbl.fin 2 * Dbl.fin e))) :
    ∃ g pu pd : MCStats α,
      Asian.runMC L G paths steps seed antithetic sampleG = .ok g ∧
      kernelPrice L G self (Dbl.fin su) (Dbl.fin ru) (Dbl.fin sgu) (Dbl.fin tu) (Dbl.fin t)
        paths steps seed antithetic = .ok pu ∧
      kernelPrice L G self (Dbl.fin sd) (Dbl.fin rd) (Dbl.fin sgd) (Dbl.fin td) (Dbl.fin t)
        paths steps seed antithetic = .ok pd ∧
      (∃ eu ed : α, pu.estimate = Dbl.fin eu ∧ pd.estimate = Dbl.fin ed) ∧
      g.estimate = (pu.estimate - pd.estimate) / (Dbl.fin 2 * Dbl.fin e) := by
  have h2e : 2 * e ≠ 0 := mul_ne_zero two_ne_zero he
  have hU := fun Zs fl hZ => Asian.sample_fin L hexp self hfs su ru sgu tu t hsu htu
    steps hs Zs hZ fl
  have hD := fun Zs fl hZ => Asian.sample_fin L hexp self hfs sd rd sgd td t hsd htd
    steps hs Zs hZ fl
  obtain ⟨sG, s1, _, s3, e1, _, e3, hrG, h1, _, h3, he1, _, he3, hest⟩ :=
    Asian.runMC_estimate_lin3 L G paths steps seed antithetic sampleG
      (fun Zs fl => Asian.discountedPayoffFromZ L self (Dbl.fin su) (Dbl.fin ru) (Dbl.fin sgu)
          (Dbl.fin tu) (Dbl.fin t) steps Zs fl)
      (fun Zs fl => Asian.discountedPayoffFromZ L self (Dbl.fin su) (Dbl.fin ru) (Dbl.fin sgu)
          (Dbl.fin tu) (Dbl.fin t) steps Zs fl)
      (fun Zs fl => Asian.discountedPayoffFromZ L self (Dbl.fin sd) (Dbl.fin rd) (Dbl.fin sgd)
          (Dbl.fin td) (Dbl.fin t) steps Zs fl)
      _ _ _ (1 / (2 * e)) 0 (-(1 / (2 * e))) hU hU hD
      (fun Zs fl hZ => by
        rw [hG, hU Zs fl hZ, hD Zs fl hZ]
        simp only [Dbl.fin_sub_fin, Dbl.fin_mul_fin, Dbl.fin_div_fin _ _ h2e, sampleVal_ok]
        congr 2
        field_simp
        ring) hp hs
  refine ⟨sG, s1, s3, hrG, h1, h3, ⟨e1, e3, he1, he3⟩, ?_⟩
  rw [hest, he1, he3]
  simp only [Dbl.fin_mul_fin, Dbl.fin_sub_fin, Dbl.fin_div_fin _ _ h2e]
  congr 1
  field_simp
  ring

/-- The two exported constructions, on success: finite parameters in the admissible domain and
one of the two lookback pairs of strategies. -/
theorem lookback_self {S0 R sigma T0 T : Dbl α} {self : Asian α}
    (hself : makeLookbackCall S0 R sigma T0 T = .ok self ∨
      makeLookbackPut S0 R sigma T0 T = .ok self) :
    ∃ (s0 r sg t0 t : α) (pay : Dbl α → Dbl α → Except Err (Dbl α))
      (agg : Dbl α → Dbl α → Dbl α → Dbl α),
      S0 = Dbl.fin s0 ∧ R = Dbl.fin r ∧ sigma = Dbl.fin sg ∧ T0 = Dbl.fin t0 ∧ T = Dbl.fin t ∧
      self = ⟨⟨Dbl.fin s0, Dbl.fin r, Dbl.fin sg, Dbl.fin t0, Dbl.fin t⟩, pay, agg⟩ ∧
      0 < s0 ∧ 0 ≤ sg ∧ t0 < t ∧
      ((pay = PayoffCall ∧ agg = LookMin ∧ makeLookbackCall S0 R sigma T0 T = .ok self) ∨
        (pay = PayoffPut ∧ agg = LookMax ∧ makeLookbackPut S0 R sigma T0 T = .ok self)) := by
  rcases hself with h | h
  · obtain ⟨h1, s0, r, sg, t0, t, e1, e2, e3, e4, e5, hpos, hsg, hlt⟩ := Asian.Asian_ok h
    subst e1 e2 e3 e4 e5
    exact ⟨s0, r, sg, t0, t, PayoffCall, LookMin, rfl, rfl, rfl, rfl, rfl, h1, hpos, hsg, hlt,
      Or.inl ⟨rfl, rfl, h⟩⟩
  · obtain ⟨h1, s0, r, sg, t0, t, e1, e2, e3, e4, e5, hpos, hsg, hlt⟩ := Asian.Asian_ok h
    subst e1 e2 e3 e4 e5
    exact ⟨s0, r, sg, t0, t, PayoffPut, LookMax, rfl, rfl, rfl, rfl, rfl, h1, hpos, hsg, hlt,
      Or.inr ⟨rfl, rfl, h⟩⟩

/-- The strategies of a lookback pair keep finite values finite, whatever the parameters. -/
theorem FinStrategies_of_pair (o : opt.Option α) (pay : Dbl α → Dbl α → Except Err (Dbl α))
    (agg : Dbl α → Dbl α → Dbl α → Dbl α)
    (h : (pay = PayoffCall ∧ agg = LookMin) ∨ (pay = PayoffPut ∧ agg = LookMax)) :
    FinStrategies ⟨o, pay, agg⟩ := by
  rcases h with ⟨rfl, rfl⟩ | ⟨rfl, rfl⟩
  · exact FinStrategies_call o
  · exact FinStrategies_put o

/-- The exported construction of the same kind (call or put) on other finite parameters in
the admissible domain. -/
theorem lookback_rebuild {S0 R sigma T0 T : Dbl α} {self : Asian α}
    {pay : Dbl α → Dbl α → Except Err (Dbl α)} {agg : Dbl α → Dbl α → Dbl α → Dbl α}
    (h : (pay = PayoffCall ∧ agg = LookMin ∧ makeLookbackCall S0 R sigma T0 T = .ok self) ∨
      (pay = PayoffPut ∧ agg = LookMax ∧ makeLookbackPut S0 R sigma T0 T = .ok self)) :
    (makeLookbackCall S0 R sigma T0 T = .ok self ∧
      ∀ s0 r sg t0 t : α, 0 < s0 → 0 ≤ sg → t0 < t →
        makeLookbackCall (Dbl.fin s0) (Dbl.fin r) (Dbl.fin sg) (Dbl.fin t0) (Dbl.fin t) =
          .ok ⟨⟨Dbl.fin s0, Dbl.fin r, Dbl.fin sg, Dbl.fin t0, Dbl.fin t⟩, pay, agg⟩) ∨
    (makeLookbackPut S0 R sigma T0 T = .ok self ∧
      ∀ s0 r sg t0 t : α, 0 < s0 → 0 ≤ sg → t0 < t →
        makeLookbackPut (Dbl.fin s0) (Dbl.fin r) (Dbl.fin sg) (Dbl.fin t0) (Dbl.fin t) =
          .ok ⟨⟨Dbl.fin s0, Dbl.fin r, Dbl.fin sg, Dbl.fin t0, Dbl.fin t⟩, pay, agg⟩) := by
  rcases h with ⟨rfl, rfl, h⟩ | ⟨rfl, rfl, h⟩
  · exact Or.inl ⟨h, fun s0 r sg t0 t hs0 hsg ht => Asian.Asian_fin s0 r sg t0 t hs0 hsg ht _ _⟩
  · exact Or.inr ⟨h, fun s0 r sg t0 t hs0 hsg ht => Asian.Asian_fin s0 r sg t0 t hs0 hsg ht _ _⟩

theorem Dbl.lt_zero_lt_one {x : Dbl α} (h0 : Dbl.lt (Dbl.fin 0) x = true)
    (h1 : Dbl.lt x (Dbl.fin 1) = true) : ∃ a : α, x = Dbl.fin a ∧ 0 < a ∧ a < 1 := by
  cases x with
  | fin a => exact ⟨a, rfl, by simpa [Dbl.lt] using h0, by simpa [Dbl.lt] using h1⟩
  | pinf => simp [Dbl.lt] at h1
  | ninf => simp [Dbl.lt] at h0
  | nan => simp [Dbl.lt] at h0

/-- Claim C11, as amended: in exact arithmetic (every operation on doubles computed without
rounding, overflow or underflow, and `std::exp` positive), for the exported lookback call and put,
`paths > 0`, `steps > 0`, every seed and antithetic flag and `0 < relEps < 1` (the default `1e-4` is
such a value), `deltaMC` returns and its estimate is `(P(S0+eps) - P(S0-eps)) / (2*eps)` with `eps =
relEps * S0`, where `P(x)` is the estimate that `priceMC` returns for the option of the same kind
built with spot `x` and the same `R`, `sigma`, `T0`, `T`, on the same `paths`, `steps`, seed and
antithetic flag. (In IEEE doubles the two sides differ by rounding.) -/
theorem Asian.deltaMC_eq_price_difference {ρ : Type} (L : Libm α) (hexp : ∀ x, 0 < L.exp x)
    (G : Gen ρ α) (S0 R sigma T0 T relEps : Dbl α) (self : opt.Asian α)
    (hself : makeLookbackCall S0 R sigma T0 T = .ok self ∨
      makeLookbackPut S0 R sigma T0 T = .ok self)
    (hre0 : Dbl.lt (Dbl.fin 0) relEps = true) (hre1 : Dbl.lt relEps (Dbl.fin 1) = true)
    (paths steps : Int) (hp : 0 < paths) (hs : 0 < steps) (seed : Nat) (antithetic : Bool) :
    (∃ (up dn : opt.Asian α) (d pu pd : MCStats α),
      ((makeLookbackCall S0 R sigma T0 T = .ok self ∧
          makeLookbackCall (S0 + relEps * S0) R sigma T0 T = .ok up ∧
          makeLookbackCall (S0 - relEps * S0) R sigma T0 T = .ok dn) ∨
        (makeLookbackPut S0 R sigma T0 T = .ok self ∧
          makeLookbackPut (S0 + relEps * S0) R sigma T0 T = .ok up ∧
          makeLookbackPut (S0 - relEps * S0) R sigma T0 T = .ok dn)) ∧
      Asian.deltaMC L G self paths steps seed antithetic relEps = .ok d ∧
      Asian.priceMC L G up paths steps seed antithetic = .ok pu ∧
      Asian.priceMC L G dn paths steps seed antithetic = .ok pd ∧
      d.estimate = (pu.estimate - pd.estimate) / (Dbl.fin 2 * (relEps * S0))) ∧
    Dbl.lt (Dbl.fin 0) (Asian.deltaRelEps : Dbl α) = true ∧
    Dbl.lt (Asian.deltaRelEps : Dbl α) (Dbl.fin 1) = true := by
  refine ⟨?_, by norm_num [Asian.deltaRelEps, Dbl.lt], by norm_num [Asian.deltaRelEps, Dbl.lt]⟩
  obtain ⟨s0, r, sg, t0, t, pay, agg, rfl, rfl, rfl, rfl, rfl, rfl, hs0, hsg, ht, hkind⟩ :=
    lookback_self hself
  obtain ⟨re, rfl, hre0', hre1'⟩ := Dbl.lt_zero_lt_one hre0 hre1
  have hup : 0 < s0 + re * s0 := by positivity
  have hdn : 0 < s0 - re * s0 := by nlinarith
  have hfs := FinStrategies_of_pair ⟨Dbl.fin s0, Dbl.fin r, Dbl.fin sg, Dbl.fin t0, Dbl.fin t⟩
    pay agg (hkind.imp (fun h => ⟨h.1, h.2.1⟩) (fun h => ⟨h.1, h.2.1⟩))
  obtain ⟨d, pu, pd, hd, hpu, hpd, _, hest⟩ := Asian.central_difference L hexp G
    ⟨⟨Dbl.fin s0, Dbl.fin r, Dbl.fin sg, Dbl.fin t0, Dbl.fin t⟩, pay, agg⟩ hfs
    (s0 + re * s0) r sg t0 (s0 - re * s0) r sg t0 t (re * s0) hup ht.le hdn ht.le
    (mul_pos hre0' hs0).ne' paths steps hp hs seed antithetic
    (Asian.sampleDelta L ⟨⟨Dbl.fin s0, Dbl.fin r, Dbl.fin sg, Dbl.fin t0, Dbl.fin t⟩, pay, agg⟩
      (Dbl.fin re * Dbl.fin s0) steps)
    (fun _ _ => by
      simp only [Asian.sampleDelta, Dbl.fin_mul_fin, Dbl.fin_add_fin, Dbl.fin_sub_fin])
  refine ⟨⟨⟨Dbl.fin (s0 + re * s0), Dbl.fin r, Dbl.fin sg, Dbl.fin t0, Dbl.fin t⟩, pay, agg⟩,
    ⟨⟨Dbl.fin (s0 - re * s0), Dbl.fin r, Dbl.fin sg, Dbl.fin t0, Dbl.fin t⟩, pay, agg⟩,
    d, pu, pd, ?_, hd, ?_, ?_, hest⟩
  · simp only [Dbl.fin_mul_fin, Dbl.fin_add_fin, Dbl.fin_sub_fin]
    rcases lookback_rebuild hkind with ⟨h1, h2⟩ | ⟨h1, h2⟩
    · exact Or.inl ⟨h1, h2 _ _ _ _ _ hup hsg ht, h2 _ _ _ _ _ hdn hsg ht⟩
    · exact Or.inr ⟨h1, h2 _ _ _ _ _ hup hsg ht, h2 _ _ _ _ _ hdn hsg ht⟩
  · rw [Asian.priceMC_eq_kernelPrice, ← hpu]
    exact kernelPrice_congr L G _ _ rfl rfl _ _ _ _ _ _ _ _ _
  · rw [Asian.priceMC_eq_kernelPrice, ← hpd]
    exact kernelPrice_congr L G _ _ rfl rfl _ _ _ _ _ _ _ _ _

/-- Witness of claim C11 on the Scenario 1 lookback call with the default bump. -/
theorem Asian.deltaMC_eq_price_difference_witness :
    (∀ x : ℝ, 0 < Real.exp x) ∧
    makeLookbackCall (Dbl.fin 100) (Dbl.fin 0.05) (Dbl.fin 0.2) (Dbl.fin 0) (Dbl.fin 1)
      = .ok (scenarioCall : opt.Asian ℝ) ∧
    Dbl.lt (Dbl.fin 0) (Asian.deltaRelEps : Dbl ℝ) = true ∧
    Dbl.lt (Asian.deltaRelEps : Dbl ℝ) (Dbl.fin 1) = true ∧
    (0 : Int) < 10000 ∧ (0 : Int) < 50 ∧
    ∃ (up dn : opt.Asian ℝ) (d pu pd : MCStats ℝ),
      Asian.deltaMC (⟨Real.exp, Real.sqrt, Real.log⟩ : Libm ℝ) Gen.counter scenarioCall
        10000 50 42 false Asian.deltaRelEps = .ok d ∧
      Asian.priceMC (⟨Real.exp, Real.sqrt, Real.log⟩ : Libm ℝ) Gen.counter up
        10000 50 42 false = .ok pu ∧
      Asian.priceMC (⟨Real.exp, Real.sqrt, Real.log⟩ : Libm ℝ) Gen.counter dn
        10000 50 42 false = .ok pd ∧
      d.estimate = (pu.estimate - pd.estimate) /
        (Dbl.fin 2 * (Asian.deltaRelEps * Dbl.fin 100)) := by
  have h0 : Dbl.lt (Dbl.fin 0) (Asian.deltaRelEps : Dbl ℝ) = true := by
    norm_num [Asian.deltaRelEps, Dbl.lt]
  have h1 : Dbl.lt (Asian.deltaRelEps : Dbl ℝ) (Dbl.fin 1) = true := by
    norm_num [Asian.deltaRelEps, Dbl.lt]
  obtain ⟨up, dn, d, pu, pd, _, hd, hpu, hpd, hest⟩ :=
    (Asian.deltaMC_eq_price_difference (⟨Real.exp, Real.sqrt, Real.log⟩ : Libm ℝ) Real.exp_pos
      Gen.counter (Dbl.fin 100) (Dbl.fin 0.05) (Dbl.fin 0.2) (Dbl.fin 0) (Dbl.fin 1)
      Asian.deltaRelEps scenarioCall (Or.inl makeLookbackCall_scenario) h0 h1 10000 50
      (by decide) (by decide) 42 false).1
  exact ⟨Real.exp_pos, makeLookbackCall_scenario, h0, h1, by decide, by decide,
    up, dn, d, pu, pd, hd, hpu, hpd, hest⟩

/-- A centred second difference: an estimator whose sample is `(Pu - 2*Pm + Pd) / (e*e)`,
where `Pu`, `Pm`, `Pd` are the discounted payoffs at three finite parameter sets computed on
the same draws, returns the same combination of the three kernel price estimates. -/
theorem Asian.second_difference {ρ : Type} (L : Libm α) (hexp : ∀ x, 0 < L.exp x)
    (G : Gen ρ α) (self : opt.Asian α) (hfs : FinStrategies self)
    (su sm sd r sg t0 t e : α) (hsu : 0 < su) (hsm : 0 < sm) (hsd : 0 < sd) (ht : t0 ≤ t)
    (he : e ≠ 0) (paths steps : Int) (hp : 0 < paths) (hs : 0 < steps)
    (seed : Nat) (antithetic : Bool) (sampleG : List (Dbl α) → Bool → Except Err (Dbl α))
    (hG : ∀ Zs fl, sampleG Zs fl =
      match Asian.discountedPayoffFromZ L self (Dbl.fin su) (Dbl.fin r) (Dbl.fin sg)
          (Dbl.fin t0) (Dbl.fin t) steps Zs fl with
      | .error err => .error err
      | .ok Pu =>
        match Asian.discountedPayoffFromZ L self (Dbl.fin sm) (Dbl.fin r) (Dbl.fin sg)
            (Dbl.fin t0) (Dbl.fin t) steps Zs fl with
        | .error err => .error err
        | .ok Pm =>
          match Asian.discountedPayoffFromZ L self (Dbl.fin sd) (Dbl.fin r) (Dbl.fin sg)
              (Dbl.fin t0) (Dbl.fin t) steps Zs fl with
          | .error err => .error err
          | .ok Pd => .ok ((Pu - Dbl.fin 2 * Pm + Pd) / (Dbl.fin e * Dbl.fin e))) :
    ∃ g pu pm pd : MCStats α,
      Asian.runMC L G paths steps seed antithetic sampleG = .ok g ∧
      kernelPrice L G self (Dbl.fin su) (Dbl.fin r) (Dbl.fin sg) (Dbl.fin t0) (Dbl.fin t)
        paths steps seed antithetic = .ok pu ∧
      kernelPrice L G self (Dbl.fin sm) (Dbl.fin r) (Dbl.fin sg) (Dbl.fin t0) (Dbl.fin t)
        paths steps seed antithetic = .ok pm ∧
      kernelPrice L G self (Dbl.fin sd) (Dbl.fin r) (Dbl.fin sg) (Dbl.fin t0) (Dbl.fin t)
        paths steps seed antithetic = .ok pd ∧
      g.estimate = (pu.estimate - Dbl.fin 2 * pm.estimate + pd.estimate)
        / (Dbl.fin e * Dbl.fin e) := by
  have hee : e * e ≠ 0 := mul_ne_zero he he
  have hU := fun Zs fl hZ => Asian.sample_fin L hexp self hfs su r sg t0 t hsu ht
    steps hs Zs hZ fl
  have hM := fun Zs fl hZ => Asian.sample_fin L hexp self hfs sm r sg t0 t hsm ht
    steps hs Zs hZ fl
  have hD := fun Zs fl hZ => Asian.sample_fin L hexp self hfs sd r sg t0 t hsd ht
    steps hs Zs hZ fl
  obtain ⟨sG, s1, s2, s3, e1, e2, e3, hrG, h1, h2, h3, he1, he2, he3, hest⟩ :=
    Asian.runMC_estimate_lin3 L G paths steps seed antithetic sampleG
      (fun Zs fl => Asian.discountedPayoffFromZ L self (Dbl.fin su) (Dbl.fin r) (Dbl.fin sg)
          (Dbl.fin t0) (Dbl.fin t) steps Zs fl)
      (fun Zs fl => Asian.discountedPayoffFromZ L self (Dbl.fin sm) (Dbl.fin r) (Dbl.fin sg)
          (Dbl.fin t0) (Dbl.fin t) steps Zs fl)
      (fun Zs fl => Asian.discountedPayoffFromZ L self (Dbl.fin sd) (Dbl.fin r) (Dbl.fin sg)
          (Dbl.fin t0) (Dbl.fin t) steps Zs fl)
      _ _ _ (1 / (e * e)) (-(2 / (e * e))) (1 / (e * e)) hU hM hD
      (fun Zs fl hZ => by
        rw [hG, hU Zs fl hZ, hM Zs fl hZ, hD Zs fl hZ]
        simp only [Dbl.fin_sub_fin, Dbl.fin_add_fin, Dbl.fin_mul_fin, Dbl.fin_div_fin _ _ hee,
          sampleVal_ok]
        congr 2
        field_simp
        ring) hp hs
  refine ⟨sG, s1, s2, s3, hrG, h1, h2, h3, ?_⟩
  rw [hest, he1, he2, he3]
  simp only [Dbl.fin_mul_fin, Dbl.fin_sub_fin, Dbl.fin_add_fin, Dbl.fin_div_fin _ _ hee]
  congr 1
  field_simp
  ring

/-- Claim C12, as amended: in exact arithmetic (every operation on doubles computed without
rounding, overflow or underflow, and `std::exp` positive), for the exported lookback call and put,
`paths > 0`, `steps > 0`, every seed and antithetic flag and `0 < relEps < 1` (the default `1e-3` is
such a value), `gammaMC` returns and its estimate is `(P(S0+eps) - 2*P(S0) + P(S0-eps)) / eps^2`
with `eps = relEps * S0`, where `P(x)` is the estimate that `priceMC` returns for the option of the
same kind built with spot `x`, on the same `paths`, `steps`, seed and antithetic flag. (In IEEE
doubles the two sides differ by rounding.) -/
theorem Asian.gammaMC_eq_price_difference {ρ : Type} (L : Libm α) (hexp : ∀ x, 0 < L.exp x)
    (G : Gen ρ α) (S0 R sigma T0 T relEps : Dbl α) (self : opt.Asian α)
    (hself : makeLookbackCall S0 R sigma T0 T = .ok self ∨
      makeLookbackPut S0 R sigma T0 T = .ok self)
    (hre0 : Dbl.lt (Dbl.fin 0) relEps = true) (hre1 : Dbl.lt relEps (Dbl.fin 1) = true)
    (paths steps : Int) (hp : 0 < paths) (hs : 0 < steps) (seed : Nat) (antithetic : Bool) :
    (∃ (up dn : opt.Asian α) (g pu pm pd : MCStats α),
      ((makeLookbackCall S0 R sigma T0 T = .ok self ∧
          makeLookbackCall (S0 + relEps * S0) R sigma T0 T = .ok up ∧
          makeLookbackCall (S0 - relEps * S0) R sigma T0 T = .ok dn) ∨
        (makeLookbackPut S0 R sigma T0 T = .ok self ∧
          makeLookbackPut (S0 + relEps * S0) R sigma T0 T = .ok up ∧
          makeLookbackPut (S0 - relEps * S0) R sigma T0 T = .ok dn)) ∧
      Asian.gammaMC L G self paths steps seed antithetic relEps = .ok g ∧
      Asian.priceMC L G up paths steps seed antithetic = .ok pu ∧
      Asian.priceMC L G self paths steps seed antithetic = .ok pm ∧
      Asian.priceMC L G dn paths steps seed antithetic = .ok pd ∧
      g.estimate = (pu.estimate - Dbl.fin 2 * pm.estimate + pd.estimate)
        / ((relEps * S0) * (relEps * S0))) ∧
    Dbl.lt (Dbl.fin 0) (Asian.gammaRelEps : Dbl α) = true ∧
    Dbl.lt (Asian.gammaRelEps : Dbl α) (Dbl.fin 1) = true := by
  refine ⟨?_, by norm_num [Asian.gammaRelEps, Dbl.lt], by norm_num [Asian.gammaRelEps, Dbl.lt]⟩
  obtain ⟨s0, r, sg, t0, t, pay, agg, rfl, rfl, rfl, rfl, rfl, rfl, hs0, hsg, ht, hkind⟩ :=
    lookback_self hself
  obtain ⟨re, rfl, hre0', hre1'⟩ := Dbl.lt_zero_lt_one hre0 hre1
  have hup : 0 < s0 + re * s0 := by positivity
  have hdn : 0 < s0 - re * s0 := by nlinarith
  have hfs := FinStrategies_of_pair ⟨Dbl.fin s0, Dbl.fin r, Dbl.fin sg, Dbl.fin t0, Dbl.fin t⟩
    pay agg (hkind.imp (fun h => ⟨h.1, h.2.1⟩) (fun h => ⟨h.1, h.2.1⟩))
  obtain ⟨g, pu, pm, pd, hg, hpu, hpm, hpd, hest⟩ := Asian.second_difference L hexp G
    ⟨⟨Dbl.fin s0, Dbl.fin r, Dbl.fin sg, Dbl.fin t0, Dbl.fin t⟩, pay, agg⟩ hfs
    (s0 + re * s0) s0 (s0 - re * s0) r sg t0 t (re * s0) hup hs0 hdn ht.le
    (mul_pos hre0' hs0).ne' paths steps hp hs seed antithetic
    (Asian.sampleGamma L ⟨⟨Dbl.fin s0, Dbl.fin r, Dbl.fin sg, Dbl.fin t0, Dbl.fin t⟩, pay, agg⟩
      (Dbl.fin re * Dbl.fin s0) steps)
    (fun _ _ => by
      simp only [Asian.sampleGamma, Dbl.fin_mul_fin, Dbl.fin_add_fin, Dbl.fin_sub_fin])
  refine ⟨⟨⟨Dbl.fin (s0 + re * s0), Dbl.fin r, Dbl.fin sg, Dbl.fin t0, Dbl.fin t⟩, pay, agg⟩,
    ⟨⟨Dbl.fin (s0 - re * s0), Dbl.fin r, Dbl.fin sg, Dbl.fin t0, Dbl.fin t⟩, pay, agg⟩,
    g, pu, pm, pd, ?_, hg, ?_, hpm, ?_, hest⟩
  · simp only [Dbl.fin_mul_fin, Dbl.fin_add_fin, Dbl.fin_sub_fin]
    rcases lookback_rebuild hkind with ⟨h1, h2⟩ | ⟨h1, h2⟩
    · exact Or.inl ⟨h1, h2 _ _ _ _ _ hup hsg ht, h2 _ _ _ _ _ hdn hsg ht⟩
    · exact Or.inr ⟨h1, h2 _ _ _ _ _ hup hsg ht, h2 _ _ _ _ _ hdn hsg ht⟩
  · rw [Asian.priceMC_eq_kernelPrice, ← hpu]
    exact kernelPrice_congr L G _ _ rfl rfl _ _ _ _ _ _ _ _ _
  · rw [Asian.priceMC_eq_kernelPrice, ← hpd]
    exact kernelPrice_congr L G _ _ rfl rfl _ _ _ _ _ _ _ _ _

/-- Witness of claim C12 on the Scenario 1 lookback call with the default bump. -/
theorem Asian.gammaMC_eq_price_difference_witness :
    (∀ x : ℝ, 0 < Real.exp x) ∧
    makeLookbackCall (Dbl.fin 100) (Dbl.fin 0.05) (Dbl.fin 0.2) (Dbl.fin 0) (Dbl.fin 1)
      = .ok (scenarioCall : opt.Asian ℝ) ∧
    Dbl.lt (Dbl.fin 0) (Asian.gammaRelEps : Dbl ℝ) = true ∧
    Dbl.lt (Asian.gammaRelEps : Dbl ℝ) (Dbl.fin 1) = true ∧
    (0 : Int) < 10000 ∧ (0 : Int) < 50 ∧
    ∃ (up dn : opt.Asian ℝ) (g pu pm pd : MCStats ℝ),
      Asian.gammaMC (⟨Real.exp, Real.sqrt, Real.log⟩ : Libm ℝ) Gen.counter scenarioCall
        10000 50 42 true Asian.gammaRelEps = .ok g ∧
      Asian.priceMC (⟨Real.exp, Real.sqrt, Real.log⟩ : Libm ℝ) Gen.counter up
        10000 50 42 true = .ok pu ∧
      Asian.priceMC (⟨Real.exp, Real.sqrt, Real.log⟩ : Libm ℝ) Gen.counter scenarioCall
        10000 50 42 true = .ok pm ∧
      Asian.priceMC (⟨Real.exp, Real.sqrt, Real.log⟩ : Libm ℝ) Gen.counter dn
        10000 50 42 true = .ok pd ∧
      g.estimate = (pu.estimate - Dbl.fin 2 * pm.estimate + pd.estimate) /
        ((Asian.gammaRelEps * Dbl.fin 100) * (Asian.gammaRelEps * Dbl.fin 100)) := by
  have h0 : Dbl.lt (Dbl.fin 0) (Asian.gammaRelEps : Dbl ℝ) = true := by
    norm_num [Asian.gammaRelEps, Dbl.lt]
  have h1 : Dbl.lt (Asian.gammaRelEps : Dbl ℝ) (Dbl.fin 1) = true := by
    norm_num [Asian.gammaRelEps, Dbl.lt]
  obtain ⟨up, dn, g, pu, pm, pd, _, hg, hpu, hpm, hpd, hest⟩ :=
    (Asian.gammaMC_eq_price_difference (⟨Real.exp, Real.sqrt, Real.log⟩ : Libm ℝ) Real.exp_pos
      Gen.counter (Dbl.fin 100) (Dbl.fin 0.05) (Dbl.fin 0.2) (Dbl.fin 0) (Dbl.fin 1)
      Asian.gammaRelEps scenarioCall (Or.inl makeLookbackCall_scenario) h0 h1 10000 50
      (by decide) (by decide) 42 true).1
  exact ⟨Real.exp_pos, makeLookbackCall_scenario, h0, h1, by decide, by decide,
    up, dn, g, pu, pm, pd, hg, hpu, hpm, hpd, hest⟩

/-- An admissible bump of `thetaMC` on finite `T0`, `T` is a finite value. -/
theorem Asian.theta_bump_fin {t0 t : α} {eps : Dbl α}
    (h1 : Dbl.lt (Dbl.fin t0 + eps) (Dbl.fin t) = true)
    (h2 : Dbl.lt (Dbl.fin t0 - eps) (Dbl.fin t) = true) :
    ∃ e : α, eps = Dbl.fin e ∧ t0 + e < t ∧ t0 - e < t := by
  cases eps with
  | fin e =>
    exact ⟨e, rfl, by simpa [Dbl.lt] using h1, by simpa [Dbl.lt] using h2⟩
  | pinf => simp [Dbl.add_def, Dbl.add, Dbl.lt] at h1
  | ninf => simp [Dbl.sub_def, Dbl.add, Dbl.neg, Dbl.lt] at h2
  | nan => simp [Dbl.add_def, Dbl.add, Dbl.lt] at h1

/-- Claim C13, as amended: in exact arithmetic (every operation on doubles computed without
rounding, overflow or underflow, and `std::exp` positive), for the exported lookback call and put,
`paths > 0`, `steps > 0`, every seed and antithetic flag and every bump `eps != 0` with `T0 + eps <
T` and `T0 - eps < T`, `thetaMC` returns and its estimate is `(P(T0+eps) - P(T0-eps)) / (2*eps)`,
where `P(t)` is the estimate that `priceMC` returns for the option of the same kind built with
valuation time `t` (its step size and its discount factor then use `T - t`), on the same `paths`,
`steps`, seed and antithetic flag; the default bump, the quotient `1.0 / 365.0`, is `1/365` in exact
arithmetic and is not zero. (In IEEE doubles the two sides differ by rounding, and the default bump
is the double nearest to `1/365`.) -/
theorem Asian.thetaMC_eq_price_difference {ρ : Type} (L : Libm α) (hexp : ∀ x, 0 < L.exp x)
    (G : Gen ρ α) (S0 R sigma T0 T eps : Dbl α) (self : opt.Asian α)
    (hself : makeLookbackCall S0 R sigma T0 T = .ok self ∨
      makeLookbackPut S0 R sigma T0 T = .ok self)
    (heps : eps ≠ Dbl.fin 0) (hlt1 : Dbl.lt (T0 + eps) T = true)
    (hlt2 : Dbl.lt (T0 - eps) T = true)
    (paths steps : Int) (hp : 0 < paths) (hs : 0 < steps) (seed : Nat) (antithetic : Bool) :
    (∃ (up dn : opt.Asian α) (th pu pd : MCStats α),
      ((makeLookbackCall S0 R sigma T0 T = .ok self ∧
          makeLookbackCall S0 R sigma (T0 + eps) T = .ok up ∧
          makeLookbackCall S0 R sigma (T0 - eps) T = .ok dn) ∨
        (makeLookbackPut S0 R sigma T0 T = .ok self ∧
          makeLookbackPut S0 R sigma (T0 + eps) T = .ok up ∧
          makeLookbackPut S0 R sigma (T0 - eps) T = .ok dn)) ∧
      Asian.thetaMC L G self paths steps seed antithetic eps = .ok th ∧
      Asian.priceMC L G up paths steps seed antithetic = .ok pu ∧
      Asian.priceMC L G dn paths steps seed antithetic = .ok pd ∧
      th.estimate = (pu.estimate - pd.estimate) / (Dbl.fin 2 * eps)) ∧
    (Asian.thetaEps : Dbl α) = Dbl.fin (1 / 365) ∧ (Asian.thetaEps : Dbl α) ≠ Dbl.fin 0 := by
  have hdef : (Asian.thetaEps : Dbl α) = Dbl.fin (1 / 365) := by
    unfold Asian.thetaEps
    rw [Dbl.fin_div_fin _ _ (by norm_num)]
  refine ⟨?_, hdef, by rw [hdef]; intro h; have := Dbl.fin.inj h; norm_num at this⟩
  obtain ⟨s0, r, sg, t0, t, pay, agg, rfl, rfl, rfl, rfl, rfl, rfl, hs0, hsg, ht, hkind⟩ :=
    lookback_self hself
  obtain ⟨e, rfl, hup, hdn⟩ := Asian.theta_bump_fin hlt1 hlt2
  have he : e ≠ 0 := fun h => heps (by rw [h])
  have hfs := FinStrategies_of_pair ⟨Dbl.fin s0, Dbl.fin r, Dbl.fin sg, Dbl.fin t0, Dbl.fin t⟩
    pay agg (hkind.imp (fun h => ⟨h.1, h.2.1⟩) (fun h => ⟨h.1, h.2.1⟩))
  obtain ⟨th, pu, pd, hth, hpu, hpd, _, hest⟩ := Asian.central_difference L hexp G
    ⟨⟨Dbl.fin s0, Dbl.fin r, Dbl.fin sg, Dbl.fin t0, Dbl.fin t⟩, pay, agg⟩ hfs
    s0 r sg (t0 + e) s0 r sg (t0 - e) t e hs0 hup.le hs0 hdn.le he paths steps hp hs seed
    antithetic
    (Asian.sampleTheta L ⟨⟨Dbl.fin s0, Dbl.fin r, Dbl.fin sg, Dbl.fin t0, Dbl.fin t⟩, pay, agg⟩
      (Dbl.fin e) steps)
    (fun _ _ => by simp only [Asian.sampleTheta, Dbl.fin_add_fin, Dbl.fin_sub_fin])
  refine ⟨⟨⟨Dbl.fin s0, Dbl.fin r, Dbl.fin sg, Dbl.fin (t0 + e), Dbl.fin t⟩, pay, agg⟩,
    ⟨⟨Dbl.fin s0, Dbl.fin r, Dbl.fin sg, Dbl.fin (t0 - e), Dbl.fin t⟩, pay, agg⟩,
    th, pu, pd, ?_, ?_, ?_, ?_, hest⟩
  · simp only [Dbl.fin_add_fin, Dbl.fin_sub_fin]
    rcases lookback_rebuild hkind with ⟨h1, h2⟩ | ⟨h1, h2⟩
    · exact Or.inl ⟨h1, h2 _ _ _ _ _ hs0 hsg hup, h2 _ _ _ _ _ hs0 hsg hdn⟩
    · exact Or.inr ⟨h1, h2 _ _ _ _ _ hs0 hsg hup, h2 _ _ _ _ _ hs0 hsg hdn⟩
  · rw [Asian.thetaMC_eq_runMC _ _ _ _ _ _ _ _ (by
      show (Dbl.lt (Dbl.fin t0 + Dbl.fin e) (Dbl.fin t) &&
        Dbl.lt (Dbl.fin t0 - Dbl.fin e) (Dbl.fin t)) = true
      rw [hlt1, hlt2]; rfl)]
    exact hth
  · rw [Asian.priceMC_eq_kernelPrice, ← hpu]
    exact kernelPrice_congr L G _ _ rfl rfl _ _ _ _ _ _ _ _ _
  · rw [Asian.priceMC_eq_kernelPrice, ← hpd]
    exact kernelPrice_congr L G _ _ rfl rfl _ _ _ _ _ _ _ _ _

/-- Claim C14, as amended: in exact arithmetic (every operation on doubles computed without
rounding, overflow or underflow, and `std::exp` positive), for the exported lookback call and put,
`paths > 0`, `steps > 0`, every seed and antithetic flag and every finite bump `eps != 0` (the
default `1e-4` is such a value), `rhoMC` returns and its estimate is `(P(R+eps) - P(R-eps)) /
(2*eps)`, where `P(r)` is the estimate that `priceMC` returns for the option of the same kind built
with rate `r` (used by its sample both in the drift and in the discount factor), on the same draws.
(In IEEE doubles the two sides differ by rounding.) -/
theorem Asian.rhoMC_eq_price_difference {ρ : Type} (L : Libm α) (hexp : ∀ x, 0 < L.exp x)
    (G : Gen ρ α) (S0 R sigma T0 T : Dbl α) (e : α) (self : opt.Asian α)
    (hself : makeLookbackCall S0 R sigma T0 T = .ok self ∨
      makeLookbackPut S0 R sigma T0 T = .ok self)
    (he : e ≠ 0)
    (paths steps : Int) (hp : 0 < paths) (hs : 0 < steps) (seed : Nat) (antithetic : Bool) :
    (∃ (up dn : opt.Asian α) (rh pu pd : MCStats α),
      ((makeLookbackCall S0 R sigma T0 T = .ok self ∧
          makeLookbackCall S0 (R + Dbl.fin e) sigma T0 T = .ok up ∧
          makeLookbackCall S0 (R - Dbl.fin e) sigma T0 T = .ok dn) ∨
        (makeLookbackPut S0 R sigma T0 T = .ok self ∧
          makeLookbackPut S0 (R + Dbl.fin e) sigma T0 T = .ok up ∧
          makeLookbackPut S0 (R - Dbl.fin e) sigma T0 T = .ok dn)) ∧
      Asian.rhoMC L G self paths steps seed antithetic (Dbl.fin e) = .ok rh ∧
      Asian.priceMC L G up paths steps seed antithetic = .ok pu ∧
      Asian.priceMC L G dn paths steps seed antithetic = .ok pd ∧
      rh.estimate = (pu.estimate - pd.estimate) / (Dbl.fin 2 * Dbl.fin e)) ∧
    (Asian.rhoEps : Dbl α) = Dbl.fin 1e-4 ∧ (1e-4 : α) ≠ 0 := by
  refine ⟨?_, rfl, by norm_num⟩
  obtain ⟨s0, r, sg, t0, t, pay, agg, rfl, rfl, rfl, rfl, rfl, rfl, hs0, hsg, ht, hkind⟩ :=
    lookback_self hself
  have hfs := FinStrategies_of_pair ⟨Dbl.fin s0, Dbl.fin r, Dbl.fin sg, Dbl.fin t0, Dbl.fin t⟩
    pay agg (hkind.imp (fun h => ⟨h.1, h.2.1⟩) (fun h => ⟨h.1, h.2.1⟩))
  obtain ⟨rh, pu, pd, hrh, hpu, hpd, _, hest⟩ := Asian.central_difference L hexp G
    ⟨⟨Dbl.fin s0, Dbl.fin r, Dbl.fin sg, Dbl.fin t0, Dbl.fin t⟩, pay, agg⟩ hfs
    s0 (r + e) sg t0 s0 (r - e) sg t0 t e hs0 ht.le hs0 ht.le he paths steps hp hs seed
    antithetic
    (Asian.sampleRho L ⟨⟨Dbl.fin s0, Dbl.fin r, Dbl.fin sg, Dbl.fin t0, Dbl.fin t⟩, pay, agg⟩
      (Dbl.fin e) steps)
    (fun _ _ => by simp only [Asian.sampleRho, Dbl.fin_add_fin, Dbl.fin_sub_fin])
  refine ⟨⟨⟨Dbl.fin s0, Dbl.fin (r + e), Dbl.fin sg, Dbl.fin t0, Dbl.fin t⟩, pay, agg⟩,
    ⟨⟨Dbl.fin s0, Dbl.fin (r - e), Dbl.fin sg, Dbl.fin t0, Dbl.fin t⟩, pay, agg⟩,
    rh, pu, pd, ?_, hrh, ?_, ?_, hest⟩
  · simp only [Dbl.fin_add_fin, Dbl.fin_sub_fin]
    rcases lookback_rebuild hkind with ⟨h1, h2⟩ | ⟨h1, h2⟩
    · exact Or.inl ⟨h1, h2 _ _ _ _ _ hs0 hsg ht, h2 _ _ _ _ _ hs0 hsg ht⟩
    · exact Or.inr ⟨h1, h2 _ _ _ _ _ hs0 hsg ht, h2 _ _ _ _ _ hs0 hsg ht⟩
  · rw [Asian.priceMC_eq_kernelPrice, ← hpu]
    exact kernelPrice_congr L G _ _ rfl rfl _ _ _ _ _ _ _ _ _
  · rw [Asian.priceMC_eq_kernelPrice, ← hpd]
    exact kernelPrice_congr L G _ _ rfl rfl _ _ _ _ _ _ _ _ _

/-- The strategies of an exported option never raise on values not below zero, and its spot is
positive. -/
theorem lookback_notNeg {S0 R sigma T0 T : Dbl α} {self : Asian α}
    (hself : makeLookbackCall S0 R sigma T0 T = .ok self ∨
      makeLookbackPut S0 R sigma T0 T = .ok self) :
    (∀ S K : Dbl α, K.notNeg → ∃ v, self.payoff_ S K = .ok v) ∧
    (∀ a p s : Dbl α, a.notNeg → p.notNeg → (self.aggregator_ a p s).notNeg) ∧
    self.S0_.notNeg := by
  obtain ⟨s0, r, sg, t0, t, pay, agg, rfl, rfl, rfl, rfl, rfl, rfl, hs0, _, _, hkind⟩ :=
    lookback_self hself
  rcases hkind with ⟨rfl, rfl, _⟩ | ⟨rfl, rfl, _⟩
  · exact ⟨PayoffCall_ok, fun a p _ ha hp => Dbl.notNeg_min ha hp, Dbl.notNeg_fin.2 hs0.le⟩
  · exact ⟨PayoffPut_ok, fun a p _ ha hp => Dbl.notNeg_max ha hp, Dbl.notNeg_fin.2 hs0.le⟩

/-- Claim C15, as amended: in exact arithmetic (every operation on doubles computed without
rounding, overflow or underflow, and `std::exp` positive), for the exported lookback call and put,
`paths > 0`, `steps > 0`, every seed and antithetic flag and every finite bump `eps != 0` (the
default `1e-4` is such a value), `vegaMC` returns without raising and its estimate is `(P(sigma+eps)
- P(sigma-eps)) / (2*eps)`, where `P(v)` is the price estimate of the kernel computed with
volatility `v` on the same draws; no validation is made of the bumped volatilities, so this holds
also when `sigma - eps < 0`; and `vegaMC` raises for no bump at all, finite or not. (In IEEE doubles
the two sides of the equality differ by rounding.) -/
theorem Asian.vegaMC_eq_price_difference {ρ : Type} (L : Libm α) (hexp : ∀ x, 0 < L.exp x)
    (G : Gen ρ α) (S0 R sigma T0 T : Dbl α) (e : α) (self : opt.Asian α)
    (hself : makeLookbackCall S0 R sigma T0 T = .ok self ∨
      makeLookbackPut S0 R sigma T0 T = .ok self)
    (he : e ≠ 0)
    (paths steps : Int) (hp : 0 < paths) (hs : 0 < steps) (seed : Nat) (antithetic : Bool) :
    (∃ (vg pu pd : MCStats α),
      Asian.vegaMC L G self paths steps seed antithetic (Dbl.fin e) = .ok vg ∧
      kernelPrice L G self S0 R (sigma + Dbl.fin e) T0 T paths steps seed antithetic = .ok pu ∧
      kernelPrice L G self S0 R (sigma - Dbl.fin e) T0 T paths steps seed antithetic = .ok pd ∧
      vg.estimate = (pu.estimate - pd.estimate) / (Dbl.fin 2 * Dbl.fin e)) ∧
    (∀ eps : Dbl α, ∃ vg, Asian.vegaMC L G self paths steps seed antithetic eps = .ok vg) ∧
    (Asian.vegaEps : Dbl α) = Dbl.fin 1e-4 ∧ (1e-4 : α) ≠ 0 := by
  refine ⟨?_, ?_, rfl, by norm_num⟩
  swap
  · intro eps
    obtain ⟨hpay, hagg, hS0⟩ := lookback_notNeg hself
    apply Asian.runMC_ok L G paths steps seed antithetic _ _ hp hs
    intro Zs b
    obtain ⟨u, hu⟩ := Asian.discountedPayoffFromZ_ok L (fun x => (hexp x).le) self hpay hagg
      self.S0_ self.R_ (self.sigma_ + eps) self.T0_ self.T_ hS0 steps Zs b
    obtain ⟨d, hd⟩ := Asian.discountedPayoffFromZ_ok L (fun x => (hexp x).le) self hpay hagg
      self.S0_ self.R_ (self.sigma_ - eps) self.T0_ self.T_ hS0 steps Zs b
    exact ⟨(u - d) / (Dbl.fin 2 * eps), by simp only [hu, hd]⟩
  obtain ⟨s0, r, sg, t0, t, pay, agg, rfl, rfl, rfl, rfl, rfl, rfl, hs0, hsg, ht, hkind⟩ :=
    lookback_self hself
  have hfs := FinStrategies_of_pair ⟨Dbl.fin s0, Dbl.fin r, Dbl.fin sg, Dbl.fin t0, Dbl.fin t⟩
    pay agg (hkind.imp (fun h => ⟨h.1, h.2.1⟩) (fun h => ⟨h.1, h.2.1⟩))
  obtain ⟨vg, pu, pd, hvg, hpu, hpd, _, hest⟩ := Asian.central_difference L hexp G
    ⟨⟨Dbl.fin s0, Dbl.fin r, Dbl.fin sg, Dbl.fin t0, Dbl.fin t⟩, pay, agg⟩ hfs
    s0 r (sg + e) t0 s0 r (sg - e) t0 t e hs0 ht.le hs0 ht.le he paths steps hp hs seed
    antithetic
    (Asian.sampleVega L ⟨⟨Dbl.fin s0, Dbl.fin r, Dbl.fin sg, Dbl.fin t0, Dbl.fin t⟩, pay, agg⟩
      (Dbl.fin e) steps)
    (fun _ _ => by simp only [Asian.sampleVega, Dbl.fin_add_fin, Dbl.fin_sub_fin])
  refine ⟨vg, pu, pd, hvg, ?_, ?_, hest⟩
  · simp only [Dbl.fin_add_fin]; exact hpu
  · simp only [Dbl.fin_sub_fin]; exact hpd

/-- Witness of claim C13 on the Scenario 1 lookback call with the default bump. -/
theorem Asian.thetaMC_eq_price_difference_witness :
    (∀ x : ℝ, 0 < Real.exp x) ∧
    makeLookbackCall (Dbl.fin 100) (Dbl.fin 0.05) (Dbl.fin 0.2) (Dbl.fin 0) (Dbl.fin 1)
      = .ok (scenarioCall : opt.Asian ℝ) ∧
    (Dbl.fin (1 / 365) : Dbl ℝ) ≠ Dbl.fin 0 ∧
    Dbl.lt ((Dbl.fin 0 : Dbl ℝ) + Dbl.fin (1 / 365)) (Dbl.fin 1) = true ∧
    Dbl.lt ((Dbl.fin 0 : Dbl ℝ) - Dbl.fin (1 / 365)) (Dbl.fin 1) = true ∧
    (0 : Int) < 10000 ∧ (0 : Int) < 50 ∧
    ∃ (up dn : opt.Asian ℝ) (th pu pd : MCStats ℝ),
      Asian.thetaMC (⟨Real.exp, Real.sqrt, Real.log⟩ : Libm ℝ) Gen.counter scenarioCall
        10000 50 42 false (Dbl.fin (1 / 365)) = .ok th ∧
      Asian.priceMC (⟨Real.exp, Real.sqrt, Real.log⟩ : Libm ℝ) Gen.counter up
        10000 50 42 false = .ok pu ∧
      Asian.priceMC (⟨Real.exp, Real.sqrt, Real.log⟩ : Libm ℝ) Gen.counter dn
        10000 50 42 false = .ok pd ∧
      th.estimate = (pu.estimate - pd.estimate) / (Dbl.fin 2 * Dbl.fin (1 / 365)) := by
  have h0 : (Dbl.fin (1 / 365) : Dbl ℝ) ≠ Dbl.fin 0 := by
    intro h; have := Dbl.fin.inj h; norm_num at this
  have h1 : Dbl.lt ((Dbl.fin 0 : Dbl ℝ) + Dbl.fin (1 / 365)) (Dbl.fin 1) = true := by
    norm_num [Dbl.lt]
  have h2 : Dbl.lt ((Dbl.fin 0 : Dbl ℝ) - Dbl.fin (1 / 365)) (Dbl.fin 1) = true := by
    norm_num [Dbl.lt]
  obtain ⟨up, dn, th, pu, pd, _, hth, hpu, hpd, hest⟩ :=
    (Asian.thetaMC_eq_price_difference (⟨Real.exp, Real.sqrt, Real.log⟩ : Libm ℝ) Real.exp_pos
      Gen.counter (Dbl.fin 100) (Dbl.fin 0.05) (Dbl.fin 0.2) (Dbl.fin 0) (Dbl.fin 1)
      (Dbl.fin (1 / 365)) scenarioCall (Or.inl makeLookbackCall_scenario) h0 h1 h2 10000 50
      (by decide) (by decide) 42 false).1
  exact ⟨Real.exp_pos, makeLookbackCall_scenario, h0, h1, h2, by decide, by decide,
    up, dn, th, pu, pd, hth, hpu, hpd, hest⟩

/-- Witness of claim C14 on the Scenario 1 lookback call with the default bump. -/
theorem Asian.rhoMC_eq_price_difference_witness :
    (∀ x : ℝ, 0 < Real.exp x) ∧
    makeLookbackCall (Dbl.fin 100) (Dbl.fin 0.05) (Dbl.fin 0.2) (Dbl.fin 0) (Dbl.fin 1)
      = .ok (scenarioCall : opt.Asian ℝ) ∧
    (1e-4 : ℝ) ≠ 0 ∧ (0 : Int) < 10000 ∧ (0 : Int) < 50 ∧
    ∃ (up dn : opt.Asian ℝ) (rh pu pd : MCStats ℝ),
      Asian.rhoMC (⟨Real.exp, Real.sqrt, Real.log⟩ : Libm ℝ) Gen.counter scenarioCall
        10000 50 42 false (Dbl.fin 1e-4) = .ok rh ∧
      Asian.priceMC (⟨Real.exp, Real.sqrt, Real.log⟩ : Libm ℝ) Gen.counter up
        10000 50 42 false = .ok pu ∧
      Asian.priceMC (⟨Real.exp, Real.sqrt, Real.log⟩ : Libm ℝ) Gen.counter dn
        10000 50 42 false = .ok pd ∧
      rh.estimate = (pu.estimate - pd.estimate) / (Dbl.fin 2 * Dbl.fin 1e-4) := by
  obtain ⟨up, dn, rh, pu, pd, _, hrh, hpu, hpd, hest⟩ :=
    (Asian.rhoMC_eq_price_difference (⟨Real.exp, Real.sqrt, Real.log⟩ : Libm ℝ) Real.exp_pos
      Gen.counter (Dbl.fin 100) (Dbl.fin 0.05) (Dbl.fin 0.2) (Dbl.fin 0) (Dbl.fin 1)
      1e-4 scenarioCall (Or.inl makeLookbackCall_scenario) (by norm_num) 10000 50
      (by decide) (by decide) 42 false).1
  exact ⟨Real.exp_pos, makeLookbackCall_scenario, by norm_num, by decide, by decide,
    up, dn, rh, pu, pd, hrh, hpu, hpd, hest⟩

/-- Witness of claim C15 on a lookback call with `sigma = 0`, where `sigma - eps < 0`. -/
theorem Asian.vegaMC_eq_price_difference_witness :
    (∀ x : ℝ, 0 < Real.exp x) ∧
    (∃ self : opt.Asian ℝ,
      makeLookbackCall (Dbl.fin 100) (Dbl.fin 0.05) (Dbl.fin 0) (Dbl.fin 0) (Dbl.fin 1)
        = .ok self ∧
      (1e-4 : ℝ) ≠ 0 ∧ (0 : Int) < 10000 ∧ (0 : Int) < 50 ∧
      Dbl.lt ((Dbl.fin 0 : Dbl ℝ) - Dbl.fin 1e-4) (Dbl.fin 0) = true ∧
      ∃ (vg pu pd : MCStats ℝ),
        Asian.vegaMC (⟨Real.exp, Real.sqrt, Real.log⟩ : Libm ℝ) Gen.counter self
          10000 50 42 true (Dbl.fin 1e-4) = .ok vg ∧
        kernelPrice (⟨Real.exp, Real.sqrt, Real.log⟩ : Libm ℝ) Gen.counter self (Dbl.fin 100)
          (Dbl.fin 0.05) (Dbl.fin 0 + Dbl.fin 1e-4) (Dbl.fin 0) (Dbl.fin 1) 10000 50 42 true
          = .ok pu ∧
        kernelPrice (⟨Real.exp, Real.sqrt, Real.log⟩ : Libm ℝ) Gen.counter self (Dbl.fin 100)
          (Dbl.fin 0.05) (Dbl.fin 0 - Dbl.fin 1e-4) (Dbl.fin 0) (Dbl.fin 1) 10000 50 42 true
          = .ok pd ∧
        vg.estimate = (pu.estimate - pd.estimate) / (Dbl.fin 2 * Dbl.fin 1e-4)) := by
  have hmk := Asian.Asian_fin (100 : ℝ) 0.05 0 0 1 (by norm_num) le_rfl (by norm_num)
    PayoffCall LookMin
  refine ⟨Real.exp_pos, _, hmk, by norm_num, by decide, by decide, by norm_num [Dbl.lt], ?_⟩
  exact (Asian.vegaMC_eq_price_difference (⟨Real.exp, Real.sqrt, Real.log⟩ : Libm ℝ)
    Real.exp_pos Gen.counter (Dbl.fin 100) (Dbl.fin 0.05) (Dbl.fin 0) (Dbl.fin 0) (Dbl.fin 1)
    1e-4 _ (Or.inl hmk) (by norm_num) 10000 50 (by decide) (by decide) 42 true).1

/-! ### Zero volatility (C16) -/

/-- With `sigma = 0` the price recursion on a vector of finite draws follows the riskless path
`S_j = S0 * exp(R * j * dt)`, whatever the draws and the flip are. -/
theorem pathS_sigma_zero (s0 r dt : ℝ) (hdt : 0 ≤ dt) (n : Nat) (Zs : List (Dbl ℝ))
    (hZ : IsDraw n Zs) (flip : Bool) (j : Nat) (hj : j ≤ n) :
    pathS (⟨Real.exp, Real.sqrt, Real.log⟩ : Libm ℝ) (Dbl.fin s0) (Dbl.fin r) (Dbl.fin 0)
      (Dbl.fin dt) Zs flip j = Dbl.fin (s0 * Real.exp (r * (j : ℝ) * dt)) := by
  induction j with
  | zero => simp [pathS]
  | succ j ih =>
    obtain ⟨z, hz⟩ := hZ.getD_fin (show j < n by omega)
    have hZ' : pathZ Zs flip j = Dbl.fin (if flip = true then -z else z) := by
      unfold pathZ
      cases flip
      · simp only [Bool.false_eq_true, if_false, hz]
      · simp only [if_true, hz, Dbl.neg_fin]
    have hsqrt : Dbl.sqrt (⟨Real.exp, Real.sqrt, Real.log⟩ : Libm ℝ) (Dbl.fin dt) =
        Dbl.fin (Real.sqrt dt) := by
      simp [Dbl.sqrt, not_lt.2 hdt]
    rw [pathS, ih (by omega), hZ', hsqrt]
    simp only [Dbl.fin_mul_fin, Dbl.fin_div_fin _ _ (two_ne_zero : (2 : ℝ) ≠ 0),
      Dbl.fin_sub_fin, Dbl.fin_add_fin, Dbl.exp]
    congr 1
    rw [mul_assoc, ← Real.exp_add]
    congr 2
    push_cast
    ring

/-- With `sigma = 0` the aggregate recursion on a vector of finite draws is the aggregate
along the riskless path. -/
theorem pathA_sigma_zero (agg : Dbl ℝ → Dbl ℝ → Dbl ℝ → Dbl ℝ) (s0 r dt : ℝ) (hdt : 0 ≤ dt)
    (n : Nat) (Zs : List (Dbl ℝ)) (hZ : IsDraw n Zs) (flip : Bool) (j : Nat) (hj : j ≤ n) :
    pathA (⟨Real.exp, Real.sqrt, Real.log⟩ : Libm ℝ) agg (Dbl.fin s0) (Dbl.fin r) (Dbl.fin 0)
      (Dbl.fin dt) Zs flip j =
    risklessA (⟨Real.exp, Real.sqrt, Real.log⟩ : Libm ℝ) agg s0 r dt j := by
  induction j with
  | zero => rfl
  | succ j ih =>
    rw [pathA, risklessA, ih (by omega), pathS_sigma_zero s0 r dt hdt n Zs hZ flip (j + 1) hj]
    push_cast
    rfl

/-- With `sigma = 0`, the discounted payoff on a vector of `steps` finite draws is the
discounted payoff of the riskless path: `exp(-R*(T-T0)) * payoff(S0*exp(R*(T-T0)), A)`. -/
theorem Asian.discountedPayoffFromZ_sigma_zero (self : opt.Asian ℝ) (s0 r t0 t : ℝ)
    (ht : t0 ≤ t) (steps : Int) (hs : 0 < steps) (Zs : List (Dbl ℝ))
    (hZ : IsDraw steps.toNat Zs) (flip : Bool) :
    Asian.discountedPayoffFromZ (⟨Real.exp, Real.sqrt, Real.log⟩ : Libm ℝ) self (Dbl.fin s0)
        (Dbl.fin r) (Dbl.fin 0) (Dbl.fin t0) (Dbl.fin t) steps Zs flip =
      Except.map (fun v => Dbl.fin (Real.exp (-r * (t - t0))) * v)
        (self.payoff_ (Dbl.fin (s0 * Real.exp (r * (t - t0))))
          (risklessA (⟨Real.exp, Real.sqrt, Real.log⟩ : Libm ℝ) self.aggregator_ s0 r
            ((t - t0) / (steps : ℝ)) steps.toNat)) := by
  have hsteps : (0 : ℝ) < (steps : ℝ) := by exact_mod_cast hs
  have hdt : (Dbl.fin (t - t0) : Dbl ℝ) / Dbl.ofInt steps =
      Dbl.fin ((t - t0) / (steps : ℝ)) := by
    rw [Dbl.ofInt, Dbl.fin_div_fin _ _ hsteps.ne']
  have hdt0 : 0 ≤ (t - t0) / (steps : ℝ) := div_nonneg (sub_nonneg.2 ht) hsteps.le
  have hcast : ((steps.toNat : Nat) : ℝ) = (steps : ℝ) := by
    have : ((steps.toNat : Nat) : Int) = steps := Int.toNat_of_nonneg hs.le
    exact_mod_cast congrArg (fun z : Int => (z : ℝ)) this
  have hS := pathS_sigma_zero s0 r ((t - t0) / (steps : ℝ)) hdt0 steps.toNat Zs hZ flip
    steps.toNat le_rfl
  have hA := pathA_sigma_zero self.aggregator_ s0 r ((t - t0) / (steps : ℝ)) hdt0 steps.toNat
    Zs hZ flip steps.toNat le_rfl
  have hT : r * ((steps.toNat : Nat) : ℝ) * ((t - t0) / (steps : ℝ)) = r * (t - t0) := by
    rw [hcast]; field_simp; ring
  rw [hT] at hS
  simp only [Asian.discountedPayoffFromZ, Asian.pathLoop_eq, Dbl.fin_sub_fin, hdt, hS, hA,
    Dbl.neg_fin, Dbl.fin_mul_fin, Dbl.exp]
  cases self.payoff_ (Dbl.fin (s0 * Real.exp (r * (t - t0))))
    (risklessA (⟨Real.exp, Real.sqrt, Real.log⟩ : Libm ℝ) self.aggregator_ s0 r
      ((t - t0) / (steps : ℝ)) steps.toNat) <;> rfl

theorem meanOf_replicate (n : Nat) (hn : 0 < n) (v : α) : meanOf (List.replicate n v) = v := by
  have h : (n : α) ≠ 0 := by exact_mod_cast hn.ne'
  simp only [meanOf, List.sum_replicate, List.length_replicate, nsmul_eq_mul]
  field_simp

theorem sumSqDev_replicate (n : Nat) (hn : 0 < n) (v : α) :
    sumSqDev (List.replicate n v) = 0 := by
  unfold sumSqDev
  rw [meanOf_replicate n hn v]
  simp [List.map_replicate, List.sum_replicate]

theorem map_const_eq_replicate {β : Type} (bs : List β) (g : β → α) (v : α)
    (h : ∀ z ∈ bs, g z = v) : bs.map g = List.replicate bs.length v := by
  induction bs with
  | nil => rfl
  | cons x xs ih =>
    simp only [List.map_cons, List.length_cons, List.replicate_succ]
    rw [h x (List.mem_cons_self _ _), ih (fun z hz => h z (List.mem_cons_of_mem _ hz))]

/-- When every sample is the same finite value `v` and at least one is pushed, `runMC` returns
`v` as estimate and as both interval bounds, with standard error `0`. -/
theorem Asian.runMC_const_sample {ρ : Type} (L : Libm α) (hsqrt : L.sqrt 0 = 0) (G : Gen ρ α)
    (paths steps : Int) (seed : Nat) (antithetic : Bool)
    (sampleFn : List (Dbl α) → Bool → Except Err (Dbl α)) (v : α)
    (hf : ∀ Zs b, IsDraw steps.toNat Zs → sampleFn Zs b = .ok (Dbl.fin v))
    (hp : 0 < paths) (hs : 0 < steps) (hlt : antithetic = true → paths < 2 ^ 31 - 1) :
    Asian.runMC L G paths steps seed antithetic sampleFn =
      .ok ⟨Dbl.fin v, Dbl.fin 0, Dbl.fin v, Dbl.fin v⟩ := by
  have hfin : ∀ n : Nat, 0 < n →
      Option.makeCI95 (Dbl.fin (meanOf (List.replicate n v)))
        (Dbl.fin (L.sqrt ((if 1 < (List.replicate n v).length then
          sumSqDev (List.replicate n v) / (((List.replicate n v).length : α) - 1)
            else 0) / ((List.replicate n v).length : α)))) =
      (⟨Dbl.fin v, Dbl.fin 0, Dbl.fin v, Dbl.fin v⟩ : MCStats α) := by
    intro n hn
    rw [meanOf_replicate n hn, sumSqDev_replicate n hn]
    simp [Option.makeCI95, hsqrt]
  cases antithetic with
  | false =>
    have hloop := Asian.plain_branch_eq G paths steps seed sampleFn (fun _ _ => v) hf
    have hn : 0 < paths.toNat := by omega
    have hxs : (drawBlocks G steps.toNat paths.toNat (G.seed seed)).map
        (fun _ : List (Dbl α) => v) = List.replicate paths.toNat v := by
      rw [map_const_eq_replicate _ _ v (fun _ _ => rfl), drawBlocks_length]
    rw [hxs] at hloop
    have hne : List.replicate paths.toNat v ≠ [] := by
      intro h; have := congrArg List.length h; simp at this; omega
    rw [Asian.runMC_eq_of_fin_samples L G paths steps seed false sampleFn hp hs
      (List.replicate paths.toNat v) hne (by simpa using hloop), hfin _ hn]
  | true =>
    have hlt' := hlt rfl
    have hloop := Asian.antithetic_branch_eq G paths steps seed sampleFn (fun _ _ => v) hf hp
      hlt'
    have hn : 0 < (paths.toNat + 1) / 2 := by omega
    have hxs : (drawBlocks G steps.toNat ((paths.toNat + 1) / 2) (G.seed seed)).map
        (fun _ : List (Dbl α) => 0.5 * (v + v)) = List.replicate ((paths.toNat + 1) / 2) v := by
      rw [map_const_eq_replicate _ _ v (fun _ _ => by norm_num; ring), drawBlocks_length]
    rw [hxs] at hloop
    have hne : List.replicate ((paths.toNat + 1) / 2) v ≠ [] := by
      intro h; have := congrArg List.length h; simp at this; omega
    rw [Asian.runMC_eq_of_fin_samples L G paths steps seed true sampleFn hp hs
      (List.replicate ((paths.toNat + 1) / 2) v) hne (by simpa using hloop), hfin _ hn]

/-- With `sigma = 0`, finite parameters, `T0 <= T`, valid counts and `paths < 2^31 - 1` in
antithetic mode, `priceMC` returns exactly the discounted payoff of the riskless path as
estimate and as both interval bounds, with standard error `0`. -/
theorem Asian.priceMC_sigma_zero {ρ : Type} (G : Gen ρ ℝ) (s0 r t0 t : ℝ)
    (pay : Dbl ℝ → Dbl ℝ → Except Err (Dbl ℝ)) (agg : Dbl ℝ → Dbl ℝ → Dbl ℝ → Dbl ℝ)
    (ht : t0 ≤ t) (paths steps : Int) (hp : 0 < paths) (hs : 0 < steps) (seed : Nat)
    (antithetic : Bool) (hlt : antithetic = true → paths < 2 ^ 31 - 1) (v : ℝ)
    (hv : pay (Dbl.fin (s0 * Real.exp (r * (t - t0))))
      (risklessA (⟨Real.exp, Real.sqrt, Real.log⟩ : Libm ℝ) agg s0 r
        ((t - t0) / (steps : ℝ)) steps.toNat) = .ok (Dbl.fin v)) :
    Asian.priceMC (⟨Real.exp, Real.sqrt, Real.log⟩ : Libm ℝ) G
        ⟨⟨Dbl.fin s0, Dbl.fin r, Dbl.fin 0, Dbl.fin t0, Dbl.fin t⟩, pay, agg⟩
        paths steps seed antithetic =
      .ok ⟨Dbl.fin (Real.exp (-r * (t - t0)) * v), Dbl.fin 0,
        Dbl.fin (Real.exp (-r * (t - t0)) * v), Dbl.fin (Real.exp (-r * (t - t0)) * v)⟩ := by
  apply Asian.runMC_const_sample (⟨Real.exp, Real.sqrt, Real.log⟩ : Libm ℝ) Real.sqrt_zero G
    paths steps seed antithetic _ _ _ hp hs hlt
  intro Zs b hZ
  rw [Asian.discountedPayoffFromZ_sigma_zero
    ⟨⟨Dbl.fin s0, Dbl.fin r, Dbl.fin 0, Dbl.fin t0, Dbl.fin t⟩, pay, agg⟩ s0 r t0 t ht steps hs
    Zs hZ b]
  show Except.map _ (pay _ (risklessA _ agg _ _ _ _)) = _
  rw [hv]
  rfl

/-- Along a riskless path with a non-negative rate the running minimum stays at the spot. -/
theorem risklessA_LookMin (s0 r dt : ℝ) (hs0 : 0 < s0) (hr : 0 ≤ r) (hdt : 0 ≤ dt) (n : Nat) :
    risklessA (⟨Real.exp, Real.sqrt, Real.log⟩ : Libm ℝ) LookMin s0 r dt n = Dbl.fin s0 := by
  induction n with
  | zero => rfl
  | succ n ih =>
    rw [risklessA, ih]
    have h1 : (1 : ℝ) ≤ Real.exp (r * ((n : ℝ) + 1) * dt) := by
      apply Real.one_le_exp
      positivity
    have h2 : ¬ (s0 * Real.exp (r * ((n : ℝ) + 1) * dt) < s0) := by
      have := mul_le_mul_of_nonneg_left h1 hs0.le
      rw [mul_one] at this
      exact not_lt.2 this
    simp [LookMin, Dbl.min, Dbl.lt, h2]

/-- Claim C16, evaluated at the failing input: on the Scenario 1 lookback call with
`sigma = 0`, `steps = 50`, `seed = 42` and antithetic variates, the discounted payoff of the
riskless path is `exp(-0.05) * (100 * exp(0.05) - 100) > 0`; `priceMC` returns it with standard
error `0` for `paths = 2^31 - 2`, but for `paths = 2^31 - 1` it returns the estimate `0` with
a not-a-number standard error and interval. -/
theorem Asian.priceMC_sigma_zero_int_max :
    makeLookbackCall (Dbl.fin 100) (Dbl.fin 0.05) (Dbl.fin 0) (Dbl.fin 0) (Dbl.fin 1)
      = .ok (risklessCall : opt.Asian ℝ) ∧
    (0 : ℝ) < Real.exp (-0.05 * (1 - 0)) * (100 * Real.exp (0.05 * (1 - 0)) - 100) ∧
    Asian.priceMC (⟨Real.exp, Real.sqrt, Real.log⟩ : Libm ℝ) Gen.counter risklessCall
        2147483646 50 42 true =
      .ok ⟨Dbl.fin (Real.exp (-0.05 * (1 - 0)) * (100 * Real.exp (0.05 * (1 - 0)) - 100)),
        Dbl.fin 0,
        Dbl.fin (Real.exp (-0.05 * (1 - 0)) * (100 * Real.exp (0.05 * (1 - 0)) - 100)),
        Dbl.fin (Real.exp (-0.05 * (1 - 0)) * (100 * Real.exp (0.05 * (1 - 0)) - 100))⟩ ∧
    Asian.priceMC (⟨Real.exp, Real.sqrt, Real.log⟩ : Libm ℝ) Gen.counter risklessCall
        2147483647 50 42 true = .ok ⟨Dbl.fin 0, Dbl.nan, Dbl.nan, Dbl.nan⟩ := by
  have hexp : (1 : ℝ) < Real.exp (0.05 * (1 - 0)) := by
    have := Real.add_one_lt_exp (show (0.05 * (1 - 0) : ℝ) ≠ 0 by norm_num)
    linarith [show (0 : ℝ) < 0.05 * (1 - 0) by norm_num]
  have hpos : (0 : ℝ) < 100 * Real.exp (0.05 * (1 - 0)) - 100 := by linarith
  refine ⟨Asian.Asian_fin (100 : ℝ) 0.05 0 0 1 (by norm_num) le_rfl (by norm_num) _ _,
    mul_pos (Real.exp_pos _) hpos, ?_, (Asian.runMC_int_max_eq _ _ 50 42 _ (by decide)).2⟩
  apply Asian.priceMC_sigma_zero Gen.counter 100 0.05 0 1 PayoffCall LookMin (by norm_num)
    2147483646 50 (by decide) (by decide) 42 true (fun _ => by norm_num)
  rw [risklessA_LookMin 100 0.05 _ (by norm_num) (by norm_num) (by norm_num)]
  have h3 : ¬ (100 * Real.exp (0.05 * (1 - 0)) - 100 < 0) := not_lt.2 hpos.le
  have h4 : ¬ ((100 : ℝ) < 0) := by norm_num
  simp only [PayoffCall, Dbl.lt, Dbl.max, Dbl.fin_sub_fin, h3, h4, decide_False,
    Bool.false_eq_true, if_false]
  rfl

/-! ### The lookback samples in closed form on finite values -/

theorem Dbl.min_fin (a b : α) : Dbl.min (Dbl.fin a) (Dbl.fin b) = Dbl.fin (Min.min a b) := by
  unfold Dbl.min
  by_cases h : b < a
  · simp [Dbl.lt, h, min_eq_right h.le]
  · simp [Dbl.lt, h, min_eq_left (not_lt.1 h)]

theorem Dbl.max_fin (a b : α) : Dbl.max (Dbl.fin a) (Dbl.fin b) = Dbl.fin (Max.max a b) := by
  unfold Dbl.max
  by_cases h : a < b
  · simp [Dbl.lt, h, max_eq_right h.le]
  · simp [Dbl.lt, h, max_eq_left (not_lt.1 h)]

theorem finS_pos (L : Libm α) (hexp : ∀ x, 0 < L.exp x) (s0 r sg dt : α) (hs0 : 0 < s0)
    (Zs : List (Dbl α)) (flip : Bool) (j : Nat) : 0 < finS L s0 r sg dt Zs flip j := by
  induction j with
  | zero => exact hs0
  | succ j ih => exact mul_pos ih (hexp _)

theorem finMin_pos (L : Libm α) (hexp : ∀ x, 0 < L.exp x) (s0 r sg dt : α) (hs0 : 0 < s0)
    (Zs : List (Dbl α)) (flip : Bool) (j : Nat) : 0 < finMin L s0 r sg dt Zs flip j := by
  induction j with
  | zero => exact hs0
  | succ j ih => exact lt_min ih (finS_pos L hexp s0 r sg dt hs0 Zs flip (j + 1))

theorem finMax_pos (L : Libm α) (s0 r sg dt : α) (hs0 : 0 < s0)
    (Zs : List (Dbl α)) (flip : Bool) (j : Nat) : 0 < finMax L s0 r sg dt Zs flip j := by
  induction j with
  | zero => exact hs0
  | succ j ih => exact lt_max_of_lt_left ih

/-- On a vector of finite draws the price recursion stays on finite values. -/
theorem pathS_eq_finS (L : Libm α) (s0 r sg dt : α) (hdt : 0 ≤ dt) (n : Nat)
    (Zs : List (Dbl α)) (hZ : IsDraw n Zs) (flip : Bool) (j : Nat) (hj : j ≤ n) :
    pathS L (Dbl.fin s0) (Dbl.fin r) (Dbl.fin sg) (Dbl.fin dt) Zs flip j =
      Dbl.fin (finS L s0 r sg dt Zs flip j) := by
  induction j with
  | zero => rfl
  | succ j ih =>
    obtain ⟨z, hz⟩ := hZ.getD_fin (show j < n by omega)
    have hZ' : pathZ Zs flip j = Dbl.fin (if flip = true then -z else z) := by
      unfold pathZ
      cases flip
      · simp only [Bool.false_eq_true, if_false, hz]
      · simp only [if_true, hz, Dbl.neg_fin]
    have hsqrt : Dbl.sqrt L (Dbl.fin dt) = Dbl.fin (L.sqrt dt) := by
      simp [Dbl.sqrt, not_lt.2 hdt]
    rw [pathS, ih (by omega), finS, hZ', hsqrt]
    simp only [Dbl.fin_mul_fin, Dbl.fin_div_fin _ _ (two_ne_zero : (2 : α) ≠ 0),
      Dbl.fin_sub_fin, Dbl.fin_add_fin, Dbl.exp, Dbl.val]

theorem pathA_LookMin_eq (L : Libm α) (s0 r sg dt : α) (hdt : 0 ≤ dt) (n : Nat)
    (Zs : List (Dbl α)) (hZ : IsDraw n Zs) (flip : Bool) (j : Nat) (hj : j ≤ n) :
    pathA L LookMin (Dbl.fin s0) (Dbl.fin r) (Dbl.fin sg) (Dbl.fin dt) Zs flip j =
      Dbl.fin (finMin L s0 r sg dt Zs flip j) := by
  induction j with
  | zero => rfl
  | succ j ih =>
    rw [pathA, ih (by omega), pathS_eq_finS L s0 r sg dt hdt n Zs hZ flip (j + 1) hj, finMin,
      LookMin, Dbl.min_fin]

theorem pathA_LookMax_eq (L : Libm α) (s0 r sg dt : α) (hdt : 0 ≤ dt) (n : Nat)
    (Zs : List (Dbl α)) (hZ : IsDraw n Zs) (flip : Bool) (j : Nat) (hj : j ≤ n) :
    pathA L LookMax (Dbl.fin s0) (Dbl.fin r) (Dbl.fin sg) (Dbl.fin dt) Zs flip j =
      Dbl.fin (finMax L s0 r sg dt Zs flip j) := by
  induction j with
  | zero => rfl
  | succ j ih =>
    rw [pathA, ih (by omega), pathS_eq_finS L s0 r sg dt hdt n Zs hZ flip (j + 1) hj, finMax,
      LookMax, Dbl.max_fin]

/-- The sample of the lookback call on finite parameters and a vector of finite draws:
`exp(-r*(t-t0)) * max(S_n - min(S_0..S_n), 0)`. -/
theorem Asian.call_sample_eq (L : Libm α) (hexp : ∀ x, 0 < L.exp x) (o : opt.Option α)
    (s0 r sg t0 t : α) (hs0 : 0 < s0) (ht : t0 ≤ t) (steps : Int) (hs : 0 < steps)
    (Zs : List (Dbl α)) (hZ : IsDraw steps.toNat Zs) (flip : Bool) :
    Asian.discountedPayoffFromZ L ⟨o, PayoffCall, LookMin⟩ (Dbl.fin s0) (Dbl.fin r)
        (Dbl.fin sg) (Dbl.fin t0) (Dbl.fin t) steps Zs flip =
      .ok (Dbl.fin (L.exp (-r * (t - t0)) *
        max (finS L s0 r sg ((t - t0) / (steps : α)) Zs flip steps.toNat -
          finMin L s0 r sg ((t - t0) / (steps : α)) Zs flip steps.toNat) 0)) := by
  have hsteps : (0 : α) < (steps : α) := by exact_mod_cast hs
  have hdt : (Dbl.fin (t - t0) : Dbl α) / Dbl.ofInt steps =
      Dbl.fin ((t - t0) / (steps : α)) := by
    rw [Dbl.ofInt, Dbl.fin_div_fin _ _ hsteps.ne']
  have hdt0 : 0 ≤ (t - t0) / (steps : α) := div_nonneg (sub_nonneg.2 ht) hsteps.le
  have hK : ¬ (finMin L s0 r sg ((t - t0) / (steps : α)) Zs flip steps.toNat < 0) :=
    not_lt.2 (finMin_pos L hexp s0 r sg _ hs0 Zs flip _).le
  simp only [Asian.discountedPayoffFromZ, Asian.pathLoop_eq, Dbl.fin_sub_fin, hdt,
    pathS_eq_finS L s0 r sg _ hdt0 steps.toNat Zs hZ flip steps.toNat le_rfl,
    pathA_LookMin_eq L s0 r sg _ hdt0 steps.toNat Zs hZ flip steps.toNat le_rfl,
    PayoffCall, Dbl.lt, hK, decide_False, Bool.false_eq_true, if_false, Dbl.max_fin,
    Dbl.neg_fin, Dbl.fin_mul_fin, Dbl.exp]
  rfl

/-- The sample of the lookback put on finite parameters and a vector of finite draws:
`exp(-r*(t-t0)) * max(max(S_0..S_n) - S_n, 0)`. -/
theorem Asian.put_sample_eq (L : Libm α) (o : opt.Option α)
    (s0 r sg t0 t : α) (hs0 : 0 < s0) (ht : t0 ≤ t) (steps : Int) (hs : 0 < steps)
    (Zs : List (Dbl α)) (hZ : IsDraw steps.toNat Zs) (flip : Bool) :
    Asian.discountedPayoffFromZ L ⟨o, PayoffPut, LookMax⟩ (Dbl.fin s0) (Dbl.fin r)
        (Dbl.fin sg) (Dbl.fin t0) (Dbl.fin t) steps Zs flip =
      .ok (Dbl.fin (L.exp (-r * (t - t0)) *
        max (finMax L s0 r sg ((t - t0) / (steps : α)) Zs flip steps.toNat -
          finS L s0 r sg ((t - t0) / (steps : α)) Zs flip steps.toNat) 0)) := by
  have hsteps : (0 : α) < (steps : α) := by exact_mod_cast hs
  have hdt : (Dbl.fin (t - t0) : Dbl α) / Dbl.ofInt steps =
      Dbl.fin ((t - t0) / (steps : α)) := by
    rw [Dbl.ofInt, Dbl.fin_div_fin _ _ hsteps.ne']
  have hdt0 : 0 ≤ (t - t0) / (steps : α) := div_nonneg (sub_nonneg.2 ht) hsteps.le
  have hK : ¬ (finMax L s0 r sg ((t - t0) / (steps : α)) Zs flip steps.toNat < 0) :=
    not_lt.2 (finMax_pos L s0 r sg _ hs0 Zs flip _).le
  simp only [Asian.discountedPayoffFromZ, Asian.pathLoop_eq, Dbl.fin_sub_fin, hdt,
    pathS_eq_finS L s0 r sg _ hdt0 steps.toNat Zs hZ flip steps.toNat le_rfl,
    pathA_LookMax_eq L s0 r sg _ hdt0 steps.toNat Zs hZ flip steps.toNat le_rfl,
    PayoffPut, Dbl.lt, hK, decide_False, Bool.false_eq_true, if_false, Dbl.max_fin,
    Dbl.neg_fin, Dbl.fin_mul_fin, Dbl.exp]
  rfl

/-! ### C17: antithetic against plain standard error -/

/-- The price sample of the Scenario 1 lookback call on one step with the draw `z`. -/
theorem scenarioCall_one_step (z : ℝ) (flip : Bool) :
    Asian.samplePrice (⟨Real.exp, Real.sqrt, Real.log⟩ : Libm ℝ) scenarioCall 1
        [Dbl.fin z] flip =
      .ok (Dbl.fin (Real.exp (-0.05) *
        max (100 * Real.exp (0.03 + 0.2 * (if flip = true then -z else z)) -
          min 100 (100 * Real.exp (0.03 + 0.2 * (if flip = true then -z else z)))) 0)) := by
  have hZ : IsDraw (1 : Int).toNat [(Dbl.fin z : Dbl ℝ)] := by
    refine ⟨rfl, ?_⟩
    intro y hy
    rw [List.mem_singleton.1 hy]
    rfl
  have h := Asian.call_sample_eq (⟨Real.exp, Real.sqrt, Real.log⟩ : Libm ℝ) Real.exp_pos
    (scenarioCall : opt.Asian ℝ).toOption 100 0.05 0.2 0 1 (by norm_num) (by norm_num) 1
    (by decide) [Dbl.fin z] hZ flip
  have hz : (pathZ [(Dbl.fin z : Dbl ℝ)] flip 0).val = (if flip = true then -z else z) := by
    cases flip <;> simp [pathZ, Dbl.val]
  have h1 : ((1 : Int).toNat) = 0 + 1 := rfl
  rw [Asian.samplePrice]
  refine h.trans ?_
  rw [h1]
  simp only [finS, finMin, hz, Int.cast_one, sub_zero, div_one, Real.sqrt_one, mul_one]
  norm_num


theorem scenarioCall_one_step_up (z : ℝ) (hz : 0 ≤ 0.03 + 0.2 * z) :
    Real.exp (-0.05) * max (100 * Real.exp (0.03 + 0.2 * z) -
      min 100 (100 * Real.exp (0.03 + 0.2 * z))) 0 =
    Real.exp (-0.05) * (100 * Real.exp (0.03 + 0.2 * z) - 100) := by
  have h1 : 1 ≤ Real.exp (0.03 + 0.2 * z) := Real.one_le_exp hz
  have h2 : 100 ≤ 100 * Real.exp (0.03 + 0.2 * z) := by linarith
  rw [min_eq_left h2, max_eq_left (by linarith)]

/-- With one or two paths the antithetic branch pushes a single pair average: the standard
error is `0`. -/
theorem Asian.runMC_one_pair {ρ : Type} (L : Libm α) (hsqrt : L.sqrt 0 = 0) (G : Gen ρ α)
    (paths steps : Int) (seed : Nat) (sampleFn : List (Dbl α) → Bool → Except Err (Dbl α))
    (f : List (Dbl α) → Bool → α)
    (hf : ∀ Zs b, IsDraw steps.toNat Zs → sampleFn Zs b = .ok (Dbl.fin (f Zs b)))
    (hp : paths = 1 ∨ paths = 2) (hs : 0 < steps) :
    ∃ v : α, Asian.runMC L G paths steps seed true sampleFn =
      .ok ⟨Dbl.fin v, Dbl.fin 0, Dbl.fin v, Dbl.fin v⟩ := by
  have hp0 : 0 < paths := by rcases hp with rfl | rfl <;> decide
  have hlt : paths < 2 ^ 31 - 1 := by rcases hp with rfl | rfl <;> decide
  have hlen : (paths.toNat + 1) / 2 = 1 := by rcases hp with rfl | rfl <;> rfl
  have h := Asian.runMC_eq_of_fin_samples L G paths steps seed true sampleFn hp0 hs
    ((drawBlocks G steps.toNat ((paths.toNat + 1) / 2) (G.seed seed)).map
      (fun Zs => 0.5 * (f Zs false + f Zs true)))
    (by rw [hlen]; simp [drawBlocks])
    (by rw [if_pos rfl]; exact Asian.antithetic_branch_eq G paths steps seed sampleFn f hf hp0 hlt)
  rw [hlen] at h
  refine ⟨0.5 * (f (Asian.drawZs G steps.toNat (G.seed seed)).1 false +
    f (Asian.drawZs G steps.toNat (G.seed seed)).1 true), ?_⟩
  rw [h]
  simp [drawBlocks, meanOf, Option.makeCI95, hsqrt]

/-! ### C18: determinism and the four exports of the call price -/

/-- The value returned by a `SAFE_DOUBLE` export does not depend on the host state: it is the
value of the body, or `NaN` when the body threw. -/
theorem SAFE_DOUBLE_value (name : String) (body : Except Err (Dbl α)) (h : Host) :
    (SAFE_DOUBLE name body h).1 = (match body with | .ok v => v | .error _ => Dbl.nan) := by
  cases body with
  | ok v => rfl
  | error e =>
    cases e with
    | invalid_argument msg =>
      simp only [SAFE_DOUBLE, reportError]
      split_ifs <;> rfl

theorem Dbl.finOrNan_fin (x : α) : (Dbl.fin x).finOrNan := Or.inr ⟨x, rfl⟩

theorem Dbl.finOrNan_nan : (Dbl.nan : Dbl α).finOrNan := Or.inl rfl

theorem Dbl.finOrNan_add {x y : Dbl α} (hx : x.finOrNan) (hy : y.finOrNan) :
    (x + y).finOrNan := by
  rcases hx with rfl | ⟨a, rfl⟩ <;> rcases hy with rfl | ⟨b, rfl⟩
  · exact Or.inl rfl
  · exact Or.inl rfl
  · exact Or.inl rfl
  · exact Or.inr ⟨a + b, Dbl.fin_add_fin a b⟩

theorem Dbl.finOrNan_mul {x y : Dbl α} (hx : x.finOrNan) (hy : y.finOrNan) :
    (x * y).finOrNan := by
  rcases hx with rfl | ⟨a, rfl⟩ <;> rcases hy with rfl | ⟨b, rfl⟩
  · exact Or.inl rfl
  · exact Or.inl rfl
  · exact Or.inl rfl
  · exact Or.inr ⟨a * b, Dbl.fin_mul_fin a b⟩

theorem Dbl.finOrNan_neg {x : Dbl α} (hx : x.finOrNan) : (-x).finOrNan := by
  rcases hx with rfl | ⟨a, rfl⟩
  · exact Or.inl rfl
  · exact Or.inr ⟨-a, Dbl.neg_fin a⟩

theorem Dbl.finOrNan_exp (L : Libm α) {x : Dbl α} (hx : x.finOrNan) :
    (Dbl.exp L x).finOrNan := by
  rcases hx with rfl | ⟨a, rfl⟩
  · exact Or.inl rfl
  · exact Or.inr ⟨L.exp a, rfl⟩

theorem Dbl.finOrNan_sqrt (L : Libm α) {x : Dbl α} (hx : x.finOrNan) :
    (Dbl.sqrt L x).finOrNan := by
  rcases hx with rfl | ⟨a, rfl⟩
  · exact Or.inl rfl
  · simp only [Dbl.sqrt]
    split_ifs
    · exact Or.inl rfl
    · exact Or.inr ⟨_, rfl⟩

/-- The bound `min(max(V, 1e-16), 1 - 1e-16)` of a finite `V` is a finite value of
`[1e-16, 1 - 1e-16]`. -/
theorem Dbl.clamp_fin (u : α) :
    ∃ v : α, Dbl.min (Dbl.max (Dbl.fin u) (Dbl.fin 1e-16)) (Dbl.fin 1 - Dbl.fin 1e-16) =
      Dbl.fin v ∧ 1e-16 ≤ v ∧ v ≤ 1 - 1e-16 := by
  refine ⟨Min.min (Max.max u 1e-16) (1 - 1e-16), ?_, ?_, min_le_right _ _⟩
  · rw [Dbl.max_fin, Dbl.fin_sub_fin, Dbl.min_fin]
  · refine le_min (le_max_right _ _) ?_
    norm_num

/-- The logarithm of a finite positive double is finite. -/
theorem Dbl.log_fin_pos (L : Libm α) (v : α) (hv : 0 < v) :
    Dbl.log L (Dbl.fin v) = Dbl.fin (L.log v) := by
  simp [Dbl.log, not_lt.2 hv.le, hv.ne']

/-- On finite end points, a finite variance and a finite uniform, `bridgeMaxLog` is finite or
`NaN`. -/
theorem Asian.bridgeMaxLog_finOrNan (L : Libm α) (a b s u : α) :
    (Asian.bridgeMaxLog L (Dbl.fin a) (Dbl.fin b) (Dbl.fin s) (Dbl.fin u)).finOrNan := by
  obtain ⟨v, hv, hv0, _⟩ := Dbl.clamp_fin u
  have hvpos : 0 < v := lt_of_lt_of_le (by norm_num) hv0
  simp only [Asian.bridgeMaxLog]
  rw [hv, Dbl.log_fin_pos L v hvpos]
  simp only [Dbl.neg_fin, Dbl.fin_mul_fin, Dbl.fin_sub_fin, Dbl.fin_add_fin]
  exact Dbl.finOrNan_mul (Dbl.finOrNan_fin _)
    (Dbl.finOrNan_add (Dbl.finOrNan_fin _) (Dbl.finOrNan_sqrt L (Dbl.finOrNan_fin _)))

theorem Asian.bridgeMinLog_finOrNan (L : Libm α) (a b s u : α) :
    (Asian.bridgeMinLog L (Dbl.fin a) (Dbl.fin b) (Dbl.fin s) (Dbl.fin u)).finOrNan := by
  unfold Asian.bridgeMinLog
  rw [Dbl.neg_fin, Dbl.neg_fin]
  exact Dbl.finOrNan_neg (Asian.bridgeMaxLog_finOrNan L _ _ _ _)

/-- The running maximum of a finite aggregate with a finite-or-`NaN` price is finite and not
below the aggregate. -/
theorem LookMax_finOrNan (a : α) {x : Dbl α} (hx : x.finOrNan) (k : Dbl α) :
    ∃ c : α, LookMax (Dbl.fin a) x k = Dbl.fin c ∧ a ≤ c := by
  rcases hx with rfl | ⟨b, rfl⟩
  · exact ⟨a, rfl, le_rfl⟩
  · exact ⟨Max.max a b, by rw [LookMax, Dbl.max_fin], le_max_left _ _⟩

/-- The running minimum of a finite aggregate with a finite-or-`NaN` price is finite and not
above the aggregate. -/
theorem LookMin_finOrNan (a : α) {x : Dbl α} (hx : x.finOrNan) (k : Dbl α) :
    ∃ c : α, LookMin (Dbl.fin a) x k = Dbl.fin c ∧ c ≤ a := by
  rcases hx with rfl | ⟨b, rfl⟩
  · exact ⟨a, rfl, le_rfl⟩
  · exact ⟨Min.min a b, by rw [LookMin, Dbl.min_fin], min_le_left _ _⟩

theorem drawUs_isDraw {ρ : Type} (G : Gen ρ α) (n : Nat) (rng : ρ) :
    IsDraw n (Asian.drawUs G n rng).1.1 ∧ IsDraw n (Asian.drawUs G n rng).1.2 := by
  induction n generalizing rng with
  | zero => exact ⟨⟨rfl, by simp [Asian.drawUs]⟩, ⟨rfl, by simp [Asian.drawUs]⟩⟩
  | succ n ih =>
    obtain ⟨⟨h1, h2⟩, ⟨h3, h4⟩⟩ := ih (G.uniform (G.uniform rng).2).2
    obtain ⟨v1, hv1, _⟩ := Dbl.clamp_fin (G.uniform rng).1
    obtain ⟨v2, hv2, _⟩ := Dbl.clamp_fin (G.uniform (G.uniform rng).2).1
    simp only [Asian.drawUs, hv1, hv2]
    refine ⟨⟨by simp [h1], ?_⟩, ⟨by simp [h3], ?_⟩⟩
    · intro z hz
      rcases List.mem_cons.1 hz with rfl | hz
      · rfl
      · exact h2 z hz
    · intro z hz
      rcases List.mem_cons.1 hz with rfl | hz
      · rfl
      · exact h4 z hz


/-- One step of the `payoffBB` loop with the running-maximum aggregator, from a finite state
whose aggregate is not below the price: the state stays finite, the aggregate does not
decrease and is not below the new price. -/
theorem Asian.payoffBBStep_LookMax (L : Libm α) (self : opt.Asian α)
    (hagg : self.aggregator_ = LookMax) (r sg d s : α) (hR : self.R_ = Dbl.fin r)
    (hsg : self.sigma_ = Dbl.fin sg) (hd : 0 ≤ d) (Zs Umax Umin : List (Dbl α)) (flip : Bool)
    (j : Nat) (z u1 u2 : α) (hz : Zs.getD j Dbl.nan = Dbl.fin z)
    (hu1 : Umax.getD j Dbl.nan = Dbl.fin u1) (hu2 : Umin.getD j Dbl.nan = Dbl.fin u2)
    (st a lg : α) :
    ∃ st1 a1 lg1 : α,
      Asian.payoffBBStep L self (Dbl.fin d) (Dbl.fin s) Zs Umax Umin flip
        (Dbl.fin st, Dbl.fin a, Dbl.fin lg) j = (Dbl.fin st1, Dbl.fin a1, Dbl.fin lg1) ∧
      st1 ≤ a1 ∧ a ≤ a1 := by
  have hsqrt : Dbl.sqrt L (Dbl.fin d) = Dbl.fin (L.sqrt d) := by
    simp [Dbl.sqrt, not_lt.2 hd]
  have hZ : (if flip = true then -(Zs.getD j Dbl.nan) else Zs.getD j Dbl.nan) =
      Dbl.fin (if flip = true then -z else z) := by
    cases flip
    · simp only [Bool.false_eq_true, if_false, hz]
    · simp only [if_true, hz, Dbl.neg_fin]
  simp only [Asian.payoffBBStep, hagg, hR, hsg, hZ, hsqrt, Dbl.fin_mul_fin, Dbl.fin_sub_fin,
    Dbl.fin_add_fin, Dbl.exp, hu1, hu2]
  generalize hX : (match Asian.bridgeMaxLog L (Dbl.fin lg)
      (Dbl.fin (lg + (r - 0.5 * sg * sg) * d + sg * L.sqrt d * if flip = true then -z else z))
      (Dbl.fin s) (Dbl.fin u1) with
    | Dbl.fin x => Dbl.fin (L.exp x)
    | Dbl.pinf => Dbl.pinf
    | Dbl.ninf => Dbl.fin 0
    | Dbl.nan => Dbl.nan) = X
  generalize hY : (match Asian.bridgeMinLog L (Dbl.fin lg)
      (Dbl.fin (lg + (r - 0.5 * sg * sg) * d + sg * L.sqrt d * if flip = true then -z else z))
      (Dbl.fin s) (Dbl.fin u2) with
    | Dbl.fin x => Dbl.fin (L.exp x)
    | Dbl.pinf => Dbl.pinf
    | Dbl.ninf => Dbl.fin 0
    | Dbl.nan => Dbl.nan) = Y
  have hXf : X.finOrNan := by
    rw [← hX]
    exact Dbl.finOrNan_exp L (Asian.bridgeMaxLog_finOrNan L _ _ _ _)
  have hYf : Y.finOrNan := by
    rw [← hY]
    exact Dbl.finOrNan_exp L (Asian.bridgeMinLog_finOrNan L _ _ _ _)
  obtain ⟨c1, h1, hc1⟩ := LookMax_finOrNan a hXf (Dbl.ofInt (j : Int) + Dbl.fin 0.5)
  obtain ⟨c2, h2, hc2⟩ := LookMax_finOrNan c1 hYf (Dbl.ofInt (j : Int) + Dbl.fin 0.5)
  rw [h1, h2, LookMax, Dbl.max_fin]
  exact ⟨_, _, _, rfl, le_max_right _ _, le_trans (le_trans hc1 hc2) (le_max_left _ _)⟩

/-- The `payoffBB` loop with the running-maximum aggregator ends in a finite state whose
aggregate is not below the final price nor below the spot. -/
theorem Asian.payoffBBLoop_LookMax (L : Libm α) (self : opt.Asian α)
    (hagg : self.aggregator_ = LookMax) (r sg d s : α) (hR : self.R_ = Dbl.fin r)
    (hsg : self.sigma_ = Dbl.fin sg) (hd : 0 ≤ d) (n : Nat) (Zs Umax Umin : List (Dbl α))
    (hZ : IsDraw n Zs) (hU1 : IsDraw n Umax) (hU2 : IsDraw n Umin) (flip : Bool)
    (s0 l0 : α) (j : Nat) (hj : j ≤ n) :
    ∃ st a lg : α,
      (List.range j).foldl (Asian.payoffBBStep L self (Dbl.fin d) (Dbl.fin s) Zs Umax Umin flip)
        (Dbl.fin s0, Dbl.fin s0, Dbl.fin l0) = (Dbl.fin st, Dbl.fin a, Dbl.fin lg) ∧
      st ≤ a ∧ s0 ≤ a := by
  induction j with
  | zero => exact ⟨s0, s0, l0, rfl, le_rfl, le_rfl⟩
  | succ j ih =>
    obtain ⟨st, a, lg, hfold, _, hs0a⟩ := ih (by omega)
    obtain ⟨z, hz⟩ := hZ.getD_fin (show j < n by omega)
    obtain ⟨u1, hu1⟩ := hU1.getD_fin (show j < n by omega)
    obtain ⟨u2, hu2⟩ := hU2.getD_fin (show j < n by omega)
    obtain ⟨st1, a1, lg1, hstep, h1, h2⟩ := Asian.payoffBBStep_LookMax L self hagg r sg d s hR
      hsg hd Zs Umax Umin flip j z u1 u2 hz hu1 hu2 st a lg
    rw [List.range_succ, List.foldl_append, hfold]
    exact ⟨st1, a1, lg1, hstep, h1, le_trans hs0a h2⟩


/-- With the running-maximum aggregator and the call payoff, `payoffBB` is `0` on every
vector of finite draws: the strike is the running maximum, which the final price never
exceeds. -/
theorem Asian.payoffBB_LookMax_call (L : Libm α) (self : opt.Asian α)
    (hpay : self.payoff_ = PayoffCall) (hagg : self.aggregator_ = LookMax) (s0 r sg d : α)
    (hS0 : self.S0_ = Dbl.fin s0) (hR : self.R_ = Dbl.fin r) (hsg : self.sigma_ = Dbl.fin sg)
    (hs0 : 0 < s0) (hd : 0 ≤ d) (steps : Int) (Zs Umax Umin : List (Dbl α))
    (hZ : IsDraw steps.toNat Zs) (hU1 : IsDraw steps.toNat Umax)
    (hU2 : IsDraw steps.toNat Umin) (flip : Bool) :
    Asian.payoffBB L self steps (Dbl.fin d) Zs Umax Umin flip = .ok (Dbl.fin 0) := by
  obtain ⟨st, a, lg, hfold, hsa, hs0a⟩ := Asian.payoffBBLoop_LookMax L self hagg
    r sg d (sg * sg * d) hR hsg hd steps.toNat Zs Umax Umin hZ hU1 hU2 flip s0 (L.log s0)
    steps.toNat le_rfl
  have ha : ¬ a < 0 := not_lt.2 (le_trans hs0.le hs0a)
  simp only [Asian.payoffBB, hS0, hsg, hpay, Dbl.fin_mul_fin, Dbl.log_fin_pos L s0 hs0, hfold,
    PayoffCall, Dbl.lt, ha, decide_False, Bool.false_eq_true, if_false, Dbl.fin_sub_fin,
    Dbl.max_fin, max_eq_right (sub_nonpos.2 hsa)]
  rfl

/-- The antithetic loop of the bridge estimator with the running maximum and the call payoff
keeps the running sum at `0`. -/
theorem Asian.bbAntitheticLoop_LookMax_call {ρ : Type} (L : Libm α) (G : Gen ρ α)
    (self : opt.Asian α) (hpay : self.payoff_ = PayoffCall) (hagg : self.aggregator_ = LookMax)
    (s0 r sg d : α) (hS0 : self.S0_ = Dbl.fin s0) (hR : self.R_ = Dbl.fin r)
    (hsg : self.sigma_ = Dbl.fin sg) (hs0 : 0 < s0) (hd : 0 ≤ d) (steps : Int) (n : Nat)
    (rng : ρ) :
    Asian.bbAntitheticLoop L G self steps (Dbl.fin d) n rng (Dbl.fin 0) = .ok (Dbl.fin 0) := by
  induction n generalizing rng with
  | zero => rfl
  | succ n ih =>
    have hp := fun flip => Asian.payoffBB_LookMax_call L self hpay hagg s0 r sg d hS0 hR hsg
      hs0 hd steps (Asian.drawZs G steps.toNat rng).1
      (Asian.drawUs G steps.toNat (Asian.drawZs G steps.toNat rng).2).1.1
      (Asian.drawUs G steps.toNat (Asian.drawZs G steps.toNat rng).2).1.2
      (Asian.drawZs_isDraw G steps.toNat rng) (drawUs_isDraw G steps.toNat _).1
      (drawUs_isDraw G steps.toNat _).2 flip
    simp only [Asian.bbAntitheticLoop, hp, Dbl.fin_add_fin, Dbl.fin_mul_fin, add_zero,
      mul_zero]
    exact ih _

theorem Asian.priceMC_BrownianBridge_Asymptotic_eq {ρ : Type} (L : Libm α) (G : Gen ρ α)
    (self : opt.Asian α) :
    Asian.priceMC_BrownianBridge_Asymptotic L G self =
      (match Asian.bbAntitheticLoop L G self 1000 ((self.T_ - self.T0_) / Dbl.ofInt 1000)
          (Int.tdiv 1000 2).toNat (G.seed 42) (Dbl.fin 0) with
        | .error e => .error e
        | .ok sumPayoff =>
          .ok (Dbl.exp L ((-self.R_) * (self.T_ - self.T0_)) *
            (sumPayoff / Dbl.ofInt (Int.tdiv 1000 2)))) := by
  unfold Asian.priceMC_BrownianBridge_Asymptotic
  rw [if_pos rfl]

/-- The bridge estimator on an option with the running maximum and the call payoff returns
exactly `0`. -/
theorem Asian.bb_LookMax_call_zero {ρ : Type} (L : Libm α) (G : Gen ρ α)
    (S0 R sigma T0 T : Dbl α) (self : opt.Asian α)
    (hself : Asian.Asian S0 R sigma T0 T PayoffCall LookMax = .ok self) :
    Asian.priceMC_BrownianBridge_Asymptotic L G self = .ok (Dbl.fin 0) := by
  obtain ⟨hs, s0, r, sg, t0, t, rfl, rfl, rfl, rfl, rfl, hs0, _, ht⟩ := Asian.Asian_ok hself
  have hpay : self.payoff_ = PayoffCall := by rw [hs]
  have hagg : self.aggregator_ = LookMax := by rw [hs]
  have hS0 : self.S0_ = Dbl.fin s0 := by rw [hs]
  have hR : self.R_ = Dbl.fin r := by rw [hs]
  have hsg : self.sigma_ = Dbl.fin sg := by rw [hs]
  have hT0 : self.T0_ = Dbl.fin t0 := by rw [hs]
  have hT : self.T_ = Dbl.fin t := by rw [hs]
  have h1000 : ((1000 : Int) : α) ≠ 0 := by norm_num
  have h500 : ((Int.tdiv 1000 2 : Int) : α) ≠ 0 := by
    have : Int.tdiv 1000 2 = 500 := by decide
    rw [this]
    norm_num
  have hd : 0 ≤ (t - t0) / ((1000 : Int) : α) :=
    div_nonneg (sub_nonneg.2 ht.le) (by norm_num)
  have hdt : (Dbl.fin t - Dbl.fin t0 : Dbl α) / Dbl.ofInt 1000 =
      Dbl.fin ((t - t0) / ((1000 : Int) : α)) := by
    rw [Dbl.fin_sub_fin, Dbl.ofInt, Dbl.fin_div_fin _ _ h1000]
  have hmean : (Dbl.fin 0 : Dbl α) / Dbl.ofInt (Int.tdiv 1000 2) = Dbl.fin 0 := by
    rw [Dbl.ofInt, Dbl.fin_div_fin _ _ h500, zero_div]
  rw [Asian.priceMC_BrownianBridge_Asymptotic_eq, hT, hT0, hR, hdt,
    Asian.bbAntitheticLoop_LookMax_call L G self hpay hagg s0 r sg _ hS0 hR hsg hs0 hd]
  simp only [hmean, Dbl.neg_fin, Dbl.fin_sub_fin, Dbl.fin_mul_fin, Dbl.exp, mul_zero]


/-- Counterexample to claim C19: on the Scenario 1 parameters (`S0 = 100`, `R = 0.05`,
`sigma = 0.2`, `T0 = 0`, `T = 1`) the option with the running-maximum aggregator and the call
payoff is valid and the bridge estimator returns exactly `0`, which is not strictly greater
than zero. -/
theorem Asian.priceMC_BrownianBridge_not_positive :
    Asian.Asian (Dbl.fin 100) (Dbl.fin 0.05) (Dbl.fin 0.2) (Dbl.fin 0) (Dbl.fin 1)
        PayoffCall LookMax =
      .ok (⟨⟨Dbl.fin 100, Dbl.fin 0.05, Dbl.fin 0.2, Dbl.fin 0, Dbl.fin 1⟩, PayoffCall,
        LookMax⟩ : opt.Asian ℝ) ∧
    ∃ x : Dbl ℝ, Asian.priceMC_BrownianBridge_Asymptotic
        (⟨Real.exp, Real.sqrt, Real.log⟩ : Libm ℝ) Gen.counter
        (⟨⟨Dbl.fin 100, Dbl.fin 0.05, Dbl.fin 0.2, Dbl.fin 0, Dbl.fin 1⟩, PayoffCall,
          LookMax⟩ : opt.Asian ℝ) = .ok x ∧
      Dbl.lt (Dbl.fin 0) x = false := by
  have h := Asian.Asian_fin (100 : ℝ) 0.05 0.2 0 1 (by norm_num) (by norm_num) (by norm_num)
    PayoffCall LookMax
  refine ⟨h, Dbl.fin 0, Asian.bb_LookMax_call_zero _ _ _ _ _ _ _ _ h, ?_⟩
  simp [Dbl.lt]

/-! ### C20: the delta of the lookback call -/

theorem finS_scale (L : Libm α) (c s0 r sg dt : α) (Zs : List (Dbl α)) (flip : Bool)
    (j : Nat) : finS L (c * s0) r sg dt Zs flip j = c * finS L s0 r sg dt Zs flip j := by
  induction j with
  | zero => rfl
  | succ j ih => rw [finS, ih, finS, mul_assoc]

theorem finMin_scale (L : Libm α) (c s0 r sg dt : α) (hc : 0 ≤ c) (Zs : List (Dbl α))
    (flip : Bool) (j : Nat) :
    finMin L (c * s0) r sg dt Zs flip j = c * finMin L s0 r sg dt Zs flip j := by
  induction j with
  | zero => rfl
  | succ j ih => rw [finMin, ih, finS_scale, finMin, mul_min_of_nonneg _ _ hc]

theorem finMax_scale (L : Libm α) (c s0 r sg dt : α) (hc : 0 ≤ c) (Zs : List (Dbl α))
    (flip : Bool) (j : Nat) :
    finMax L (c * s0) r sg dt Zs flip j = c * finMax L s0 r sg dt Zs flip j := by
  induction j with
  | zero => rfl
  | succ j ih => rw [finMax, ih, finS_scale, finMax, mul_max_of_nonneg _ _ hc]

theorem meanOf_nonneg (xs : List α) (h : ∀ x ∈ xs, 0 ≤ x) : 0 ≤ meanOf xs :=
  div_nonneg (List.sum_nonneg h) (Nat.cast_nonneg _)

theorem meanOf_pos (xs : List α) (h : ∀ x ∈ xs, 0 ≤ x) (y : α) (hy : y ∈ xs) (hpos : 0 < y) :
    0 < meanOf xs := by
  have hlen : 0 < xs.length := List.length_pos_of_mem hy
  have hsum : 0 < xs.sum := by
    induction xs with
    | nil => cases hy
    | cons a l ih =>
      rw [List.sum_cons]
      have ha : 0 ≤ a := h a (List.mem_cons_self _ _)
      have hl : 0 ≤ l.sum := List.sum_nonneg (fun x hx => h x (List.mem_cons_of_mem _ hx))
      rcases List.mem_cons.1 hy with rfl | hyl
      · exact add_pos_of_pos_of_nonneg hpos hl
      · exact add_pos_of_nonneg_of_pos ha
          (ih (fun x hx => h x (List.mem_cons_of_mem _ hx)) hyl (List.length_pos_of_mem hyl))
  exact div_pos hsum (by exact_mod_cast hlen)

/-- The delta sample of the lookback call is the price sample divided by the spot: the
discounted payoff is homogeneous of degree one in the spot. -/
theorem Asian.call_sampleDelta_eq (L : Libm α) (hexp : ∀ x, 0 < L.exp x)
    (s0 r sg t0 t re : α) (hs0 : 0 < s0) (ht : t0 ≤ t) (hre0 : 0 < re) (hre1 : re < 1)
    (steps : Int) (hs : 0 < steps) (Zs : List (Dbl α)) (hZ : IsDraw steps.toNat Zs)
    (flip : Bool) :
    Asian.sampleDelta L ⟨⟨Dbl.fin s0, Dbl.fin r, Dbl.fin sg, Dbl.fin t0, Dbl.fin t⟩,
        PayoffCall, LookMin⟩ (Dbl.fin re * Dbl.fin s0) steps Zs flip =
      .ok (Dbl.fin ((L.exp (-r * (t - t0)) *
        max (finS L s0 r sg ((t - t0) / (steps : α)) Zs flip steps.toNat -
          finMin L s0 r sg ((t - t0) / (steps : α)) Zs flip steps.toNat) 0) / s0)) := by
  have hup : s0 + re * s0 = (1 + re) * s0 := by ring
  have hdn : s0 - re * s0 = (1 - re) * s0 := by ring
  have h1 : (0 : α) ≤ 1 + re := by linarith
  have h2 : (0 : α) ≤ 1 - re := by linarith
  have hne : 2 * (re * s0) ≠ 0 := by positivity
  simp only [Asian.sampleDelta]
  rw [Dbl.fin_mul_fin, Dbl.fin_add_fin, Dbl.fin_sub_fin, hup, hdn,
    Asian.call_sample_eq L hexp _ _ r sg t0 t (mul_pos (by linarith) hs0) ht steps hs Zs hZ,
    Asian.call_sample_eq L hexp _ _ r sg t0 t (mul_pos (by linarith) hs0) ht steps hs Zs hZ]
  simp only [finS_scale, finMin_scale L _ s0 r sg _ h1, finMin_scale L _ s0 r sg _ h2,
    ← mul_sub, Dbl.fin_sub_fin, Dbl.fin_mul_fin, Dbl.fin_div_fin _ _ hne]
  generalize finS L s0 r sg ((t - t0) / (steps : α)) Zs flip steps.toNat -
    finMin L s0 r sg ((t - t0) / (steps : α)) Zs flip steps.toNat = X
  have hm1 : max ((1 + re) * X) 0 = (1 + re) * max X 0 := by
    rw [mul_max_of_nonneg _ _ h1, mul_zero]
  have hm2 : max ((1 - re) * X) 0 = (1 - re) * max X 0 := by
    rw [mul_max_of_nonneg _ _ h2, mul_zero]
  rw [hm1, hm2]
  congr 2
  field_simp
  ring


/-- Claim C20, as amended: in exact arithmetic (every operation on doubles computed without
rounding, overflow or underflow, and `std::exp` positive), for the exported lookback call on valid
market parameters, `paths > 0`, `steps > 0`, either antithetic setting and every draw stream,
`deltaMC` with the default `relEps = 1e-4` returns without raising a finite estimate that is not
negative: on every vector of finite draws the per-path delta sample is finite and `>= 0` (it is `>
0` when the discounted payoff of that path is `> 0`), and the estimate is strictly positive as soon
as one sampled path (a drawn vector, or its sign-flipped twin in the antithetic branch) has a
strictly positive discounted payoff. (In IEEE doubles the estimate is `NaN` when a simulated price
overflows.) -/
theorem Asian.deltaMC_call_nonneg {ρ : Type} (L : Libm α) (hexp : ∀ x, 0 < L.exp x)
    (G : Gen ρ α) (S0 R sigma T0 T : Dbl α) (self : opt.Asian α)
    (hself : makeLookbackCall S0 R sigma T0 T = .ok self)
    (paths steps : Int) (hp : 0 < paths) (hs : 0 < steps) (seed : Nat) (antithetic : Bool) :
    (∀ Zs flip, IsDraw steps.toNat Zs → ∃ x v : α,
      Asian.sampleDelta L self (Asian.deltaRelEps * self.S0_) steps Zs flip =
        .ok (Dbl.fin x) ∧
      Asian.samplePrice L self steps Zs flip = .ok (Dbl.fin v) ∧
      0 ≤ v ∧ 0 ≤ x ∧ (0 < v → 0 < x)) ∧
    ∃ (d : MCStats α) (e : α),
      Asian.deltaMC L G self paths steps seed antithetic Asian.deltaRelEps = .ok d ∧
      d.estimate = Dbl.fin e ∧ 0 ≤ e ∧
      ((∃ Zs ∈ drawBlocks G steps.toNat (loopCount paths antithetic) (G.seed seed),
          ∃ (flip : Bool) (v : α), (flip = true → antithetic = true) ∧
            Asian.samplePrice L self steps Zs flip = .ok (Dbl.fin v) ∧ 0 < v) → 0 < e) := by
  obtain ⟨rfl, s0, r, sg, t0, t, rfl, rfl, rfl, rfl, rfl, hs0, _, ht⟩ := Asian.Asian_ok hself
  have hre0 : (0 : α) < 1e-4 := by norm_num
  have hre1 : (1e-4 : α) < 1 := by norm_num
  have hD := fun Zs flip hZ => Asian.call_sampleDelta_eq L hexp s0 r sg t0 t 1e-4 hs0 ht.le
    hre0 hre1 steps hs Zs hZ flip
  have hP := fun Zs flip hZ => Asian.call_sample_eq L hexp
    ⟨Dbl.fin s0, Dbl.fin r, Dbl.fin sg, Dbl.fin t0, Dbl.fin t⟩ s0 r sg t0 t hs0 ht.le
    steps hs Zs hZ flip
  have hv0 : ∀ Zs flip, 0 ≤ L.exp (-r * (t - t0)) *
      max (finS L s0 r sg ((t - t0) / (steps : α)) Zs flip steps.toNat -
        finMin L s0 r sg ((t - t0) / (steps : α)) Zs flip steps.toNat) 0 :=
    fun Zs flip => mul_nonneg (hexp _).le (le_max_right _ _)
  have hx0 : ∀ Zs flip, 0 ≤ (L.exp (-r * (t - t0)) *
      max (finS L s0 r sg ((t - t0) / (steps : α)) Zs flip steps.toNat -
        finMin L s0 r sg ((t - t0) / (steps : α)) Zs flip steps.toNat) 0) / s0 :=
    fun Zs flip => div_nonneg (hv0 Zs flip) hs0.le
  refine ⟨fun Zs flip hZ => ⟨_, _, hD Zs flip hZ, hP Zs flip hZ, hv0 Zs flip, hx0 Zs flip,
    fun h => div_pos h hs0⟩, ?_⟩
  obtain ⟨d, hd, hest⟩ := Asian.runMC_estimate_fin L G paths steps seed antithetic
    (Asian.sampleDelta L ⟨⟨Dbl.fin s0, Dbl.fin r, Dbl.fin sg, Dbl.fin t0, Dbl.fin t⟩,
      PayoffCall, LookMin⟩ (Dbl.fin 1e-4 * Dbl.fin s0) steps)
    (fun Zs flip => (L.exp (-r * (t - t0)) *
      max (finS L s0 r sg ((t - t0) / (steps : α)) Zs flip steps.toNat -
        finMin L s0 r sg ((t - t0) / (steps : α)) Zs flip steps.toNat) 0) / s0)
    (fun Zs flip hZ => hD Zs flip hZ) hp hs
  have hpush : ∀ Zs, 0 ≤ pushed antithetic (fun Zs flip => (L.exp (-r * (t - t0)) *
      max (finS L s0 r sg ((t - t0) / (steps : α)) Zs flip steps.toNat -
        finMin L s0 r sg ((t - t0) / (steps : α)) Zs flip steps.toNat) 0) / s0) Zs := by
    intro Zs
    unfold pushed
    split_ifs
    · exact mul_nonneg (by norm_num) (add_nonneg (hx0 Zs false) (hx0 Zs true))
    · exact hx0 Zs false
  have hall : ∀ x ∈ (drawBlocks G steps.toNat (loopCount paths antithetic) (G.seed seed)).map
      (pushed antithetic (fun Zs flip => (L.exp (-r * (t - t0)) *
        max (finS L s0 r sg ((t - t0) / (steps : α)) Zs flip steps.toNat -
          finMin L s0 r sg ((t - t0) / (steps : α)) Zs flip steps.toNat) 0) / s0)), 0 ≤ x := by
    intro x hx
    obtain ⟨Zs, _, rfl⟩ := List.mem_map.1 hx
    exact hpush Zs
  refine ⟨d, _, hd, hest, meanOf_nonneg _ hall, ?_⟩
  rintro ⟨Zs, hmem, flip, v, hflip, hv, hvpos⟩
  have hZ := drawBlocks_isDraw G steps.toNat _ _ Zs hmem
  have hveq : v = L.exp (-r * (t - t0)) *
      max (finS L s0 r sg ((t - t0) / (steps : α)) Zs flip steps.toNat -
        finMin L s0 r sg ((t - t0) / (steps : α)) Zs flip steps.toNat) 0 := by
    have h := (hP Zs flip hZ).symm.trans hv
    injection h with h
    injection h with h
    exact h.symm
  have hxpos : 0 < (L.exp (-r * (t - t0)) *
      max (finS L s0 r sg ((t - t0) / (steps : α)) Zs flip steps.toNat -
        finMin L s0 r sg ((t - t0) / (steps : α)) Zs flip steps.toNat) 0) / s0 :=
    div_pos (hveq ▸ hvpos) hs0
  refine meanOf_pos _ hall _ (List.mem_map.2 ⟨Zs, hmem, rfl⟩) ?_
  unfold pushed
  cases antithetic with
  | true =>
    rw [if_pos rfl]
    cases flip with
    | true => exact mul_pos (by norm_num) (add_pos_of_nonneg_of_pos (hx0 Zs false) hxpos)
    | false => exact mul_pos (by norm_num) (add_pos_of_pos_of_nonneg hxpos (hx0 Zs true))
  | false =>
    rw [if_neg (by simp)]
    cases flip with
    | true => exact absurd (hflip rfl) (by simp)
    | false => exact hxpos


/-- Witness of claim C20 on the Scenario 1 lookback call: one path of one step on the draw
`1`, whose payoff is strictly positive, so that the delta estimate is strictly positive. -/
theorem Asian.deltaMC_call_nonneg_witness :
    (∀ x : ℝ, 0 < Real.exp x) ∧
    makeLookbackCall (Dbl.fin 100) (Dbl.fin 0.05) (Dbl.fin 0.2) (Dbl.fin 0) (Dbl.fin 1)
      = .ok (scenarioCall : opt.Asian ℝ) ∧
    (0 : Int) < 1 ∧
    ∃ (d : MCStats ℝ) (e : ℝ),
      Asian.deltaMC (⟨Real.exp, Real.sqrt, Real.log⟩ : Libm ℝ) (Gen.const 1 (1 / 2))
        scenarioCall 1 1 42 false Asian.deltaRelEps = .ok d ∧
      d.estimate = Dbl.fin e ∧ 0 ≤ e ∧ 0 < e := by
  obtain ⟨_, d, e, hd, he, he0, hpos⟩ := Asian.deltaMC_call_nonneg
    (⟨Real.exp, Real.sqrt, Real.log⟩ : Libm ℝ) Real.exp_pos (Gen.const 1 (1 / 2))
    (Dbl.fin 100) (Dbl.fin 0.05) (Dbl.fin 0.2) (Dbl.fin 0) (Dbl.fin 1) scenarioCall
    makeLookbackCall_scenario 1 1 (by decide) (by decide) 42 false
  refine ⟨Real.exp_pos, makeLookbackCall_scenario, by decide, d, e, hd, he, he0,
    hpos ⟨[Dbl.fin 1], ?_, false, _, by simp, scenarioCall_one_step 1 false, ?_⟩⟩
  · simp [drawBlocks, Asian.drawZs, Gen.const, loopCount]
  · rw [if_neg (by simp), scenarioCall_one_step_up 1 (by norm_num)]
    have h1 : 1 < Real.exp (0.03 + 0.2 * 1) := Real.one_lt_exp_iff.2 (by norm_num)
    exact mul_pos (Real.exp_pos _) (by linarith)

/-! ### C21: the export boundary -/

/-- The price estimate of a lookback option built by the export helpers is a finite value
whenever `priceMC` returns. -/
theorem Asian.priceMC_estimate_fin {ρ : Type} (L : Libm α) (hexp : ∀ x, 0 < L.exp x)
    (G : Gen ρ α) (S0 R sigma T0 T : Dbl α) (self : opt.Asian α)
    (hself : makeLookbackCall S0 R sigma T0 T = .ok self ∨
      makeLookbackPut S0 R sigma T0 T = .ok self)
    (paths steps : Int) (seed : Nat) (antithetic : Bool) (stats : MCStats α)
    (h : Asian.priceMC L G self paths steps seed antithetic = .ok stats) :
    ∃ e : α, stats.estimate = Dbl.fin e := by
  have hp : 0 < paths := by
    by_contra hc
    rw [Asian.priceMC_eq_runMC, Asian.runMC_guard L G paths steps seed antithetic _
      (Or.inl (not_lt.1 hc))] at h
    cases h
  have hs : 0 < steps := by
    by_contra hc
    rw [Asian.priceMC_eq_runMC, Asian.runMC_guard L G paths steps seed antithetic _
      (Or.inr (not_lt.1 hc))] at h
    cases h
  obtain ⟨s0, r, sg, t0, t, pay, agg, rfl, rfl, rfl, rfl, rfl, rfl, hs0, hsg, ht, hkind⟩ :=
    lookback_self hself
  have hfs := FinStrategies_of_pair ⟨Dbl.fin s0, Dbl.fin r, Dbl.fin sg, Dbl.fin t0, Dbl.fin t⟩
    pay agg (hkind.imp (fun h => ⟨h.1, h.2.1⟩) (fun h => ⟨h.1, h.2.1⟩))
  obtain ⟨st, hst, hest⟩ := Asian.runMC_estimate_fin L G paths steps seed antithetic
    (Asian.samplePrice L ⟨⟨Dbl.fin s0, Dbl.fin r, Dbl.fin sg, Dbl.fin t0, Dbl.fin t⟩, pay, agg⟩
      steps) _
    (fun Zs b hZ => Asian.sample_fin L hexp _ hfs s0 r sg t0 t hs0 ht.le steps hs Zs hZ b)
    hp hs
  rw [Asian.priceMC_eq_runMC, hst] at h
  cases h
  exact ⟨_, hest⟩


/-- Claim C21: every export is the wrapper `SAFE_DOUBLE` around a body that builds the option
and calls the core. When the body raises, the wrapper returns `NaN` and no error leaves it;
the dialog (message, export name) is added only if the latch `g_errorDisplayed` was false, the
latch is set afterwards, and with the latch set the host state is left unchanged; when the
body returns, the wrapper returns its value and leaves the host state unchanged;
`ResetErrorFlag` clears the latch and nothing else. `opt_lb_call_price_mc` returns `NaN`
exactly when `makeLookbackCall` or `priceMC` raises, and otherwise the estimate of the core
result; `opt_lb_call_theta_mc` and `opt_lb_put_price_bb_asymptotic` return the value of the
core when it returns. At the failing input, `paths = 2^31 - 1` with antithetic variates,
`opt_lb_call_price_mc_vr_se` returns `NaN` although neither the construction nor `priceMC`
raises. -/
theorem SAFE_DOUBLE_sentinel {ρ : Type} (L : Libm α) (hexp : ∀ x, 0 < L.exp x) (G : Gen ρ α)
    (name : String) (body : Except Err (Dbl α)) (h : Host) (S0 R sigma T0 T : Dbl α)
    (paths steps : Int) (seed : Nat) :
    (∀ msg, body = .error (Err.invalid_argument msg) →
      (SAFE_DOUBLE name body h).1 = Dbl.nan ∧
      (SAFE_DOUBLE name body h).2.g_errorDisplayed = true ∧
      (h.g_errorDisplayed = false →
        (SAFE_DOUBLE name body h).2.dialogs = h.dialogs ++ [(msg, name)]) ∧
      (h.g_errorDisplayed = true → (SAFE_DOUBLE name body h).2 = h)) ∧
    (∀ v, body = .ok v → SAFE_DOUBLE name body h = (v, h)) ∧
    ((ResetErrorFlag h).g_errorDisplayed = false ∧ (ResetErrorFlag h).dialogs = h.dialogs) ∧
    ((opt_lb_call_price_mc L G S0 R sigma T0 T paths steps seed h).1 = Dbl.nan ↔
      ((∃ e, makeLookbackCall S0 R sigma T0 T = .error e) ∨
        ∃ o e, makeLookbackCall S0 R sigma T0 T = .ok o ∧
          Asian.priceMC L G o paths steps seed false = .error e)) ∧
    (∀ o stats, makeLookbackCall S0 R sigma T0 T = .ok o →
      Asian.priceMC L G o paths steps seed false = .ok stats →
      opt_lb_call_price_mc L G S0 R sigma T0 T paths steps seed h = (stats.estimate, h)) ∧
    (∀ o stats, makeLookbackCall S0 R sigma T0 T = .ok o →
      Asian.thetaMC L G o paths steps seed false Asian.thetaEps = .ok stats →
      opt_lb_call_theta_mc L G S0 R sigma T0 T paths steps seed h = (stats.estimate, h)) ∧
    (∀ o v, makeLookbackPut S0 R sigma T0 T = .ok o →
      Asian.priceMC_BrownianBridge_Asymptotic L G o = .ok v →
      opt_lb_put_price_bb_asymptotic L G S0 R sigma T0 T h = (v, h)) ∧
    (makeLookbackCall (Dbl.fin 100) (Dbl.fin 0.05) (Dbl.fin 0.2) (Dbl.fin 0) (Dbl.fin 1)
        = .ok (scenarioCall : opt.Asian α) ∧
      Asian.priceMC L G scenarioCall 2147483647 50 42 true =
        .ok ⟨Dbl.fin 0, Dbl.nan, Dbl.nan, Dbl.nan⟩ ∧
      opt_lb_call_price_mc_vr_se L G (Dbl.fin 100) (Dbl.fin 0.05) (Dbl.fin 0.2) (Dbl.fin 0)
        (Dbl.fin 1) 2147483647 50 42 h = (Dbl.nan, h)) := by
  have hpm : Asian.priceMC L G (scenarioCall : opt.Asian α) 2147483647 50 42 true =
      .ok ⟨Dbl.fin 0, Dbl.nan, Dbl.nan, Dbl.nan⟩ :=
    (Asian.runMC_int_max_eq L G 50 42 _ (by decide)).2
  refine ⟨?_, ?_, ⟨rfl, rfl⟩, ?_, ?_, ?_, ?_, makeLookbackCall_scenario, hpm, ?_⟩
  · rintro msg rfl
    cases hl : h.g_errorDisplayed <;> simp [SAFE_DOUBLE, reportError, hl]
  · rintro v rfl
    rfl
  · rw [opt_lb_call_price_mc, SAFE_DOUBLE_value]
    cases ho : makeLookbackCall S0 R sigma T0 T with
    | error e => simp
    | ok o =>
      dsimp only
      cases hp : Asian.priceMC L G o paths steps seed false with
      | error e => simp [hp]
      | ok stats =>
        obtain ⟨e, he⟩ := Asian.priceMC_estimate_fin L hexp G S0 R sigma T0 T o (Or.inl ho)
          paths steps seed false stats hp
        simp [he, hp]
  · intro o stats ho hp
    simp only [opt_lb_call_price_mc, ho, hp, SAFE_DOUBLE]
  · intro o stats ho hp
    simp only [opt_lb_call_theta_mc, ho, hp, SAFE_DOUBLE]
  · intro o v ho hp
    simp only [opt_lb_put_price_bb_asymptotic, ho, hp, SAFE_DOUBLE]
  · simp only [opt_lb_call_price_mc_vr_se, makeLookbackCall_scenario, hpm, SAFE_DOUBLE]


/-- Witness of claim C21: the wrapper on a body that raised, in a host state with the latch
cleared, returns `NaN`, shows one dialog and sets the latch; and `opt_lb_call_price_mc_vr_se`
on the Scenario 1 parameters with `paths = 2^31 - 1` returns `NaN` without any error. -/
theorem SAFE_DOUBLE_sentinel_witness :
    (∀ x : ℝ, 0 < Real.exp x) ∧
    (SAFE_DOUBLE "opt_lb_call_price_mc"
      (.error (Err.invalid_argument "paths doit être > 0.") : Except Err (Dbl ℝ))
      ⟨false, []⟩).1 = Dbl.nan ∧
    (SAFE_DOUBLE "opt_lb_call_price_mc"
      (.error (Err.invalid_argument "paths doit être > 0.") : Except Err (Dbl ℝ))
      ⟨false, []⟩).2.g_errorDisplayed = true ∧
    (SAFE_DOUBLE "opt_lb_call_price_mc"
      (.error (Err.invalid_argument "paths doit être > 0.") : Except Err (Dbl ℝ))
      ⟨false, []⟩).2.dialogs = [] ++ [("paths doit être > 0.", "opt_lb_call_price_mc")] ∧
    opt_lb_call_price_mc_vr_se (⟨Real.exp, Real.sqrt, Real.log⟩ : Libm ℝ) Gen.counter
      (Dbl.fin 100) (Dbl.fin 0.05) (Dbl.fin 0.2) (Dbl.fin 0) (Dbl.fin 1) 2147483647 50 42
      ⟨false, []⟩ = (Dbl.nan, ⟨false, []⟩) := by
  have h := SAFE_DOUBLE_sentinel (⟨Real.exp, Real.sqrt, Real.log⟩ : Libm ℝ) Real.exp_pos
    Gen.counter "opt_lb_call_price_mc"
    (.error (Err.invalid_argument "paths doit être > 0.")) ⟨false, []⟩
    (Dbl.fin 100) (Dbl.fin 0.05) (Dbl.fin 0.2) (Dbl.fin 0) (Dbl.fin 1) 10000 50 42
  obtain ⟨h1, h2, h3, h4⟩ := h.1 _ rfl
  exact ⟨Real.exp_pos, h1, h2, h3 rfl, h.2.2.2.2.2.2.2.2.2⟩

/-! ### C22: the bridge extremes in log space -/

/-- The bound `min(max(V, 1e-16), 1 - 1e-16)` of any double but `NaN` is a finite value of
`[1e-16, 1 - 1e-16]`. -/
theorem Dbl.clamp_of_not_nan (V : Dbl α) (hV : V.isnan = false) :
    ∃ v : α, Dbl.min (Dbl.max V (Dbl.fin 1e-16)) (Dbl.fin 1 - Dbl.fin 1e-16) =
      Dbl.fin v ∧ 1e-16 ≤ v ∧ v ≤ 1 - 1e-16 := by
  cases V with
  | fin u => exact Dbl.clamp_fin u
  | pinf =>
    refine ⟨1 - 1e-16, ?_, by norm_num, le_rfl⟩
    simp [Dbl.max, Dbl.min, Dbl.lt]
  | ninf =>
    refine ⟨1e-16, ?_, le_rfl, by norm_num⟩
    simp only [Dbl.max, Dbl.lt, if_true, Dbl.fin_sub_fin, Dbl.min_fin]
    rw [min_eq_left (by norm_num)]
  | nan => simp [Dbl.isnan] at hV

/-- The value of `bridgeMaxLog` on finite end points, a variance `s2dt >= 0` and a bounded
uniform `v` of `(0, 1]`, over the reals. -/
theorem Asian.bridgeMaxLog_eval (a b s v : ℝ) (hs : 0 ≤ s) (hv0 : 0 < v) (hv1 : v ≤ 1)
    (V : Dbl ℝ)
    (hV : Dbl.min (Dbl.max V (Dbl.fin 1e-16)) (Dbl.fin 1 - Dbl.fin 1e-16) = Dbl.fin v) :
    0 ≤ -0.5 * s * Real.log v ∧
    0 ≤ (a - b) * (a - b) + 4 * (-0.5 * s * Real.log v) ∧
    Asian.bridgeMaxLog (⟨Real.exp, Real.sqrt, Real.log⟩ : Libm ℝ) (Dbl.fin a) (Dbl.fin b)
        (Dbl.fin s) V =
      Dbl.fin (0.5 * (a + b + Real.sqrt ((a - b) * (a - b) + 4 * (-0.5 * s * Real.log v)))) := by
  have hlog : Real.log v ≤ 0 := Real.log_nonpos hv0.le hv1
  have hK : 0 ≤ -0.5 * s * Real.log v := by
    have : 0 ≤ s * (-Real.log v) := mul_nonneg hs (by linarith)
    linarith
  have hD : 0 ≤ (a - b) * (a - b) + 4 * (-0.5 * s * Real.log v) := by
    have := mul_self_nonneg (a - b)
    linarith
  refine ⟨hK, hD, ?_⟩
  simp only [Asian.bridgeMaxLog]
  rw [hV, Dbl.log_fin_pos _ v hv0]
  simp only [Dbl.neg_fin, Dbl.fin_mul_fin, Dbl.fin_sub_fin, Dbl.fin_add_fin, Dbl.sqrt,
    not_lt.2 hD, if_false]

/-- The upper root `m = (a + b + sqrt((a-b)^2 + 4K)) / 2` of `(m-a)(m-b) = K`, `K >= 0`. -/
theorem upper_root (a b K : ℝ) (hK : 0 ≤ K) :
    (0.5 * (a + b + Real.sqrt ((a - b) * (a - b) + 4 * K)) - a) *
        (0.5 * (a + b + Real.sqrt ((a - b) * (a - b) + 4 * K)) - b) = K ∧
    (∀ x : ℝ, (x - a) * (x - b) = K →
      x ≤ 0.5 * (a + b + Real.sqrt ((a - b) * (a - b) + 4 * K))) ∧
    max a b ≤ 0.5 * (a + b + Real.sqrt ((a - b) * (a - b) + 4 * K)) := by
  have hD : 0 ≤ (a - b) * (a - b) + 4 * K := by
    have := mul_self_nonneg (a - b)
    linarith
  have hsq := Real.mul_self_sqrt hD
  refine ⟨by nlinarith, ?_, ?_⟩
  · intro x hx
    have h2 : (2 * x - a - b) ^ 2 ≤ (a - b) * (a - b) + 4 * K := by nlinarith
    have h3 := le_trans (le_abs_self _) (Real.abs_le_sqrt h2)
    linarith
  · have h2 : (a - b) ^ 2 ≤ (a - b) * (a - b) + 4 * K := by nlinarith
    have h3 := Real.abs_le_sqrt h2
    have h4 := abs_le.1 h3
    rcases le_total a b with hab | hab
    · rw [max_eq_right hab]; linarith [h4.1]
    · rw [max_eq_left hab]; linarith [h4.2]


/-- Claim C22: over the reals, for every finite `a`, `b`, every `s2dt >= 0` and every `V` that
is not `NaN`, the bounded `V' = min(max(V, 1e-16), 1 - 1e-16)` is a finite value of
`[1e-16, 1 - 1e-16]`, `K = -0.5 * s2dt * ln(V') >= 0`, the argument `(a-b)^2 + 4K` of the
square root is `>= 0`, `bridgeMaxLog(a, b, s2dt, V)` is the finite value
`m = 0.5 * (a + b + sqrt((a-b)^2 + 4K))`, which satisfies `(m-a)(m-b) = K`, is the largest
solution of that equation, satisfies `exp(-2(m-a)(m-b)/s2dt) = V'` when `s2dt > 0`, and
`m >= max(a, b)`; and `bridgeMinLog(a, b, s2dt, V) = -bridgeMaxLog(-a, -b, s2dt, V)` is a
finite value `<= min(a, b)`. -/
theorem Asian.bridgeMaxLog_upper_root (a b s : ℝ) (hs : 0 ≤ s) (V : Dbl ℝ)
    (hV : V.isnan = false) :
    ∃ v m m2 : ℝ,
      Dbl.min (Dbl.max V (Dbl.fin 1e-16)) (Dbl.fin 1 - Dbl.fin 1e-16) = Dbl.fin v ∧
      1e-16 ≤ v ∧ v ≤ 1 - 1e-16 ∧
      0 ≤ -0.5 * s * Real.log v ∧
      0 ≤ (a - b) * (a - b) + 4 * (-0.5 * s * Real.log v) ∧
      Asian.bridgeMaxLog (⟨Real.exp, Real.sqrt, Real.log⟩ : Libm ℝ) (Dbl.fin a) (Dbl.fin b)
        (Dbl.fin s) V = Dbl.fin m ∧
      m = 0.5 * (a + b + Real.sqrt ((a - b) * (a - b) + 4 * (-0.5 * s * Real.log v))) ∧
      (m - a) * (m - b) = -0.5 * s * Real.log v ∧
      (∀ x : ℝ, (x - a) * (x - b) = -0.5 * s * Real.log v → x ≤ m) ∧
      (0 < s → Real.exp (-2 * ((m - a) * (m - b)) / s) = v) ∧
      max a b ≤ m ∧
      Asian.bridgeMinLog (⟨Real.exp, Real.sqrt, Real.log⟩ : Libm ℝ) (Dbl.fin a) (Dbl.fin b)
          (Dbl.fin s) V =
        -Asian.bridgeMaxLog (⟨Real.exp, Real.sqrt, Real.log⟩ : Libm ℝ) (-Dbl.fin a)
          (-Dbl.fin b) (Dbl.fin s) V ∧
      Asian.bridgeMinLog (⟨Real.exp, Real.sqrt, Real.log⟩ : Libm ℝ) (Dbl.fin a) (Dbl.fin b)
        (Dbl.fin s) V = Dbl.fin m2 ∧
      m2 ≤ min a b := by
  obtain ⟨v, hv, hv0, hv1⟩ := Dbl.clamp_of_not_nan V hV
  have hvpos : 0 < v := lt_of_lt_of_le (by norm_num) hv0
  have hvle : v ≤ 1 := le_trans hv1 (by norm_num)
  obtain ⟨hK, hD, hm⟩ := Asian.bridgeMaxLog_eval a b s v hs hvpos hvle V hv
  obtain ⟨hroot, hupper, hmax⟩ := upper_root a b (-0.5 * s * Real.log v) hK
  obtain ⟨_, _, hm'⟩ := Asian.bridgeMaxLog_eval (-a) (-b) s v hs hvpos hvle V hv
  obtain ⟨_, _, hmax'⟩ := upper_root (-a) (-b) (-0.5 * s * Real.log v) hK
  refine ⟨v, _,
    -(0.5 * (-a + -b + Real.sqrt ((-a - -b) * (-a - -b) + 4 * (-0.5 * s * Real.log v)))),
    hv, hv0, hv1, hK, hD, hm, rfl, hroot, hupper, ?_, hmax, rfl, ?_, ?_⟩
  · intro hspos
    rw [hroot]
    have : -2 * (-0.5 * s * Real.log v) / s = Real.log v := by
      field_simp
      ring
    rw [this, Real.exp_log hvpos]
  · rw [Asian.bridgeMinLog, Dbl.neg_fin, Dbl.neg_fin, hm', Dbl.neg_fin]
  · have h1 : max (-a) (-b) = -min a b := by
      rcases le_total a b with hab | hab
      · rw [min_eq_left hab, max_eq_left (neg_le_neg hab)]
      · rw [min_eq_right hab, max_eq_right (neg_le_neg hab)]
    rw [h1] at hmax'
    linarith

/-- Witness of claim C22 at `a = 0`, `b = 1`, `s2dt = 1`, `V = 1/2`. -/
theorem Asian.bridgeMaxLog_upper_root_witness :
    (0 : ℝ) ≤ 1 ∧ (Dbl.fin (1 / 2) : Dbl ℝ).isnan = false ∧
    ∃ m m2 : ℝ,
      Asian.bridgeMaxLog (⟨Real.exp, Real.sqrt, Real.log⟩ : Libm ℝ) (Dbl.fin 0) (Dbl.fin 1)
        (Dbl.fin 1) (Dbl.fin (1 / 2)) = Dbl.fin m ∧
      max 0 1 ≤ m ∧
      Asian.bridgeMinLog (⟨Real.exp, Real.sqrt, Real.log⟩ : Libm ℝ) (Dbl.fin 0) (Dbl.fin 1)
        (Dbl.fin 1) (Dbl.fin (1 / 2)) = Dbl.fin m2 ∧
      m2 ≤ min 0 1 := by
  obtain ⟨v, m, m2, _, _, _, _, _, hm, _, _, _, _, hmax, _, hm2, hmin⟩ :=
    Asian.bridgeMaxLog_upper_root 0 1 1 zero_le_one (Dbl.fin (1 / 2)) rfl
  exact ⟨zero_le_one, rfl, m, m2, hm, hmax, hm2, hmin⟩

/-! ### C23, C28: the loop of `payoffBB` over the reals -/

theorem bbState_succ (L : Libm α) (self : Asian α) (dt : Dbl α) (Zs Umax Umin : List (Dbl α))
    (flip : Bool) (j : Nat) :
    bbState L self dt Zs Umax Umin flip (j + 1) =
      Asian.payoffBBStep L self dt (self.sigma_ * self.sigma_ * dt) Zs Umax Umin flip
        (bbState L self dt Zs Umax Umin flip j) j := by
  simp only [bbState, List.range_succ, List.foldl_append, List.foldl_cons, List.foldl_nil]

/-- One iteration of the loop of `payoffBB` in terms of its intermediate values: the new
price is `exp(logS_next)`, the aggregate is fed `S_max_cont`, `S_min_cont` (both with index
`j + 0.5`) and the new price (index `j + 1`), and `logS_next` is kept. -/
theorem Asian.payoffBBStep_eq (L : Libm α) (self : opt.Asian α) (dt : Dbl α)
    (Zs Umax Umin : List (Dbl α)) (flip : Bool) (p : Dbl α × Dbl α × Dbl α) (j : Nat) :
    Asian.payoffBBStep L self dt (self.sigma_ * self.sigma_ * dt) Zs Umax Umin flip p j =
      (Dbl.exp L (bbLogNext L self dt Zs flip p j),
        self.aggregator_
          (self.aggregator_
            (self.aggregator_ p.2.1 (bbMaxCont L self dt Zs Umax flip p j)
              (Dbl.ofInt (j : Int) + Dbl.fin 0.5))
            (bbMinCont L self dt Zs Umin flip p j) (Dbl.ofInt (j : Int) + Dbl.fin 0.5))
          (Dbl.exp L (bbLogNext L self dt Zs flip p j)) (Dbl.ofInt (j : Int) + Dbl.fin 1),
        bbLogNext L self dt Zs flip p j) := rfl

theorem pathZ_fin {n : Nat} {Zs : List (Dbl α)} (hZ : IsDraw n Zs) (flip : Bool) {j : Nat}
    (hj : j < n) : pathZ Zs flip j = Dbl.fin (pathZ Zs flip j).val := by
  obtain ⟨z, hz⟩ := hZ.getD_fin hj
  unfold pathZ
  cases flip
  · simp only [Bool.false_eq_true, if_false, hz, Dbl.val]
  · simp only [if_true, hz, Dbl.neg_fin, Dbl.val]

/-- The value `logS_next` of a step from the log `l` on finite parameters and draws. -/
theorem bbLogNext_fin (L : Libm α) (self : Asian α) (r sg d : α) (hR : self.R_ = Dbl.fin r)
    (hsg : self.sigma_ = Dbl.fin sg) (hd : 0 ≤ d) (n : Nat) (Zs : List (Dbl α))
    (hZ : IsDraw n Zs) (flip : Bool) (p : Dbl α × Dbl α × Dbl α) (l : α)
    (hp : p.2.2 = Dbl.fin l) (j : Nat) (hj : j < n) :
    bbLogNext L self (Dbl.fin d) Zs flip p j =
      Dbl.fin (l + ((r - sg * sg / 2) * d + sg * L.sqrt d * (pathZ Zs flip j).val)) := by
  have hsqrt : Dbl.sqrt L (Dbl.fin d) = Dbl.fin (L.sqrt d) := by
    simp [Dbl.sqrt, not_lt.2 hd]
  rw [bbLogNext, hp, hR, hsg, hsqrt, pathZ_fin hZ flip hj]
  simp only [Dbl.fin_mul_fin, Dbl.fin_sub_fin, Dbl.fin_add_fin, Dbl.val]
  congr 1
  ring

/-- Over the reals the loop of `payoffBB` follows the discrete path: before iteration `j` the
price is `S_j` and `logS_prev` is `log(S_j)`, whatever the aggregator. -/
theorem bbState_price (self : Asian ℝ) (s0 r sg d : ℝ) (hS0 : self.S0_ = Dbl.fin s0)
    (hR : self.R_ = Dbl.fin r) (hsg : self.sigma_ = Dbl.fin sg) (hs0 : 0 < s0) (hd : 0 ≤ d)
    (n : Nat) (Zs Umax Umin : List (Dbl ℝ)) (hZ : IsDraw n Zs) (flip : Bool) (j : Nat)
    (hj : j ≤ n) :
    (bbState (⟨Real.exp, Real.sqrt, Real.log⟩ : Libm ℝ) self (Dbl.fin d) Zs Umax Umin
        flip j).1 =
      Dbl.fin (finS (⟨Real.exp, Real.sqrt, Real.log⟩ : Libm ℝ) s0 r sg d Zs flip j) ∧
    (bbState (⟨Real.exp, Real.sqrt, Real.log⟩ : Libm ℝ) self (Dbl.fin d) Zs Umax Umin
        flip j).2.2 =
      Dbl.fin (Real.log (finS (⟨Real.exp, Real.sqrt, Real.log⟩ : Libm ℝ) s0 r sg d Zs
        flip j)) := by
  induction j with
  | zero =>
    constructor
    · simp only [bbState, List.range_zero, List.foldl_nil, hS0, finS]
    · simp only [bbState, List.range_zero, List.foldl_nil, hS0, finS]
      exact Dbl.log_fin_pos _ s0 hs0
  | succ j ih =>
    obtain ⟨_, h2⟩ := ih (by omega)
    have hpos := finS_pos (⟨Real.exp, Real.sqrt, Real.log⟩ : Libm ℝ) Real.exp_pos s0 r sg d
      hs0 Zs flip j
    have hln := bbLogNext_fin (⟨Real.exp, Real.sqrt, Real.log⟩ : Libm ℝ) self r sg d hR hsg hd
      n Zs hZ flip _ _ h2 j (by omega)
    rw [bbState_succ, Asian.payoffBBStep_eq]
    simp only [hln, Dbl.exp, finS]
    constructor
    · rw [Real.exp_add, Real.exp_log hpos]
    · rw [Real.log_mul hpos.ne' (Real.exp_pos _).ne', Real.log_exp]


theorem Asian.bridgeMaxLog_ge (a b s u : ℝ) (hs : 0 ≤ s) :
    ∃ m : ℝ, Asian.bridgeMaxLog (⟨Real.exp, Real.sqrt, Real.log⟩ : Libm ℝ) (Dbl.fin a)
      (Dbl.fin b) (Dbl.fin s) (Dbl.fin u) = Dbl.fin m ∧ max a b ≤ m := by
  obtain ⟨v, hv, hv0, hv1⟩ := Dbl.clamp_fin u
  have hvpos : 0 < v := lt_of_lt_of_le (by norm_num) hv0
  have hvle : v ≤ 1 := le_trans hv1 (by norm_num)
  obtain ⟨hK, _, hm⟩ := Asian.bridgeMaxLog_eval a b s v hs hvpos hvle _ hv
  exact ⟨_, hm, (upper_root a b _ hK).2.2⟩

theorem Asian.bridgeMinLog_le (a b s u : ℝ) (hs : 0 ≤ s) :
    ∃ m : ℝ, Asian.bridgeMinLog (⟨Real.exp, Real.sqrt, Real.log⟩ : Libm ℝ) (Dbl.fin a)
      (Dbl.fin b) (Dbl.fin s) (Dbl.fin u) = Dbl.fin m ∧ m ≤ min a b := by
  obtain ⟨m, hm, hmax⟩ := Asian.bridgeMaxLog_ge (-a) (-b) s u hs
  refine ⟨-m, by rw [Asian.bridgeMinLog, Dbl.neg_fin, Dbl.neg_fin, hm, Dbl.neg_fin], ?_⟩
  have h1 : max (-a) (-b) = -min a b := by
    rcases le_total a b with hab | hab
    · rw [min_eq_left hab, max_eq_left (neg_le_neg hab)]
    · rw [min_eq_right hab, max_eq_right (neg_le_neg hab)]
  rw [h1] at hmax
  linarith

/-- Over the reals, from a state whose `logS_prev` is the finite `lg`, with `logS_next` the
finite `ln`: `S_max_cont` is a finite value `>= exp(max(lg, ln))` and `S_min_cont` a finite
positive value `<= exp(min(lg, ln))`. -/
theorem bbCont_real (self : Asian ℝ) (sg d : ℝ) (hsg : self.sigma_ = Dbl.fin sg) (hd : 0 ≤ d)
    (n : Nat) (Zs Umax Umin : List (Dbl ℝ)) (hU1 : IsDraw n Umax) (hU2 : IsDraw n Umin)
    (flip : Bool) (p : Dbl ℝ × Dbl ℝ × Dbl ℝ) (lg ln : ℝ) (hp : p.2.2 = Dbl.fin lg)
    (j : Nat) (hj : j < n)
    (hln : bbLogNext (⟨Real.exp, Real.sqrt, Real.log⟩ : Libm ℝ) self (Dbl.fin d) Zs flip p j =
      Dbl.fin ln) :
    ∃ eM em : ℝ,
      bbMaxCont (⟨Real.exp, Real.sqrt, Real.log⟩ : Libm ℝ) self (Dbl.fin d) Zs Umax flip p j =
        Dbl.fin eM ∧
      bbMinCont (⟨Real.exp, Real.sqrt, Real.log⟩ : Libm ℝ) self (Dbl.fin d) Zs Umin flip p j =
        Dbl.fin em ∧
      Real.exp lg ≤ eM ∧ Real.exp ln ≤ eM ∧ 0 < em ∧ em ≤ Real.exp lg ∧ em ≤ Real.exp ln := by
  obtain ⟨u1, hu1⟩ := hU1.getD_fin hj
  obtain ⟨u2, hu2⟩ := hU2.getD_fin hj
  have hs : 0 ≤ sg * sg * d := mul_nonneg (mul_self_nonneg sg) hd
  obtain ⟨M, hM, hMge⟩ := Asian.bridgeMaxLog_ge lg ln (sg * sg * d) u1 hs
  obtain ⟨m, hm, hmle⟩ := Asian.bridgeMinLog_le lg ln (sg * sg * d) u2 hs
  refine ⟨Real.exp M, Real.exp m, ?_, ?_, ?_, ?_, Real.exp_pos _, ?_, ?_⟩
  · rw [bbMaxCont, hln, hp, hsg, hu1, Dbl.fin_mul_fin, Dbl.fin_mul_fin, hM]
    rfl
  · rw [bbMinCont, hln, hp, hsg, hu2, Dbl.fin_mul_fin, Dbl.fin_mul_fin, hm]
    rfl
  · exact Real.exp_le_exp.2 (le_trans (le_max_left _ _) hMge)
  · exact Real.exp_le_exp.2 (le_trans (le_max_right _ _) hMge)
  · exact Real.exp_le_exp.2 (le_trans hmle (min_le_left _ _))
  · exact Real.exp_le_exp.2 (le_trans hmle (min_le_right _ _))


theorem finMin_le_finS (L : Libm α) (s0 r sg dt : α) (Zs : List (Dbl α)) (flip : Bool)
    (j : Nat) : finMin L s0 r sg dt Zs flip j ≤ finS L s0 r sg dt Zs flip j := by
  cases j with
  | zero => exact le_rfl
  | succ j => exact min_le_right _ _

theorem finS_le_finMax (L : Libm α) (s0 r sg dt : α) (Zs : List (Dbl α)) (flip : Bool)
    (j : Nat) : finS L s0 r sg dt Zs flip j ≤ finMax L s0 r sg dt Zs flip j := by
  cases j with
  | zero => exact le_rfl
  | succ j => exact le_max_right _ _

/-- Iteration `j` of the loop of `payoffBB` over the reals, whatever the aggregator:
`S_max_cont` is a finite value not below `S_j` and `S_{j+1}`, `S_min_cont` a finite positive
value not above them, and the new aggregate is the old one fed these two values and then
`S_{j+1}`. -/
theorem bbStep_real (self : Asian ℝ) (s0 r sg d : ℝ) (hS0 : self.S0_ = Dbl.fin s0)
    (hR : self.R_ = Dbl.fin r) (hsg : self.sigma_ = Dbl.fin sg) (hs0 : 0 < s0) (hd : 0 ≤ d)
    (n : Nat) (Zs Umax Umin : List (Dbl ℝ)) (hZ : IsDraw n Zs) (hU1 : IsDraw n Umax)
    (hU2 : IsDraw n Umin) (flip : Bool) (j : Nat) (hj : j < n) :
    ∃ eM em : ℝ,
      bbMaxCont (⟨Real.exp, Real.sqrt, Real.log⟩ : Libm ℝ) self (Dbl.fin d) Zs Umax flip
        (bbState (⟨Real.exp, Real.sqrt, Real.log⟩ : Libm ℝ) self (Dbl.fin d) Zs Umax Umin
          flip j) j = Dbl.fin eM ∧
      bbMinCont (⟨Real.exp, Real.sqrt, Real.log⟩ : Libm ℝ) self (Dbl.fin d) Zs Umin flip
        (bbState (⟨Real.exp, Real.sqrt, Real.log⟩ : Libm ℝ) self (Dbl.fin d) Zs Umax Umin
          flip j) j = Dbl.fin em ∧
      finS (⟨Real.exp, Real.sqrt, Real.log⟩ : Libm ℝ) s0 r sg d Zs flip j ≤ eM ∧
      finS (⟨Real.exp, Real.sqrt, Real.log⟩ : Libm ℝ) s0 r sg d Zs flip (j + 1) ≤ eM ∧
      0 < em ∧
      em ≤ finS (⟨Real.exp, Real.sqrt, Real.log⟩ : Libm ℝ) s0 r sg d Zs flip j ∧
      em ≤ finS (⟨Real.exp, Real.sqrt, Real.log⟩ : Libm ℝ) s0 r sg d Zs flip (j + 1) ∧
      (bbState (⟨Real.exp, Real.sqrt, Real.log⟩ : Libm ℝ) self (Dbl.fin d) Zs Umax Umin
          flip (j + 1)).2.1 =
        self.aggregator_
          (self.aggregator_
            (self.aggregator_
              (bbState (⟨Real.exp, Real.sqrt, Real.log⟩ : Libm ℝ) self (Dbl.fin d) Zs Umax
                Umin flip j).2.1 (Dbl.fin eM) (Dbl.ofInt (j : Int) + Dbl.fin 0.5))
            (Dbl.fin em) (Dbl.ofInt (j : Int) + Dbl.fin 0.5))
          (Dbl.fin (finS (⟨Real.exp, Real.sqrt, Real.log⟩ : Libm ℝ) s0 r sg d Zs flip (j + 1)))
          (Dbl.ofInt (j : Int) + Dbl.fin 1) := by
  obtain ⟨_, h2⟩ := bbState_price self s0 r sg d hS0 hR hsg hs0 hd n Zs Umax Umin hZ flip j
    (by omega)
  obtain ⟨h1', h2'⟩ := bbState_price self s0 r sg d hS0 hR hsg hs0 hd n Zs Umax Umin hZ flip
    (j + 1) (by omega)
  have hpos := finS_pos (⟨Real.exp, Real.sqrt, Real.log⟩ : Libm ℝ) Real.exp_pos s0 r sg d
    hs0 Zs flip j
  have hpos' := finS_pos (⟨Real.exp, Real.sqrt, Real.log⟩ : Libm ℝ) Real.exp_pos s0 r sg d
    hs0 Zs flip (j + 1)
  have hln : bbLogNext (⟨Real.exp, Real.sqrt, Real.log⟩ : Libm ℝ) self (Dbl.fin d) Zs flip
      (bbState (⟨Real.exp, Real.sqrt, Real.log⟩ : Libm ℝ) self (Dbl.fin d) Zs Umax Umin
        flip j) j =
      Dbl.fin (Real.log (finS (⟨Real.exp, Real.sqrt, Real.log⟩ : Libm ℝ) s0 r sg d Zs flip
        (j + 1))) := by
    rw [bbState_succ, Asian.payoffBBStep_eq] at h2'
    exact h2'
  obtain ⟨eM, em, hM, hm, g1, g2, g3, g4, g5⟩ := bbCont_real self sg d hsg hd n Zs Umax Umin
    hU1 hU2 flip _ _ _ h2 j hj hln
  rw [Real.exp_log hpos] at g1 g4
  rw [Real.exp_log hpos'] at g2 g5
  refine ⟨eM, em, hM, hm, g1, g2, g3, g4, g5, ?_⟩
  rw [bbState_succ, Asian.payoffBBStep_eq, hM, hm, hln]
  simp only [Dbl.exp, Real.exp_log hpos']


/-- With the running minimum the aggregate of the `payoffBB` loop stays finite, positive and
not above the discrete running minimum. -/
theorem bbState_LookMin (self : Asian ℝ) (hagg : self.aggregator_ = LookMin) (s0 r sg d : ℝ)
    (hS0 : self.S0_ = Dbl.fin s0) (hR : self.R_ = Dbl.fin r) (hsg : self.sigma_ = Dbl.fin sg)
    (hs0 : 0 < s0) (hd : 0 ≤ d) (n : Nat) (Zs Umax Umin : List (Dbl ℝ)) (hZ : IsDraw n Zs)
    (hU1 : IsDraw n Umax) (hU2 : IsDraw n Umin) (flip : Bool) (j : Nat) (hj : j ≤ n) :
    ∃ a : ℝ,
      (bbState (⟨Real.exp, Real.sqrt, Real.log⟩ : Libm ℝ) self (Dbl.fin d) Zs Umax Umin
        flip j).2.1 = Dbl.fin a ∧ 0 < a ∧
      a ≤ finMin (⟨Real.exp, Real.sqrt, Real.log⟩ : Libm ℝ) s0 r sg d Zs flip j := by
  induction j with
  | zero => exact ⟨s0, by simp only [bbState, List.range_zero, List.foldl_nil, hS0], hs0, le_rfl⟩
  | succ j ih =>
    obtain ⟨a, ha, ha0, hale⟩ := ih (by omega)
    obtain ⟨eM, em, _, _, _, _, hem0, _, _, hstep⟩ := bbStep_real self s0 r sg d hS0 hR hsg hs0
      hd n Zs Umax Umin hZ hU1 hU2 flip j (by omega)
    have hpos' := finS_pos (⟨Real.exp, Real.sqrt, Real.log⟩ : Libm ℝ) Real.exp_pos s0 r sg d
      hs0 Zs flip (j + 1)
    have hM0 : 0 < eM := lt_of_lt_of_le (finS_pos (⟨Real.exp, Real.sqrt, Real.log⟩ : Libm ℝ)
      Real.exp_pos s0 r sg d hs0 Zs flip j) (by assumption)
    rw [hstep, ha, hagg]
    simp only [LookMin, Dbl.min_fin]
    refine ⟨_, rfl, lt_min (lt_min (lt_min ha0 hM0) hem0) hpos', ?_⟩
    rw [finMin]
    exact min_le_min (le_trans (le_trans (min_le_left _ _) (min_le_left _ _)) hale) le_rfl

/-- With the running maximum the aggregate of the `payoffBB` loop stays finite and not below
the discrete running maximum. -/
theorem bbState_LookMax (self : Asian ℝ) (hagg : self.aggregator_ = LookMax) (s0 r sg d : ℝ)
    (hS0 : self.S0_ = Dbl.fin s0) (hR : self.R_ = Dbl.fin r) (hsg : self.sigma_ = Dbl.fin sg)
    (hs0 : 0 < s0) (hd : 0 ≤ d) (n : Nat) (Zs Umax Umin : List (Dbl ℝ)) (hZ : IsDraw n Zs)
    (hU1 : IsDraw n Umax) (hU2 : IsDraw n Umin) (flip : Bool) (j : Nat) (hj : j ≤ n) :
    ∃ a : ℝ,
      (bbState (⟨Real.exp, Real.sqrt, Real.log⟩ : Libm ℝ) self (Dbl.fin d) Zs Umax Umin
        flip j).2.1 = Dbl.fin a ∧
      finMax (⟨Real.exp, Real.sqrt, Real.log⟩ : Libm ℝ) s0 r sg d Zs flip j ≤ a := by
  induction j with
  | zero => exact ⟨s0, by simp only [bbState, List.range_zero, List.foldl_nil, hS0], le_rfl⟩
  | succ j ih =>
    obtain ⟨a, ha, hale⟩ := ih (by omega)
    obtain ⟨eM, em, _, _, _, _, _, _, _, hstep⟩ := bbStep_real self s0 r sg d hS0 hR hsg hs0
      hd n Zs Umax Umin hZ hU1 hU2 flip j (by omega)
    rw [hstep, ha, hagg]
    simp only [LookMax, Dbl.max_fin]
    refine ⟨_, rfl, ?_⟩
    rw [finMax]
    exact max_le_max (le_trans hale (le_trans (le_max_left _ _) (le_max_left _ _))) le_rfl

/-- Claim C23, as amended: over the reals (exact arithmetic, in which `exp(log x) = x`), in the loop
of `payoffBB`, whose iteration `j` feeds the aggregator the bridge maximum `S_max_cont` (index `j +
0.5`), then the bridge minimum `S_min_cont` (index `j + 0.5`), then the end point (index `j + 1`):
for valid market parameters, `steps > 0`, finite draws and uniforms and every iteration `j < steps`,
with the `LookMax` aggregator the update by `S_min_cont` leaves the aggregate unchanged, and with
the `LookMin` aggregator the update by `S_max_cont` leaves the aggregate unchanged. (In IEEE doubles
`exp(log(S0))` can fall below `S0`, and the update by `S_max_cont` then lowers the `LookMin`
aggregate.) -/
theorem Asian.payoffBB_redundant_update (S0 R sigma T0 T : Dbl ℝ)
    (pay : Dbl ℝ → Dbl ℝ → Except Err (Dbl ℝ)) (selfMax selfMin : opt.Asian ℝ)
    (hmax : Asian.Asian S0 R sigma T0 T pay LookMax = .ok selfMax)
    (hmin : Asian.Asian S0 R sigma T0 T pay LookMin = .ok selfMin)
    (steps : Int) (hs : 0 < steps) (Zs Umax Umin : List (Dbl ℝ))
    (hZ : IsDraw steps.toNat Zs) (hU1 : IsDraw steps.toNat Umax)
    (hU2 : IsDraw steps.toNat Umin) (flip : Bool) (j : Nat) (hj : j < steps.toNat) :
    (∀ (self : opt.Asian ℝ) (dt : Dbl ℝ) (p : Dbl ℝ × Dbl ℝ × Dbl ℝ),
      Asian.payoffBBStep (⟨Real.exp, Real.sqrt, Real.log⟩ : Libm ℝ) self dt
          (self.sigma_ * self.sigma_ * dt) Zs Umax Umin flip p j =
        (Dbl.exp (⟨Real.exp, Real.sqrt, Real.log⟩ : Libm ℝ)
            (bbLogNext (⟨Real.exp, Real.sqrt, Real.log⟩ : Libm ℝ) self dt Zs flip p j),
          self.aggregator_
            (self.aggregator_
              (self.aggregator_ p.2.1
                (bbMaxCont (⟨Real.exp, Real.sqrt, Real.log⟩ : Libm ℝ) self dt Zs Umax flip p j)
                (Dbl.ofInt (j : Int) + Dbl.fin 0.5))
              (bbMinCont (⟨Real.exp, Real.sqrt, Real.log⟩ : Libm ℝ) self dt Zs Umin flip p j)
              (Dbl.ofInt (j : Int) + Dbl.fin 0.5))
            (Dbl.exp (⟨Real.exp, Real.sqrt, Real.log⟩ : Libm ℝ)
              (bbLogNext (⟨Real.exp, Real.sqrt, Real.log⟩ : Libm ℝ) self dt Zs flip p j))
            (Dbl.ofInt (j : Int) + Dbl.fin 1),
          bbLogNext (⟨Real.exp, Real.sqrt, Real.log⟩ : Libm ℝ) self dt Zs flip p j)) ∧
    LookMax
        (LookMax
          (bbState (⟨Real.exp, Real.sqrt, Real.log⟩ : Libm ℝ) selfMax
            ((T - T0) / Dbl.ofInt steps) Zs Umax Umin flip j).2.1
          (bbMaxCont (⟨Real.exp, Real.sqrt, Real.log⟩ : Libm ℝ) selfMax
            ((T - T0) / Dbl.ofInt steps) Zs Umax flip
            (bbState (⟨Real.exp, Real.sqrt, Real.log⟩ : Libm ℝ) selfMax
              ((T - T0) / Dbl.ofInt steps) Zs Umax Umin flip j) j)
          (Dbl.ofInt (j : Int) + Dbl.fin 0.5))
        (bbMinCont (⟨Real.exp, Real.sqrt, Real.log⟩ : Libm ℝ) selfMax
          ((T - T0) / Dbl.ofInt steps) Zs Umin flip
          (bbState (⟨Real.exp, Real.sqrt, Real.log⟩ : Libm ℝ) selfMax
            ((T - T0) / Dbl.ofInt steps) Zs Umax Umin flip j) j)
        (Dbl.ofInt (j : Int) + Dbl.fin 0.5) =
      LookMax
        (bbState (⟨Real.exp, Real.sqrt, Real.log⟩ : Libm ℝ) selfMax
          ((T - T0) / Dbl.ofInt steps) Zs Umax Umin flip j).2.1
        (bbMaxCont (⟨Real.exp, Real.sqrt, Real.log⟩ : Libm ℝ) selfMax
          ((T - T0) / Dbl.ofInt steps) Zs Umax flip
          (bbState (⟨Real.exp, Real.sqrt, Real.log⟩ : Libm ℝ) selfMax
            ((T - T0) / Dbl.ofInt steps) Zs Umax Umin flip j) j)
        (Dbl.ofInt (j : Int) + Dbl.fin 0.5) ∧
    LookMin
        (bbState (⟨Real.exp, Real.sqrt, Real.log⟩ : Libm ℝ) selfMin
          ((T - T0) / Dbl.ofInt steps) Zs Umax Umin flip j).2.1
        (bbMaxCont (⟨Real.exp, Real.sqrt, Real.log⟩ : Libm ℝ) selfMin
          ((T - T0) / Dbl.ofInt steps) Zs Umax flip
          (bbState (⟨Real.exp, Real.sqrt, Real.log⟩ : Libm ℝ) selfMin
            ((T - T0) / Dbl.ofInt steps) Zs Umax Umin flip j) j)
        (Dbl.ofInt (j : Int) + Dbl.fin 0.5) =
      (bbState (⟨Real.exp, Real.sqrt, Real.log⟩ : Libm ℝ) selfMin
        ((T - T0) / Dbl.ofInt steps) Zs Umax Umin flip j).2.1 := by
  obtain ⟨hsM, s0, r, sg, t0, t, rfl, rfl, rfl, rfl, rfl, hs0, _, ht⟩ := Asian.Asian_ok hmax
  obtain ⟨hsm, _⟩ := Asian.Asian_ok hmin
  have hsteps : (0 : ℝ) < (steps : ℝ) := by exact_mod_cast hs
  have hdt : (Dbl.fin t - Dbl.fin t0 : Dbl ℝ) / Dbl.ofInt steps =
      Dbl.fin ((t - t0) / (steps : ℝ)) := by
    rw [Dbl.fin_sub_fin, Dbl.ofInt, Dbl.fin_div_fin _ _ hsteps.ne']
  have hd : 0 ≤ (t - t0) / (steps : ℝ) := div_nonneg (sub_nonneg.2 ht.le) hsteps.le
  refine ⟨fun self dt p => Asian.payoffBBStep_eq _ self dt Zs Umax Umin flip p j, ?_, ?_⟩
  · rw [hdt]
    obtain ⟨a, ha, _⟩ := bbState_LookMax selfMax (by rw [hsM]) s0 r sg _ (by rw [hsM])
      (by rw [hsM]) (by rw [hsM]) hs0 hd steps.toNat Zs Umax Umin hZ hU1 hU2 flip j hj.le
    obtain ⟨eM, em, hM, hm, g1, _, _, g4, _, _⟩ := bbStep_real selfMax s0 r sg _ (by rw [hsM])
      (by rw [hsM]) (by rw [hsM]) hs0 hd steps.toNat Zs Umax Umin hZ hU1 hU2 flip j hj
    rw [hM, hm, ha]
    simp only [LookMax, Dbl.max_fin]
    rw [max_eq_left (le_trans (le_trans g4 g1) (le_max_right _ _))]
  · rw [hdt]
    obtain ⟨a, ha, _, hale⟩ := bbState_LookMin selfMin (by rw [hsm]) s0 r sg _ (by rw [hsm])
      (by rw [hsm]) (by rw [hsm]) hs0 hd steps.toNat Zs Umax Umin hZ hU1 hU2 flip j hj.le
    obtain ⟨eM, em, hM, _, g1, _, _, _, _, _⟩ := bbStep_real selfMin s0 r sg _ (by rw [hsm])
      (by rw [hsm]) (by rw [hsm]) hs0 hd steps.toNat Zs Umax Umin hZ hU1 hU2 flip j hj
    rw [hM, ha]
    simp only [LookMin, Dbl.min_fin]
    rw [min_eq_left (le_trans (le_trans hale (finMin_le_finS _ _ _ _ _ _ _ _)) g1)]


/-- Witness of claim C23 on the Scenario 1 parameters with the call payoff: one step, the
draw `0`, the uniforms `1/2`, iteration `0`. -/
theorem Asian.payoffBB_redundant_update_witness :
    Asian.Asian (Dbl.fin 100) (Dbl.fin 0.05) (Dbl.fin 0.2) (Dbl.fin 0) (Dbl.fin 1)
        PayoffCall LookMax =
      .ok (⟨⟨Dbl.fin 100, Dbl.fin 0.05, Dbl.fin 0.2, Dbl.fin 0, Dbl.fin 1⟩, PayoffCall,
        LookMax⟩ : opt.Asian ℝ) ∧
    Asian.Asian (Dbl.fin 100) (Dbl.fin 0.05) (Dbl.fin 0.2) (Dbl.fin 0) (Dbl.fin 1)
        PayoffCall LookMin = .ok (scenarioCall : opt.Asian ℝ) ∧
    (0 : Int) < 1 ∧ IsDraw (1 : Int).toNat [(Dbl.fin 0 : Dbl ℝ)] ∧
    IsDraw (1 : Int).toNat [(Dbl.fin (1 / 2) : Dbl ℝ)] ∧ 0 < (1 : Int).toNat ∧
    LookMin
        (bbState (⟨Real.exp, Real.sqrt, Real.log⟩ : Libm ℝ) scenarioCall
          ((Dbl.fin 1 - Dbl.fin 0) / Dbl.ofInt 1) [Dbl.fin 0] [Dbl.fin (1 / 2)]
          [Dbl.fin (1 / 2)] false 0).2.1
        (bbMaxCont (⟨Real.exp, Real.sqrt, Real.log⟩ : Libm ℝ) scenarioCall
          ((Dbl.fin 1 - Dbl.fin 0) / Dbl.ofInt 1) [Dbl.fin 0] [Dbl.fin (1 / 2)] false
          (bbState (⟨Real.exp, Real.sqrt, Real.log⟩ : Libm ℝ) scenarioCall
            ((Dbl.fin 1 - Dbl.fin 0) / Dbl.ofInt 1) [Dbl.fin 0] [Dbl.fin (1 / 2)]
            [Dbl.fin (1 / 2)] false 0) 0)
        (Dbl.ofInt ((0 : Nat) : Int) + Dbl.fin 0.5) =
      (bbState (⟨Real.exp, Real.sqrt, Real.log⟩ : Libm ℝ) scenarioCall
        ((Dbl.fin 1 - Dbl.fin 0) / Dbl.ofInt 1) [Dbl.fin 0] [Dbl.fin (1 / 2)]
        [Dbl.fin (1 / 2)] false 0).2.1 := by
  have hmax := Asian.Asian_fin (100 : ℝ) 0.05 0.2 0 1 (by norm_num) (by norm_num)
    (by norm_num) PayoffCall LookMax
  have hmin : Asian.Asian (Dbl.fin 100) (Dbl.fin 0.05) (Dbl.fin 0.2) (Dbl.fin 0) (Dbl.fin 1)
      PayoffCall LookMin = .ok (scenarioCall : opt.Asian ℝ) := makeLookbackCall_scenario
  have hZ : IsDraw (1 : Int).toNat [(Dbl.fin 0 : Dbl ℝ)] := by decide
  have hU : IsDraw (1 : Int).toNat [(Dbl.fin (1 / 2) : Dbl ℝ)] := by
    refine ⟨rfl, ?_⟩
    intro z hz
    rw [List.mem_singleton.1 hz]
    rfl
  exact ⟨hmax, hmin, by decide, hZ, hU, by decide,
    (Asian.payoffBB_redundant_update (Dbl.fin 100) (Dbl.fin 0.05) (Dbl.fin 0.2) (Dbl.fin 0)
      (Dbl.fin 1) PayoffCall _ scenarioCall hmax hmin 1 (by decide) [Dbl.fin 0]
      [Dbl.fin (1 / 2)] [Dbl.fin (1 / 2)] hZ hU hU false 0 (by decide)).2.2⟩

/-! ### C28: the bridge payoff against the discrete payoff -/

theorem PayoffCall_eval (S K : α) (hK : 0 ≤ K) :
    PayoffCall (Dbl.fin S) (Dbl.fin K) = .ok (Dbl.fin (Max.max (S - K) 0)) := by
  simp only [PayoffCall, Dbl.lt, not_lt.2 hK, decide_False, Bool.false_eq_true, if_false,
    Dbl.fin_sub_fin, Dbl.max_fin]
  rfl

theorem PayoffPut_eval (S K : α) (hK : 0 ≤ K) :
    PayoffPut (Dbl.fin S) (Dbl.fin K) = .ok (Dbl.fin (Max.max (K - S) 0)) := by
  simp only [PayoffPut, Dbl.lt, not_lt.2 hK, decide_False, Bool.false_eq_true, if_false,
    Dbl.fin_sub_fin, Dbl.max_fin]
  rfl

/-- The state in which the path loop of `discountedPayoffFromZ` ends, on finite parameters and
draws, for the two lookback aggregators. -/
theorem Asian.pathLoop_lookback (L : Libm α) (self : opt.Asian α) (s0 r sg d : α) (hd : 0 ≤ d)
    (n : Nat) (Zs : List (Dbl α)) (hZ : IsDraw n Zs) (flip : Bool) :
    (self.aggregator_ = LookMin →
      (List.range n).foldl (Asian.pathStep L self (Dbl.fin r) (Dbl.fin sg) (Dbl.fin d) Zs flip)
          (Dbl.fin s0, Dbl.fin s0) =
        (Dbl.fin (finS L s0 r sg d Zs flip n), Dbl.fin (finMin L s0 r sg d Zs flip n))) ∧
    (self.aggregator_ = LookMax →
      (List.range n).foldl (Asian.pathStep L self (Dbl.fin r) (Dbl.fin sg) (Dbl.fin d) Zs flip)
          (Dbl.fin s0, Dbl.fin s0) =
        (Dbl.fin (finS L s0 r sg d Zs flip n), Dbl.fin (finMax L s0 r sg d Zs flip n))) := by
  constructor
  · intro h
    rw [Asian.pathLoop_eq, h, pathS_eq_finS L s0 r sg d hd n Zs hZ flip n le_rfl,
      pathA_LookMin_eq L s0 r sg d hd n Zs hZ flip n le_rfl]
  · intro h
    rw [Asian.pathLoop_eq, h, pathS_eq_finS L s0 r sg d hd n Zs hZ flip n le_rfl,
      pathA_LookMax_eq L s0 r sg d hd n Zs hZ flip n le_rfl]

/-- Claim C28, as amended: over the reals (exact arithmetic, in which `exp(log x) = x`), for the
exported lookback call (`PayoffCall` with `LookMin`) and put (`PayoffPut` with `LookMax`), valid
market parameters, `steps > 0`, finite draws and uniforms and either `flip`: the loop of `payoffBB`
ends on the same terminal price as the path loop of `discountedPayoffFromZ`, both payoffs are finite
values returned without error, and the bridge payoff `payoffBB(Zs, Umax, Umin, flip)` is greater
than or equal to the undiscounted discrete payoff (the payoff of the terminal price and aggregate
reached by `discountedPayoffFromZ` on the same `Zs` and `flip`). (In IEEE doubles the two terminal
prices differ by rounding.) -/
theorem Asian.payoffBB_ge_discrete (S0 R sigma T0 T : Dbl ℝ) (self : opt.Asian ℝ)
    (hself : makeLookbackCall S0 R sigma T0 T = .ok self ∨
      makeLookbackPut S0 R sigma T0 T = .ok self)
    (steps : Int) (hs : 0 < steps) (Zs Umax Umin : List (Dbl ℝ))
    (hZ : IsDraw steps.toNat Zs) (hU1 : IsDraw steps.toNat Umax)
    (hU2 : IsDraw steps.toNat Umin) (flip : Bool) :
    ∃ pbb pd : ℝ,
      Asian.payoffBB (⟨Real.exp, Real.sqrt, Real.log⟩ : Libm ℝ) self steps
        ((T - T0) / Dbl.ofInt steps) Zs Umax Umin flip = .ok (Dbl.fin pbb) ∧
      self.payoff_
        ((List.range steps.toNat).foldl
          (Asian.pathStep (⟨Real.exp, Real.sqrt, Real.log⟩ : Libm ℝ) self R sigma
            ((T - T0) / Dbl.ofInt steps) Zs flip) (S0, S0)).1
        ((List.range steps.toNat).foldl
          (Asian.pathStep (⟨Real.exp, Real.sqrt, Real.log⟩ : Libm ℝ) self R sigma
            ((T - T0) / Dbl.ofInt steps) Zs flip) (S0, S0)).2 = .ok (Dbl.fin pd) ∧
      Asian.discountedPayoffFromZ (⟨Real.exp, Real.sqrt, Real.log⟩ : Libm ℝ) self S0 R sigma
        T0 T steps Zs flip =
        .ok (Dbl.exp (⟨Real.exp, Real.sqrt, Real.log⟩ : Libm ℝ) ((-R) * (T - T0)) *
          Dbl.fin pd) ∧
      (bbState (⟨Real.exp, Real.sqrt, Real.log⟩ : Libm ℝ) self ((T - T0) / Dbl.ofInt steps)
          Zs Umax Umin flip steps.toNat).1 =
        ((List.range steps.toNat).foldl
          (Asian.pathStep (⟨Real.exp, Real.sqrt, Real.log⟩ : Libm ℝ) self R sigma
            ((T - T0) / Dbl.ofInt steps) Zs flip) (S0, S0)).1 ∧
      Asian.payoffBB (⟨Real.exp, Real.sqrt, Real.log⟩ : Libm ℝ) self steps
          ((T - T0) / Dbl.ofInt steps) Zs Umax Umin flip =
        self.payoff_
          (bbState (⟨Real.exp, Real.sqrt, Real.log⟩ : Libm ℝ) self
            ((T - T0) / Dbl.ofInt steps) Zs Umax Umin flip steps.toNat).1
          (bbState (⟨Real.exp, Real.sqrt, Real.log⟩ : Libm ℝ) self
            ((T - T0) / Dbl.ofInt steps) Zs Umax Umin flip steps.toNat).2.1 ∧
      0 ≤ pd ∧ pd ≤ pbb := by
  obtain ⟨s0, r, sg, t0, t, pay, agg, rfl, rfl, rfl, rfl, rfl, rfl, hs0, hsg, ht, hkind⟩ :=
    lookback_self hself
  have hsteps : (0 : ℝ) < (steps : ℝ) := by exact_mod_cast hs
  have hdt : (Dbl.fin t - Dbl.fin t0 : Dbl ℝ) / Dbl.ofInt steps =
      Dbl.fin ((t - t0) / (steps : ℝ)) := by
    rw [Dbl.fin_sub_fin, Dbl.ofInt, Dbl.fin_div_fin _ _ hsteps.ne']
  have hd : 0 ≤ (t - t0) / (steps : ℝ) := div_nonneg (sub_nonneg.2 ht.le) hsteps.le
  obtain ⟨hprice, _⟩ := bbState_price
    ⟨⟨Dbl.fin s0, Dbl.fin r, Dbl.fin sg, Dbl.fin t0, Dbl.fin t⟩, pay, agg⟩ s0 r sg _ rfl rfl
    rfl hs0 hd steps.toNat Zs Umax Umin hZ flip steps.toNat le_rfl
  have hloop := Asian.pathLoop_lookback (⟨Real.exp, Real.sqrt, Real.log⟩ : Libm ℝ)
    ⟨⟨Dbl.fin s0, Dbl.fin r, Dbl.fin sg, Dbl.fin t0, Dbl.fin t⟩, pay, agg⟩ s0 r sg _ hd
    steps.toNat Zs hZ flip
  have hbb : Asian.payoffBB (⟨Real.exp, Real.sqrt, Real.log⟩ : Libm ℝ)
      ⟨⟨Dbl.fin s0, Dbl.fin r, Dbl.fin sg, Dbl.fin t0, Dbl.fin t⟩, pay, agg⟩ steps
      (Dbl.fin ((t - t0) / (steps : ℝ))) Zs Umax Umin flip =
      pay (bbState (⟨Real.exp, Real.sqrt, Real.log⟩ : Libm ℝ)
          ⟨⟨Dbl.fin s0, Dbl.fin r, Dbl.fin sg, Dbl.fin t0, Dbl.fin t⟩, pay, agg⟩
          (Dbl.fin ((t - t0) / (steps : ℝ))) Zs Umax Umin flip steps.toNat).1
        (bbState (⟨Real.exp, Real.sqrt, Real.log⟩ : Libm ℝ)
          ⟨⟨Dbl.fin s0, Dbl.fin r, Dbl.fin sg, Dbl.fin t0, Dbl.fin t⟩, pay, agg⟩
          (Dbl.fin ((t - t0) / (steps : ℝ))) Zs Umax Umin flip steps.toNat).2.1 := rfl
  rw [hdt]
  rcases hkind with ⟨rfl, rfl, _⟩ | ⟨rfl, rfl, _⟩
  · obtain ⟨a, ha, ha0, hale⟩ := bbState_LookMin
      ⟨⟨Dbl.fin s0, Dbl.fin r, Dbl.fin sg, Dbl.fin t0, Dbl.fin t⟩, PayoffCall, LookMin⟩ rfl
      s0 r sg _ rfl rfl rfl hs0 hd steps.toNat Zs Umax Umin hZ hU1 hU2 flip steps.toNat le_rfl
    have hK := (finMin_pos (⟨Real.exp, Real.sqrt, Real.log⟩ : Libm ℝ) Real.exp_pos s0 r sg
      ((t - t0) / (steps : ℝ)) hs0 Zs flip steps.toNat).le
    refine ⟨Max.max (finS (⟨Real.exp, Real.sqrt, Real.log⟩ : Libm ℝ) s0 r sg ((t - t0) / (steps : ℝ)) Zs flip steps.toNat - a) 0,
      Max.max (finS (⟨Real.exp, Real.sqrt, Real.log⟩ : Libm ℝ) s0 r sg ((t - t0) / (steps : ℝ)) Zs flip steps.toNat -
        finMin (⟨Real.exp, Real.sqrt, Real.log⟩ : Libm ℝ) s0 r sg ((t - t0) / (steps : ℝ)) Zs flip steps.toNat) 0,
      ?_, ?_, ?_, ?_, hbb, le_max_right _ _, ?_⟩
    · rw [hbb, hprice, ha]
      exact PayoffCall_eval _ _ ha0.le
    · rw [hloop.1 rfl]
      exact PayoffCall_eval _ _ hK
    · simp only [Asian.discountedPayoffFromZ, hdt, hloop.1 rfl]
      rw [PayoffCall_eval _ _ hK]
    · rw [hprice, hloop.1 rfl]
    · exact max_le_max (sub_le_sub_left hale _) le_rfl
  · obtain ⟨a, ha, hale⟩ := bbState_LookMax
      ⟨⟨Dbl.fin s0, Dbl.fin r, Dbl.fin sg, Dbl.fin t0, Dbl.fin t⟩, PayoffPut, LookMax⟩ rfl
      s0 r sg _ rfl rfl rfl hs0 hd steps.toNat Zs Umax Umin hZ hU1 hU2 flip steps.toNat le_rfl
    have hK := (finMax_pos (⟨Real.exp, Real.sqrt, Real.log⟩ : Libm ℝ) s0 r sg
      ((t - t0) / (steps : ℝ)) hs0 Zs flip steps.toNat).le
    refine ⟨Max.max (a - finS (⟨Real.exp, Real.sqrt, Real.log⟩ : Libm ℝ) s0 r sg ((t - t0) / (steps : ℝ)) Zs flip steps.toNat) 0,
      Max.max (finMax (⟨Real.exp, Real.sqrt, Real.log⟩ : Libm ℝ) s0 r sg ((t - t0) / (steps : ℝ)) Zs flip steps.toNat -
        finS (⟨Real.exp, Real.sqrt, Real.log⟩ : Libm ℝ) s0 r sg ((t - t0) / (steps : ℝ)) Zs flip steps.toNat) 0,
      ?_, ?_, ?_, ?_, hbb, le_max_right _ _, ?_⟩
    · rw [hbb, hprice, ha]
      exact PayoffPut_eval _ _ (le_trans hK hale)
    · rw [hloop.2 rfl]
      exact PayoffPut_eval _ _ hK
    · simp only [Asian.discountedPayoffFromZ, hdt, hloop.2 rfl]
      rw [PayoffPut_eval _ _ hK]
    · rw [hprice, hloop.2 rfl]
    · exact max_le_max (sub_le_sub_right hale _) le_rfl


/-- Witness of claim C28 on the Scenario 1 lookback call: one step, the draw `0`, the uniforms
`1/2`. -/
theorem Asian.payoffBB_ge_discrete_witness :
    makeLookbackCall (Dbl.fin 100) (Dbl.fin 0.05) (Dbl.fin 0.2) (Dbl.fin 0) (Dbl.fin 1)
      = .ok (scenarioCall : opt.Asian ℝ) ∧
    (0 : Int) < 1 ∧ IsDraw (1 : Int).toNat [(Dbl.fin 0 : Dbl ℝ)] ∧
    IsDraw (1 : Int).toNat [(Dbl.fin (1 / 2) : Dbl ℝ)] ∧
    ∃ pbb pd : ℝ,
      Asian.payoffBB (⟨Real.exp, Real.sqrt, Real.log⟩ : Libm ℝ) scenarioCall 1
        ((Dbl.fin 1 - Dbl.fin 0) / Dbl.ofInt 1) [Dbl.fin 0] [Dbl.fin (1 / 2)]
        [Dbl.fin (1 / 2)] false = .ok (Dbl.fin pbb) ∧
      Asian.discountedPayoffFromZ (⟨Real.exp, Real.sqrt, Real.log⟩ : Libm ℝ) scenarioCall
        (Dbl.fin 100) (Dbl.fin 0.05) (Dbl.fin 0.2) (Dbl.fin 0) (Dbl.fin 1) 1 [Dbl.fin 0]
        false =
        .ok (Dbl.exp (⟨Real.exp, Real.sqrt, Real.log⟩ : Libm ℝ)
          ((-Dbl.fin 0.05) * (Dbl.fin 1 - Dbl.fin 0)) * Dbl.fin pd) ∧
      0 ≤ pd ∧ pd ≤ pbb := by
  have hZ : IsDraw (1 : Int).toNat [(Dbl.fin 0 : Dbl ℝ)] := by decide
  have hU : IsDraw (1 : Int).toNat [(Dbl.fin (1 / 2) : Dbl ℝ)] := by
    refine ⟨rfl, ?_⟩
    intro z hz
    rw [List.mem_singleton.1 hz]
    rfl
  obtain ⟨pbb, pd, h1, _, h3, _, _, h6, h7⟩ := Asian.payoffBB_ge_discrete (Dbl.fin 100)
    (Dbl.fin 0.05) (Dbl.fin 0.2) (Dbl.fin 0) (Dbl.fin 1) scenarioCall
    (Or.inl makeLookbackCall_scenario) 1 (by decide) [Dbl.fin 0] [Dbl.fin (1 / 2)]
    [Dbl.fin (1 / 2)] hZ hU hU false
  exact ⟨makeLookbackCall_scenario, by decide, hZ, hU, pbb, pd, h1, h3, h6, h7⟩

/-! ### C24: the arithmetic aggregator along a path -/

/-- The arithmetic aggregator fed the finite prices `xs` with the step numbers `k + 1, ...`,
from an aggregate `a` that stands for `k + 1` values. -/
theorem aggFrom_Arithmetic (k : Nat) (a : α) (xs : List α) :
    aggFrom Arithmetic k (Dbl.fin a) (xs.map Dbl.fin) =
      Dbl.fin ((a * ((k : α) + 1) + xs.sum) / ((k : α) + 1 + (xs.length : α))) := by
  induction xs generalizing k a with
  | nil =>
    have h : ((k : α) + 1) ≠ 0 := by positivity
    simp only [aggFrom, List.map_nil, List.sum_nil, List.length_nil, Nat.cast_zero, add_zero]
    rw [mul_div_assoc, div_self h, mul_one]
  | cons p ps ih =>
    have h1 : ((k : α) + 1 + 1) ≠ 0 := by positivity
    have h2 : ((((k : Int) + 1 : Int) : α) + 1) ≠ 0 := by
      push_cast
      exact h1
    simp only [List.map_cons, aggFrom, Arithmetic, Dbl.ofInt, Dbl.fin_mul_fin, Dbl.fin_add_fin,
      Dbl.fin_div_fin _ _ h2]
    rw [ih]
    congr 1
    push_cast
    have h3 : ((k : α) + 1 + 1 + (ps.length : α)) ≠ 0 := by positivity
    have h4 : ((k : α) + 1 + ((ps.length : α) + 1)) ≠ 0 := by positivity
    rw [List.sum_cons, div_mul_cancel₀ _ h1, List.length_cons]
    push_cast
    congr 1
    · ring
    · ring

/-- The aggregate of the path recursion is the aggregation of the prices `S_{k+1}, ...`. -/
theorem pathA_eq_aggFrom (L : Libm α) (aggregator : Dbl α → Dbl α → Dbl α → Dbl α)
    (S0 R sigma dt : Dbl α) (Zs : List (Dbl α)) (flip : Bool) (m k : Nat) :
    aggFrom aggregator k (pathA L aggregator S0 R sigma dt Zs flip k)
        ((List.range m).map (fun j => pathS L S0 R sigma dt Zs flip (k + j + 1))) =
      pathA L aggregator S0 R sigma dt Zs flip (k + m) := by
  induction m generalizing k with
  | zero => rfl
  | succ m ih =>
    rw [List.range_succ_eq_map, List.map_cons, List.map_map, aggFrom]
    have h := ih (k + 1)
    have hstep : aggregator (pathA L aggregator S0 R sigma dt Zs flip k)
        (pathS L S0 R sigma dt Zs flip (k + 0 + 1)) (Dbl.ofInt ((k : Int) + 1)) =
        pathA L aggregator S0 R sigma dt Zs flip (k + 1) := by
      rw [pathA, Dbl.ofInt]
      push_cast
      rfl
    rw [hstep]
    have hfun : ((fun j => pathS L S0 R sigma dt Zs flip (k + j + 1)) ∘ Nat.succ) =
        (fun j => pathS L S0 R sigma dt Zs flip (k + 1 + j + 1)) := by
      funext j
      simp only [Function.comp, Nat.succ_eq_add_one]
      congr 1
      omega
    rw [hfun, h]
    congr 1
    omega

/-- Claim C24, as amended: in exact arithmetic (every operation on doubles computed without rounding
or overflow), the Arithmetic aggregator folded along a path as the kernel does (initial aggregate
`S0`, then `update(agg, S_j, j)` for the 1-based step `j = 1..n`) gives, on a finite spot and any
finite prices `S_1, ..., S_n`, the arithmetic mean `(S0 + S_1 + ... + S_n) / (n + 1)`; and the
aggregate in which the path loop of `discountedPayoffFromZ` ends is this fold on the prices of the
path. (In IEEE doubles the fold is the mean only up to rounding, and overflows before the mean
does.) -/
theorem Arithmetic_fold_mean (L : Libm α) (o : opt.Option α)
    (pay : Dbl α → Dbl α → Except Err (Dbl α)) (S0 R sigma dt : Dbl α) (Zs : List (Dbl α))
    (flip : Bool) (n : Nat) (s0 : α) (xs : List α) :
    aggFrom Arithmetic 0 (Dbl.fin s0) (xs.map Dbl.fin) =
      Dbl.fin ((s0 + xs.sum) / ((xs.length : α) + 1)) ∧
    ((List.range n).foldl (Asian.pathStep L ⟨o, pay, Arithmetic⟩ R sigma dt Zs flip)
        (S0, S0)).2 =
      aggFrom Arithmetic 0 S0
        ((List.range n).map (fun j => pathS L S0 R sigma dt Zs flip (j + 1))) := by
  constructor
  · rw [aggFrom_Arithmetic]
    congr 1
    push_cast
    ring
  · rw [Asian.pathLoop_eq]
    have h := pathA_eq_aggFrom L Arithmetic S0 R sigma dt Zs flip n 0
    simp only [Nat.zero_add] at h
    exact h.symm

/-! ### C25: the lookback samples never raise and are not negative -/

theorem finMin_le_spot (L : Libm α) (s0 r sg dt : α) (Zs : List (Dbl α)) (flip : Bool)
    (j : Nat) : finMin L s0 r sg dt Zs flip j ≤ s0 := by
  induction j with
  | zero => exact le_rfl
  | succ j ih => exact le_trans (min_le_left _ _) ih

theorem spot_le_finMax (L : Libm α) (s0 r sg dt : α) (Zs : List (Dbl α)) (flip : Bool)
    (j : Nat) : s0 ≤ finMax L s0 r sg dt Zs flip j := by
  induction j with
  | zero => exact le_rfl
  | succ j ih => exact le_trans ih (le_max_left _ _)

theorem pushed_nonneg (antithetic : Bool) (f : List (Dbl α) → Bool → α)
    (hf : ∀ Zs b, 0 ≤ f Zs b) (Zs : List (Dbl α)) : 0 ≤ pushed antithetic f Zs := by
  unfold pushed
  split_ifs
  · exact mul_nonneg (by norm_num) (add_nonneg (hf Zs false) (hf Zs true))
  · exact hf Zs false

/-- An estimator whose samples are finite and not negative returns a finite estimate that is
not negative. -/
theorem Asian.runMC_estimate_nonneg {ρ : Type} (L : Libm α) (G : Gen ρ α) (paths steps : Int)
    (seed : Nat) (antithetic : Bool) (sampleFn : List (Dbl α) → Bool → Except Err (Dbl α))
    (f : List (Dbl α) → Bool → α)
    (hf : ∀ Zs b, IsDraw steps.toNat Zs → sampleFn Zs b = .ok (Dbl.fin (f Zs b)))
    (hf0 : ∀ Zs b, 0 ≤ f Zs b) (hp : 0 < paths) (hs : 0 < steps) :
    ∃ (stats : MCStats α) (e : α),
      Asian.runMC L G paths steps seed antithetic sampleFn = .ok stats ∧
      stats.estimate = Dbl.fin e ∧ 0 ≤ e := by
  obtain ⟨stats, hrun, hest⟩ := Asian.runMC_estimate_fin L G paths steps seed antithetic
    sampleFn f hf hp hs
  refine ⟨stats, _, hrun, hest, meanOf_nonneg _ ?_⟩
  intro x hx
  obtain ⟨Zs, _, rfl⟩ := List.mem_map.1 hx
  exact pushed_nonneg antithetic f hf0 Zs

/-- Claim C25, as amended: in exact arithmetic (every operation on doubles computed without
rounding, overflow or underflow, and `std::exp` positive), for valid market parameters (`S0 > 0`,
`sigma >= 0`, `T > T0`), `steps > 0`, finite draws and either `flip`: the path loop of the exported
lookback call ends on the price `S_T` and the aggregate `min(S0, S_1, ..., S_T)`, which is positive
(so the payoff never raises its negative-strike error), not above `S0` and not above `S_T` (so the
clipping at `0` is not active), and the sample is `exp(-R*(T-T0)) * (S_T - min(S0, ..., S_T)) >= 0`;
symmetrically the sample of the lookback put is `exp(-R*(T-T0)) * (max(S0, ..., S_T) - S_T) >= 0`.
Hence for `paths > 0` `priceMC` returns without raising, for the call and for the put, a finite
estimate `>= 0`. (In IEEE doubles the sample is `NaN` when the price overflows while the discount
factor underflows.) -/
theorem lookback_sample_closed_form {ρ : Type} (L : Libm α) (hexp : ∀ x, 0 < L.exp x)
    (G : Gen ρ α) (s0 r sg t0 t : α) (hs0 : 0 < s0) (hsg : 0 ≤ sg) (ht : t0 < t)
    (steps : Int) (hs : 0 < steps) (Zs : List (Dbl α)) (hZ : IsDraw steps.toNat Zs)
    (flip : Bool) (paths : Int) (hp : 0 < paths) (seed : Nat) (antithetic : Bool) :
    makeLookbackCall (Dbl.fin s0) (Dbl.fin r) (Dbl.fin sg) (Dbl.fin t0) (Dbl.fin t) =
      .ok ⟨⟨Dbl.fin s0, Dbl.fin r, Dbl.fin sg, Dbl.fin t0, Dbl.fin t⟩, PayoffCall, LookMin⟩ ∧
    makeLookbackPut (Dbl.fin s0) (Dbl.fin r) (Dbl.fin sg) (Dbl.fin t0) (Dbl.fin t) =
      .ok ⟨⟨Dbl.fin s0, Dbl.fin r, Dbl.fin sg, Dbl.fin t0, Dbl.fin t⟩, PayoffPut, LookMax⟩ ∧
    ((List.range steps.toNat).foldl
        (Asian.pathStep L
          ⟨⟨Dbl.fin s0, Dbl.fin r, Dbl.fin sg, Dbl.fin t0, Dbl.fin t⟩, PayoffCall, LookMin⟩
          (Dbl.fin r) (Dbl.fin sg) ((Dbl.fin t - Dbl.fin t0) / Dbl.ofInt steps) Zs flip)
        (Dbl.fin s0, Dbl.fin s0) =
      (Dbl.fin (finS L s0 r sg ((t - t0) / (steps : α)) Zs flip steps.toNat),
        Dbl.fin (finMin L s0 r sg ((t - t0) / (steps : α)) Zs flip steps.toNat))) ∧
    0 < finMin L s0 r sg ((t - t0) / (steps : α)) Zs flip steps.toNat ∧
    finMin L s0 r sg ((t - t0) / (steps : α)) Zs flip steps.toNat ≤ s0 ∧
    finMin L s0 r sg ((t - t0) / (steps : α)) Zs flip steps.toNat ≤
      finS L s0 r sg ((t - t0) / (steps : α)) Zs flip steps.toNat ∧
    Asian.discountedPayoffFromZ L
        ⟨⟨Dbl.fin s0, Dbl.fin r, Dbl.fin sg, Dbl.fin t0, Dbl.fin t⟩, PayoffCall, LookMin⟩
        (Dbl.fin s0) (Dbl.fin r) (Dbl.fin sg) (Dbl.fin t0) (Dbl.fin t) steps Zs flip =
      .ok (Dbl.fin (L.exp (-r * (t - t0)) *
        (finS L s0 r sg ((t - t0) / (steps : α)) Zs flip steps.toNat -
          finMin L s0 r sg ((t - t0) / (steps : α)) Zs flip steps.toNat))) ∧
    0 ≤ L.exp (-r * (t - t0)) *
      (finS L s0 r sg ((t - t0) / (steps : α)) Zs flip steps.toNat -
        finMin L s0 r sg ((t - t0) / (steps : α)) Zs flip steps.toNat) ∧
    ((List.range steps.toNat).foldl
        (Asian.pathStep L
          ⟨⟨Dbl.fin s0, Dbl.fin r, Dbl.fin sg, Dbl.fin t0, Dbl.fin t⟩, PayoffPut, LookMax⟩
          (Dbl.fin r) (Dbl.fin sg) ((Dbl.fin t - Dbl.fin t0) / Dbl.ofInt steps) Zs flip)
        (Dbl.fin s0, Dbl.fin s0) =
      (Dbl.fin (finS L s0 r sg ((t - t0) / (steps : α)) Zs flip steps.toNat),
        Dbl.fin (finMax L s0 r sg ((t - t0) / (steps : α)) Zs flip steps.toNat))) ∧
    s0 ≤ finMax L s0 r sg ((t - t0) / (steps : α)) Zs flip steps.toNat ∧
    finS L s0 r sg ((t - t0) / (steps : α)) Zs flip steps.toNat ≤
      finMax L s0 r sg ((t - t0) / (steps : α)) Zs flip steps.toNat ∧
    Asian.discountedPayoffFromZ L
        ⟨⟨Dbl.fin s0, Dbl.fin r, Dbl.fin sg, Dbl.fin t0, Dbl.fin t⟩, PayoffPut, LookMax⟩
        (Dbl.fin s0) (Dbl.fin r) (Dbl.fin sg) (Dbl.fin t0) (Dbl.fin t) steps Zs flip =
      .ok (Dbl.fin (L.exp (-r * (t - t0)) *
        (finMax L s0 r sg ((t - t0) / (steps : α)) Zs flip steps.toNat -
          finS L s0 r sg ((t - t0) / (steps : α)) Zs flip steps.toNat))) ∧
    0 ≤ L.exp (-r * (t - t0)) *
      (finMax L s0 r sg ((t - t0) / (steps : α)) Zs flip steps.toNat -
        finS L s0 r sg ((t - t0) / (steps : α)) Zs flip steps.toNat) ∧
    (∃ (pc : MCStats α) (ec : α),
      Asian.priceMC L G
        ⟨⟨Dbl.fin s0, Dbl.fin r, Dbl.fin sg, Dbl.fin t0, Dbl.fin t⟩, PayoffCall, LookMin⟩
        paths steps seed antithetic = .ok pc ∧ pc.estimate = Dbl.fin ec ∧ 0 ≤ ec) ∧
    (∃ (pp : MCStats α) (ep : α),
      Asian.priceMC L G
        ⟨⟨Dbl.fin s0, Dbl.fin r, Dbl.fin sg, Dbl.fin t0, Dbl.fin t⟩, PayoffPut, LookMax⟩
        paths steps seed antithetic = .ok pp ∧ pp.estimate = Dbl.fin ep ∧ 0 ≤ ep) := by
  have hsteps : (0 : α) < (steps : α) := by exact_mod_cast hs
  have hdt : (Dbl.fin t - Dbl.fin t0 : Dbl α) / Dbl.ofInt steps =
      Dbl.fin ((t - t0) / (steps : α)) := by
    rw [Dbl.fin_sub_fin, Dbl.ofInt, Dbl.fin_div_fin _ _ hsteps.ne']
  have hd : 0 ≤ (t - t0) / (steps : α) := div_nonneg (sub_nonneg.2 ht.le) hsteps.le
  have hmin := finMin_le_finS L s0 r sg ((t - t0) / (steps : α)) Zs flip steps.toNat
  have hmax := finS_le_finMax L s0 r sg ((t - t0) / (steps : α)) Zs flip steps.toNat
  have hcall : ∀ Zs flip, IsDraw steps.toNat Zs → Asian.discountedPayoffFromZ L
      ⟨⟨Dbl.fin s0, Dbl.fin r, Dbl.fin sg, Dbl.fin t0, Dbl.fin t⟩, PayoffCall, LookMin⟩
      (Dbl.fin s0) (Dbl.fin r) (Dbl.fin sg) (Dbl.fin t0) (Dbl.fin t) steps Zs flip =
      .ok (Dbl.fin (L.exp (-r * (t - t0)) *
        (finS L s0 r sg ((t - t0) / (steps : α)) Zs flip steps.toNat -
          finMin L s0 r sg ((t - t0) / (steps : α)) Zs flip steps.toNat))) := by
    intro Zs flip hZ
    rw [Asian.call_sample_eq L hexp _ s0 r sg t0 t hs0 ht.le steps hs Zs hZ flip,
      max_eq_left (sub_nonneg.2 (finMin_le_finS L s0 r sg _ Zs flip _))]
  have hput : ∀ Zs flip, IsDraw steps.toNat Zs → Asian.discountedPayoffFromZ L
      ⟨⟨Dbl.fin s0, Dbl.fin r, Dbl.fin sg, Dbl.fin t0, Dbl.fin t⟩, PayoffPut, LookMax⟩
      (Dbl.fin s0) (Dbl.fin r) (Dbl.fin sg) (Dbl.fin t0) (Dbl.fin t) steps Zs flip =
      .ok (Dbl.fin (L.exp (-r * (t - t0)) *
        (finMax L s0 r sg ((t - t0) / (steps : α)) Zs flip steps.toNat -
          finS L s0 r sg ((t - t0) / (steps : α)) Zs flip steps.toNat))) := by
    intro Zs flip hZ
    rw [Asian.put_sample_eq L _ s0 r sg t0 t hs0 ht.le steps hs Zs hZ flip,
      max_eq_left (sub_nonneg.2 (finS_le_finMax L s0 r sg _ Zs flip _))]
  have hc0 : ∀ Zs flip, 0 ≤ L.exp (-r * (t - t0)) *
      (finS L s0 r sg ((t - t0) / (steps : α)) Zs flip steps.toNat -
        finMin L s0 r sg ((t - t0) / (steps : α)) Zs flip steps.toNat) :=
    fun Zs flip => mul_nonneg (hexp _).le (sub_nonneg.2 (finMin_le_finS L s0 r sg _ Zs flip _))
  have hp0 : ∀ Zs flip, 0 ≤ L.exp (-r * (t - t0)) *
      (finMax L s0 r sg ((t - t0) / (steps : α)) Zs flip steps.toNat -
        finS L s0 r sg ((t - t0) / (steps : α)) Zs flip steps.toNat) :=
    fun Zs flip => mul_nonneg (hexp _).le (sub_nonneg.2 (finS_le_finMax L s0 r sg _ Zs flip _))
  refine ⟨Asian.Asian_fin s0 r sg t0 t hs0 hsg ht _ _, Asian.Asian_fin s0 r sg t0 t hs0 hsg ht _ _,
    ?_, finMin_pos L hexp s0 r sg _ hs0 Zs flip _, finMin_le_spot L s0 r sg _ Zs flip _, hmin,
    hcall Zs flip hZ, hc0 Zs flip, ?_, spot_le_finMax L s0 r sg _ Zs flip _, hmax,
    hput Zs flip hZ, hp0 Zs flip, ?_, ?_⟩
  · rw [hdt]
    exact (Asian.pathLoop_lookback L _ s0 r sg _ hd steps.toNat Zs hZ flip).1 rfl
  · rw [hdt]
    exact (Asian.pathLoop_lookback L _ s0 r sg _ hd steps.toNat Zs hZ flip).2 rfl
  · exact Asian.runMC_estimate_nonneg L G paths steps seed antithetic _ _
      (fun Zs b hZ => hcall Zs b hZ) hc0 hp hs
  · exact Asian.runMC_estimate_nonneg L G paths steps seed antithetic _ _
      (fun Zs b hZ => hput Zs b hZ) hp0 hp hs


/-- Witness of claim C25 on the Scenario 1 parameters (`paths = 10000`, `steps = 50`,
`seed = 42`, no antithetic variates), for the first draw vector of the run. -/
theorem lookback_sample_closed_form_witness :
    (∀ x : ℝ, 0 < Real.exp x) ∧ (0 : ℝ) < 100 ∧ (0 : ℝ) ≤ 0.2 ∧ (0 : ℝ) < 1 ∧ (0 : Int) < 50 ∧
    IsDraw (50 : Int).toNat (Asian.drawZs (Gen.counter : Gen Nat ℝ) (50 : Int).toNat 42).1 ∧
    (0 : Int) < 10000 ∧
    (∃ v : ℝ, Asian.discountedPayoffFromZ (⟨Real.exp, Real.sqrt, Real.log⟩ : Libm ℝ)
        ⟨⟨Dbl.fin 100, Dbl.fin 0.05, Dbl.fin 0.2, Dbl.fin 0, Dbl.fin 1⟩, PayoffCall, LookMin⟩
        (Dbl.fin 100) (Dbl.fin 0.05) (Dbl.fin 0.2) (Dbl.fin 0) (Dbl.fin 1) 50
        (Asian.drawZs (Gen.counter : Gen Nat ℝ) (50 : Int).toNat 42).1 false =
        .ok (Dbl.fin v) ∧ 0 ≤ v) ∧
    (∃ (pc : MCStats ℝ) (ec : ℝ),
      Asian.priceMC (⟨Real.exp, Real.sqrt, Real.log⟩ : Libm ℝ) Gen.counter
        ⟨⟨Dbl.fin 100, Dbl.fin 0.05, Dbl.fin 0.2, Dbl.fin 0, Dbl.fin 1⟩, PayoffCall, LookMin⟩
        10000 50 42 false = .ok pc ∧ pc.estimate = Dbl.fin ec ∧ 0 ≤ ec) := by
  have hZ := Asian.drawZs_isDraw (Gen.counter : Gen Nat ℝ) (50 : Int).toNat 42
  have h := lookback_sample_closed_form (⟨Real.exp, Real.sqrt, Real.log⟩ : Libm ℝ)
    Real.exp_pos (Gen.counter : Gen Nat ℝ) 100 0.05 0.2 0 1 (by norm_num) (by norm_num)
    (by norm_num) 50 (by decide) _ hZ false 10000 (by decide) 42 false
  exact ⟨Real.exp_pos, by norm_num, by norm_num, by norm_num, by decide, hZ, by decide,
    ⟨_, h.2.2.2.2.2.2.1, h.2.2.2.2.2.2.2.1⟩, h.2.2.2.2.2.2.2.2.2.2.2.2.2.1⟩

/-! ### C26, C27: homogeneity of the lookback samples in the spot -/

/-- The sample of a lookback call or put is a finite value `v >= 0`, and at the spot `c * S0`,
`c > 0`, it is `c * v`. -/
theorem lookback_sample_scale (L : Libm α) (hexp : ∀ x, 0 < L.exp x) (o : opt.Option α)
    (s0 r sg t0 t : α) (hs0 : 0 < s0) (ht : t0 ≤ t)
    (pay : Dbl α → Dbl α → Except Err (Dbl α)) (agg : Dbl α → Dbl α → Dbl α → Dbl α)
    (hkind : (pay = PayoffCall ∧ agg = LookMin) ∨ (pay = PayoffPut ∧ agg = LookMax))
    (steps : Int) (hs : 0 < steps) (Zs : List (Dbl α)) (hZ : IsDraw steps.toNat Zs)
    (flip : Bool) :
    ∃ v : α, 0 ≤ v ∧
      Asian.discountedPayoffFromZ L ⟨o, pay, agg⟩ (Dbl.fin s0) (Dbl.fin r) (Dbl.fin sg)
        (Dbl.fin t0) (Dbl.fin t) steps Zs flip = .ok (Dbl.fin v) ∧
      ∀ c : α, 0 < c →
        Asian.discountedPayoffFromZ L ⟨o, pay, agg⟩ (Dbl.fin (c * s0)) (Dbl.fin r)
          (Dbl.fin sg) (Dbl.fin t0) (Dbl.fin t) steps Zs flip = .ok (Dbl.fin (c * v)) := by
  rcases hkind with ⟨rfl, rfl⟩ | ⟨rfl, rfl⟩
  · refine ⟨_, mul_nonneg (hexp _).le (le_max_right _ _),
      Asian.call_sample_eq L hexp o s0 r sg t0 t hs0 ht steps hs Zs hZ flip, ?_⟩
    intro c hc
    rw [Asian.call_sample_eq L hexp o (c * s0) r sg t0 t (mul_pos hc hs0) ht steps hs Zs hZ
      flip, finS_scale, finMin_scale L c s0 r sg _ hc.le, ← mul_sub]
    have hm : Max.max (c * (finS L s0 r sg ((t - t0) / (steps : α)) Zs flip steps.toNat -
        finMin L s0 r sg ((t - t0) / (steps : α)) Zs flip steps.toNat)) 0 =
        c * Max.max (finS L s0 r sg ((t - t0) / (steps : α)) Zs flip steps.toNat -
          finMin L s0 r sg ((t - t0) / (steps : α)) Zs flip steps.toNat) 0 := by
      rw [mul_max_of_nonneg _ _ hc.le, mul_zero]
    rw [hm]
    congr 2
    ring
  · refine ⟨_, mul_nonneg (hexp _).le (le_max_right _ _),
      Asian.put_sample_eq L o s0 r sg t0 t hs0 ht steps hs Zs hZ flip, ?_⟩
    intro c hc
    rw [Asian.put_sample_eq L o (c * s0) r sg t0 t (mul_pos hc hs0) ht steps hs Zs hZ
      flip, finS_scale, finMax_scale L c s0 r sg _ hc.le, ← mul_sub]
    have hm : Max.max (c * (finMax L s0 r sg ((t - t0) / (steps : α)) Zs flip steps.toNat -
        finS L s0 r sg ((t - t0) / (steps : α)) Zs flip steps.toNat)) 0 =
        c * Max.max (finMax L s0 r sg ((t - t0) / (steps : α)) Zs flip steps.toNat -
          finS L s0 r sg ((t - t0) / (steps : α)) Zs flip steps.toNat) 0 := by
      rw [mul_max_of_nonneg _ _ hc.le, mul_zero]
    rw [hm]
    congr 2
    ring

/-- The delta and gamma samples of a lookback call or put, for `0 < relEps < 1`: the delta
sample is the price sample divided by the spot, and the gamma sample is `0`. -/
theorem lookback_greek_samples (L : Libm α) (hexp : ∀ x, 0 < L.exp x)
    (s0 r sg t0 t re : α) (hs0 : 0 < s0) (ht : t0 ≤ t) (hre0 : 0 < re) (hre1 : re < 1)
    (pay : Dbl α → Dbl α → Except Err (Dbl α)) (agg : Dbl α → Dbl α → Dbl α → Dbl α)
    (hkind : (pay = PayoffCall ∧ agg = LookMin) ∨ (pay = PayoffPut ∧ agg = LookMax))
    (steps : Int) (hs : 0 < steps) (Zs : List (Dbl α)) (hZ : IsDraw steps.toNat Zs)
    (flip : Bool) :
    ∃ v : α, 0 ≤ v ∧
      Asian.samplePrice L ⟨⟨Dbl.fin s0, Dbl.fin r, Dbl.fin sg, Dbl.fin t0, Dbl.fin t⟩,
        pay, agg⟩ steps Zs flip = .ok (Dbl.fin v) ∧
      Asian.sampleDelta L ⟨⟨Dbl.fin s0, Dbl.fin r, Dbl.fin sg, Dbl.fin t0, Dbl.fin t⟩,
        pay, agg⟩ (Dbl.fin re * Dbl.fin s0) steps Zs flip = .ok (Dbl.fin (v / s0)) ∧
      Asian.sampleGamma L ⟨⟨Dbl.fin s0, Dbl.fin r, Dbl.fin sg, Dbl.fin t0, Dbl.fin t⟩,
        pay, agg⟩ (Dbl.fin re * Dbl.fin s0) steps Zs flip = .ok (Dbl.fin 0) := by
  obtain ⟨v, hv0, hv, hscale⟩ := lookback_sample_scale L hexp
    ⟨Dbl.fin s0, Dbl.fin r, Dbl.fin sg, Dbl.fin t0, Dbl.fin t⟩ s0 r sg t0 t hs0 ht pay agg
    hkind steps hs Zs hZ flip
  have hup : s0 + re * s0 = (1 + re) * s0 := by ring
  have hdn : s0 - re * s0 = (1 - re) * s0 := by ring
  have h1 : (0 : α) < 1 + re := by linarith
  have h2 : (0 : α) < 1 - re := by linarith
  have hne : 2 * (re * s0) ≠ 0 := by positivity
  have hne2 : re * s0 * (re * s0) ≠ 0 := by positivity
  refine ⟨v, hv0, hv, ?_, ?_⟩
  · simp only [Asian.sampleDelta]
    rw [Dbl.fin_mul_fin, Dbl.fin_add_fin, Dbl.fin_sub_fin, hup, hdn, hscale _ h1, hscale _ h2]
    simp only [Dbl.fin_sub_fin, Dbl.fin_mul_fin, Dbl.fin_div_fin _ _ hne]
    congr 2
    field_simp
    ring
  · simp only [Asian.sampleGamma]
    rw [Dbl.fin_mul_fin, Dbl.fin_add_fin, Dbl.fin_sub_fin, hup, hdn, hscale _ h1, hv,
      hscale _ h2]
    simp only [Dbl.fin_sub_fin, Dbl.fin_mul_fin, Dbl.fin_add_fin, Dbl.fin_div_fin _ _ hne2]
    congr 2
    rw [div_eq_zero_iff]
    left
    ring


/-- Claim C26, as amended: in exact arithmetic (every operation on doubles computed without
rounding, overflow or underflow, and `std::exp` positive), for the exported lookback call and put on
valid market parameters, `steps > 0`, finite draws and either `flip`, the discounted payoff is
positively homogeneous of degree 1 in the spot: at the spot `lambda * S0`, `lambda > 0`,
`discountedPayoffFromZ` returns `lambda` times what it returns at `S0`; for `0 < relEps < 1` the
delta sample is the price sample divided by `S0`; and for `paths > 0` the estimate of `deltaMC` is
the estimate of `priceMC` divided by `S0`, for the same `paths`, `steps`, seed and antithetic flag.
(In IEEE doubles these equalities hold only up to rounding.) -/
theorem lookback_homogeneous {ρ : Type} (L : Libm α) (hexp : ∀ x, 0 < L.exp x) (G : Gen ρ α)
    (S0 R sigma T0 T relEps : Dbl α) (self : opt.Asian α)
    (hself : makeLookbackCall S0 R sigma T0 T = .ok self ∨
      makeLookbackPut S0 R sigma T0 T = .ok self)
    (hre0 : Dbl.lt (Dbl.fin 0) relEps = true) (hre1 : Dbl.lt relEps (Dbl.fin 1) = true)
    (paths steps : Int) (hp : 0 < paths) (hs : 0 < steps) (seed : Nat) (antithetic : Bool)
    (Zs : List (Dbl α)) (hZ : IsDraw steps.toNat Zs) (flip : Bool) (lam : α) (hlam : 0 < lam) :
    Asian.discountedPayoffFromZ L self (Dbl.fin lam * S0) R sigma T0 T steps Zs flip =
      Except.map (fun v => Dbl.fin lam * v)
        (Asian.discountedPayoffFromZ L self S0 R sigma T0 T steps Zs flip) ∧
    (∃ v : α, Asian.samplePrice L self steps Zs flip = .ok (Dbl.fin v) ∧
      Asian.sampleDelta L self (relEps * self.S0_) steps Zs flip = .ok (Dbl.fin v / S0)) ∧
    ∃ d p : MCStats α,
      Asian.deltaMC L G self paths steps seed antithetic relEps = .ok d ∧
      Asian.priceMC L G self paths steps seed antithetic = .ok p ∧
      d.estimate = p.estimate / S0 := by
  obtain ⟨s0, r, sg, t0, t, pay, agg, rfl, rfl, rfl, rfl, rfl, rfl, hs0, hsg, ht, hkind⟩ :=
    lookback_self hself
  obtain ⟨re, rfl, hre0', hre1'⟩ := Dbl.lt_zero_lt_one hre0 hre1
  have hk : (pay = PayoffCall ∧ agg = LookMin) ∨ (pay = PayoffPut ∧ agg = LookMax) :=
    hkind.imp (fun h => ⟨h.1, h.2.1⟩) (fun h => ⟨h.1, h.2.1⟩)
  have hsamples := fun Zs fl hZ => lookback_greek_samples L hexp s0 r sg t0 t re hs0 ht.le
    hre0' hre1' pay agg hk steps hs Zs hZ fl
  refine ⟨?_, ?_, ?_⟩
  · obtain ⟨v, _, hv, hscale⟩ := lookback_sample_scale L hexp
      ⟨Dbl.fin s0, Dbl.fin r, Dbl.fin sg, Dbl.fin t0, Dbl.fin t⟩ s0 r sg t0 t hs0 ht.le pay
      agg hk steps hs Zs hZ flip
    rw [Dbl.fin_mul_fin, hscale lam hlam, hv]
    simp only [Except.map, Dbl.fin_mul_fin]
  · obtain ⟨v, _, hv, hd, _⟩ := hsamples Zs flip hZ
    exact ⟨v, hv, by rw [hd, Dbl.fin_div_fin _ _ hs0.ne']⟩
  · obtain ⟨d, p, _, _, e1, e2, e3, hd, hp1, _, _, he1, _, _, hest⟩ :=
      Asian.runMC_estimate_lin3 L G paths steps seed antithetic
        (Asian.sampleDelta L ⟨⟨Dbl.fin s0, Dbl.fin r, Dbl.fin sg, Dbl.fin t0, Dbl.fin t⟩,
          pay, agg⟩ (Dbl.fin re * Dbl.fin s0) steps)
        (Asian.samplePrice L ⟨⟨Dbl.fin s0, Dbl.fin r, Dbl.fin sg, Dbl.fin t0, Dbl.fin t⟩,
          pay, agg⟩ steps)
        (Asian.samplePrice L ⟨⟨Dbl.fin s0, Dbl.fin r, Dbl.fin sg, Dbl.fin t0, Dbl.fin t⟩,
          pay, agg⟩ steps)
        (Asian.samplePrice L ⟨⟨Dbl.fin s0, Dbl.fin r, Dbl.fin sg, Dbl.fin t0, Dbl.fin t⟩,
          pay, agg⟩ steps)
        (fun Zs fl => sampleVal (Asian.samplePrice L
          ⟨⟨Dbl.fin s0, Dbl.fin r, Dbl.fin sg, Dbl.fin t0, Dbl.fin t⟩, pay, agg⟩ steps Zs fl))
        (fun Zs fl => sampleVal (Asian.samplePrice L
          ⟨⟨Dbl.fin s0, Dbl.fin r, Dbl.fin sg, Dbl.fin t0, Dbl.fin t⟩, pay, agg⟩ steps Zs fl))
        (fun Zs fl => sampleVal (Asian.samplePrice L
          ⟨⟨Dbl.fin s0, Dbl.fin r, Dbl.fin sg, Dbl.fin t0, Dbl.fin t⟩, pay, agg⟩ steps Zs fl))
        (1 / s0) 0 0
        (fun Zs fl hZ => by
          obtain ⟨v, _, hv, _⟩ := hsamples Zs fl hZ
          simp only [hv, sampleVal_ok])
        (fun Zs fl hZ => by
          obtain ⟨v, _, hv, _⟩ := hsamples Zs fl hZ
          simp only [hv, sampleVal_ok])
        (fun Zs fl hZ => by
          obtain ⟨v, _, hv, _⟩ := hsamples Zs fl hZ
          simp only [hv, sampleVal_ok])
        (fun Zs fl hZ => by
          obtain ⟨v, _, hv, hd, _⟩ := hsamples Zs fl hZ
          simp only [hd, hv, sampleVal_ok]
          congr 2
          ring)
        hp hs
    refine ⟨d, p, hd, hp1, ?_⟩
    rw [hest, he1, Dbl.fin_div_fin _ _ hs0.ne']
    congr 1
    ring

/-- Witness of claim C26 on the Scenario 1 lookback call with the default bump of `deltaMC`,
for the first draw vector of the run and `lambda = 2`. -/
theorem lookback_homogeneous_witness :
    (∀ x : ℝ, 0 < Real.exp x) ∧
    makeLookbackCall (Dbl.fin 100) (Dbl.fin 0.05) (Dbl.fin 0.2) (Dbl.fin 0) (Dbl.fin 1)
      = .ok (scenarioCall : opt.Asian ℝ) ∧
    Dbl.lt (Dbl.fin 0) (Asian.deltaRelEps : Dbl ℝ) = true ∧
    Dbl.lt (Asian.deltaRelEps : Dbl ℝ) (Dbl.fin 1) = true ∧
    (0 : Int) < 10000 ∧ (0 : Int) < 50 ∧
    IsDraw (50 : Int).toNat (Asian.drawZs (Gen.counter : Gen Nat ℝ) (50 : Int).toNat 42).1 ∧
    (0 : ℝ) < 2 ∧
    Asian.discountedPayoffFromZ (⟨Real.exp, Real.sqrt, Real.log⟩ : Libm ℝ) scenarioCall
        (Dbl.fin 2 * Dbl.fin 100) (Dbl.fin 0.05) (Dbl.fin 0.2) (Dbl.fin 0) (Dbl.fin 1) 50
        (Asian.drawZs (Gen.counter : Gen Nat ℝ) (50 : Int).toNat 42).1 false =
      Except.map (fun v => Dbl.fin 2 * v)
        (Asian.discountedPayoffFromZ (⟨Real.exp, Real.sqrt, Real.log⟩ : Libm ℝ) scenarioCall
          (Dbl.fin 100) (Dbl.fin 0.05) (Dbl.fin 0.2) (Dbl.fin 0) (Dbl.fin 1) 50
          (Asian.drawZs (Gen.counter : Gen Nat ℝ) (50 : Int).toNat 42).1 false) ∧
    ∃ d p : MCStats ℝ,
      Asian.deltaMC (⟨Real.exp, Real.sqrt, Real.log⟩ : Libm ℝ) Gen.counter scenarioCall
        10000 50 42 false Asian.deltaRelEps = .ok d ∧
      Asian.priceMC (⟨Real.exp, Real.sqrt, Real.log⟩ : Libm ℝ) Gen.counter scenarioCall
        10000 50 42 false = .ok p ∧
      d.estimate = p.estimate / Dbl.fin 100 := by
  have h0 : Dbl.lt (Dbl.fin 0) (Asian.deltaRelEps : Dbl ℝ) = true := by
    norm_num [Asian.deltaRelEps, Dbl.lt]
  have h1 : Dbl.lt (Asian.deltaRelEps : Dbl ℝ) (Dbl.fin 1) = true := by
    norm_num [Asian.deltaRelEps, Dbl.lt]
  have hZ := Asian.drawZs_isDraw (Gen.counter : Gen Nat ℝ) (50 : Int).toNat 42
  have h := lookback_homogeneous (⟨Real.exp, Real.sqrt, Real.log⟩ : Libm ℝ) Real.exp_pos
    Gen.counter (Dbl.fin 100) (Dbl.fin 0.05) (Dbl.fin 0.2) (Dbl.fin 0) (Dbl.fin 1)
    Asian.deltaRelEps scenarioCall (Or.inl makeLookbackCall_scenario) h0 h1 10000 50
    (by decide) (by decide) 42 false _ hZ false 2 (by norm_num)
  exact ⟨Real.exp_pos, makeLookbackCall_scenario, h0, h1, by decide, by decide, hZ,
    by norm_num, h.1, h.2.2⟩

/-- Claim C27: for the exported lookback call and put on valid market parameters,
`0 < relEps < 1`, `paths > 0`, `steps > 0`, every seed, every gamma sample
`(Pu - 2*Pm + Pd) / eps^2` on finite draws is exactly `0`; `gammaMC` returns estimate `0`,
standard error `0` and `ciLow = ciHigh = 0` without antithetic variates, and with antithetic
variates when `paths < 2^31 - 1`; at `paths = 2^31 - 1` with antithetic variates it returns
the estimate `0` with a not-a-number standard error and interval. -/
theorem Asian.gammaMC_zero {ρ : Type} (L : Libm α) (hexp : ∀ x, 0 < L.exp x)
    (hsqrt : L.sqrt 0 = 0) (G : Gen ρ α) (S0 R sigma T0 T relEps : Dbl α)
    (self : opt.Asian α)
    (hself : makeLookbackCall S0 R sigma T0 T = .ok self ∨
      makeLookbackPut S0 R sigma T0 T = .ok self)
    (hre0 : Dbl.lt (Dbl.fin 0) relEps = true) (hre1 : Dbl.lt relEps (Dbl.fin 1) = true)
    (paths steps : Int) (hp : 0 < paths) (hs : 0 < steps) (seed : Nat) (antithetic : Bool)
    (Zs : List (Dbl α)) (hZ : IsDraw steps.toNat Zs) (flip : Bool) :
    Asian.sampleGamma L self (relEps * self.S0_) steps Zs flip = .ok (Dbl.fin 0) ∧
    ((antithetic = true → paths < 2 ^ 31 - 1) →
      Asian.gammaMC L G self paths steps seed antithetic relEps =
        .ok ⟨Dbl.fin 0, Dbl.fin 0, Dbl.fin 0, Dbl.fin 0⟩) ∧
    Asian.gammaMC L G self 2147483647 steps seed true relEps =
      .ok ⟨Dbl.fin 0, Dbl.nan, Dbl.nan, Dbl.nan⟩ := by
  obtain ⟨s0, r, sg, t0, t, pay, agg, rfl, rfl, rfl, rfl, rfl, rfl, hs0, hsg, ht, hkind⟩ :=
    lookback_self hself
  obtain ⟨re, rfl, hre0', hre1'⟩ := Dbl.lt_zero_lt_one hre0 hre1
  have hk : (pay = PayoffCall ∧ agg = LookMin) ∨ (pay = PayoffPut ∧ agg = LookMax) :=
    hkind.imp (fun h => ⟨h.1, h.2.1⟩) (fun h => ⟨h.1, h.2.1⟩)
  have hsamples := fun Zs fl hZ => (lookback_greek_samples L hexp s0 r sg t0 t re hs0 ht.le
    hre0' hre1' pay agg hk steps hs Zs hZ fl).choose_spec.2.2.2
  refine ⟨hsamples Zs flip hZ, ?_, ?_⟩
  · intro hlt
    rw [Asian.gammaMC_eq_runMC]
    exact Asian.runMC_const_sample L hsqrt G paths steps seed antithetic _ 0 hsamples hp hs hlt
  · rw [Asian.gammaMC_eq_runMC]
    exact (Asian.runMC_int_max_eq L G steps seed _ hs).2

/-- Witness of claim C27 on the Scenario 1 lookback call with the default bump of `gammaMC`
(`paths = 10000`, `steps = 50`, `seed = 42`, no antithetic variates). -/
theorem Asian.gammaMC_zero_witness :
    (∀ x : ℝ, 0 < Real.exp x) ∧ Real.sqrt 0 = 0 ∧
    makeLookbackCall (Dbl.fin 100) (Dbl.fin 0.05) (Dbl.fin 0.2) (Dbl.fin 0) (Dbl.fin 1)
      = .ok (scenarioCall : opt.Asian ℝ) ∧
    Dbl.lt (Dbl.fin 0) (Asian.gammaRelEps : Dbl ℝ) = true ∧
    Dbl.lt (Asian.gammaRelEps : Dbl ℝ) (Dbl.fin 1) = true ∧
    (0 : Int) < 10000 ∧ (0 : Int) < 50 ∧
    IsDraw (50 : Int).toNat (Asian.drawZs (Gen.counter : Gen Nat ℝ) (50 : Int).toNat 42).1 ∧
    Asian.gammaMC (⟨Real.exp, Real.sqrt, Real.log⟩ : Libm ℝ) Gen.counter scenarioCall
      10000 50 42 false Asian.gammaRelEps = .ok ⟨Dbl.fin 0, Dbl.fin 0, Dbl.fin 0, Dbl.fin 0⟩ ∧
    Asian.gammaMC (⟨Real.exp, Real.sqrt, Real.log⟩ : Libm ℝ) Gen.counter scenarioCall
      2147483647 50 42 true Asian.gammaRelEps = .ok ⟨Dbl.fin 0, Dbl.nan, Dbl.nan, Dbl.nan⟩ := by
  have h0 : Dbl.lt (Dbl.fin 0) (Asian.gammaRelEps : Dbl ℝ) = true := by
    norm_num [Asian.gammaRelEps, Dbl.lt]
  have h1 : Dbl.lt (Asian.gammaRelEps : Dbl ℝ) (Dbl.fin 1) = true := by
    norm_num [Asian.gammaRelEps, Dbl.lt]
  have hZ := Asian.drawZs_isDraw (Gen.counter : Gen Nat ℝ) (50 : Int).toNat 42
  have h := Asian.gammaMC_zero (⟨Real.exp, Real.sqrt, Real.log⟩ : Libm ℝ) Real.exp_pos
    Real.sqrt_zero Gen.counter (Dbl.fin 100) (Dbl.fin 0.05) (Dbl.fin 0.2) (Dbl.fin 0)
    (Dbl.fin 1) Asian.gammaRelEps scenarioCall (Or.inl makeLookbackCall_scenario) h0 h1
    10000 50 (by decide) (by decide) 42 false _ hZ false
  exact ⟨Real.exp_pos, Real.sqrt_zero, makeLookbackCall_scenario, h0, h1, by decide,
    by decide, hZ, h.2.1 (by simp), h.2.2⟩

/-! ### C29: sign-flipped draws and negated volatility -/

theorem Dbl.neg_mulInf (a : α) : Dbl.neg (Dbl.mulInf a) = Dbl.mulInf (-a) := by
  rcases lt_trichotomy 0 a with h | h | h
  · have h1 : ¬ (0 : α) < -a := by linarith
    have h2 : -a < 0 := by linarith
    simp [Dbl.mulInf, h, h1, h2, Dbl.neg]
  · subst h
    simp [Dbl.mulInf, Dbl.neg]
  · have h1 : (0 : α) < -a := by linarith
    have h2 : ¬ (0 : α) < a := by linarith
    simp [Dbl.mulInf, h, h1, h2, Dbl.neg]

theorem Dbl.neg_mulInf_neg (a : α) : Dbl.neg (Dbl.mulInf (-a)) = Dbl.mulInf a := by
  rw [Dbl.neg_mulInf, neg_neg]

theorem Dbl.neg_neg_eq (x : Dbl α) : -(-x) = x := by
  cases x <;> simp [Dbl.neg_def, Dbl.neg]

theorem Dbl.neg_mul_eq (x y : Dbl α) : (-x) * y = -(x * y) := by
  cases x <;> cases y <;> simp [Dbl.neg_def, Dbl.mul_def, Dbl.neg, Dbl.mul] <;>
    first
    | exact (Dbl.neg_mulInf _).symm
    | exact (Dbl.neg_mulInf_neg _).symm

theorem Dbl.mul_neg_eq (x y : Dbl α) : x * (-y) = -(x * y) := by
  cases x <;> cases y <;> simp [Dbl.neg_def, Dbl.mul_def, Dbl.neg, Dbl.mul] <;>
    first
    | exact (Dbl.neg_mulInf _).symm
    | exact (Dbl.neg_mulInf_neg _).symm


/-- One iteration of the path loop with sign-flipped draws is the iteration with the negated
volatility and the draws as they are, on all doubles. -/
theorem Asian.pathStep_flip (L : Libm α) (self : opt.Asian α) (R sigma dt : Dbl α)
    (Zs : List (Dbl α)) (p : Dbl α × Dbl α) (j : Nat) :
    Asian.pathStep L self R sigma dt Zs true p j =
      Asian.pathStep L self R (-sigma) dt Zs false p j := by
  have h1 : Dbl.fin 0.5 * (-sigma) * (-sigma) = Dbl.fin 0.5 * sigma * sigma := by
    rw [Dbl.mul_neg_eq, Dbl.mul_neg_eq, Dbl.neg_mul_eq, Dbl.neg_neg_eq]
  have h2 : ∀ z : Dbl α, (-sigma) * Dbl.sqrt L dt * z = sigma * Dbl.sqrt L dt * (-z) := by
    intro z
    rw [Dbl.neg_mul_eq, Dbl.neg_mul_eq, Dbl.mul_neg_eq]
  simp only [Asian.pathStep, if_true, Bool.false_eq_true, if_false, h1, h2]

theorem Asian.discountedPayoffFromZ_flip (L : Libm α) (self : opt.Asian α)
    (S0 R sigma T0 T : Dbl α) (steps : Int) (Zs : List (Dbl α)) :
    Asian.discountedPayoffFromZ L self S0 R sigma T0 T steps Zs true =
      Asian.discountedPayoffFromZ L self S0 R (-sigma) T0 T steps Zs false := by
  have hfun : Asian.pathStep L self R sigma ((T - T0) / Dbl.ofInt steps) Zs true =
      Asian.pathStep L self R (-sigma) ((T - T0) / Dbl.ofInt steps) Zs false := by
    funext p j
    exact Asian.pathStep_flip L self R sigma _ Zs p j
  simp only [Asian.discountedPayoffFromZ, hfun]

/-- An estimator whose pushed values (the samples, or the pair averages in the antithetic
branch) are all the same finite value `v` returns `v` with standard error `0`, as soon as it
pushes a sample. -/
theorem Asian.runMC_const_pushed {ρ : Type} (L : Libm α) (hsqrt : L.sqrt 0 = 0) (G : Gen ρ α)
    (paths steps : Int) (seed : Nat) (antithetic : Bool)
    (sampleFn : List (Dbl α) → Bool → Except Err (Dbl α)) (f : List (Dbl α) → Bool → α)
    (v : α) (hf : ∀ Zs b, IsDraw steps.toNat Zs → sampleFn Zs b = .ok (Dbl.fin (f Zs b)))
    (hv : ∀ Zs, IsDraw steps.toNat Zs → pushed antithetic f Zs = v)
    (hp : 0 < paths) (hs : 0 < steps) (hlt : antithetic = true → paths < 2 ^ 31 - 1) :
    Asian.runMC L G paths steps seed antithetic sampleFn =
      .ok ⟨Dbl.fin v, Dbl.fin 0, Dbl.fin v, Dbl.fin v⟩ := by
  have hfin : ∀ n : Nat, 0 < n →
      Option.makeCI95 (Dbl.fin (meanOf (List.replicate n v)))
        (Dbl.fin (L.sqrt ((if 1 < (List.replicate n v).length then
          sumSqDev (List.replicate n v) / (((List.replicate n v).length : α) - 1)
            else 0) / ((List.replicate n v).length : α)))) =
      (⟨Dbl.fin v, Dbl.fin 0, Dbl.fin v, Dbl.fin v⟩ : MCStats α) := by
    intro n hn
    rw [meanOf_replicate n hn, sumSqDev_replicate n hn]
    simp [Option.makeCI95, hsqrt]
  cases antithetic with
  | false =>
    have hloop := Asian.plain_branch_eq G paths steps seed sampleFn f hf
    have hn : 0 < paths.toNat := by omega
    have hxs : (drawBlocks G steps.toNat paths.toNat (G.seed seed)).map
        (fun Zs => f Zs false) = List.replicate paths.toNat v := by
      rw [map_const_eq_replicate _ _ v (fun Zs hZs => by
        have := hv Zs (drawBlocks_isDraw G _ _ _ Zs hZs)
        simpa [pushed] using this), drawBlocks_length]
    rw [hxs] at hloop
    have hne : List.replicate paths.toNat v ≠ [] := by
      intro h; have := congrArg List.length h; simp at this; omega
    rw [Asian.runMC_eq_of_fin_samples L G paths steps seed false sampleFn hp hs
      (List.replicate paths.toNat v) hne (by simpa using hloop), hfin _ hn]
  | true =>
    have hlt' := hlt rfl
    have hloop := Asian.antithetic_branch_eq G paths steps seed sampleFn f hf hp hlt'
    have hn : 0 < (paths.toNat + 1) / 2 := by omega
    have hxs : (drawBlocks G steps.toNat ((paths.toNat + 1) / 2) (G.seed seed)).map
        (fun Zs => 0.5 * (f Zs false + f Zs true)) =
        List.replicate ((paths.toNat + 1) / 2) v := by
      rw [map_const_eq_replicate _ _ v (fun Zs hZs => by
        have := hv Zs (drawBlocks_isDraw G _ _ _ Zs hZs)
        simpa [pushed] using this), drawBlocks_length]
    rw [hxs] at hloop
    have hne : List.replicate ((paths.toNat + 1) / 2) v ≠ [] := by
      intro h; have := congrArg List.length h; simp at this; omega
    rw [Asian.runMC_eq_of_fin_samples L G paths steps seed true sampleFn hp hs
      (List.replicate ((paths.toNat + 1) / 2) v) hne (by simpa using hloop), hfin _ hn]


/-- At `sigma = 0` the vega sample of a path and the vega sample of its sign-flipped twin are
opposite finite values, for an option whose strategies keep finite values finite. -/
theorem Asian.sampleVega_sigma_zero (L : Libm α) (hexp : ∀ x, 0 < L.exp x)
    (s0 r t0 t e : α) (hs0 : 0 < s0) (ht : t0 ≤ t) (he : e ≠ 0)
    (pay : Dbl α → Dbl α → Except Err (Dbl α)) (agg : Dbl α → Dbl α → Dbl α → Dbl α)
    (hfs : FinStrategies ⟨⟨Dbl.fin s0, Dbl.fin r, Dbl.fin 0, Dbl.fin t0, Dbl.fin t⟩, pay, agg⟩)
    (steps : Int) (hs : 0 < steps) (Zs : List (Dbl α)) (hZ : IsDraw steps.toNat Zs)
    (flip : Bool) :
    Asian.sampleVega L ⟨⟨Dbl.fin s0, Dbl.fin r, Dbl.fin 0, Dbl.fin t0, Dbl.fin t⟩, pay, agg⟩
        (Dbl.fin e) steps Zs flip =
      .ok (Dbl.fin ((sampleVal (Asian.discountedPayoffFromZ L
          ⟨⟨Dbl.fin s0, Dbl.fin r, Dbl.fin 0, Dbl.fin t0, Dbl.fin t⟩, pay, agg⟩
          (Dbl.fin s0) (Dbl.fin r) (Dbl.fin e) (Dbl.fin t0) (Dbl.fin t) steps Zs flip) -
        sampleVal (Asian.discountedPayoffFromZ L
          ⟨⟨Dbl.fin s0, Dbl.fin r, Dbl.fin 0, Dbl.fin t0, Dbl.fin t⟩, pay, agg⟩
          (Dbl.fin s0) (Dbl.fin r) (Dbl.fin e) (Dbl.fin t0) (Dbl.fin t) steps Zs (!flip))) /
        (2 * e))) := by
  have hA := fun fl => Asian.sample_fin L hexp
    ⟨⟨Dbl.fin s0, Dbl.fin r, Dbl.fin 0, Dbl.fin t0, Dbl.fin t⟩, pay, agg⟩ hfs s0 r e t0 t hs0
    ht steps hs Zs hZ fl
  have hneg : (Dbl.fin (-e) : Dbl α) = -(Dbl.fin e) := (Dbl.neg_fin e).symm
  have hdown : Asian.discountedPayoffFromZ L
      ⟨⟨Dbl.fin s0, Dbl.fin r, Dbl.fin 0, Dbl.fin t0, Dbl.fin t⟩, pay, agg⟩
      (Dbl.fin s0) (Dbl.fin r) (Dbl.fin (-e)) (Dbl.fin t0) (Dbl.fin t) steps Zs flip =
      Asian.discountedPayoffFromZ L
        ⟨⟨Dbl.fin s0, Dbl.fin r, Dbl.fin 0, Dbl.fin t0, Dbl.fin t⟩, pay, agg⟩
        (Dbl.fin s0) (Dbl.fin r) (Dbl.fin e) (Dbl.fin t0) (Dbl.fin t) steps Zs (!flip) := by
    cases flip with
    | false =>
      rw [hneg]
      exact (Asian.discountedPayoffFromZ_flip L _ _ _ _ _ _ steps Zs).symm
    | true =>
      rw [Asian.discountedPayoffFromZ_flip, Dbl.neg_fin, neg_neg]
      rfl
  have h2e : (2 : α) * e ≠ 0 := mul_ne_zero two_ne_zero he
  simp only [Asian.sampleVega, Dbl.fin_add_fin, Dbl.fin_sub_fin, zero_add, zero_sub, hdown]
  rw [hA flip, hA (!flip)]
  simp only [sampleVal_ok, Dbl.fin_sub_fin, Dbl.fin_mul_fin, Dbl.fin_div_fin _ _ h2e]

/-- Claim C29: on all doubles, `discountedPayoffFromZ` with `flip = true` is
`discountedPayoffFromZ` with the volatility `-sigma` and `flip = false`, for every option,
`S0`, `R`, `sigma`, `T0`, `T`, `steps` and `Zs`. Consequently, for the exported lookback call
and put at `sigma = 0` and a finite bump `eps != 0`, the two vega samples of a pair are
opposite finite values, and with antithetic variates `vegaMC` returns estimate `0` with
standard error `0` when `0 < paths < 2^31 - 1`; at `paths = 2^31 - 1` it returns the estimate
`0` with a not-a-number standard error and interval. -/
theorem Asian.flip_eq_neg_sigma {ρ : Type} (L : Libm α) (hexp : ∀ x, 0 < L.exp x)
    (hsqrt : L.sqrt 0 = 0) (G : Gen ρ α) (other : opt.Asian α) (S0 R sigma T0 T : Dbl α)
    (n : Int) (Ws : List (Dbl α)) (s0 r t0 t e : α) (hs0 : 0 < s0) (ht : t0 < t) (he : e ≠ 0)
    (pay : Dbl α → Dbl α → Except Err (Dbl α)) (agg : Dbl α → Dbl α → Dbl α → Dbl α)
    (hkind : (pay = PayoffCall ∧ agg = LookMin) ∨ (pay = PayoffPut ∧ agg = LookMax))
    (paths steps : Int) (hp : 0 < paths) (hs : 0 < steps) (seed : Nat)
    (Zs : List (Dbl α)) (hZ : IsDraw steps.toNat Zs) :
    Asian.discountedPayoffFromZ L other S0 R sigma T0 T n Ws true =
      Asian.discountedPayoffFromZ L other S0 R (-sigma) T0 T n Ws false ∧
    (∃ x : α,
      Asian.sampleVega L ⟨⟨Dbl.fin s0, Dbl.fin r, Dbl.fin 0, Dbl.fin t0, Dbl.fin t⟩, pay, agg⟩
        (Dbl.fin e) steps Zs false = .ok (Dbl.fin x) ∧
      Asian.sampleVega L ⟨⟨Dbl.fin s0, Dbl.fin r, Dbl.fin 0, Dbl.fin t0, Dbl.fin t⟩, pay, agg⟩
        (Dbl.fin e) steps Zs true = .ok (Dbl.fin (-x))) ∧
    (paths < 2 ^ 31 - 1 →
      Asian.vegaMC L G ⟨⟨Dbl.fin s0, Dbl.fin r, Dbl.fin 0, Dbl.fin t0, Dbl.fin t⟩, pay, agg⟩
        paths steps seed true (Dbl.fin e) =
        .ok ⟨Dbl.fin 0, Dbl.fin 0, Dbl.fin 0, Dbl.fin 0⟩) ∧
    Asian.vegaMC L G ⟨⟨Dbl.fin s0, Dbl.fin r, Dbl.fin 0, Dbl.fin t0, Dbl.fin t⟩, pay, agg⟩
        2147483647 steps seed true (Dbl.fin e) =
      .ok ⟨Dbl.fin 0, Dbl.nan, Dbl.nan, Dbl.nan⟩ := by
  have hfs := FinStrategies_of_pair ⟨Dbl.fin s0, Dbl.fin r, Dbl.fin 0, Dbl.fin t0, Dbl.fin t⟩
    pay agg hkind
  have hV := fun Zs fl hZ => Asian.sampleVega_sigma_zero L hexp s0 r t0 t e hs0 ht.le he pay
    agg hfs steps hs Zs hZ fl
  have h2e : (2 : α) * e ≠ 0 := mul_ne_zero two_ne_zero he
  refine ⟨Asian.discountedPayoffFromZ_flip L other S0 R sigma T0 T n Ws, ⟨_, hV Zs false hZ, ?_⟩,
    ?_, ?_⟩
  · rw [hV Zs true hZ]
    congr 2
    simp only [Bool.not_true, Bool.not_false]
    rw [← neg_div, neg_sub]
  · intro hlt
    rw [Asian.vegaMC_eq_runMC]
    refine Asian.runMC_const_pushed L hsqrt G paths steps seed true _ _ 0 hV ?_ hp hs
      (fun _ => hlt)
    intro Zs _
    simp only [pushed, if_true, Bool.not_true, Bool.not_false]
    rw [← add_div, sub_add_sub_cancel, sub_self, zero_div, mul_zero]
  · rw [Asian.vegaMC_eq_runMC]
    exact (Asian.runMC_int_max_eq L G steps seed _ hs).2


/-- Witness of claim C29 on the Scenario 1 lookback call with `sigma = 0` and the default
bump of `vegaMC` (`paths = 10000`, `steps = 50`, `seed = 42`, antithetic variates). -/
theorem Asian.flip_eq_neg_sigma_witness :
    (∀ x : ℝ, 0 < Real.exp x) ∧ Real.sqrt 0 = 0 ∧ (0 : ℝ) < 100 ∧ (0 : ℝ) < 1 ∧
    (1e-4 : ℝ) ≠ 0 ∧ (0 : Int) < 10000 ∧ (0 : Int) < 50 ∧
    IsDraw (50 : Int).toNat (Asian.drawZs (Gen.counter : Gen Nat ℝ) (50 : Int).toNat 42).1 ∧
    (10000 : Int) < 2 ^ 31 - 1 ∧
    Asian.discountedPayoffFromZ (⟨Real.exp, Real.sqrt, Real.log⟩ : Libm ℝ) scenarioCall
        (Dbl.fin 100) (Dbl.fin 0.05) (Dbl.fin 0.2) (Dbl.fin 0) (Dbl.fin 1) 50
        (Asian.drawZs (Gen.counter : Gen Nat ℝ) (50 : Int).toNat 42).1 true =
      Asian.discountedPayoffFromZ (⟨Real.exp, Real.sqrt, Real.log⟩ : Libm ℝ) scenarioCall
        (Dbl.fin 100) (Dbl.fin 0.05) (-Dbl.fin 0.2) (Dbl.fin 0) (Dbl.fin 1) 50
        (Asian.drawZs (Gen.counter : Gen Nat ℝ) (50 : Int).toNat 42).1 false ∧
    Asian.vegaMC (⟨Real.exp, Real.sqrt, Real.log⟩ : Libm ℝ) Gen.counter risklessCall
      10000 50 42 true Asian.vegaEps = .ok ⟨Dbl.fin 0, Dbl.fin 0, Dbl.fin 0, Dbl.fin 0⟩ ∧
    Asian.vegaMC (⟨Real.exp, Real.sqrt, Real.log⟩ : Libm ℝ) Gen.counter risklessCall
      2147483647 50 42 true Asian.vegaEps = .ok ⟨Dbl.fin 0, Dbl.nan, Dbl.nan, Dbl.nan⟩ := by
  have hZ := Asian.drawZs_isDraw (Gen.counter : Gen Nat ℝ) (50 : Int).toNat 42
  have h := Asian.flip_eq_neg_sigma (⟨Real.exp, Real.sqrt, Real.log⟩ : Libm ℝ) Real.exp_pos
    Real.sqrt_zero Gen.counter scenarioCall (Dbl.fin 100) (Dbl.fin 0.05) (Dbl.fin 0.2)
    (Dbl.fin 0) (Dbl.fin 1) 50 (Asian.drawZs (Gen.counter : Gen Nat ℝ) (50 : Int).toNat 42).1
    100 0.05 0 1 1e-4 (by norm_num) (by norm_num) (by norm_num) PayoffCall LookMin
    (Or.inl ⟨rfl, rfl⟩) 10000 50 (by decide) (by decide) 42 _ hZ
  exact ⟨Real.exp_pos, Real.sqrt_zero, by norm_num, by norm_num, by norm_num, by decide,
    by decide, hZ, by norm_num, h.1, h.2.2.1 (by norm_num), h.2.2.2⟩

/-! ### C30: the terminal price in closed form -/

theorem drawSum_succ (Zs : List (Dbl α)) (flip : Bool) (n : Nat) :
    drawSum Zs flip (n + 1) = drawSum Zs flip n + (pathZ Zs flip n).val := by
  simp only [drawSum, List.range_succ, List.map_append, List.sum_append, List.map_cons,
    List.map_nil, List.sum_cons, List.sum_nil, add_zero]

/-- Over the reals the price after `n` steps is
`S0 * exp(n * (r - sg^2/2) * dt + sg * sqrt(dt) * (z_0 + ... + z_{n-1}))`. -/
theorem finS_closed (s0 r sg d : ℝ) (Zs : List (Dbl ℝ)) (flip : Bool) (n : Nat) :
    finS (⟨Real.exp, Real.sqrt, Real.log⟩ : Libm ℝ) s0 r sg d Zs flip n =
      s0 * Real.exp ((n : ℝ) * ((r - sg ^ 2 / 2) * d) +
        sg * Real.sqrt d * drawSum Zs flip n) := by
  induction n with
  | zero => simp [finS, drawSum]
  | succ n ih =>
    rw [finS, ih, drawSum_succ, mul_assoc, ← Real.exp_add]
    congr 2
    push_cast
    ring

/-- Claim C30, as amended: over the reals (exact arithmetic, without rounding or underflow), for
finite `S0`, `R`, `sigma`, `T0 < T`, `steps > 0`, finite draws `Zs` and either `flip`, the terminal
price reached by the step-by-step loop of `discountedPayoffFromZ` is `S0 * exp((R - sigma^2/2)*(T -
T0) + sigma*sqrt((T-T0)/steps) * (z_0 + ... + z_{steps-1}))` with `z_j = -Zs[j]` if `flip` else
`Zs[j]`, whatever the payoff and the aggregator; it is strictly positive when `S0 > 0`; and two draw
vectors with the same sum give the same terminal price. (In IEEE doubles the terminal price can
underflow to `0` and depends on the order of the draws.) -/
theorem Asian.terminal_price_closed_form (self : opt.Asian ℝ) (s0 r sg t0 t : ℝ)
    (ht : t0 < t) (steps : Int) (hs : 0 < steps) (Zs Ws : List (Dbl ℝ))
    (hZ : IsDraw steps.toNat Zs) (hW : IsDraw steps.toNat Ws) (flip : Bool) :
    ((List.range steps.toNat).foldl
        (Asian.pathStep (⟨Real.exp, Real.sqrt, Real.log⟩ : Libm ℝ) self (Dbl.fin r)
          (Dbl.fin sg) ((Dbl.fin t - Dbl.fin t0) / Dbl.ofInt steps) Zs flip)
        (Dbl.fin s0, Dbl.fin s0)).1 =
      Dbl.fin (s0 * Real.exp ((r - sg ^ 2 / 2) * (t - t0) +
        sg * Real.sqrt ((t - t0) / (steps : ℝ)) * drawSum Zs flip steps.toNat)) ∧
    (0 < s0 → 0 < s0 * Real.exp ((r - sg ^ 2 / 2) * (t - t0) +
        sg * Real.sqrt ((t - t0) / (steps : ℝ)) * drawSum Zs flip steps.toNat)) ∧
    (drawSum Zs flip steps.toNat = drawSum Ws flip steps.toNat →
      ((List.range steps.toNat).foldl
        (Asian.pathStep (⟨Real.exp, Real.sqrt, Real.log⟩ : Libm ℝ) self (Dbl.fin r)
          (Dbl.fin sg) ((Dbl.fin t - Dbl.fin t0) / Dbl.ofInt steps) Zs flip)
        (Dbl.fin s0, Dbl.fin s0)).1 =
      ((List.range steps.toNat).foldl
        (Asian.pathStep (⟨Real.exp, Real.sqrt, Real.log⟩ : Libm ℝ) self (Dbl.fin r)
          (Dbl.fin sg) ((Dbl.fin t - Dbl.fin t0) / Dbl.ofInt steps) Ws flip)
        (Dbl.fin s0, Dbl.fin s0)).1) := by
  have hsteps : (0 : ℝ) < (steps : ℝ) := by exact_mod_cast hs
  have hdt : (Dbl.fin t - Dbl.fin t0 : Dbl ℝ) / Dbl.ofInt steps =
      Dbl.fin ((t - t0) / (steps : ℝ)) := by
    rw [Dbl.fin_sub_fin, Dbl.ofInt, Dbl.fin_div_fin _ _ hsteps.ne']
  have hd : 0 ≤ (t - t0) / (steps : ℝ) := div_nonneg (sub_nonneg.2 ht.le) hsteps.le
  have hn : ((steps.toNat : Nat) : ℝ) = (steps : ℝ) := by
    have : ((steps.toNat : Nat) : Int) = steps := Int.toNat_of_nonneg hs.le
    exact_mod_cast this
  have hclosed : ∀ Vs : List (Dbl ℝ), IsDraw steps.toNat Vs →
      ((List.range steps.toNat).foldl
        (Asian.pathStep (⟨Real.exp, Real.sqrt, Real.log⟩ : Libm ℝ) self (Dbl.fin r)
          (Dbl.fin sg) ((Dbl.fin t - Dbl.fin t0) / Dbl.ofInt steps) Vs flip)
        (Dbl.fin s0, Dbl.fin s0)).1 =
      Dbl.fin (s0 * Real.exp ((r - sg ^ 2 / 2) * (t - t0) +
        sg * Real.sqrt ((t - t0) / (steps : ℝ)) * drawSum Vs flip steps.toNat)) := by
    intro Vs hV
    have hmul : (steps : ℝ) * ((r - sg ^ 2 / 2) * ((t - t0) / (steps : ℝ))) =
        (r - sg ^ 2 / 2) * (t - t0) := by
      field_simp
      ring
    rw [hdt, Asian.pathLoop_eq, pathS_eq_finS _ s0 r sg _ hd steps.toNat Vs hV flip _ le_rfl,
      finS_closed, hn, hmul]
  refine ⟨hclosed Zs hZ, fun h => mul_pos h (Real.exp_pos _), ?_⟩
  intro hsum
  rw [hclosed Zs hZ, hclosed Ws hW, hsum]

/-- Witness of claim C30 on the Scenario 1 parameters with two steps: the draw vectors
`(1, 2)` and `(2, 1)` have the same sum. -/
theorem Asian.terminal_price_closed_form_witness :
    (0 : ℝ) < 1 ∧ (0 : Int) < 2 ∧
    IsDraw (2 : Int).toNat [(Dbl.fin 1 : Dbl ℝ), Dbl.fin 2] ∧
    IsDraw (2 : Int).toNat [(Dbl.fin 2 : Dbl ℝ), Dbl.fin 1] ∧
    drawSum [(Dbl.fin 1 : Dbl ℝ), Dbl.fin 2] false (2 : Int).toNat =
      drawSum [(Dbl.fin 2 : Dbl ℝ), Dbl.fin 1] false (2 : Int).toNat ∧
    ((List.range (2 : Int).toNat).foldl
        (Asian.pathStep (⟨Real.exp, Real.sqrt, Real.log⟩ : Libm ℝ) scenarioCall (Dbl.fin 0.05)
          (Dbl.fin 0.2) ((Dbl.fin 1 - Dbl.fin 0) / Dbl.ofInt 2) [Dbl.fin 1, Dbl.fin 2] false)
        (Dbl.fin 100, Dbl.fin 100)).1 =
      ((List.range (2 : Int).toNat).foldl
        (Asian.pathStep (⟨Real.exp, Real.sqrt, Real.log⟩ : Libm ℝ) scenarioCall (Dbl.fin 0.05)
          (Dbl.fin 0.2) ((Dbl.fin 1 - Dbl.fin 0) / Dbl.ofInt 2) [Dbl.fin 2, Dbl.fin 1] false)
        (Dbl.fin 100, Dbl.fin 100)).1 := by
  have h1 : IsDraw (2 : Int).toNat [(Dbl.fin 1 : Dbl ℝ), Dbl.fin 2] := by
    refine ⟨rfl, ?_⟩
    intro z hz
    simp only [List.mem_cons, List.mem_singleton, List.not_mem_nil, or_false] at hz
    rcases hz with rfl | rfl <;> rfl
  have h2 : IsDraw (2 : Int).toNat [(Dbl.fin 2 : Dbl ℝ), Dbl.fin 1] := by
    refine ⟨rfl, ?_⟩
    intro z hz
    simp only [List.mem_cons, List.mem_singleton, List.not_mem_nil, or_false] at hz
    rcases hz with rfl | rfl <;> rfl
  have hsum : drawSum [(Dbl.fin 1 : Dbl ℝ), Dbl.fin 2] false (2 : Int).toNat =
      drawSum [(Dbl.fin 2 : Dbl ℝ), Dbl.fin 1] false (2 : Int).toNat := by
    have h : (2 : Int).toNat = 2 := rfl
    rw [h]
    simp only [drawSum, List.range_succ, List.range_zero, List.nil_append, List.map_append,
      List.map_cons, List.map_nil, List.sum_append, List.sum_cons, List.sum_nil, pathZ,
      Bool.false_eq_true, if_false, List.getD_cons_zero, List.getD_cons_succ, Dbl.val]
    ring
  exact ⟨by norm_num, by decide, h1, h2, hsum,
    (Asian.terminal_price_closed_form scenarioCall 100 0.05 0.2 0 1 (by norm_num) 2
      (by decide) _ _ h1 h2 false).2.2 hsum⟩

/-! ### Rounded arithmetic: facts that hold for every rounding -/

theorem Dbl.lt_self (a : Dbl α) : Dbl.lt a a = false := by
  cases a <;> simp [Dbl.lt]

/-- The maximum of two doubles is never below the second. -/
theorem Dbl.lt_max_right (a b : Dbl α) : Dbl.lt (Dbl.max a b) b = false := by
  unfold Dbl.max
  split_ifs with h
  · exact Dbl.lt_self b
  · simpa using h

/-- The maximum with a double that is not below zero is not below zero. -/
theorem Dbl.notNeg_max_left {a : Dbl α} (ha : a.notNeg) (b : Dbl α) :
    (Dbl.max a b).notNeg := by
  unfold Dbl.max
  split_ifs with h
  · cases a <;> cases b <;> simp_all [Dbl.notNeg, Dbl.lt]
    exact le_of_lt (lt_of_le_of_lt ha h)
  · exact ha

theorem Fp.add_zeroOrNan (M : Fpu α) (hM : M.Sound) {x y : Dbl α}
    (hx : x = Dbl.fin 0 ∨ x = Dbl.nan) (hy : y = Dbl.fin 0 ∨ y = Dbl.nan) :
    Fp.add M x y = Dbl.fin 0 ∨ Fp.add M x y = Dbl.nan := by
  rcases hx with rfl | rfl <;> rcases hy with rfl | rfl
  · left
    show Fp.round M (Dbl.add (Dbl.fin 0) (Dbl.fin 0)) = _
    simp [Dbl.add, Fp.round, hM.1]
  · right; rfl
  · right; rfl
  · right; rfl

theorem Fp.mul_zeroOrNan (M : Fpu α) (hM : M.Sound) (c : Dbl α) {y : Dbl α}
    (hy : y = Dbl.fin 0 ∨ y = Dbl.nan) :
    Fp.mul M c y = Dbl.fin 0 ∨ Fp.mul M c y = Dbl.nan := by
  rcases hy with rfl | rfl
  · cases c with
    | fin a =>
      left
      show Fp.round M (Dbl.mul (Dbl.fin a) (Dbl.fin 0)) = _
      simp [Dbl.mul, Fp.round, hM.1]
    | pinf =>
      right
      show Fp.round M (Dbl.mul Dbl.pinf (Dbl.fin 0)) = _
      simp [Dbl.mul, Dbl.mulInf, Fp.round]
    | ninf =>
      right
      show Fp.round M (Dbl.mul Dbl.ninf (Dbl.fin 0)) = _
      simp [Dbl.mul, Dbl.mulInf, Fp.round]
    | nan => right; rfl
  · right
    cases c <;> rfl

theorem Fp.div_zeroOrNan (M : Fpu α) (hM : M.Sound) {x : Dbl α} (b : α) (hb : b ≠ 0)
    (hx : x = Dbl.fin 0 ∨ x = Dbl.nan) :
    Fp.div M x (Dbl.fin b) = Dbl.fin 0 ∨ Fp.div M x (Dbl.fin b) = Dbl.nan := by
  rcases hx with rfl | rfl
  · left
    show Fp.round M (Dbl.div (Dbl.fin 0) (Dbl.fin b)) = _
    simp [Dbl.div, hb, Fp.round, hM.1]
  · right; rfl

/-- The rounded call payoff on a strike that is not below zero and not below the price is `0`,
or `NaN` when the difference is not a number. -/
theorem Fp.PayoffCall_zeroOrNan (M : Fpu α) (hM : M.Sound) (S K : Dbl α) (hK : K.notNeg)
    (hSK : Dbl.lt K S = false) :
    Fp.PayoffCall M S K = .ok (Dbl.fin 0) ∨ Fp.PayoffCall M S K = .ok Dbl.nan := by
  unfold Dbl.notNeg at hK
  have hd : Dbl.lt (Dbl.fin 0) (Fp.sub M S K) = false := by
    show Dbl.lt (Dbl.fin 0) (Fp.round M (Dbl.add S (Dbl.neg K))) = false
    cases S <;> cases K <;> simp_all [Dbl.add, Dbl.neg, Dbl.lt, Fp.round]
    rename_i s k
    have := hM.2.2.1 (s + -k) (by linarith)
    simpa [Dbl.lt] using this
  have hmax : Dbl.max (Fp.sub M S K) (Dbl.fin 0) = Dbl.fin 0 ∨
      Dbl.max (Fp.sub M S K) (Dbl.fin 0) = Dbl.nan := by
    generalize Fp.sub M S K = d at hd
    cases d with
    | fin y =>
      have hy : y ≤ 0 := by simpa [Dbl.lt] using hd
      left
      unfold Dbl.max
      rcases lt_or_eq_of_le hy with h | h
      · simp [Dbl.lt, h]
      · simp [Dbl.lt, h]
    | pinf => simp [Dbl.lt] at hd
    | ninf => left; simp [Dbl.max, Dbl.lt]
    | nan => right; simp [Dbl.max, Dbl.lt]
  rcases hmax with h | h
  · left; simp only [Fp.PayoffCall, hK, Bool.false_eq_true, if_false, h]; rfl
  · right; simp only [Fp.PayoffCall, hK, Bool.false_eq_true, if_false, h]; rfl

/-- One iteration of the `payoffBB` loop with the running maximum leaves an aggregate that is
not below the new price, and not below zero when it was not before. -/
theorem Fp.payoffBBStep_LookMax_rnd (M : Fpu α) (self : opt.Asian α)
    (hagg : self.aggregator_ = LookMax) (dt s2dt : Dbl α) (Zs Umax Umin : List (Dbl α))
    (flip : Bool) (p : Dbl α × Dbl α × Dbl α) (j : Nat) (hp : p.2.1.notNeg) :
    Dbl.lt (Fp.payoffBBStep M self dt s2dt Zs Umax Umin flip p j).2.1
        (Fp.payoffBBStep M self dt s2dt Zs Umax Umin flip p j).1 = false ∧
      (Fp.payoffBBStep M self dt s2dt Zs Umax Umin flip p j).2.1.notNeg := by
  simp only [Fp.payoffBBStep, hagg, LookMax]
  exact ⟨Dbl.lt_max_right _ _,
    Dbl.notNeg_max_left (Dbl.notNeg_max_left (Dbl.notNeg_max_left hp _) _) _⟩

/-- The `payoffBB` loop with the running maximum ends on an aggregate that is not below the
final price nor below zero. -/
theorem Fp.payoffBBLoop_LookMax_rnd (M : Fpu α) (self : opt.Asian α)
    (hagg : self.aggregator_ = LookMax) (dt s2dt : Dbl α) (Zs Umax Umin : List (Dbl α))
    (flip : Bool) (js : List Nat) (p : Dbl α × Dbl α × Dbl α)
    (hp : Dbl.lt p.2.1 p.1 = false ∧ p.2.1.notNeg) :
    Dbl.lt (js.foldl (Fp.payoffBBStep M self dt s2dt Zs Umax Umin flip) p).2.1
        (js.foldl (Fp.payoffBBStep M self dt s2dt Zs Umax Umin flip) p).1 = false ∧
      (js.foldl (Fp.payoffBBStep M self dt s2dt Zs Umax Umin flip) p).2.1.notNeg := by
  induction js generalizing p with
  | nil => simpa using hp
  | cons j js ih =>
    rw [List.foldl_cons]
    exact ih _ (Fp.payoffBBStep_LookMax_rnd M self hagg dt s2dt Zs Umax Umin flip p j hp.2)

/-- With the running maximum and the call payoff, `payoffBB` returns `0` or `NaN` on every
draws and uniforms, without raising. -/
theorem Fp.payoffBB_LookMax_call_rnd (M : Fpu α) (hM : M.Sound) (self : opt.Asian α)
    (hpay : self.payoff_ = Fp.PayoffCall M) (hagg : self.aggregator_ = LookMax)
    (hS0 : self.S0_.notNeg) (steps : Int) (dt : Dbl α) (Zs Umax Umin : List (Dbl α))
    (flip : Bool) :
    ∃ v, Fp.payoffBB M self steps dt Zs Umax Umin flip = .ok v ∧
      (v = Dbl.fin 0 ∨ v = Dbl.nan) := by
  have h := Fp.payoffBBLoop_LookMax_rnd M self hagg dt
    (Fp.mul M (Fp.mul M self.sigma_ self.sigma_) dt) Zs Umax Umin flip
    (List.range steps.toNat) (self.S0_, self.S0_, Fp.log M self.S0_)
    ⟨Dbl.lt_self _, hS0⟩
  simp only [Fp.payoffBB, hpay]
  rcases Fp.PayoffCall_zeroOrNan M hM _ _ h.2 h.1 with h1 | h1
  · exact ⟨_, h1, Or.inl rfl⟩
  · exact ⟨_, h1, Or.inr rfl⟩

/-- The antithetic loop of the bridge estimator with the running maximum and the call payoff
keeps the running sum at `0` or `NaN`. -/
theorem Fp.bbAntitheticLoop_LookMax_call_rnd {ρ : Type} (M : Fpu α) (hM : M.Sound) (G : Gen ρ α)
    (self : opt.Asian α) (hpay : self.payoff_ = Fp.PayoffCall M)
    (hagg : self.aggregator_ = LookMax) (hS0 : self.S0_.notNeg) (steps : Int) (dt : Dbl α)
    (n : Nat) (rng : ρ) (sum : Dbl α) (hsum : sum = Dbl.fin 0 ∨ sum = Dbl.nan) :
    ∃ v, Fp.bbAntitheticLoop M G self steps dt n rng sum = .ok v ∧
      (v = Dbl.fin 0 ∨ v = Dbl.nan) := by
  induction n generalizing rng sum with
  | zero => exact ⟨sum, rfl, hsum⟩
  | succ n ih =>
    obtain ⟨p1, hp1, h1⟩ := Fp.payoffBB_LookMax_call_rnd M hM self hpay hagg hS0 steps dt
      (Asian.drawZs G steps.toNat rng).1
      (Fp.drawUs M G steps.toNat (Asian.drawZs G steps.toNat rng).2).1.1
      (Fp.drawUs M G steps.toNat (Asian.drawZs G steps.toNat rng).2).1.2 false
    obtain ⟨p2, hp2, h2⟩ := Fp.payoffBB_LookMax_call_rnd M hM self hpay hagg hS0 steps dt
      (Asian.drawZs G steps.toNat rng).1
      (Fp.drawUs M G steps.toNat (Asian.drawZs G steps.toNat rng).2).1.1
      (Fp.drawUs M G steps.toNat (Asian.drawZs G steps.toNat rng).2).1.2 true
    simp only [Fp.bbAntitheticLoop, hp1, hp2]
    exact ih _ _ (Fp.add_zeroOrNan M hM hsum
      (Fp.mul_zeroOrNan M hM _ (Fp.add_zeroOrNan M hM h1 h2)))

theorem Fp.priceMC_BrownianBridge_Asymptotic_eq_rnd {ρ : Type} (M : Fpu α) (G : Gen ρ α)
    (self : opt.Asian α) :
    Fp.priceMC_BrownianBridge_Asymptotic M G self =
      (match Fp.bbAntitheticLoop M G self 1000
          (Fp.div M (Fp.sub M self.T_ self.T0_) (Dbl.ofInt 1000))
          (Int.tdiv 1000 2).toNat (G.seed 42) (Dbl.fin 0) with
        | .error e => .error e
        | .ok sumPayoff =>
          .ok (Fp.mul M (Fp.exp M (Fp.mul M (-self.R_) (Fp.sub M self.T_ self.T0_)))
            (Fp.div M sumPayoff (Dbl.ofInt (Int.tdiv 1000 2))))) := by
  unfold Fp.priceMC_BrownianBridge_Asymptotic
  rw [if_pos rfl]

/-- The bridge estimator over rounded arithmetic, on an option with the running maximum and
the call payoff, returns `0` or `NaN`. -/
theorem Fp.bb_LookMax_call_zeroOrNan {ρ : Type} (M : Fpu α) (hM : M.Sound) (G : Gen ρ α)
    (S0 R sigma T0 T : Dbl α) (self : opt.Asian α)
    (hself : Asian.Asian S0 R sigma T0 T (Fp.PayoffCall M) LookMax = .ok self) :
    Fp.priceMC_BrownianBridge_Asymptotic M G self = .ok (Dbl.fin 0) ∨
      Fp.priceMC_BrownianBridge_Asymptotic M G self = .ok Dbl.nan := by
  obtain ⟨hs, s0, r, sg, t0, t, rfl, rfl, rfl, rfl, rfl, hs0, _, ht⟩ := Asian.Asian_ok hself
  have hpay : self.payoff_ = Fp.PayoffCall M := by rw [hs]
  have hagg : self.aggregator_ = LookMax := by rw [hs]
  have hS0 : self.S0_.notNeg := by rw [hs]; exact Dbl.notNeg_fin.2 hs0.le
  have h500 : ((Int.tdiv 1000 2 : Int) : α) ≠ 0 := by
    have : Int.tdiv 1000 2 = 500 := by decide
    rw [this]
    norm_num
  obtain ⟨v, hv, hv0⟩ := Fp.bbAntitheticLoop_LookMax_call_rnd M hM G self hpay hagg hS0 1000
    (Fp.div M (Fp.sub M self.T_ self.T0_) (Dbl.ofInt 1000)) (Int.tdiv 1000 2).toNat
    (G.seed 42) (Dbl.fin 0) (Or.inl rfl)
  rw [Fp.priceMC_BrownianBridge_Asymptotic_eq_rnd, hv]
  have hmean := Fp.div_zeroOrNan M hM ((Int.tdiv 1000 2 : Int) : α) h500 hv0
  rcases Fp.mul_zeroOrNan M hM
    (Fp.exp M (Fp.mul M (-self.R_) (Fp.sub M self.T_ self.T0_))) hmean with h | h
  · left
    show Except.ok (Fp.mul M _ (Fp.div M v (Dbl.ofInt (Int.tdiv 1000 2)))) = _
    rw [show Dbl.ofInt (Int.tdiv 1000 2) = (Dbl.fin ((Int.tdiv 1000 2 : Int) : α) : Dbl α)
      from rfl, h]
  · right
    show Except.ok (Fp.mul M _ (Fp.div M v (Dbl.ofInt (Int.tdiv 1000 2)))) = _
    rw [show Dbl.ofInt (Int.tdiv 1000 2) = (Dbl.fin ((Int.tdiv 1000 2 : Int) : α) : Dbl α)
      from rfl, h]

/-- Claim C19, as amended: for every valid market parameters and in every double-precision
arithmetic (whatever it rounds to, overflow included), the bridge estimator on an option built
with the running-maximum aggregator (`LookMax`) and the call payoff (`PayoffCall`) returns
without raising, and the scalar it returns is `0`, or `NaN` when a simulated value is not a
number; it is never strictly greater than zero (the strike of the call is the running maximum,
which the final price never exceeds). -/
theorem Fp.priceMC_BrownianBridge_LookMax_call {ρ : Type} (M : Fpu α) (hM : M.Sound)
    (G : Gen ρ α) (S0 R sigma T0 T : Dbl α) (self : opt.Asian α)
    (hself : Asian.Asian S0 R sigma T0 T (Fp.PayoffCall M) LookMax = .ok self) :
    ∃ x : Dbl α, Fp.priceMC_BrownianBridge_Asymptotic M G self = .ok x ∧
      (x = Dbl.fin 0 ∨ x = Dbl.nan) ∧ Dbl.lt (Dbl.fin 0) x = false := by
  rcases Fp.bb_LookMax_call_zeroOrNan M hM G S0 R sigma T0 T self hself with h | h
  · exact ⟨_, h, Or.inl rfl, by simp [Dbl.lt]⟩
  · exact ⟨_, h, Or.inr rfl, by simp [Dbl.lt]⟩

/-! ### The binary64 arithmetic is sound -/

theorem pow2_nonneg (s : Int) : 0 ≤ pow2 s := by
  unfold pow2
  split_ifs <;> positivity

theorem binary64_zero : binary64 0 = Dbl.fin 0 := by
  simp [binary64]

/-- Rounding to binary64 never makes a value that is not below zero negative. -/
theorem binary64_notNeg (x : ℚ) (hx : 0 ≤ x) : Dbl.lt (binary64 x) (Dbl.fin 0) = false := by
  have hx' : ¬ x < 0 := not_lt.2 hx
  simp only [binary64]
  split_ifs
  all_goals first
    | rfl
    | (simp only [Dbl.lt, decide_eq_false_iff_not, not_lt]
       exact mul_nonneg (Nat.cast_nonneg _) (pow2_nonneg _))

/-- Rounding to binary64 never makes a value that is not above zero positive. -/
theorem binary64_notPos (x : ℚ) (hx : x ≤ 0) : Dbl.lt (Dbl.fin 0) (binary64 x) = false := by
  simp only [binary64]
  split_ifs with h0 h1 h2 h3 h4
  all_goals first
    | rfl
    | exact absurd (lt_of_le_of_ne hx h0) (by assumption)
    | (simp only [Dbl.lt, decide_eq_false_iff_not, not_lt]
       exact neg_nonpos.2 (mul_nonneg (Nat.cast_nonneg _) (pow2_nonneg _)))

/-- A tabulated library function takes one of the tabulated values, or `NaN`. -/
theorem tabulated_mem (t : List (ℚ × Dbl ℚ)) (x : ℚ) :
    tabulated t x = Dbl.nan ∨ ∃ p ∈ t, tabulated t x = p.2 := by
  unfold tabulated
  cases h : t.find? (fun p => decide (p.1 = x)) with
  | none => left; rfl
  | some p => right; exact ⟨p, List.mem_of_find?_eq_some h, rfl⟩

theorem tabulated_notNeg (t : List (ℚ × Dbl ℚ))
    (ht : ∀ p ∈ t, Dbl.lt p.2 (Dbl.fin 0) = false) (x : ℚ) :
    Dbl.lt (tabulated t x) (Dbl.fin 0) = false := by
  rcases tabulated_mem t x with h | ⟨p, hp, h⟩
  · rw [h]; rfl
  · rw [h]; exact ht p hp

/-- The binary64 arithmetic with the tabulated library values is sound. -/
theorem ieeeDouble_sound : ieeeDouble.Sound := by
  refine ⟨binary64_zero, binary64_notNeg, binary64_notPos, ?_, ?_, ?_⟩
  · exact tabulated_notNeg expValues (by decide!)
  · show tabulated sqrtValues 0 = Dbl.fin 0
    decide!
  · intro x _
    exact tabulated_notNeg sqrtValues (by decide!) x

/-- Witness of claim C19 (as amended) on the Scenario 1 parameters, in binary64 arithmetic. -/
theorem Fp.priceMC_BrownianBridge_LookMax_call_witness :
    ieeeDouble.Sound ∧
    Asian.Asian (Dbl.fin 100) (Dbl.fin (1 / 20)) (Dbl.fin (1 / 5)) (Dbl.fin 0) (Dbl.fin 1)
        (Fp.PayoffCall ieeeDouble) LookMax =
      .ok (⟨⟨Dbl.fin 100, Dbl.fin (1 / 20), Dbl.fin (1 / 5), Dbl.fin 0, Dbl.fin 1⟩,
        Fp.PayoffCall ieeeDouble, LookMax⟩ : opt.Asian ℚ) ∧
    ∃ x : Dbl ℚ, Fp.priceMC_BrownianBridge_Asymptotic ieeeDouble (Gen.counter : Gen Nat ℚ)
        (⟨⟨Dbl.fin 100, Dbl.fin (1 / 20), Dbl.fin (1 / 5), Dbl.fin 0, Dbl.fin 1⟩,
          Fp.PayoffCall ieeeDouble, LookMax⟩ : opt.Asian ℚ) = .ok x ∧
      (x = Dbl.fin 0 ∨ x = Dbl.nan) ∧ Dbl.lt (Dbl.fin 0) x = false :=
  ⟨ieeeDouble_sound,
    Asian.Asian_fin (100 : ℚ) (1 / 20) (1 / 5) 0 1 (by norm_num) (by norm_num) (by norm_num)
      _ _,
    Fp.priceMC_BrownianBridge_LookMax_call ieeeDouble ieeeDouble_sound Gen.counter _ _ _ _ _ _
      (Asian.Asian_fin (100 : ℚ) (1 / 20) (1 / 5) 0 1 (by norm_num) (by norm_num)
        (by norm_num) _ _)⟩

/-! ### Evaluations in binary64 arithmetic -/

/-- Claim C11, counterexample in IEEE-754 double arithmetic: for the lookback call `S0 = 100`, `R =
1/16`, `sigma = 1/4`, `T0 = 0`, `T = 1` with `paths = 2`, `steps = 1` and the draws `1`, `2`, the
export `opt_lb_call_delta_mc` returns `0.4818447160458206`, whereas with `eps = 1e-4 * S0` the
quotient `(P(S0+eps) - P(S0-eps)) / (2*eps)` of the estimates that `opt_lb_call_price_mc` returns
at the two bumped spots is `0.48184471604564294`, evaluated in doubles, and differs from the value
of `deltaMC` also when evaluated exactly. -/
theorem Fp.deltaMC_ne_price_difference :
    (Fp.opt_lb_call_delta_mc ieeeDouble (Gen.counter : Gen Nat ℚ) (Dbl.fin (100)) (Dbl.fin (1 /
      16)) (Dbl.fin (1 / 4)) (Dbl.fin (0)) (Dbl.fin (1)) 2 1 1 (⟨false, []⟩ : Host)).1 = Dbl.fin
      (67813615113575 / 140737488355328) ∧
    Fp.mul ieeeDouble (Fp.deltaRelEps ieeeDouble) (Dbl.fin (100)) = Dbl.fin (5764607523034235 /
      576460752303423488) ∧
    Fp.add ieeeDouble (Dbl.fin (100)) (Dbl.fin (5764607523034235 / 576460752303423488)) = Dbl.fin
      (7037578105208177 / 70368744177664) ∧
    Fp.sub ieeeDouble (Dbl.fin (100)) (Dbl.fin (5764607523034235 / 576460752303423488)) = Dbl.fin
      (7036170730324623 / 70368744177664) ∧
    (Fp.opt_lb_call_price_mc ieeeDouble (Gen.counter : Gen Nat ℚ) (Dbl.fin (7037578105208177 /
      70368744177664)) (Dbl.fin (1 / 16)) (Dbl.fin (1 / 4)) (Dbl.fin (0)) (Dbl.fin (1)) 2 1 1
      (⟨false, []⟩ : Host)).1 = Dbl.fin (1695509911873879 / 35184372088832) ∧
    (Fp.opt_lb_call_price_mc ieeeDouble (Gen.counter : Gen Nat ℚ) (Dbl.fin (7036170730324623 /
      70368744177664)) (Dbl.fin (1 / 16)) (Dbl.fin (1 / 4)) (Dbl.fin (0)) (Dbl.fin (1)) 2 1 1
      (⟨false, []⟩ : Host)).1 = Dbl.fin (6780683375193245 / 140737488355328) ∧
    Fp.div ieeeDouble (Fp.sub ieeeDouble (Dbl.fin (1695509911873879 / 35184372088832)) (Dbl.fin
      (6780683375193245 / 140737488355328))) (Fp.mul ieeeDouble (Dbl.fin 2) (Dbl.fin
      (5764607523034235 / 576460752303423488))) = Dbl.fin (33906807556775 / 70368744177664) ∧
    (67813615113575 / 140737488355328 : ℚ) ≠ 33906807556775 / 70368744177664 ∧
    (67813615113575 / 140737488355328 : ℚ) ≠ (1695509911873879 / 35184372088832 - 6780683375193245
      / 140737488355328) / (2 * (5764607523034235 / 576460752303423488)) := by
  decide!

/-- Claim C12, counterexample in IEEE-754 double arithmetic: for the lookback call `S0 = 100`, `R =
1/16`, `sigma = 1/4`, `T0 = 0`, `T = 1` with `paths = 2`, `steps = 1` and the draws `1`, `2`, the
export `opt_lb_call_gamma_mc` returns `1.4210854715202002e-12`, whereas with `eps = 1e-3 * S0` the
quotient `(P(S0+eps) - 2*P(S0) + P(S0-eps)) / eps^2` of the estimates that `opt_lb_call_price_mc`
returns at the three spots is `2.1316282072803e-12`, evaluated in doubles, and differs from the
value of `gammaMC` also when evaluated exactly. -/
theorem Fp.gammaMC_ne_price_difference :
    (Fp.opt_lb_call_gamma_mc ieeeDouble (Gen.counter : Gen Nat ℚ) (Dbl.fin (100)) (Dbl.fin (1 /
      16)) (Dbl.fin (1 / 4)) (Dbl.fin (0)) (Dbl.fin (1)) 2 1 1 (⟨false, []⟩ : Host)).1 = Dbl.fin
      (7036874417766399 / 4951760157141521099596496896) ∧
    Fp.mul ieeeDouble (Fp.gammaRelEps ieeeDouble) (Dbl.fin (100)) = Dbl.fin (3602879701896397 /
      36028797018963968) ∧
    Fp.add ieeeDouble (Dbl.fin (100)) (Dbl.fin (3602879701896397 / 36028797018963968)) = Dbl.fin
      (3521955646092083 / 35184372088832) ∧
    Fp.sub ieeeDouble (Dbl.fin (100)) (Dbl.fin (3602879701896397 / 36028797018963968)) = Dbl.fin
      (3514918771674317 / 35184372088832) ∧
    (Fp.opt_lb_call_price_mc ieeeDouble (Gen.counter : Gen Nat ℚ) (Dbl.fin (3521955646092083 /
      35184372088832)) (Dbl.fin (1 / 16)) (Dbl.fin (1 / 4)) (Dbl.fin (0)) (Dbl.fin (1)) 2 1 1
      (⟨false, []⟩ : Host)).1 = Dbl.fin (3394071436427863 / 70368744177664) ∧
    (Fp.opt_lb_call_price_mc ieeeDouble (Gen.counter : Gen Nat ℚ) (Dbl.fin (100)) (Dbl.fin (1 /
      16)) (Dbl.fin (1 / 4)) (Dbl.fin (0)) (Dbl.fin (1)) 2 1 1 (⟨false, []⟩ : Host)).1 = Dbl.fin
      (1695340377836095 / 35184372088832) ∧
    (Fp.opt_lb_call_price_mc ieeeDouble (Gen.counter : Gen Nat ℚ) (Dbl.fin (3514918771674317 /
      35184372088832)) (Dbl.fin (1 / 16)) (Dbl.fin (1 / 4)) (Dbl.fin (0)) (Dbl.fin (1)) 2 1 1
      (⟨false, []⟩ : Host)).1 = Dbl.fin (6774580149833037 / 140737488355328) ∧
    Fp.div ieeeDouble (Fp.add ieeeDouble (Fp.sub ieeeDouble (Dbl.fin (3394071436427863 /
      70368744177664)) (Fp.mul ieeeDouble (Dbl.fin 2) (Dbl.fin (1695340377836095 /
      35184372088832)))) (Dbl.fin (6774580149833037 / 140737488355328))) (Fp.mul ieeeDouble
      (Dbl.fin (3602879701896397 / 36028797018963968)) (Dbl.fin (3602879701896397 /
      36028797018963968))) = Dbl.fin (5277655813324799 / 2475880078570760549798248448) ∧
    (7036874417766399 / 4951760157141521099596496896 : ℚ) ≠ 5277655813324799 /
      2475880078570760549798248448 ∧
    (7036874417766399 / 4951760157141521099596496896 : ℚ) ≠ (3394071436427863 / 70368744177664 - 2
      * (1695340377836095 / 35184372088832) + 6774580149833037 / 140737488355328) /
      ((3602879701896397 / 36028797018963968) * (3602879701896397 / 36028797018963968)) := by
  decide!

/-- Claim C13, counterexample in IEEE-754 double arithmetic: for the lookback call `S0 = 100`, `R =
1/16`, `sigma = 1/4`, `T0 = 0`, `T = 1` with `paths = 2`, `steps = 1` and the draws `1`, `2`, the
export `opt_lb_call_theta_mc` returns `-29.183112492643765`, whereas with the default `eps = 1.0 /
365.0` the quotient `(P(T0+eps) - P(T0-eps)) / (2*eps)` of the estimates that
`opt_lb_call_price_mc` returns at the two bumped valuation times is `-29.183112492644092`,
evaluated in doubles, and differs from the value of `thetaMC` also when evaluated exactly; the
default bump is the double nearest to `1/365`, not `1/365`. -/
theorem Fp.thetaMC_ne_price_difference :
    (Fp.opt_lb_call_theta_mc ieeeDouble (Gen.counter : Gen Nat ℚ) (Dbl.fin (100)) (Dbl.fin (1 /
      16)) (Dbl.fin (1 / 4)) (Dbl.fin (0)) (Dbl.fin (1)) 2 1 1 (⟨false, []⟩ : Host)).1 = Dbl.fin
      ((-4107157954605679) / 140737488355328) ∧
    Fp.thetaEps ieeeDouble = Dbl.fin (3158689053717389 / 1152921504606846976) ∧
    Fp.add ieeeDouble (Dbl.fin (0)) (Dbl.fin (3158689053717389 / 1152921504606846976)) = Dbl.fin
      (3158689053717389 / 1152921504606846976) ∧
    Fp.sub ieeeDouble (Dbl.fin (0)) (Dbl.fin (3158689053717389 / 1152921504606846976)) = Dbl.fin
      ((-3158689053717389) / 1152921504606846976) ∧
    (Fp.opt_lb_call_price_mc ieeeDouble (Gen.counter : Gen Nat ℚ) (Dbl.fin (100)) (Dbl.fin (1 /
      16)) (Dbl.fin (1 / 4)) (Dbl.fin (3158689053717389 / 1152921504606846976)) (Dbl.fin (1)) 2 1 1
      (⟨false, []⟩ : Host)).1 = Dbl.fin (3385051904375657 / 70368744177664) ∧
    (Fp.opt_lb_call_price_mc ieeeDouble (Gen.counter : Gen Nat ℚ) (Dbl.fin (100)) (Dbl.fin (1 /
      16)) (Dbl.fin (1 / 4)) (Dbl.fin ((-3158689053717389) / 1152921504606846976)) (Dbl.fin (1)) 2
      1 1 (⟨false, []⟩ : Host)).1 = Dbl.fin (1698152195961261 / 35184372088832) ∧
    Fp.div ieeeDouble (Fp.sub ieeeDouble (Dbl.fin (3385051904375657 / 70368744177664)) (Dbl.fin
      (1698152195961261 / 35184372088832))) (Fp.mul ieeeDouble (Dbl.fin 2) (Dbl.fin
      (3158689053717389 / 1152921504606846976))) = Dbl.fin ((-4107157954605725) / 140737488355328) ∧
    ((-4107157954605679) / 140737488355328 : ℚ) ≠ (-4107157954605725) / 140737488355328 ∧
    ((-4107157954605679) / 140737488355328 : ℚ) ≠ (3385051904375657 / 70368744177664 -
      (1698152195961261 / 35184372088832)) / (2 * (3158689053717389 / 1152921504606846976)) ∧
    (3158689053717389 / 1152921504606846976 : ℚ) ≠ 1 / 365 := by
  decide!

/-- Claim C14, counterexample in IEEE-754 double arithmetic: for the lookback call `S0 = 100`, `R =
1/16`, `sigma = 1/4`, `T0 = 0`, `T = 1` with `paths = 2`, `steps = 1` and the draws `1`, `2`, the
export `opt_lb_call_rho_mc` returns `93.9413064379302`, whereas with the default `eps = 1e-4` the
quotient `(P(R+eps) - P(R-eps)) / (2*eps)` of the estimates that `opt_lb_call_price_mc` returns at
the two bumped rates is `93.94130643791243`, evaluated in doubles, and differs from the value of
`rhoMC` also when evaluated exactly. -/
theorem Fp.rhoMC_ne_price_difference :
    (Fp.opt_lb_call_rho_mc ieeeDouble (Gen.counter : Gen Nat ℚ) (Dbl.fin (100)) (Dbl.fin (1 / 16))
      (Dbl.fin (1 / 4)) (Dbl.fin (0)) (Dbl.fin (1)) 2 1 1 (⟨false, []⟩ : Host)).1 = Dbl.fin
      (3305265880223125 / 35184372088832) ∧
    Fp.rhoEps ieeeDouble = Dbl.fin (7378697629483821 / 73786976294838206464) ∧
    Fp.add ieeeDouble (Dbl.fin (1 / 16)) (Dbl.fin (7378697629483821 / 73786976294838206464)) =
      Dbl.fin (4510805386774289 / 72057594037927936) ∧
    Fp.sub ieeeDouble (Dbl.fin (1 / 16)) (Dbl.fin (7378697629483821 / 73786976294838206464)) =
      Dbl.fin (4496393867966703 / 72057594037927936) ∧
    (Fp.opt_lb_call_price_mc ieeeDouble (Gen.counter : Gen Nat ℚ) (Dbl.fin (100)) (Dbl.fin
      (4510805386774289 / 72057594037927936)) (Dbl.fin (1 / 4)) (Dbl.fin (0)) (Dbl.fin (1)) 2 1 1
      (⟨false, []⟩ : Host)).1 = Dbl.fin (423917721974447 / 8796093022208) ∧
    (Fp.opt_lb_call_price_mc ieeeDouble (Gen.counter : Gen Nat ℚ) (Dbl.fin (100)) (Dbl.fin
      (4496393867966703 / 72057594037927936)) (Dbl.fin (1 / 4)) (Dbl.fin (0)) (Dbl.fin (1)) 2 1 1
      (⟨false, []⟩ : Host)).1 = Dbl.fin (3390019669443487 / 70368744177664) ∧
    Fp.div ieeeDouble (Fp.sub ieeeDouble (Dbl.fin (423917721974447 / 8796093022208)) (Dbl.fin
      (3390019669443487 / 70368744177664))) (Fp.mul ieeeDouble (Dbl.fin 2) (Dbl.fin
      (7378697629483821 / 73786976294838206464))) = Dbl.fin (826316470055625 / 8796093022208) ∧
    (3305265880223125 / 35184372088832 : ℚ) ≠ 826316470055625 / 8796093022208 ∧
    (3305265880223125 / 35184372088832 : ℚ) ≠ (423917721974447 / 8796093022208 - 3390019669443487 /
      70368744177664) / (2 * (7378697629483821 / 73786976294838206464)) := by
  decide!

/-- Claim C15, counterexample in IEEE-754 double arithmetic: for the lookback call `S0 = 100`, `R =
1/16`, `sigma = 1/4`, `T0 = 0`, `T = 1` with `paths = 2`, `steps = 1` and the draws `1`, `2`, the
export `opt_lb_call_vega_mc` returns `186.4941057368874`, whereas with the default `eps = 1e-4` the
quotient `(P(sigma+eps) - P(sigma-eps)) / (2*eps)` of the price estimates of the kernel at the two
bumped volatilities (both valid here, so that `opt_lb_call_price_mc` returns them) is
`186.49410573686964`, evaluated in doubles, and differs from the value of `vegaMC` also when
evaluated exactly. -/
theorem Fp.vegaMC_ne_price_difference :
    (Fp.opt_lb_call_vega_mc ieeeDouble (Gen.counter : Gen Nat ℚ) (Dbl.fin (100)) (Dbl.fin (1 / 16))
      (Dbl.fin (1 / 4)) (Dbl.fin (0)) (Dbl.fin (1)) 2 1 1 (⟨false, []⟩ : Host)).1 = Dbl.fin
      (6561678008620625 / 35184372088832) ∧
    Fp.vegaEps ieeeDouble = Dbl.fin (7378697629483821 / 73786976294838206464) ∧
    Fp.add ieeeDouble (Dbl.fin (1 / 4)) (Dbl.fin (7378697629483821 / 73786976294838206464)) =
      Dbl.fin (1126350266805361 / 4503599627370496) ∧
    Fp.sub ieeeDouble (Dbl.fin (1 / 4)) (Dbl.fin (7378697629483821 / 73786976294838206464)) =
      Dbl.fin (1125449546879887 / 4503599627370496) ∧
    (Fp.opt_lb_call_price_mc ieeeDouble (Gen.counter : Gen Nat ℚ) (Dbl.fin (100)) (Dbl.fin (1 /
      16)) (Dbl.fin (1126350266805361 / 4503599627370496)) (Dbl.fin (0)) (Dbl.fin (1)) 2 1 1
      (⟨false, []⟩ : Host)).1 = Dbl.fin (1695996569838423 / 35184372088832) ∧
    (Fp.opt_lb_call_price_mc ieeeDouble (Gen.counter : Gen Nat ℚ) (Dbl.fin (100)) (Dbl.fin (1 /
      16)) (Dbl.fin (1125449546879887 / 4503599627370496)) (Dbl.fin (0)) (Dbl.fin (1)) 2 1 1
      (⟨false, []⟩ : Host)).1 = Dbl.fin (1694684234236699 / 35184372088832) ∧
    Fp.div ieeeDouble (Fp.sub ieeeDouble (Dbl.fin (1695996569838423 / 35184372088832)) (Dbl.fin
      (1694684234236699 / 35184372088832))) (Fp.mul ieeeDouble (Dbl.fin 2) (Dbl.fin
      (7378697629483821 / 73786976294838206464))) = Dbl.fin (205052437769375 / 1099511627776) ∧
    (6561678008620625 / 35184372088832 : ℚ) ≠ 205052437769375 / 1099511627776 ∧
    (6561678008620625 / 35184372088832 : ℚ) ≠ (1695996569838423 / 35184372088832 - 1694684234236699
      / 35184372088832) / (2 * (7378697629483821 / 73786976294838206464)) := by
  decide!

/-- Claim C26, counterexample in IEEE-754 double arithmetic: for the lookback call `S0 = 100`, `R =
1/16`, `sigma = 1/4`, `T0 = 0`, `T = 1`, one step and the draw `1`, the discounted payoff at the
spot `3 * S0 = 300` is `91.53211348578576`, whereas `3` times the discounted payoff at the spot
`S0` is `91.53211348578579` in doubles (and differs from the former also as an exact product). -/
theorem Fp.discountedPayoffFromZ_not_homogeneous :
    Fp.mul ieeeDouble (Dbl.fin 3) (Dbl.fin (100)) = Dbl.fin (300) ∧
    (Fp.discountedPayoffFromZ ieeeDouble (⟨⟨Dbl.fin (100), Dbl.fin (1 / 16), Dbl.fin (1 / 4),
      Dbl.fin (0), Dbl.fin (1)⟩, Fp.PayoffCall ieeeDouble, LookMin⟩ : Asian ℚ) (Dbl.fin (300))
      (Dbl.fin (1 / 16)) (Dbl.fin (1 / 4)) (Dbl.fin (0)) (Dbl.fin (1)) 1 [Dbl.fin (1)]
      false).toOption = some (Dbl.fin (6440999877922167 / 70368744177664)) ∧
    (Fp.discountedPayoffFromZ ieeeDouble (⟨⟨Dbl.fin (100), Dbl.fin (1 / 16), Dbl.fin (1 / 4),
      Dbl.fin (0), Dbl.fin (1)⟩, Fp.PayoffCall ieeeDouble, LookMin⟩ : Asian ℚ) (Dbl.fin (100))
      (Dbl.fin (1 / 16)) (Dbl.fin (1 / 4)) (Dbl.fin (0)) (Dbl.fin (1)) 1 [Dbl.fin (1)]
      false).toOption = some (Dbl.fin (8587999837229559 / 281474976710656)) ∧
    Fp.mul ieeeDouble (Dbl.fin 3) (Dbl.fin (8587999837229559 / 281474976710656)) = Dbl.fin
      (6440999877922169 / 70368744177664) ∧
    (6440999877922167 / 70368744177664 : ℚ) ≠ 6440999877922169 / 70368744177664 ∧
    (6440999877922167 / 70368744177664 : ℚ) ≠ 3 * (8587999837229559 / 281474976710656) := by
  decide!

/-- Claim C20, counterexample in IEEE-754 double arithmetic: for the lookback call with the valid
parameters `S0 = 100`, `R = 1000`, `sigma = 0`, `T0 = 0`, `T = 1`, one path, one step and the draw
`0`, the discount factor `exp(-1000)` underflows to `0` and the price `100 * exp(1000)` overflows
to `+∞`, so that both bumped discounted payoffs are `0 * ∞ = NaN`: the export
`opt_lb_call_delta_mc` returns `NaN` without raising (no error is reported), which is neither
finite nor positive. -/
theorem Fp.deltaMC_call_nan :
    (Fp.makeLookbackCall ieeeDouble (Dbl.fin (100)) (Dbl.fin (1000)) (Dbl.fin (0)) (Dbl.fin (0))
      (Dbl.fin (1))).toOption.isSome = true ∧
    Fp.exp ieeeDouble (Fp.mul ieeeDouble (-(Dbl.fin (1000))) (Dbl.fin (1))) = Dbl.fin 0 ∧
    Fp.exp ieeeDouble (Dbl.fin (1000)) = Dbl.pinf ∧
    ((Fp.deltaMC ieeeDouble (Gen.counter : Gen Nat ℚ) (⟨⟨Dbl.fin (100), Dbl.fin (1000), Dbl.fin
      (0), Dbl.fin (0), Dbl.fin (1)⟩, Fp.PayoffCall ieeeDouble, LookMin⟩ : Asian ℚ) 1 1 0 false
      (Fp.deltaRelEps ieeeDouble)).toOption.map MCStats.estimate) = some Dbl.nan ∧
    Fp.opt_lb_call_delta_mc ieeeDouble (Gen.counter : Gen Nat ℚ) (Dbl.fin (100)) (Dbl.fin (1000))
      (Dbl.fin (0)) (Dbl.fin (0)) (Dbl.fin (1)) 1 1 0 (⟨false, []⟩ : Host) = (Dbl.nan, (⟨false, []⟩
      : Host)) ∧
    Dbl.isfinite (Dbl.nan : Dbl ℚ) = false ∧
    Dbl.lt (Dbl.fin 0) (Dbl.nan : Dbl ℚ) = false ∧
    Dbl.le (Dbl.fin 0) (Dbl.nan : Dbl ℚ) = false := by
  decide!

/-- Claim C25, counterexample in IEEE-754 double arithmetic: for the lookback call with the valid
parameters `S0 = 100`, `R = 1000`, `sigma = 0`, `T0 = 0`, `T = 1`, one step and the draw `0`, the
path loop ends on the price `+∞` (overflow of `100 * exp(1000)`) and the aggregate `100`, the
payoff is `+∞`, the discount factor `exp(-1000)` is `0` (underflow), and the discounted payoff is
`0 * ∞ = NaN`, which is not `>= 0`; no error is raised, and the estimate that the export
`opt_lb_call_price_mc` returns for one path is `NaN`. -/
theorem Fp.lookback_sample_nan :
    (Fp.makeLookbackCall ieeeDouble (Dbl.fin (100)) (Dbl.fin (1000)) (Dbl.fin (0)) (Dbl.fin (0))
      (Dbl.fin (1))).toOption.isSome = true ∧
    (List.range 1).foldl (Fp.pathStep ieeeDouble (⟨⟨Dbl.fin (100), Dbl.fin (1000), Dbl.fin (0),
      Dbl.fin (0), Dbl.fin (1)⟩, Fp.PayoffCall ieeeDouble, LookMin⟩ : Asian ℚ) (Dbl.fin (1000))
      (Dbl.fin (0)) (Dbl.fin (1)) [Dbl.fin 0] false) (Dbl.fin (100), Dbl.fin (100)) = (Dbl.pinf,
      Dbl.fin (100)) ∧
    (Fp.PayoffCall ieeeDouble Dbl.pinf (Dbl.fin (100))).toOption = some Dbl.pinf ∧
    Fp.exp ieeeDouble (Fp.mul ieeeDouble (-(Dbl.fin (1000))) (Dbl.fin (1))) = Dbl.fin 0 ∧
    (Fp.discountedPayoffFromZ ieeeDouble (⟨⟨Dbl.fin (100), Dbl.fin (1000), Dbl.fin (0), Dbl.fin
      (0), Dbl.fin (1)⟩, Fp.PayoffCall ieeeDouble, LookMin⟩ : Asian ℚ) (Dbl.fin (100)) (Dbl.fin
      (1000)) (Dbl.fin (0)) (Dbl.fin (0)) (Dbl.fin (1)) 1 [Dbl.fin (0)] false).toOption = some
      Dbl.nan ∧
    Dbl.le (Dbl.fin 0) (Dbl.nan : Dbl ℚ) = false ∧
    Fp.opt_lb_call_price_mc ieeeDouble (Gen.counter : Gen Nat ℚ) (Dbl.fin (100)) (Dbl.fin (1000))
      (Dbl.fin (0)) (Dbl.fin (0)) (Dbl.fin (1)) 1 1 0 (⟨false, []⟩ : Host) = (Dbl.nan, (⟨false, []⟩
      : Host)) := by
  decide!

/-- Claim C24, counterexample in IEEE-754 double arithmetic: folded from the spot `100` over the
prices `113.5`, `92.4`, `90.6`, `97.7`, `112.7` (the doubles nearest to these decimals), the
Arithmetic aggregator ends on `101.15000000000002`, which is neither the arithmetic mean of the six
doubles, nor the double nearest to that mean (`101.15`), nor the double obtained by summing the six
values and dividing by `6` (`101.14999999999999`); and folded from `2^1023` over the single price
`2^1023` it ends on `+∞`, the mean being `2^1023`. -/
theorem Fp.Arithmetic_fold_not_mean :
    [Fp.lit ieeeDouble 113.5, Fp.lit ieeeDouble 92.4, Fp.lit ieeeDouble 90.6, Fp.lit ieeeDouble
      97.7, Fp.lit ieeeDouble 112.7] = ([Dbl.fin (227 / 2), Dbl.fin (3251035981008077 /
      35184372088832), Dbl.fin (3187704111248179 / 35184372088832), Dbl.fin (6875026306157773 /
      70368744177664), Dbl.fin (7930557468822733 / 70368744177664)] : List (Dbl ℚ)) ∧
    aggFrom (Fp.Arithmetic ieeeDouble) 0 (Dbl.fin (100)) [Dbl.fin (227 / 2), Dbl.fin
      (3251035981008077 / 35184372088832), Dbl.fin (3187704111248179 / 35184372088832), Dbl.fin
      (6875026306157773 / 70368744177664), Dbl.fin (7930557468822733 / 70368744177664)] = Dbl.fin
      (7117798473570715 / 70368744177664) ∧
    (7117798473570715 / 70368744177664 : ℚ) ≠ (100 + 227 / 2 + 3251035981008077 / 35184372088832 +
      3187704111248179 / 35184372088832 + 6875026306157773 / 70368744177664 + 7930557468822733 /
      70368744177664) / 6 ∧
    binary64 ((100 + 227 / 2 + 3251035981008077 / 35184372088832 + 3187704111248179 /
      35184372088832 + 6875026306157773 / 70368744177664 + 7930557468822733 / 70368744177664) / 6)
      = Dbl.fin (3558899236785357 / 35184372088832) ∧
    (7117798473570715 / 70368744177664 : ℚ) ≠ 3558899236785357 / 35184372088832 ∧
    Fp.div ieeeDouble (Fp.add ieeeDouble (Fp.add ieeeDouble (Fp.add ieeeDouble (Fp.add ieeeDouble
      (Fp.add ieeeDouble (Dbl.fin (100)) (Dbl.fin (227 / 2))) (Dbl.fin (3251035981008077 /
      35184372088832))) (Dbl.fin (3187704111248179 / 35184372088832))) (Dbl.fin (6875026306157773 /
      70368744177664))) (Dbl.fin (7930557468822733 / 70368744177664))) (Dbl.fin 6) = Dbl.fin
      (7117798473570713 / 70368744177664) ∧
    (7117798473570715 / 70368744177664 : ℚ) ≠ 7117798473570713 / 70368744177664 ∧
    aggFrom (Fp.Arithmetic ieeeDouble) 0 (Dbl.fin (2 ^ 1023)) [Dbl.fin (2 ^ 1023)] = Dbl.pinf := by
  decide!

/-- Claim C23, counterexample in IEEE-754 double arithmetic: for the `LookMin` aggregator with the
valid parameters `S0 = 63`, `R = 0`, `sigma = 0`, `T0 = 0`, `T = 1`, one step, the draw `0` and the
uniforms `1/2`: `log(63)` is the double `4.143134726391533`, the log-price does not move, the
bridge maximum in log is that same double, and `S_max_cont = exp(log(63))` is the double
`62.99999999999999`, one unit in the last place below `63`; the update of the aggregate `63` by the
bridge maximum therefore changes it to `62.99999999999999`. -/
theorem Fp.payoffBB_LookMin_max_update_changes :
    Fp.log ieeeDouble (Dbl.fin (63)) = Dbl.fin (4664755002480667 / 1125899906842624) ∧
    Fp.div ieeeDouble (Fp.sub ieeeDouble (Dbl.fin (1)) (Dbl.fin (0))) (Dbl.ofInt 1) = Dbl.fin (1) ∧
    Fp.mul ieeeDouble (Fp.mul ieeeDouble (Dbl.fin (0)) (Dbl.fin (0))) (Dbl.fin (1)) = Dbl.fin (0) ∧
    Fp.bridgeMaxLog ieeeDouble (Dbl.fin (4664755002480667 / 1125899906842624)) (Dbl.fin
      (4664755002480667 / 1125899906842624)) (Dbl.fin (0)) (Dbl.fin (1 / 2)) = Dbl.fin
      (4664755002480667 / 1125899906842624) ∧
    Fp.exp ieeeDouble (Dbl.fin (4664755002480667 / 1125899906842624)) = Dbl.fin (8866461766385663 /
      140737488355328) ∧
    LookMin (Dbl.fin (63)) (Dbl.fin (8866461766385663 / 140737488355328)) (Fp.add ieeeDouble
      (Dbl.ofInt 0) (Fp.lit ieeeDouble 0.5)) = Dbl.fin (8866461766385663 / 140737488355328) ∧
    (8866461766385663 / 140737488355328 : ℚ) ≠ 63 ∧
    Fp.payoffBBStep ieeeDouble (⟨⟨Dbl.fin (63), Dbl.fin (0), Dbl.fin (0), Dbl.fin (0), Dbl.fin
      (1)⟩, Fp.PayoffCall ieeeDouble, LookMin⟩ : Asian ℚ) (Dbl.fin (1)) (Dbl.fin (0)) [Dbl.fin 0]
      [Dbl.fin (1 / 2)] [Dbl.fin (1 / 2)] false (Dbl.fin (63), Dbl.fin (63), Dbl.fin
      (4664755002480667 / 1125899906842624)) 0 = (Dbl.fin (8866461766385663 / 140737488355328),
      Dbl.fin (8866461766385663 / 140737488355328), Dbl.fin (4664755002480667 / 1125899906842624)) := by
  decide!

/-- Claim C28, counterexample in IEEE-754 double arithmetic: for the lookback call with the valid
parameters `S0 = 63`, `R = 0`, `sigma = 0`, `T0 = 0`, `T = 1`, one step, the draw `0` and the
uniforms `1/2`, the loop of `payoffBB` ends on the terminal price `exp(log(63))`, the double
`62.99999999999999`, whereas the path loop of `discountedPayoffFromZ` ends on the terminal price
`63 * exp(0) = 63`: the two terminal prices differ. -/
theorem Fp.payoffBB_terminal_price_differs :
    (Fp.makeLookbackCall ieeeDouble (Dbl.fin (63)) (Dbl.fin (0)) (Dbl.fin (0)) (Dbl.fin (0))
      (Dbl.fin (1))).toOption.isSome = true ∧
    ((List.range 1).foldl (Fp.payoffBBStep ieeeDouble (⟨⟨Dbl.fin (63), Dbl.fin (0), Dbl.fin (0),
      Dbl.fin (0), Dbl.fin (1)⟩, Fp.PayoffCall ieeeDouble, LookMin⟩ : Asian ℚ) (Dbl.fin (1))
      (Dbl.fin (0)) [Dbl.fin 0] [Dbl.fin (1 / 2)] [Dbl.fin (1 / 2)] false) (Dbl.fin (63), Dbl.fin
      (63), Fp.log ieeeDouble (Dbl.fin (63)))).1 = Dbl.fin (8866461766385663 / 140737488355328) ∧
    ((List.range 1).foldl (Fp.pathStep ieeeDouble (⟨⟨Dbl.fin (63), Dbl.fin (0), Dbl.fin (0),
      Dbl.fin (0), Dbl.fin (1)⟩, Fp.PayoffCall ieeeDouble, LookMin⟩ : Asian ℚ) (Dbl.fin (0))
      (Dbl.fin (0)) (Dbl.fin (1)) [Dbl.fin 0] false) (Dbl.fin (63), Dbl.fin (63))).1 = Dbl.fin (63) ∧
    (8866461766385663 / 140737488355328 : ℚ) ≠ 63 ∧
    (Fp.payoffBB ieeeDouble (⟨⟨Dbl.fin (63), Dbl.fin (0), Dbl.fin (0), Dbl.fin (0), Dbl.fin (1)⟩,
      Fp.PayoffCall ieeeDouble, LookMin⟩ : Asian ℚ) 1 (Dbl.fin (1)) [Dbl.fin 0] [Dbl.fin (1 / 2)]
      [Dbl.fin (1 / 2)] false).toOption = some (Dbl.fin (0)) := by
  decide!

/-- Claim C30, counterexample in IEEE-754 double arithmetic: for the valid parameters `S0 = 100`,
`R = -1000`, `sigma = 0`, `T0 = 0`, `T = 1`, one step and the draw `0`, the factor `exp(-1000)`
underflows to `0` and the terminal price is `0`, not strictly positive although `S0 > 0`; and for
`S0 = 100`, `R = 1/16`, `sigma = 1/4`, `T0 = 0`, `T = 1` and two steps, the draw vectors `(0.5,
1.5)` and `(1.5, 0.5)`, which have the same sum, lead to the different terminal prices
`146.9325409843589` and `146.93254098435892`. -/
theorem Fp.terminal_price_zero_and_order :
    (Fp.makeLookbackCall ieeeDouble (Dbl.fin (100)) (Dbl.fin ((-1000))) (Dbl.fin (0)) (Dbl.fin (0))
      (Dbl.fin (1))).toOption.isSome = true ∧
    ((List.range 1).foldl (Fp.pathStep ieeeDouble (⟨⟨Dbl.fin (100), Dbl.fin ((-1000)), Dbl.fin (0),
      Dbl.fin (0), Dbl.fin (1)⟩, Fp.PayoffCall ieeeDouble, LookMin⟩ : Asian ℚ) (Dbl.fin ((-1000)))
      (Dbl.fin (0)) (Dbl.fin (1)) [Dbl.fin 0] false) (Dbl.fin (100), Dbl.fin (100))).1 = Dbl.fin 0 ∧
    Dbl.lt (Dbl.fin 0) (Dbl.fin 0 : Dbl ℚ) = false ∧
    Fp.div ieeeDouble (Fp.sub ieeeDouble (Dbl.fin (1)) (Dbl.fin (0))) (Dbl.ofInt 2) = Dbl.fin (1 /
      2) ∧
    ((List.range 2).foldl (Fp.pathStep ieeeDouble (⟨⟨Dbl.fin (100), Dbl.fin (1 / 16), Dbl.fin (1 /
      4), Dbl.fin (0), Dbl.fin (1)⟩, Fp.PayoffCall ieeeDouble, LookMin⟩ : Asian ℚ) (Dbl.fin (1 /
      16)) (Dbl.fin (1 / 4)) (Dbl.fin (1 / 2)) [Dbl.fin (1 / 2), Dbl.fin (3 / 2)] false) (Dbl.fin
      (100), Dbl.fin (100))).1 = Dbl.fin (5169729193951241 / 35184372088832) ∧
    ((List.range 2).foldl (Fp.pathStep ieeeDouble (⟨⟨Dbl.fin (100), Dbl.fin (1 / 16), Dbl.fin (1 /
      4), Dbl.fin (0), Dbl.fin (1)⟩, Fp.PayoffCall ieeeDouble, LookMin⟩ : Asian ℚ) (Dbl.fin (1 /
      16)) (Dbl.fin (1 / 4)) (Dbl.fin (1 / 2)) [Dbl.fin (3 / 2), Dbl.fin (1 / 2)] false) (Dbl.fin
      (100), Dbl.fin (100))).1 = Dbl.fin (2584864596975621 / 17592186044416) ∧
    (5169729193951241 / 35184372088832 : ℚ) ≠ 2584864596975621 / 17592186044416 ∧
    (1 / 2 : ℚ) + 3 / 2 = 3 / 2 + 1 / 2 := by
  decide!

end Properties

end opt
